import Mathlib

/-! # Dense linear algebra containers and LU routines

A shallow embedding of `vector.h`, `matrix.h`, `MathVector.cpp` and
`MathMatrix.cpp`.

* `double` is embedded as `ℚ`: every arithmetic operation is exact.  A division
  whose divisor is zero has no exact value: the C++ code produces an infinity or
  a NaN there and carries on.  Where the quotient is stored in a vector or a
  matrix the embedding stops with the outcome `Err.divByZero`, which is different
  from every outcome the C++ code can signal.  Where the quotient is only compared
  (the scaled pivot values of `reorder`) it is embedded with its IEEE value, see
  `Scaled`.
* `reorder` stores such quotients in its local matrix only, and what it returns
  depends on how the run goes on with them.  It is embedded a second time, as
  `Ieee.reorder`, with the infinities, the NaNs and the signed zeros of IEEE
  arithmetic in that matrix: this run always reaches the signal of the zero pivot
  or the end of `reorder`, and it is the run of `reorder` wherever that one does
  not stop at a quotient by zero (`Ieee.sim_reorder`).  `MathMatrix::inverse` calls
  `Ieee.reorder`.
* the definitions `Fp.lu_fact`, `Fp.lu_solve`, ... embed the routines with the value
  of every arithmetic operation rounded to a `double` (`fl`).  They are used where
  the rounding decides the outcome of an exact comparison.
* `throw std::invalid_argument(..)`, `throw std::out_of_range(..)` and
  `printf("pivot is zero\n"); exit(1);` are embedded as the `Except.error`
  outcomes of `Err`, one constructor per message.
* `int` values are embedded as `Int`; loop counters, which never become negative,
  are `Nat` and are cast to `Int` where they are used as indices.
* a `for` loop whose bounds are not changed by its body is embedded by `forUp`
  (ascending) or `forDown` (descending); a loop that is left by a `return` in its
  body is embedded by `anyUp`.
* a file is embedded as its text, a list of characters; the insertion and the
  extraction of numbers follow the standard stream library in its default state.
-/

namespace PA

/-- The abnormal outcomes of the library. -/
inductive Err
  /-- `std::invalid_argument("vector size negative")` / `("matrix size negative")`. -/
  | invalidSize
  /-- `std::out_of_range("vector access error")` / `("matrix access error")`. -/
  | indexOutOfRange
  /-- `std::invalid_argument("incompatible matrix sizes")`. -/
  | incompatibleSize
  /-- `std::invalid_argument("incompatible vector size\n")` of the vector norms. -/
  | emptyVector
  /-- `printf("pivot is zero\n"); exit(1);`. -/
  | pivotZero
  /-- A floating-point division by zero: no exception in C++, no value in exact arithmetic. -/
  | divByZero
  /-- `std::invalid_argument("file read error - negative vector size")` and
  `("file read error - negative matrix size")`. -/
  | negativeRead
  deriving DecidableEq, Repr

/-- Results of operations that may end abnormally. -/
abbrev Res (α : Type) := Except Err α

instance instDecidableEqRes {α : Type} [DecidableEq α] : DecidableEq (Res α)
  | .ok a, .ok b => if h : a = b then isTrue (by rw [h]) else isFalse (fun h' => h (Except.ok.inj h'))
  | .error a, .error b => if h : a = b then isTrue (by rw [h]) else isFalse (fun h' => h (Except.error.inj h'))
  | .ok _, .error _ => isFalse (fun h => Except.noConfusion h)
  | .error _, .ok _ => isFalse (fun h => Except.noConfusion h)

/-! ## Loops -/

/-- Runs `body lo`, `body (lo+1)`, ... for `cnt` iterations, threading the state. -/
def forCount {σ : Type} (body : Nat → σ → Res σ) : Nat → Nat → σ → Res σ
  | 0, _, s => pure s
  | cnt + 1, lo, s => body lo s >>= forCount body cnt (lo + 1)

/-- The loop `for (i = lo; i < hi; i++) body`. -/
def forUp {σ : Type} (lo hi : Nat) (body : Nat → σ → Res σ) (s : σ) : Res σ :=
  forCount body (hi - lo) lo s

/-- The loop `for (i = hi - 1; i >= 0; i--) body`. -/
def forDown {σ : Type} (body : Nat → σ → Res σ) : Nat → σ → Res σ
  | 0, s => pure s
  | hi + 1, s => body hi s >>= forDown body hi

/-- Runs `if (found lo) return;`, `if (found (lo+1)) return;`, ... for `cnt` iterations: the
result tells whether the loop was left by the `return`. -/
def anyCount (found : Nat → Res Bool) : Nat → Nat → Res Bool
  | 0, _ => pure false
  | cnt + 1, lo => do
    if (← found lo) then pure true else anyCount found cnt (lo + 1)

/-- The loop `for (i = lo; i < hi; i++) if (found i) return ...;`: the result tells whether
the function was left from inside the loop. -/
def anyUp (lo hi : Nat) (found : Nat → Res Bool) : Res Bool :=
  anyCount found (hi - lo) lo

/-- The floating-point division `x / y` in exact arithmetic. -/
def fdiv (x y : ℚ) : Res ℚ :=
  if y = 0 then throw Err.divByZero else pure (x / y)

/-! ## `Vector<double>` (vector.h) -/

/-- A `Vector<double>`: `pdata` holds the `num` elements. -/
structure Vector where
  /-- The elements, `pdata[0] .. pdata[num-1]`. -/
  pdata : List ℚ
  deriving DecidableEq, Repr

/-- `Vector<T>::size()`: the member `num`. -/
def Vector.size (v : Vector) : Int := v.pdata.length

/-- `Vector<T>::Init(int Num)`, called by the constructor `Vector(int Num)`. -/
def Vector.Init (Num : Int) : Res Vector :=
  if Num < 0 then throw Err.invalidSize
  else pure ⟨List.replicate Num.toNat 0⟩

/-- `Vector<T>::operator[](int i) const`: read access. -/
def Vector.get (v : Vector) (i : Int) : Res ℚ :=
  if i < 0 ∨ i ≥ v.size then throw Err.indexOutOfRange
  else pure (v.pdata.getD i.toNat 0)

/-- `Vector<T>::operator[](int i)` used as the target of an assignment. -/
def Vector.set (v : Vector) (i : Int) (x : ℚ) : Res Vector :=
  if i < 0 ∨ i ≥ v.size then throw Err.indexOutOfRange
  else pure ⟨v.pdata.set i.toNat x⟩

/-- `Vector<T>::operator==(const Vector& v) const`. -/
def Vector.eq (a v : Vector) : Res Bool :=
  if a.size ≠ v.size then pure false
  else do
    let differ ← anyUp 0 a.size.toNat (fun i => do
      let x ← a.get i
      let y ← v.get i
      pure (decide (x ≠ y)))
    if differ then pure false else pure true

/-! ## `Matrix<double>` (matrix.h) -/

/-- A `Matrix<double>`: the dimensions and the row-major backing vector. -/
structure Matrix where
  /-- Number of rows. -/
  nrows : Int
  /-- Number of columns. -/
  ncols : Int
  /-- Backing vector. -/
  v : Vector
  deriving DecidableEq, Repr

/-- `Matrix<T>::Matrix(int Nrows, int Ncols)`. -/
def Matrix.new (Nrows Ncols : Int) : Res Matrix :=
  if Nrows < 0 ∨ Ncols < 0 then throw Err.invalidSize
  else do
    let v ← if Nrows ≤ 0 ∨ Ncols ≤ 0 then Vector.Init 0 else Vector.Init (Nrows * Ncols)
    pure ⟨Nrows, Ncols, v⟩

/-- `Matrix<T>::operator()(int i, int j) const`: read access. -/
def Matrix.get (m : Matrix) (i j : Int) : Res ℚ :=
  if i > m.nrows - 1 ∨ j > m.ncols - 1 ∨ i < 0 ∨ j < 0 then throw Err.indexOutOfRange
  else m.v.get (i * m.ncols + j)

/-- `Matrix<T>::operator()(int i, int j)` used as the target of an assignment. -/
def Matrix.set (m : Matrix) (i j : Int) (x : ℚ) : Res Matrix :=
  if i > m.nrows - 1 ∨ j > m.ncols - 1 ∨ i < 0 ∨ j < 0 then throw Err.indexOutOfRange
  else do
    let v ← m.v.set (i * m.ncols + j) x
    pure { m with v := v }

/-- `Matrix<T>::operator==(const Matrix<T>& a) const`. -/
def Matrix.eq (m a : Matrix) : Res Bool :=
  if m.nrows ≠ a.nrows ∨ m.ncols ≠ a.ncols then pure false
  else do
    let differ ← anyUp 0 m.nrows.toNat (fun i =>
      anyUp 0 m.ncols.toNat (fun j => do
        let x ← m.get i j
        let y ← a.get i j
        pure (decide (x ≠ y))))
    if differ then pure false else pure true

/-! ## `MathMatrix` (MathMatrix.cpp) -/

/-- A `MathMatrix`: a `Matrix<double>` with the extra member `n`. -/
structure MathMatrix extends Matrix where
  /-- The size of the square matrix. -/
  n : Int
  deriving DecidableEq, Repr

/-- `MathMatrix::MathMatrix(int n)`. -/
def MathMatrix.new (n : Int) : Res MathMatrix := do
  let m ← Matrix.new n n
  pure ⟨m, n⟩

/-- Read access `m(i, j)` on a `MathMatrix`. -/
def MathMatrix.get (m : MathMatrix) (i j : Int) : Res ℚ := m.toMatrix.get i j

/-- Assignment `m(i, j) = x` on a `MathMatrix`. -/
def MathMatrix.set (m : MathMatrix) (i j : Int) (x : ℚ) : Res MathMatrix := do
  let m' ← m.toMatrix.set i j x
  pure { m with toMatrix := m' }

/-- `MathMatrix::operator*(const MathMatrix& a)`. -/
def MathMatrix.mul (m a : MathMatrix) : Res MathMatrix :=
  if m.nrows ≠ a.nrows then throw Err.incompatibleSize
  else do
    let res ← MathMatrix.new m.nrows
    forUp 0 m.nrows.toNat (fun i res =>
      forUp 0 m.ncols.toNat (fun j res =>
        forUp 0 m.ncols.toNat (fun k res => do
          let r ← res.get i j
          let x ← m.get i k
          let y ← a.get k j
          res.set i j (r + x * y)) res) res) res

/-- The statement `temp(i, j) -= mult * temp(k, j)` of the innermost loops of `lu_fact` and
`reorder`. -/
def elimUpdate (k i : Int) (mult : ℚ) (j : Nat) (temp : MathMatrix) : Res MathMatrix := do
  let t ← temp.get i j
  let p ← temp.get k j
  temp.set i j (t - mult * p)

/-- Body of the loop over `i` of `lu_fact`: the zero test and the elimination of row `i`. -/
def lu_fact.row (n k i : Nat) (temp : MathMatrix) : Res MathMatrix := do
  let p ← temp.get k k
  if p = 0 then throw Err.pivotZero
  else do
    let t ← temp.get i k
    let mult ← fdiv t p
    let temp ← temp.set i k mult
    forUp (k + 1) n (elimUpdate k i mult) temp

/-- Body of the loop over `k` of `lu_fact`. -/
def lu_fact.step (n k : Nat) (temp : MathMatrix) : Res MathMatrix :=
  forUp (k + 1) n (lu_fact.row n k) temp

/-- The elimination loop of `lu_fact`, run for the steps `k = 0 .. steps-1`. -/
def lu_fact.eliminate (n steps : Nat) (temp : MathMatrix) : Res MathMatrix :=
  forUp 0 steps (lu_fact.step n) temp

/-- The statement `m(i, j) = temp(i, j)` that builds `l` and `u` at the end of `lu_fact`. -/
def lu_fact.copy (temp : MathMatrix) (i j : Nat) (m : MathMatrix) : Res MathMatrix := do
  m.set i j (← temp.get i j)

/-- `lu_fact(a, l, u, n)`: the pair `(l, u)` it leaves in its reference parameters. -/
def lu_fact (a : MathMatrix) (n : Int) : Res (MathMatrix × MathMatrix) := do
  let temp := a
  let l ← MathMatrix.new n
  let u ← MathMatrix.new n
  let temp ← lu_fact.eliminate n.toNat (n.toNat - 1) temp
  let l ← forUp 0 n.toNat (fun i l => l.set i i 1) l
  let l ← forUp 1 n.toNat (fun i l => forUp 0 i (lu_fact.copy temp i) l) l
  let u ← forUp 0 n.toNat (fun i u => forUp i n.toNat (lu_fact.copy temp i) u) u
  pure (l, u)

/-! ## `MathVector` and the routines that use it -/

/-- The statement `res[i] += (*this)(i, j) * v[j]` of `operator*(const MathVector&)`. -/
def MathMatrix.mulVecStep (m : MathMatrix) (v : Vector) (i j : Nat) (res : Vector) : Res Vector := do
  let r ← res.get i
  let x ← m.get i j
  let y ← v.get j
  res.set i (r + x * y)

/-- `MathMatrix::operator*(const MathVector& v)`. -/
def MathMatrix.mulVec (m : MathMatrix) (v : Vector) : Res Vector :=
  if m.nrows ≠ v.size then throw Err.incompatibleSize
  else do
    let res ← Vector.Init m.nrows
    forUp 0 m.nrows.toNat (fun i res =>
      forUp 0 m.ncols.toNat (m.mulVecStep v i) res) res

/-- The statement `temp[i] -= m(i, j) * temp[j]` of the substitution loops. -/
def subst.update (m : MathMatrix) (i j : Nat) (temp : Vector) : Res Vector := do
  let t ← temp.get i
  let c ← m.get i j
  let y ← temp.get j
  temp.set i (t - c * y)

/-- Forward substitution for `L y = b`, in place:
`for (i = 1; i < n; i++) for (j = 0; j < i; j++) temp[i] -= l(i, j) * temp[j]`. -/
def subst.forward (l : MathMatrix) (n : Nat) (temp : Vector) : Res Vector :=
  forUp 1 n (fun i temp => forUp 0 i (subst.update l i) temp) temp

/-- Body of the back substitution loop: the loop over `j`, then `temp[i] /= u(i, i)`. -/
def subst.backRow (u : MathMatrix) (n i : Nat) (temp : Vector) : Res Vector := do
  let temp ← forUp (i + 1) n (subst.update u i) temp
  let t ← temp.get i
  let d ← u.get i i
  let q ← fdiv t d
  temp.set i q

/-- Back substitution for `U x = y`, in place: `for (i = n - 1; i >= 0; i--) ...`. -/
def subst.backward (u : MathMatrix) (n : Nat) (temp : Vector) : Res Vector :=
  forDown (subst.backRow u n) n temp

/-- `lu_solve(l, u, b, n, x)`: the vector it leaves in `x`. -/
def lu_solve (l u : MathMatrix) (b : Vector) (n : Int) : Res Vector := do
  let temp := b
  let temp ← subst.forward l n.toNat temp
  let temp ← subst.backward u n.toNat temp
  pure temp

/-- Conversion of a `double` to `int`: truncation towards zero. -/
def toInt (x : ℚ) : Int := Int.tdiv x.num x.den

/-- Body of the loop of `reorder` that finds the scale of row `k`. -/
def reorder.scaleRow (n : Nat) (temp : MathMatrix) (k : Nat) (scale : Vector) : Res Vector := do
  let scale ← scale.set k 0
  forUp 0 n (fun j scale => do
    let s ← scale.get k
    let t ← temp.get k j
    if |s| < |t| then scale.set k |t| else pure scale) scale

/-- The values of `fabs(x / y)` in the pivot search of `reorder`, which are compared and never
stored: a number, or the infinity or the NaN that IEEE arithmetic gives to a division by zero. -/
inductive Scaled
  /-- A number. -/
  | fin (q : ℚ)
  /-- `fabs(x / 0)` for a nonzero `x`. -/
  | inf
  /-- `fabs(0 / 0)`. -/
  | nan
  deriving DecidableEq, Repr

/-- The expression `fabs(x / y)`. -/
def fabsDiv (x y : ℚ) : Scaled :=
  if y = 0 then (if x = 0 then Scaled.nan else Scaled.inf) else Scaled.fin |x / y|

/-- The comparison `a > b` of two such values: false as soon as one of them is a NaN. -/
def Scaled.gt : Scaled → Scaled → Bool
  | Scaled.fin a, Scaled.fin b => decide (a > b)
  | Scaled.inf, Scaled.fin _ => true
  | _, _ => false

/-- The comparison `a == 0`. -/
def Scaled.isZero : Scaled → Bool
  | Scaled.fin a => decide (a = 0)
  | _ => false

/-- The state of the pivot search of `reorder`: the best value `aet` and its position `pc`. -/
structure reorder.Best where
  /-- The best scaled pivot value found so far. -/
  aet : Scaled
  /-- The position in `pvt` where it was found. -/
  pc : Nat
  deriving DecidableEq, Repr

/-- Body of the pivot search loop of `reorder`:
`tmp = fabs(temp(pvt[i], k) / scale[pvt[i]]); if (tmp > aet) { aet = tmp; pc = i; }`. -/
def reorder.scan (temp : MathMatrix) (pvt scale : Vector) (k i : Nat) (b : reorder.Best) :
    Res reorder.Best := do
  let pi ← pvt.get i
  let t ← temp.get (toInt pi) k
  let pi' ← pvt.get i
  let s ← scale.get (toInt pi')
  let tmp := fabsDiv t s
  if tmp.gt b.aet then pure ⟨tmp, i⟩ else pure b

/-- The pivot search of step `k` of `reorder`, up to the test `aet == 0`:
`pc = k; aet = fabs(temp(pvt[k], k) / scale[k]); for (i = k + 1; i < n; i++) ...`. -/
def reorder.findPivot (n : Nat) (temp : MathMatrix) (pvt scale : Vector) (k : Nat) :
    Res reorder.Best := do
  let pc := k
  let pk ← pvt.get k
  let t ← temp.get (toInt pk) k
  let s ← scale.get k
  let aet := fabsDiv t s
  forUp (k + 1) n (reorder.scan temp pvt scale k) ⟨aet, pc⟩

/-- The swap `if (pc != k) { ii = pvt[k]; pvt[k] = pvt[pc]; pvt[pc] = ii; }` of `reorder`. -/
def reorder.swap (pvt : Vector) (k pc : Nat) : Res Vector :=
  if pc ≠ k then do
    let ii := toInt (← pvt.get k)
    let x ← pvt.get pc
    let pvt ← pvt.set k x
    pvt.set pc ii
  else pure pvt

/-- Body of the elimination loop over `i` of `reorder`. -/
def reorder.row (n : Nat) (pvt : Vector) (k : Nat) (pvtk : Int) (i : Nat) (temp : MathMatrix) :
    Res MathMatrix := do
  let pvti := toInt (← pvt.get i)
  let t ← temp.get pvti k
  if t ≠ 0 then do
    let t ← temp.get pvti k
    let p ← temp.get pvtk k
    let mult ← fdiv t p
    let temp ← temp.set pvti k mult
    forUp (k + 1) n (elimUpdate pvtk pvti mult) temp
  else pure temp

/-- Body of the main elimination loop of `reorder`, on the state `(pvt, temp)`. -/
def reorder.step (n : Nat) (scale : Vector) (k : Nat) (s : Vector × MathMatrix) :
    Res (Vector × MathMatrix) := do
  let pvt := s.1
  let temp := s.2
  let best ← reorder.findPivot n temp pvt scale k
  if best.aet.isZero then throw Err.pivotZero
  else do
    let pvt ← reorder.swap pvt k best.pc
    let pvtk := toInt (← pvt.get k)
    let temp ← forUp (k + 1) n (reorder.row n pvt k pvtk) temp
    pure (pvt, temp)

/-- The initial part of `reorder`: the vectors `pvt` and `scale` before the main loop. -/
def reorder.init (a : MathMatrix) (n : Int) : Res (Vector × Vector × MathMatrix) := do
  let pvt ← Vector.Init n
  let scale ← Vector.Init n
  let temp := a
  let p ← MathMatrix.new n
  let pvt ← forUp 0 n.toNat (fun k pvt => pvt.set k k) pvt
  let scale ← forUp 0 n.toNat (reorder.scaleRow n.toNat temp) scale
  pure (pvt, scale, p)

/-- The main loop of `reorder`, run for the steps `k = 0 .. steps-1`: the final `pvt` and `temp`. -/
def reorder.eliminate (a : MathMatrix) (n : Int) (steps : Nat) : Res (Vector × MathMatrix) := do
  let (pvt, scale, _) ← reorder.init a n
  forUp 0 steps (reorder.step n.toNat scale) (pvt, a)

/-- `reorder(a, n, p)`: the matrix it leaves in `p`. -/
def reorder (a : MathMatrix) (n : Int) : Res MathMatrix := do
  let (_, _, p) ← reorder.init a n
  let (pvt, _) ← reorder.eliminate a n (n.toNat - 1)
  forUp 0 n.toNat (fun i p => do p.set i (toInt (← pvt.get i)) 1) p

/-! ## `reorder` with the infinities and the NaNs of the stored quotients

In `reorder` a quotient by zero is stored in `temp`, and the code carries on with it. The
definitions of this part follow such a run to its end: the elements of `temp` are embedded
with the special values of IEEE arithmetic, the arithmetic on the numbers staying exact. -/

/-- A `double`: a number with its sign and its magnitude (the zeros are the two numbers of
magnitude 0), an infinity with its sign, or a NaN. -/
inductive Ieee
  /-- The number `mag`, or `-mag` when `neg` is set. -/
  | fin (neg : Bool) (mag : ℚ)
  /-- The infinity, negative when `neg` is set. -/
  | inf (neg : Bool)
  /-- A NaN. -/
  | nan
  deriving DecidableEq, Repr

/-- The `double` with the value `q`; the zero has the positive sign. -/
def Ieee.ofRat (q : ℚ) : Ieee := Ieee.fin (decide (q < 0)) |q|

/-- The product `x * y`. -/
def Ieee.mul : Ieee → Ieee → Ieee
  | Ieee.fin s a, Ieee.fin t b => Ieee.fin (xor s t) (a * b)
  | Ieee.fin s a, Ieee.inf t => if a = 0 then Ieee.nan else Ieee.inf (xor s t)
  | Ieee.inf s, Ieee.fin t b => if b = 0 then Ieee.nan else Ieee.inf (xor s t)
  | Ieee.inf s, Ieee.inf t => Ieee.inf (xor s t)
  | _, _ => Ieee.nan

/-- The quotient `x / y`. -/
def Ieee.div : Ieee → Ieee → Ieee
  | Ieee.fin s a, Ieee.fin t b =>
    if b = 0 then (if a = 0 then Ieee.nan else Ieee.inf (xor s t)) else Ieee.fin (xor s t) (a / b)
  | Ieee.fin s _, Ieee.inf t => Ieee.fin (xor s t) 0
  | Ieee.inf s, Ieee.fin t _ => Ieee.inf (xor s t)
  | _, _ => Ieee.nan

/-- The difference `x - y`; a difference of value zero is the negative zero only when `x` is
negative and `y` is positive. -/
def Ieee.sub : Ieee → Ieee → Ieee
  | Ieee.fin s a, Ieee.fin t b =>
    if (if s then -a else a) - (if t then -b else b) = 0 then Ieee.fin (s && !t) 0
    else Ieee.fin (decide ((if s then -a else a) - (if t then -b else b) < 0))
      |(if s then -a else a) - (if t then -b else b)|
  | Ieee.fin _ _, Ieee.inf t => Ieee.inf (!t)
  | Ieee.inf s, Ieee.fin _ _ => Ieee.inf s
  | Ieee.inf s, Ieee.inf t => if s = t then Ieee.nan else Ieee.inf s
  | _, _ => Ieee.nan

/-- The comparison `x != 0`: true for an infinity and for a NaN. -/
def Ieee.isNonzero : Ieee → Bool
  | Ieee.fin _ a => decide (a ≠ 0)
  | _ => true

/-- The expression `fabs(x / y)` for an element `x` of `temp` and an element `y` of `scale`. -/
def Ieee.fabsDiv (x : Ieee) (y : ℚ) : Scaled :=
  match x.div (Ieee.ofRat y) with
  | Ieee.fin _ a => Scaled.fin |a|
  | Ieee.inf _ => Scaled.inf
  | Ieee.nan => Scaled.nan

/-- The matrix `temp` of `reorder`: the dimensions and the elements in row-major order. -/
structure IeeeMatrix where
  /-- Number of rows. -/
  nrows : Int
  /-- Number of columns. -/
  ncols : Int
  /-- The elements of the backing vector. -/
  pdata : List Ieee
  deriving DecidableEq, Repr

/-- The copy `MathMatrix temp = a`. -/
def IeeeMatrix.ofMath (a : MathMatrix) : IeeeMatrix :=
  ⟨a.nrows, a.ncols, a.v.pdata.map Ieee.ofRat⟩

/-- Read access `temp(i, j)`: the range check of the matrix, then that of its backing vector. -/
def IeeeMatrix.get (m : IeeeMatrix) (i j : Int) : Res Ieee :=
  if i > m.nrows - 1 ∨ j > m.ncols - 1 ∨ i < 0 ∨ j < 0 then throw Err.indexOutOfRange
  else if i * m.ncols + j < 0 ∨ i * m.ncols + j ≥ m.pdata.length then throw Err.indexOutOfRange
  else pure (m.pdata.getD (i * m.ncols + j).toNat Ieee.nan)

/-- Assignment `temp(i, j) = x`. -/
def IeeeMatrix.set (m : IeeeMatrix) (i j : Int) (x : Ieee) : Res IeeeMatrix :=
  if i > m.nrows - 1 ∨ j > m.ncols - 1 ∨ i < 0 ∨ j < 0 then throw Err.indexOutOfRange
  else if i * m.ncols + j < 0 ∨ i * m.ncols + j ≥ m.pdata.length then throw Err.indexOutOfRange
  else pure { m with pdata := m.pdata.set (i * m.ncols + j).toNat x }

/-- Body of the pivot search loop of `reorder`. -/
def Ieee.scan (temp : IeeeMatrix) (pvt scale : Vector) (k i : Nat) (b : reorder.Best) :
    Res reorder.Best := do
  let pi ← pvt.get i
  let t ← temp.get (toInt pi) k
  let pi' ← pvt.get i
  let s ← scale.get (toInt pi')
  let tmp := t.fabsDiv s
  if tmp.gt b.aet then pure ⟨tmp, i⟩ else pure b

/-- The pivot search of step `k` of `reorder`, up to the test `aet == 0`. -/
def Ieee.findPivot (n : Nat) (temp : IeeeMatrix) (pvt scale : Vector) (k : Nat) :
    Res reorder.Best := do
  let pc := k
  let pk ← pvt.get k
  let t ← temp.get (toInt pk) k
  let s ← scale.get k
  let aet := t.fabsDiv s
  forUp (k + 1) n (Ieee.scan temp pvt scale k) ⟨aet, pc⟩

/-- The statement `temp(pvti, j) -= mult * temp(pvtk, j)` of `reorder`. -/
def Ieee.elimUpdate (k i : Int) (mult : Ieee) (j : Nat) (temp : IeeeMatrix) : Res IeeeMatrix := do
  let t ← temp.get i j
  let p ← temp.get k j
  temp.set i j (t.sub (mult.mul p))

/-- Body of the elimination loop over `i` of `reorder`: the quotient is stored whatever the
divisor is. -/
def Ieee.row (n : Nat) (pvt : Vector) (k : Nat) (pvtk : Int) (i : Nat) (temp : IeeeMatrix) :
    Res IeeeMatrix := do
  let pvti := toInt (← pvt.get i)
  let t ← temp.get pvti k
  if t.isNonzero then do
    let t ← temp.get pvti k
    let p ← temp.get pvtk k
    let mult := t.div p
    let temp ← temp.set pvti k mult
    forUp (k + 1) n (Ieee.elimUpdate pvtk pvti mult) temp
  else pure temp

/-- Body of the main elimination loop of `reorder`, on the state `(pvt, temp)`. -/
def Ieee.step (n : Nat) (scale : Vector) (k : Nat) (s : Vector × IeeeMatrix) :
    Res (Vector × IeeeMatrix) := do
  let pvt := s.1
  let temp := s.2
  let best ← Ieee.findPivot n temp pvt scale k
  if best.aet.isZero then throw Err.pivotZero
  else do
    let pvt ← reorder.swap pvt k best.pc
    let pvtk := toInt (← pvt.get k)
    let temp ← forUp (k + 1) n (Ieee.row n pvt k pvtk) temp
    pure (pvt, temp)

/-- `reorder(a, n, p)`, followed through the infinities and the NaNs that it stores in
`temp`: the matrix it leaves in `p`. The vectors `pvt` and `scale` hold numbers only. -/
def Ieee.reorder (a : MathMatrix) (n : Int) : Res MathMatrix := do
  let (pvt, scale, p) ← reorder.init a n
  let (pvt, _) ← forUp 0 (n.toNat - 1) (Ieee.step n.toNat scale) (pvt, IeeeMatrix.ofMath a)
  forUp 0 n.toNat (fun i p => do p.set i (toInt (← pvt.get i)) 1) p

/-! ## `MathMatrix::inverse` -/

/-- The state of the loop over `k` of `inverse`. -/
structure inverse.State where
  /-- The unit vector `e`. -/
  e : Vector
  /-- The inverse of `l`, built column by column. -/
  l_inv : MathMatrix
  /-- The inverse of `u`, built column by column. -/
  u_inv : MathMatrix
  deriving DecidableEq, Repr

/-- Body of the loop over `k` of `MathMatrix::inverse`. -/
def inverse.column (l u : MathMatrix) (n k : Nat) (s : inverse.State) : Res inverse.State := do
  let e ← s.e.set k 1
  let e ← if k > 0 then e.set ((k : Int) - 1) 0 else pure e
  let temp := e
  let temp ← subst.forward l n temp
  let l_inv ← forUp 0 n (fun i l_inv => do l_inv.set i k (← temp.get i)) s.l_inv
  let temp := e
  let temp ← subst.backward u n temp
  let u_inv ← forUp 0 n (fun i u_inv => do u_inv.set i k (← temp.get i)) s.u_inv
  pure ⟨e, l_inv, u_inv⟩

/-- `MathMatrix::inverse()`. The call of `reorder` is followed through the infinities and the
NaNs that it stores in its local `temp`: it ends with the signal of the zero pivot or with
its matrix `p`, and `lu_fact` is called next. -/
def MathMatrix.inverse (m : MathMatrix) : Res MathMatrix := do
  let p ← Ieee.reorder m m.nrows
  let (l, u) ← lu_fact m m.nrows
  let l_inv ← MathMatrix.new m.nrows
  let u_inv ← MathMatrix.new m.nrows
  let e ← Vector.Init m.nrows
  let _ ← Vector.Init m.nrows
  let s ← forUp 0 m.nrows.toNat (inverse.column l u m.nrows.toNat) ⟨e, l_inv, u_inv⟩
  (← s.u_inv.mul s.l_inv).mul p

/-- The value `sqrt(radicand)` that the `two_norm` methods return: the square root is kept
symbolic, it stands for the real square root of the rational number `radicand`. -/
structure Root where
  /-- The argument of `sqrt`. -/
  radicand : ℚ
  deriving DecidableEq, Repr

/-- The inner loop of `MathMatrix::one_norm` for column `j`:
`sum = 0; for (i = 0; i < nrows; ++i) sum += fabs((*this)(i, j));`. -/
def MathMatrix.colSum (m : MathMatrix) (j : Nat) : Res ℚ :=
  forUp 0 m.nrows.toNat (fun i sum => do pure (sum + |(← m.get i j)|)) 0

/-- `MathMatrix::one_norm()`. -/
def MathMatrix.one_norm (m : MathMatrix) : Res ℚ :=
  forUp 0 m.ncols.toNat (fun j res => do
    let sum ← m.colSum j
    if sum > res then pure sum else pure res) 0

/-- `MathMatrix::two_norm()`. -/
def MathMatrix.two_norm (m : MathMatrix) : Res Root := do
  let res ← forUp 0 m.nrows.toNat (fun i res =>
    forUp 0 m.ncols.toNat (fun j res => do pure (res + (← m.get i j) * (← m.get i j))) res) 0
  pure ⟨res⟩

/-- The inner loop of `MathMatrix::uniform_norm` for row `i`:
`sum = 0; for (j = 0; j < ncols; ++j) sum += fabs((*this)(i, j));`. -/
def MathMatrix.rowSum (m : MathMatrix) (i : Nat) : Res ℚ :=
  forUp 0 m.ncols.toNat (fun j sum => do pure (sum + |(← m.get i j)|)) 0

/-- `MathMatrix::uniform_norm()`. -/
def MathMatrix.uniform_norm (m : MathMatrix) : Res ℚ :=
  forUp 0 m.nrows.toNat (fun i res => do
    let sum ← m.rowSum i
    if sum > res then pure sum else pure res) 0

/-- `MathMatrix::condition_num()`: `(*this).inverse().one_norm() * (*this).one_norm()`, the
operands taken from left to right. -/
def MathMatrix.condition_num (m : MathMatrix) : Res ℚ := do
  let inv ← m.inverse
  let a ← inv.one_norm
  let b ← m.one_norm
  pure (a * b)

/-- `MathVector::one_norm()`; the elements are read as `pdata[i]`, without a range check. -/
def MathVector.one_norm (v : Vector) : Res ℚ :=
  if v.size = 0 then throw Err.emptyVector
  else forUp 0 v.size.toNat (fun i res => pure (res + |v.pdata.getD i 0|)) 0

/-- `MathVector::two_norm()`. -/
def MathVector.two_norm (v : Vector) : Res Root :=
  if v.size = 0 then throw Err.emptyVector
  else do
    let res ← forUp 0 v.size.toNat (fun i res => pure (res + v.pdata.getD i 0 * v.pdata.getD i 0)) 0
    pure ⟨res⟩

/-- `MathVector::uniform_norm()`. -/
def MathVector.uniform_norm (v : Vector) : Res ℚ :=
  if v.size = 0 then throw Err.emptyVector
  else forUp 1 v.size.toNat (fun i res =>
    if |v.pdata.getD i 0| > res then pure |v.pdata.getD i 0| else pure res) |v.pdata.getD 0 0|

/-! ## Text streams: the operations of `<fstream>` that the file operators use

`ofstream_add.h` is not among the source files; the insertion and extraction of an `int` and
of a `double` are embedded with the behaviour of the standard stream library in its default
state: an `int` is written in decimal, a `double` with 6 significant digits in the style of
`%g`, and `>>` skips the whitespace in front of a field and reads the longest prefix of the
field that is a number of the type asked for. The text of a `double` read back is taken with
its exact decimal value. -/

/-- The decimal digit `d` as a character. -/
def digitChar : Nat → Char
  | 0 => '0'
  | 1 => '1'
  | 2 => '2'
  | 3 => '3'
  | 4 => '4'
  | 5 => '5'
  | 6 => '6'
  | 7 => '7'
  | 8 => '8'
  | _ => '9'

/-- The value of a decimal digit character. -/
def digitVal (c : Char) : Option Nat :=
  if c = '0' then some 0
  else if c = '1' then some 1
  else if c = '2' then some 2
  else if c = '3' then some 3
  else if c = '4' then some 4
  else if c = '5' then some 5
  else if c = '6' then some 6
  else if c = '7' then some 7
  else if c = '8' then some 8
  else if c = '9' then some 9
  else none

/-- The decimal digits of `n`, the least significant first; `fuel` bounds their number. -/
def digitsLE : Nat → Nat → List Nat
  | 0, _ => []
  | fuel + 1, n => if n < 10 then [n] else (n % 10) :: digitsLE fuel (n / 10)

/-- The decimal text of a natural number. -/
def decimal (n : Nat) : List Char := ((digitsLE (n + 1) n).reverse).map digitChar

/-- The text that `ofs << n` writes for an `int`. -/
def putInt (n : Int) : List Char :=
  if n < 0 then '-' :: decimal n.natAbs else decimal n.natAbs

/-- The number `v` written with exactly `k` digits. -/
def fixedDigits : Nat → Nat → List Char
  | 0, _ => []
  | k + 1, v => fixedDigits k (v / 10) ++ [digitChar (v % 10)]

/-- A digit string without its trailing zeros. -/
def stripZeros (s : List Char) : List Char := (s.reverse.dropWhile (fun c => c = '0')).reverse

/-- The decimal exponent of `p / q ≥ 1`: the `e` with `10 ^ e ≤ p / q < 10 ^ (e + 1)`. -/
def expUp (p q : Nat) : Nat → Nat → Nat
  | 0, e => e
  | fuel + 1, e => if p < 10 ^ (e + 1) * q then e else expUp p q fuel (e + 1)

/-- The decimal exponent of `0 < p / q < 1`: the `k` with `10 ^ (-k) ≤ p / q < 10 ^ (1 - k)`. -/
def expDown (p q : Nat) : Nat → Nat → Nat
  | 0, k => k
  | fuel + 1, k => if q ≤ p * 10 ^ k then k else expDown p q fuel (k + 1)

/-- The decimal exponent of the positive number `p / q`. -/
def decExp (p q : Nat) : Int :=
  if q ≤ p then (expUp p q p 0 : Nat) else -(expDown p q q 1 : Nat)

/-- The quotient `N / D` rounded to the nearest natural number, a tie to the even one. -/
def roundDiv (N D : Nat) : Nat :=
  if 2 * (N % D) > D then N / D + 1
  else if 2 * (N % D) = D then (if (N / D) % 2 = 0 then N / D else N / D + 1)
  else N / D

/-- The first 6 significant digits of `p / q`, as the number `p / q * 10 ^ (5 - e)` rounded. -/
def mantissa (p q : Nat) (e : Int) : Nat :=
  if e ≤ 5 then roundDiv (p * 10 ^ (5 - e).toNat) q else roundDiv p (q * 10 ^ (e - 5).toNat)

/-- The digits of the exponent in the scientific style: at least two. -/
def expDigits (k : Nat) : List Char := if k < 10 then ['0', digitChar k] else decimal k

/-- The 6 significant digits and the decimal exponent of the positive number `p / q`: when
the rounding carries into a seventh digit, the exponent grows by one. -/
def sigDigits (p q : Nat) : Nat × Int :=
  if mantissa p q (decExp p q) = 1000000 then (100000, decExp p q + 1)
  else (mantissa p q (decExp p q), decExp p q)

/-- The text of a positive number from its significant digits `ds` and its decimal exponent
`e`: the scientific style when `e < -4` or `e ≥ 6`, the fixed style otherwise, both without
trailing zeros. -/
def fmtDigits (ds : List Char) (e : Int) : List Char :=
  if e < -4 ∨ 6 ≤ e then
    ds.take 1 ++ (if stripZeros (ds.drop 1) = [] then [] else '.' :: stripZeros (ds.drop 1))
      ++ 'e' :: (if e < 0 then '-' else '+') :: expDigits e.natAbs
  else if 0 ≤ e then
    ds.take (e.toNat + 1) ++
      (if stripZeros (ds.drop (e.toNat + 1)) = [] then []
       else '.' :: stripZeros (ds.drop (e.toNat + 1)))
  else '0' :: '.' :: (List.replicate ((-e).toNat - 1) '0' ++ stripZeros ds)

/-- The text that `ofs << x` writes for a `double` in the default state of the stream
(6 significant digits, the fixed or the scientific style, no trailing zeros). -/
def putDouble (x : ℚ) : List Char :=
  if x = 0 then ['0']
  else
    (if x < 0 then ['-'] else []) ++
      fmtDigits (fixedDigits 6 (sigDigits x.num.natAbs x.den).1) (sigDigits x.num.natAbs x.den).2

/-- The character is a decimal digit. -/
def isDigit (c : Char) : Bool := (digitVal c).isSome

/-- The character is not whitespace. -/
def notWs (c : Char) : Bool := !c.isWhitespace

/-- The value of a string of decimal digits. -/
def natOfDigits (s : List Char) : Nat := s.foldl (fun acc c => 10 * acc + (digitVal c).getD 0) 0

/-- The field without its sign character, if it starts with one. -/
def unsigned (s : List Char) : List Char :=
  if s.head? = some '-' ∨ s.head? = some '+' then s.drop 1 else s

/-- The extraction of an `int` from the front of a field: the value and the unread rest, or
nothing when the field does not start with an integer. -/
def scanInt (s : List Char) : Option (Int × List Char) :=
  if (unsigned s).takeWhile isDigit = [] then none
  else some
    (if s.head? = some '-' then -(natOfDigits ((unsigned s).takeWhile isDigit) : Int)
      else (natOfDigits ((unsigned s).takeWhile isDigit) : Int),
     (unsigned s).dropWhile isDigit)

/-- The digits after the decimal point of a field whose integer part has been read. -/
def fracDigits (r : List Char) : List Char :=
  if r.head? = some '.' then (r.drop 1).takeWhile isDigit else []

/-- The rest of a field after its decimal point and the digits that follow it. -/
def afterFrac (r : List Char) : List Char :=
  if r.head? = some '.' then (r.drop 1).dropWhile isDigit else r

/-- The extraction of a `double` from the front of a field: the value and the unread rest, or
nothing when the field does not start with a number. -/
def scanDouble (s : List Char) : Option (ℚ × List Char) :=
  let ip := (unsigned s).takeWhile isDigit
  let r1 := (unsigned s).dropWhile isDigit
  let fp := fracDigits r1
  let r2 := afterFrac r1
  if ip = [] ∧ fp = [] then none
  else
    let mant : ℚ := (if s.head? = some '-' then -1 else 1) *
      ((natOfDigits ip : ℚ) + (natOfDigits fp : ℚ) / 10 ^ fp.length)
    if r2.head? = some 'e' ∨ r2.head? = some 'E' then
      if (unsigned (r2.drop 1)).takeWhile isDigit = [] then none
      else some
        (if (r2.drop 1).head? = some '-'
          then mant / 10 ^ natOfDigits ((unsigned (r2.drop 1)).takeWhile isDigit)
          else mant * 10 ^ natOfDigits ((unsigned (r2.drop 1)).takeWhile isDigit),
         (unsigned (r2.drop 1)).dropWhile isDigit)
    else some (mant, r2)

/-- An input file stream: the text not yet read and the failure flag. -/
structure IStream where
  /-- The characters not yet read. -/
  text : List Char
  /-- The flag `failbit`: once set, every extraction leaves its operand and the stream as
  they are. -/
  fail : Bool
  deriving DecidableEq, Repr

/-- `ifs >> n` for an `int` variable whose value before the extraction is `old`: the value of
the variable after it and the stream. A failed extraction stores 0 and sets the flag. -/
def IStream.getInt (s : IStream) (old : Int) : Int × IStream :=
  if s.fail then (old, s)
  else
    match scanInt ((s.text.dropWhile Char.isWhitespace).takeWhile notWs) with
    | some (v, rest) =>
      (v, ⟨rest ++ (s.text.dropWhile Char.isWhitespace).dropWhile notWs, false⟩)
    | none => (0, ⟨s.text.dropWhile Char.isWhitespace, true⟩)

/-- `ifs >> x` for a `double` variable whose value before the extraction is `old`. -/
def IStream.getDouble (s : IStream) (old : ℚ) : ℚ × IStream :=
  if s.fail then (old, s)
  else
    match scanDouble ((s.text.dropWhile Char.isWhitespace).takeWhile notWs) with
    | some (v, rest) =>
      (v, ⟨rest ++ (s.text.dropWhile Char.isWhitespace).dropWhile notWs, false⟩)
    | none => (0, ⟨s.text.dropWhile Char.isWhitespace, true⟩)

/-- The body `ofs << v[i] << " "` of the output loops. -/
def putElem (x : ℚ) (ofs : List Char) : List Char := ofs ++ putDouble x ++ [' ']

/-- `operator<<(std::ofstream&, const Vector<T>&)`: the text of the file after the output,
from the text `ofs` before it. -/
def Vector.fileOut (v : Vector) (ofs : List Char) : Res (List Char) := do
  let ofs := ofs ++ putInt v.size ++ ['\n']
  let ofs ← forUp 0 v.size.toNat (fun i ofs => do pure (putElem (← v.get i) ofs)) ofs
  pure (ofs ++ ['\n'])

/-- The body `ifs >> v[i]` of the input loops. -/
def readElem (i : Nat) (s : Vector × IStream) : Res (Vector × IStream) := do
  let old ← s.1.get i
  let v ← s.1.set i (s.2.getDouble old).1
  pure (v, (s.2.getDouble old).2)

/-- `operator>>(std::ifstream&, Vector<T>&)`: the vector read and the stream after it; `n0`
is the indeterminate initial value of the local variable `n`. -/
def Vector.fileIn (n0 : Int) (ifs : IStream) : Res (Vector × IStream) :=
  if (ifs.getInt n0).1 < 0 then throw Err.negativeRead
  else do
    let v ← Vector.Init (ifs.getInt n0).1
    forUp 0 (ifs.getInt n0).1.toNat readElem (v, (ifs.getInt n0).2)

/-- `operator<<(std::ofstream&, const MathMatrix&)`. -/
def MathMatrix.fileOut (m : MathMatrix) (ofs : List Char) : Res (List Char) := do
  let ofs := ofs ++ putInt m.n ++ ['\n']
  forUp 0 m.n.toNat (fun i ofs => do
    let ofs ← forUp 0 m.n.toNat (fun j ofs => do pure (putElem (← m.get i j) ofs)) ofs
    pure (ofs ++ ['\n'])) ofs

/-- `operator>>(std::ifstream&, MathMatrix&)`: the elements are read into the backing vector
`m.v`. -/
def MathMatrix.fileIn (n0 : Int) (ifs : IStream) : Res (MathMatrix × IStream) :=
  if (ifs.getInt n0).1 < 0 then throw Err.negativeRead
  else do
    let m ← MathMatrix.new (ifs.getInt n0).1
    let (v, ifs) ← forUp 0 ((ifs.getInt n0).1 * (ifs.getInt n0).1).toNat readElem
      (m.v, (ifs.getInt n0).2)
    pure ({ m with v := v }, ifs)

/-! ## `Complex` (Complex.cpp) -/

/-- A `Complex`: the real and the imaginary part. -/
structure Complex where
  /-- The real part. -/
  re : ℚ
  /-- The imaginary part. -/
  im : ℚ
  deriving DecidableEq, Repr

/-- `Complex::operator==(const Complex& c) const`. -/
def Complex.eq (a c : Complex) : Bool :=
  if a.re = c.re ∧ a.im = c.im then true else false

/-- `operator<<(std::ofstream&, const Complex&)`. -/
def Complex.fileOut (c : Complex) (ofs : List Char) : List Char :=
  ofs ++ putDouble c.re ++ [' '] ++ putDouble c.im ++ ['\n']

/-- `operator>>(std::ifstream&, Complex&)`: the locals `re` and `im` are declared `int`;
`re0` and `im0` are their indeterminate initial values. -/
def Complex.fileIn (re0 im0 : Int) (ifs : IStream) : Complex × IStream :=
  let r := ifs.getInt re0
  let i := r.2.getInt im0
  (⟨(r.1 : ℚ), (i.1 : ℚ)⟩, i.2)

/-! ## The routines in double precision

The definitions of this part embed the same routines with the value of every arithmetic
operation rounded to a `double`, as the processor does: to the nearest number with a
significand of 53 binary digits, a tie to the even one, with gradual underflow below
`2 ^ (-1022)`. They serve to follow the runs on which the rounding decides the outcome of
an exact comparison. A result beyond the largest `double` is not followed: it is left with
its rounded significand. -/

/-- The binary exponent of `p / q ≥ 1`: the `e` with `2 ^ e ≤ p / q < 2 ^ (e + 1)`. -/
def binUp (p q : Nat) : Nat → Nat → Nat
  | 0, e => e
  | fuel + 1, e => if p < 2 ^ (e + 1) * q then e else binUp p q fuel (e + 1)

/-- The binary exponent of `0 < p / q < 1`: the `k` with `2 ^ (-k) ≤ p / q < 2 ^ (1 - k)`. -/
def binDown (p q : Nat) : Nat → Nat → Nat
  | 0, k => k
  | fuel + 1, k => if q ≤ p * 2 ^ k then k else binDown p q fuel (k + 1)

/-- The binary exponent of the positive number `p / q`: the `e` with
`2 ^ e ≤ p / q < 2 ^ (e + 1)`. -/
def binExp (p q : Nat) : Int :=
  if q ≤ p then (binUp p q p 0 : Nat) else -(binDown p q q 1 : Nat)

/-- The exponent of the last binary place of the `double` nearest to the positive number
`p / q`: 52 places below the leading one, and never below the place `2 ^ (-1074)` of the
subnormal numbers. -/
def ulpExp (p q : Nat) : Int := max (binExp p q - 52) (-1074)

/-- The `double` nearest to `x`. -/
def fl (x : ℚ) : ℚ :=
  if x = 0 then 0
  else if 0 ≤ ulpExp x.num.natAbs x.den then
    (if x < 0 then -1 else 1) *
      ((roundDiv x.num.natAbs (x.den * 2 ^ (ulpExp x.num.natAbs x.den).toNat) : Nat) : ℚ) *
        2 ^ (ulpExp x.num.natAbs x.den).toNat
  else
    (if x < 0 then -1 else 1) *
      ((roundDiv (x.num.natAbs * 2 ^ (-ulpExp x.num.natAbs x.den).toNat) x.den : Nat) : ℚ) /
        2 ^ (-ulpExp x.num.natAbs x.den).toNat

/-- The floating-point division `x / y`. -/
def Fp.fdiv (x y : ℚ) : Res ℚ :=
  if y = 0 then throw Err.divByZero else pure (fl (x / y))

/-- `MathMatrix::operator*(const MathMatrix& a)` in double precision. -/
def Fp.mul (m a : MathMatrix) : Res MathMatrix :=
  if m.nrows ≠ a.nrows then throw Err.incompatibleSize
  else do
    let res ← MathMatrix.new m.nrows
    forUp 0 m.nrows.toNat (fun i res =>
      forUp 0 m.ncols.toNat (fun j res =>
        forUp 0 m.ncols.toNat (fun k res => do
          let r ← res.get i j
          let x ← m.get i k
          let y ← a.get k j
          res.set i j (fl (r + fl (x * y)))) res) res) res

/-- The statement `temp(i, j) -= mult * temp(k, j)` in double precision. -/
def Fp.elimUpdate (k i : Int) (mult : ℚ) (j : Nat) (temp : MathMatrix) : Res MathMatrix := do
  let t ← temp.get i j
  let p ← temp.get k j
  temp.set i j (fl (t - fl (mult * p)))

/-- Body of the loop over `i` of `lu_fact` in double precision. -/
def Fp.lu_fact.row (n k i : Nat) (temp : MathMatrix) : Res MathMatrix := do
  let p ← temp.get k k
  if p = 0 then throw Err.pivotZero
  else do
    let t ← temp.get i k
    let mult ← Fp.fdiv t p
    let temp ← temp.set i k mult
    forUp (k + 1) n (Fp.elimUpdate k i mult) temp

/-- `lu_fact(a, l, u, n)` in double precision. -/
def Fp.lu_fact (a : MathMatrix) (n : Int) : Res (MathMatrix × MathMatrix) := do
  let temp := a
  let l ← MathMatrix.new n
  let u ← MathMatrix.new n
  let temp ← forUp 0 (n.toNat - 1) (fun k temp => forUp (k + 1) n.toNat (Fp.lu_fact.row n.toNat k) temp) temp
  let l ← forUp 0 n.toNat (fun i l => l.set i i 1) l
  let l ← forUp 1 n.toNat (fun i l => forUp 0 i (lu_fact.copy temp i) l) l
  let u ← forUp 0 n.toNat (fun i u => forUp i n.toNat (lu_fact.copy temp i) u) u
  pure (l, u)

/-- The statement `res[i] += (*this)(i, j) * v[j]` in double precision. -/
def Fp.mulVecStep (m : MathMatrix) (v : Vector) (i j : Nat) (res : Vector) : Res Vector := do
  let r ← res.get i
  let x ← m.get i j
  let y ← v.get j
  res.set i (fl (r + fl (x * y)))

/-- `MathMatrix::operator*(const MathVector& v)` in double precision. -/
def Fp.mulVec (m : MathMatrix) (v : Vector) : Res Vector :=
  if m.nrows ≠ v.size then throw Err.incompatibleSize
  else do
    let res ← Vector.Init m.nrows
    forUp 0 m.nrows.toNat (fun i res =>
      forUp 0 m.ncols.toNat (Fp.mulVecStep m v i) res) res

/-- The statement `temp[i] -= m(i, j) * temp[j]` in double precision. -/
def Fp.update (m : MathMatrix) (i j : Nat) (temp : Vector) : Res Vector := do
  let t ← temp.get i
  let c ← m.get i j
  let y ← temp.get j
  temp.set i (fl (t - fl (c * y)))

/-- Forward substitution for `L y = b` in double precision. -/
def Fp.forward (l : MathMatrix) (n : Nat) (temp : Vector) : Res Vector :=
  forUp 1 n (fun i temp => forUp 0 i (Fp.update l i) temp) temp

/-- Body of the back substitution loop in double precision. -/
def Fp.backRow (u : MathMatrix) (n i : Nat) (temp : Vector) : Res Vector := do
  let temp ← forUp (i + 1) n (Fp.update u i) temp
  let t ← temp.get i
  let d ← u.get i i
  let q ← Fp.fdiv t d
  temp.set i q

/-- Back substitution for `U x = y` in double precision. -/
def Fp.backward (u : MathMatrix) (n : Nat) (temp : Vector) : Res Vector :=
  forDown (Fp.backRow u n) n temp

/-- `lu_solve(l, u, b, n, x)` in double precision. -/
def Fp.lu_solve (l u : MathMatrix) (b : Vector) (n : Int) : Res Vector := do
  let temp := b
  let temp ← Fp.forward l n.toNat temp
  let temp ← Fp.backward u n.toNat temp
  pure temp

/-- The expression `fabs(x / y)` in double precision. -/
def Fp.fabsDiv (x y : ℚ) : Scaled :=
  if y = 0 then (if x = 0 then Scaled.nan else Scaled.inf) else Scaled.fin |fl (x / y)|

/-- Body of the pivot search loop of `reorder` in double precision. -/
def Fp.scan (temp : MathMatrix) (pvt scale : Vector) (k i : Nat) (b : reorder.Best) :
    Res reorder.Best := do
  let pi ← pvt.get i
  let t ← temp.get (toInt pi) k
  let pi' ← pvt.get i
  let s ← scale.get (toInt pi')
  let tmp := Fp.fabsDiv t s
  if tmp.gt b.aet then pure ⟨tmp, i⟩ else pure b

/-- The pivot search of step `k` of `reorder` in double precision. -/
def Fp.findPivot (n : Nat) (temp : MathMatrix) (pvt scale : Vector) (k : Nat) :
    Res reorder.Best := do
  let pc := k
  let pk ← pvt.get k
  let t ← temp.get (toInt pk) k
  let s ← scale.get k
  let aet := Fp.fabsDiv t s
  forUp (k + 1) n (Fp.scan temp pvt scale k) ⟨aet, pc⟩

/-- Body of the elimination loop over `i` of `reorder` in double precision. -/
def Fp.reorder.row (n : Nat) (pvt : Vector) (k : Nat) (pvtk : Int) (i : Nat) (temp : MathMatrix) :
    Res MathMatrix := do
  let pvti := toInt (← pvt.get i)
  let t ← temp.get pvti k
  if t ≠ 0 then do
    let t ← temp.get pvti k
    let p ← temp.get pvtk k
    let mult ← Fp.fdiv t p
    let temp ← temp.set pvti k mult
    forUp (k + 1) n (Fp.elimUpdate pvtk pvti mult) temp
  else pure temp

/-- Body of the main elimination loop of `reorder` in double precision. -/
def Fp.reorder.step (n : Nat) (scale : Vector) (k : Nat) (s : Vector × MathMatrix) :
    Res (Vector × MathMatrix) := do
  let pvt := s.1
  let temp := s.2
  let best ← Fp.findPivot n temp pvt scale k
  if best.aet.isZero then throw Err.pivotZero
  else do
    let pvt ← reorder.swap pvt k best.pc
    let pvtk := toInt (← pvt.get k)
    let temp ← forUp (k + 1) n (Fp.reorder.row n pvt k pvtk) temp
    pure (pvt, temp)

/-- `reorder(a, n, p)` in double precision; the scale vector is found without arithmetic. -/
def Fp.reorder (a : MathMatrix) (n : Int) : Res MathMatrix := do
  let (pvt, scale, p) ← reorder.init a n
  let (pvt, _) ← forUp 0 (n.toNat - 1) (Fp.reorder.step n.toNat scale) (pvt, a)
  forUp 0 n.toNat (fun i p => do p.set i (toInt (← pvt.get i)) 1) p

/-- Body of the loop over `k` of `MathMatrix::inverse` in double precision. -/
def Fp.column (l u : MathMatrix) (n k : Nat) (s : inverse.State) : Res inverse.State := do
  let e ← s.e.set k 1
  let e ← if k > 0 then e.set ((k : Int) - 1) 0 else pure e
  let temp := e
  let temp ← Fp.forward l n temp
  let l_inv ← forUp 0 n (fun i l_inv => do l_inv.set i k (← temp.get i)) s.l_inv
  let temp := e
  let temp ← Fp.backward u n temp
  let u_inv ← forUp 0 n (fun i u_inv => do u_inv.set i k (← temp.get i)) s.u_inv
  pure ⟨e, l_inv, u_inv⟩

/-- The loop over `k` of `MathMatrix::inverse` in double precision, from the factors: the
vector `e` and the matrices `l_inv` and `u_inv` after it. -/
def Fp.columns (l u : MathMatrix) (n : Int) : Res inverse.State := do
  let l_inv ← MathMatrix.new n
  let u_inv ← MathMatrix.new n
  let e ← Vector.Init n
  let _ ← Vector.Init n
  forUp 0 n.toNat (Fp.column l u n.toNat) ⟨e, l_inv, u_inv⟩

/-- `MathMatrix::inverse()` in double precision. -/
def Fp.inverse (m : MathMatrix) : Res MathMatrix := do
  let p ← Fp.reorder m m.nrows
  let (l, u) ← Fp.lu_fact m m.nrows
  let s ← Fp.columns l u m.nrows
  Fp.mul (← Fp.mul s.u_inv s.l_inv) p

/-- `MathVector::two_norm()` in double precision: the argument of `sqrt`. -/
def Fp.two_norm (v : Vector) : Res Root :=
  if v.size = 0 then throw Err.emptyVector
  else do
    let res ← forUp 0 v.size.toNat
      (fun i res => pure (fl (res + fl (v.pdata.getD i 0 * v.pdata.getD i 0)))) 0
    pure ⟨res⟩

/-- The square matrix of size `n` with the given entries in row-major order. -/
def MathMatrix.ofList (n : Nat) (xs : List ℚ) : MathMatrix := ⟨⟨n, n, ⟨xs⟩⟩, n⟩

/-! ## Entries of well-formed matrices and vectors -/

/-- The matrix `m` is a well-formed square matrix of size `n`, as `MathMatrix(n)` builds it. -/
structure MathMatrix.Sq (m : MathMatrix) (n : Nat) : Prop where
  /-- The row count is `n`. -/
  nrows : m.nrows = n
  /-- The column count is `n`. -/
  ncols : m.ncols = n
  /-- The member `n` is `n`. -/
  size : m.n = n
  /-- The backing vector holds `n * n` elements. -/
  len : m.v.pdata.length = n * n

/-- The entry of `m` in row `i` and column `j`. -/
def MathMatrix.E (m : MathMatrix) (i j : Nat) : ℚ :=
  m.v.pdata.getD (i * m.ncols.toNat + j) 0

/-- The matrix `m` with `x` stored in row `i` and column `j`. -/
def MathMatrix.upd (m : MathMatrix) (i j : Nat) (x : ℚ) : MathMatrix :=
  { m with v := ⟨m.v.pdata.set (i * m.ncols.toNat + j) x⟩ }

/-- The element of `v` at index `i`. -/
def Vector.E (v : Vector) (i : Nat) : ℚ := v.pdata.getD i 0

/-- The vector `v` with `x` stored at index `i`. -/
def Vector.upd (v : Vector) (i : Nat) (x : ℚ) : Vector := ⟨v.pdata.set i x⟩

/-- The zero matrix of size `n`, the value of `MathMatrix(n)`. -/
def MathMatrix.zero (n : Nat) : MathMatrix := MathMatrix.ofList n (List.replicate (n * n) 0)

/-- The entries after step `k` of the elimination of `lu_fact`, from the entries `T` before it:
every row `a > k` gets its multiplier in column `k` and is reduced in the columns after `k`. -/
def elimF (T : Nat → Nat → ℚ) (k : Nat) : Nat → Nat → ℚ := fun a b =>
  if k < a then
    (if b = k then T a k / T k k
     else if k < b then T a b - T a k / T k k * T k b
     else T a b)
  else T a b

/-- The entry `(i, j)` of the product of two matrices of size `n` with entries `A` and `B`. -/
def mulF (n : Nat) (A B : Nat → Nat → ℚ) (i j : Nat) : ℚ :=
  ∑ k in Finset.range n, A i k * B k j

/-- The entries of the factor `l` that `lu_fact` builds from the entries `T` of `temp`. -/
def lowerF (T : Nat → Nat → ℚ) (a b : Nat) : ℚ :=
  if a = b then 1 else if b < a then T a b else 0

/-- The entries of the factor `u` that `lu_fact` builds from the entries `T` of `temp`. -/
def upperF (T : Nat → Nat → ℚ) (a b : Nat) : ℚ :=
  if a ≤ b then T a b else 0

/-- The entries after the steps `0 .. k-1` of the elimination of `lu_fact`. -/
def elimN (T : Nat → Nat → ℚ) : Nat → Nat → Nat → ℚ
  | 0 => T
  | k + 1 => elimF (elimN T k) k

/-- The element `a` of the product of a matrix of size `n` with entries `M` and a vector `v`. -/
def mulVecF (n : Nat) (M : Nat → Nat → ℚ) (v : Nat → ℚ) (a : Nat) : ℚ :=
  ∑ j in Finset.range n, M a j * v j

/-- The row index stored at position `i` of the pivot vector `pvt`. -/
def Vector.idx (v : Vector) (i : Nat) : Nat := (toInt (v.E i)).toNat

/-- The vector `pvt` of size `n` holds a permutation of `0 .. n-1`. -/
structure IsPerm (pvt : Vector) (n : Nat) : Prop where
  /-- The vector has `n` elements. -/
  len : pvt.pdata.length = n
  /-- Every element is a natural number. -/
  val : ∀ i, i < n → pvt.E i = ((pvt.idx i : Nat) : ℚ)
  /-- Every element is a row index. -/
  lt : ∀ i, i < n → pvt.idx i < n
  /-- No row index occurs twice. -/
  inj : ∀ i j, i < n → j < n → pvt.idx i = pvt.idx j → i = j
  /-- Every row index occurs. -/
  surj : ∀ r, r < n → ∃ i, i < n ∧ pvt.idx i = r

/-- The entries of row `a` after its elimination in column `k` with the pivot row `p`. -/
def elimRow (T : Nat → Nat → ℚ) (k p : Nat) (a b : Nat) : ℚ :=
  if b = k then T a k / T p k
  else if k < b then T a b - T a k / T p k * T p b
  else T a b

/-- The relation between `reorder` and `lu_fact` after `k` steps: for every arrangement `τ` of
the rows that agrees with `pvt` on the positions before `k`, the unpivoted elimination of the
rearranged matrix has met no zero pivot and has computed the rows of `temp`, rearranged. -/
def SimInv (A : MathMatrix) (n k : Nat) (pvt : Vector) (T : MathMatrix) : Prop :=
  ∀ τ : Nat → Nat, (∀ i, i < n → τ i < n) → (∀ i j, i < n → j < n → τ i = τ j → i = j) →
    (∀ i, i < k → τ i = pvt.idx i) →
    (∀ c, c < k → elimN (fun i j => A.E (τ i) j) c c c ≠ 0) ∧
      ∀ i j, i < n → j < n → elimN (fun i j => A.E (τ i) j) k i j = T.E (τ i) j

/-- The identity matrix of size `n`. -/
def MathMatrix.identity (n : Nat) : MathMatrix :=
  MathMatrix.ofList n ((List.range (n * n)).map (fun t => if t / n = t % n then (1 : ℚ) else 0))

/-- The entries `f i j` with `i, j < n` as a matrix of the library of matrix algebra. -/
def toM (n : Nat) (f : Nat → Nat → ℚ) := Matrix.of (fun (i j : Fin n) => f i j)

/-- The unit vector `e_k` of size `n`. -/
def Vector.unit (n k : Nat) : Vector := ⟨(List.range n).map (fun a => if a = k then (1 : ℚ) else 0)⟩

/-- The value of a list of decimal digits, the least significant first. -/
def ofLE : List Nat → Nat
  | [] => 0
  | d :: ds => d + 10 * ofLE ds

/-- The text holds the numbers `xs` as fields: in front of every field there is whitespace
only, after it a whitespace character, and after the last field the text `fin` is left. -/
def Readable : List ℚ → List Char → List Char → Prop
  | [], t, fin => t = fin
  | x :: xs, t, fin => ∃ w c rest, (∀ ch ∈ w, ch.isWhitespace = true) ∧ c.isWhitespace = true ∧
      t = w ++ putDouble x ++ c :: rest ∧ Readable xs (c :: rest) fin

/-- The text `txt`, written after the size, holds the numbers `xs` as fields, whatever is
written after it. -/
def Written (xs : List ℚ) (txt : List Char) : Prop :=
  ∃ u, (∀ ch ∈ u, ch.isWhitespace = true) ∧ ∀ tail, Readable xs (txt ++ tail) (u ++ tail)

/-- The text that the stream writes for `x` is read back as `x`. -/
def ReadsBack (x : ℚ) : Prop := scanDouble (putDouble x) = some (x, [])

instance instDecidableReadsBack (x : ℚ) : Decidable (ReadsBack x) := by
  unfold ReadsBack
  infer_instance

/-! ## The relation between the two embeddings of `reorder` -/

/-- The `double` `x` is a number, and its value is `q`. -/
def Ieee.Val (x : Ieee) (q : ℚ) : Prop :=
  ∃ s a, x = Ieee.fin s a ∧ 0 ≤ a ∧ (if s = true then -a else a) = q

/-- The matrix `X` holds numbers only, the elements of `T`. -/
def IeeeMatrix.Rep (X : IeeeMatrix) (T : MathMatrix) : Prop :=
  X.nrows = T.nrows ∧ X.ncols = T.ncols ∧ X.pdata.length = T.v.pdata.length ∧
    ∀ t, t < T.v.pdata.length → (X.pdata.getD t Ieee.nan).Val (T.v.pdata.getD t 0)

/-- The matrix `X` is a well-formed square matrix of size `n`. -/
def IeeeMatrix.Sq (X : IeeeMatrix) (n : Nat) : Prop :=
  X.nrows = n ∧ X.ncols = n ∧ X.pdata.length = n * n

/-- The run `y` agrees with the run `x` of the exact embedding: they return related values or
end with the same error, unless `x` stops at a stored quotient by zero. -/
def Sim {α β : Type} (R : α → β → Prop) (x : Res α) (y : Res β) : Prop :=
  match x with
  | Except.ok a => ∃ b, y = Except.ok b ∧ R a b
  | Except.error e => e = Err.divByZero ∨ y = Except.error e

/-! ## Theorems -/

section Basics

variable {α β σ : Type}

@[simp] theorem ok_bind (a : α) (f : α → Res β) : ((Except.ok a : Res α) >>= f) = f a := rfl

@[simp] theorem error_bind (e : Err) (f : α → Res β) :
    ((Except.error e : Res α) >>= f) = Except.error e := rfl

@[simp] theorem pure_eq_ok (a : α) : (pure a : Res α) = Except.ok a := rfl

@[simp] theorem throw_eq_error (e : Err) : (throw e : Res α) = Except.error e := rfl

theorem bind_eq_ok {x : Res α} {f : α → Res β} {b : β} :
    (x >>= f) = Except.ok b ↔ ∃ a, x = Except.ok a ∧ f a = Except.ok b := by
  cases x with
  | ok a => simp
  | error e => simp

theorem forCount_zero (body : Nat → σ → Res σ) (lo : Nat) (s : σ) :
    forCount body 0 lo s = Except.ok s := rfl

theorem forCount_succ (body : Nat → σ → Res σ) (cnt lo : Nat) (s : σ) :
    forCount body (cnt + 1) lo s = body lo s >>= forCount body cnt (lo + 1) := rfl

/-- Running `cnt + 1` iterations is running `cnt` iterations and then one more. -/
theorem forCount_succ_last (body : Nat → σ → Res σ) (cnt : Nat) :
    ∀ (lo : Nat) (s : σ),
      forCount body (cnt + 1) lo s = forCount body cnt lo s >>= body (lo + cnt) := by
  induction cnt with
  | zero =>
    intro lo s
    cases h : body lo s <;> simp [forCount_succ, forCount_zero, h]
  | succ c ih =>
    intro lo s
    rw [forCount_succ]
    cases h : body lo s with
    | error e => simp [forCount_succ, h]
    | ok s1 =>
      rw [ok_bind, ih (lo + 1) s1, forCount_succ, h, ok_bind]
      have : lo + 1 + c = lo + (c + 1) := by omega
      rw [this]

/-- Total correctness of a counted loop from an invariant. -/
theorem forCount_ok_inv (body : Nat → σ → Res σ) (I : Nat → σ → Prop) :
    ∀ (cnt lo : Nat) (s : σ), I lo s →
      (∀ i t, lo ≤ i → i < lo + cnt → I i t → ∃ t', body i t = Except.ok t' ∧ I (i + 1) t') →
      ∃ r, forCount body cnt lo s = Except.ok r ∧ I (lo + cnt) r := by
  intro cnt
  induction cnt with
  | zero => intro lo s h0 _; exact ⟨s, rfl, h0⟩
  | succ c ih =>
    intro lo s h0 hstep
    obtain ⟨s1, h1, hI1⟩ := hstep lo s (Nat.le_refl _) (by omega) h0
    obtain ⟨r, hr, hIr⟩ := ih (lo + 1) s1 hI1
      (fun i t hlo hhi hI => hstep i t (by omega) (by omega) hI)
    refine ⟨r, ?_, ?_⟩
    · rw [forCount_succ, h1, ok_bind, hr]
    · have : lo + (c + 1) = lo + 1 + c := by omega
      rw [this]; exact hIr

/-- Partial correctness of a counted loop from an invariant. -/
theorem forCount_inv_of_ok (body : Nat → σ → Res σ) (I : Nat → σ → Prop) :
    ∀ (cnt lo : Nat) (s r : σ), I lo s →
      (∀ i t t', lo ≤ i → i < lo + cnt → I i t → body i t = Except.ok t' → I (i + 1) t') →
      forCount body cnt lo s = Except.ok r → I (lo + cnt) r := by
  intro cnt
  induction cnt with
  | zero =>
    intro lo s r h0 _ hr
    rw [forCount_zero] at hr
    cases hr; exact h0
  | succ c ih =>
    intro lo s r h0 hstep hr
    rw [forCount_succ] at hr
    obtain ⟨s1, h1, h2⟩ := bind_eq_ok.mp hr
    have hI1 := hstep lo s s1 (Nat.le_refl _) (by omega) h0 h1
    have := ih (lo + 1) s1 r hI1 (fun i t t' hlo hhi hI => hstep i t t' (by omega) (by omega) hI) h2
    have e : lo + (c + 1) = lo + 1 + c := by omega
    rw [e]; exact this

theorem forUp_of_le {lo hi : Nat} (h : hi ≤ lo) (body : Nat → σ → Res σ) (s : σ) :
    forUp lo hi body s = Except.ok s := by
  unfold forUp
  rw [Nat.sub_eq_zero_of_le h]; rfl

theorem forUp_succ_last {lo hi : Nat} (h : lo ≤ hi) (body : Nat → σ → Res σ) (s : σ) :
    forUp lo (hi + 1) body s = forUp lo hi body s >>= body hi := by
  unfold forUp
  have e : hi + 1 - lo = (hi - lo) + 1 := by omega
  rw [e, forCount_succ_last]
  have e2 : lo + (hi - lo) = hi := by omega
  rw [e2]

/-- Total correctness of `for (i = lo; i < hi; i++)` from an invariant. -/
theorem forUp_ok_inv {lo hi : Nat} (body : Nat → σ → Res σ) (I : Nat → σ → Prop) (s : σ)
    (h : lo ≤ hi) (h0 : I lo s)
    (hstep : ∀ i t, lo ≤ i → i < hi → I i t → ∃ t', body i t = Except.ok t' ∧ I (i + 1) t') :
    ∃ r, forUp lo hi body s = Except.ok r ∧ I hi r := by
  obtain ⟨r, hr, hI⟩ := forCount_ok_inv body I (hi - lo) lo s h0
    (fun i t hlo hhi hI => hstep i t hlo (by omega) hI)
  have e : lo + (hi - lo) = hi := by omega
  rw [e] at hI
  exact ⟨r, hr, hI⟩

/-- Partial correctness of `for (i = lo; i < hi; i++)` from an invariant. -/
theorem forUp_inv_of_ok {lo hi : Nat} (body : Nat → σ → Res σ) (I : Nat → σ → Prop) (s r : σ)
    (h : lo ≤ hi) (h0 : I lo s)
    (hstep : ∀ i t t', lo ≤ i → i < hi → I i t → body i t = Except.ok t' → I (i + 1) t')
    (hr : forUp lo hi body s = Except.ok r) : I hi r := by
  have := forCount_inv_of_ok body I (hi - lo) lo s r h0
    (fun i t t' hlo hhi hI => hstep i t t' hlo (by omega) hI) hr
  have e : lo + (hi - lo) = hi := by omega
  rw [e] at this
  exact this

/-- Total correctness of `for (i = hi - 1; i >= 0; i--)` from an invariant. -/
theorem forDown_ok_inv (body : Nat → σ → Res σ) (I : Nat → σ → Prop) :
    ∀ (hi : Nat) (s : σ), I hi s →
      (∀ i t, i < hi → I (i + 1) t → ∃ t', body i t = Except.ok t' ∧ I i t') →
      ∃ r, forDown body hi s = Except.ok r ∧ I 0 r := by
  intro hi
  induction hi with
  | zero => intro s h0 _; exact ⟨s, rfl, h0⟩
  | succ c ih =>
    intro s h0 hstep
    obtain ⟨s1, h1, hI1⟩ := hstep c s (by omega) h0
    obtain ⟨r, hr, hIr⟩ := ih s1 hI1 (fun i t hhi hI => hstep i t (by omega) hI)
    exact ⟨r, by show (body c s >>= forDown body c) = _; rw [h1, ok_bind, hr], hIr⟩

/-- A loop whose body, under an invariant, either continues or ends with an error of a given
kind, either completes or ends with an error of that kind. -/
theorem forCount_cases (body : Nat → σ → Res σ) (I : Nat → σ → Prop) (E : Err → Prop) :
    ∀ (cnt lo : Nat) (s : σ), I lo s →
      (∀ i t, lo ≤ i → i < lo + cnt → I i t →
        (∃ t', body i t = Except.ok t' ∧ I (i + 1) t') ∨ (∃ e, body i t = Except.error e ∧ E e)) →
      (∃ r, forCount body cnt lo s = Except.ok r ∧ I (lo + cnt) r) ∨
        (∃ e, forCount body cnt lo s = Except.error e ∧ E e) := by
  intro cnt
  induction cnt with
  | zero => intro lo s h0 _; exact Or.inl ⟨s, rfl, h0⟩
  | succ c ih =>
    intro lo s h0 hstep
    rcases hstep lo s (Nat.le_refl _) (by omega) h0 with ⟨s1, h1, hI1⟩ | ⟨e, h1, he⟩
    · rcases ih (lo + 1) s1 hI1 (fun i t hlo hhi hI => hstep i t (by omega) (by omega) hI) with
        ⟨r, hr, hIr⟩ | ⟨e, hr, he⟩
      · left
        refine ⟨r, by rw [forCount_succ, h1, ok_bind, hr], ?_⟩
        have : lo + (c + 1) = lo + 1 + c := by omega
        rw [this]; exact hIr
      · right
        exact ⟨e, by rw [forCount_succ, h1, ok_bind, hr], he⟩
    · right
      exact ⟨e, by rw [forCount_succ, h1, error_bind], he⟩

/-- The rule `forCount_cases` for `for (i = lo; i < hi; i++)`. -/
theorem forUp_cases {lo hi : Nat} (body : Nat → σ → Res σ) (I : Nat → σ → Prop) (E : Err → Prop)
    (s : σ) (h : lo ≤ hi) (h0 : I lo s)
    (hstep : ∀ i t, lo ≤ i → i < hi → I i t →
      (∃ t', body i t = Except.ok t' ∧ I (i + 1) t') ∨ (∃ e, body i t = Except.error e ∧ E e)) :
    (∃ r, forUp lo hi body s = Except.ok r ∧ I hi r) ∨
      (∃ e, forUp lo hi body s = Except.error e ∧ E e) := by
  have := forCount_cases body I E (hi - lo) lo s h0
    (fun i t hlo hhi hI => hstep i t hlo (by omega) hI)
  have e : lo + (hi - lo) = hi := by omega
  rw [e] at this
  exact this

/-- A loop from `0` that ends with an error has run some iterations and met the error in the
next one. -/
theorem forUp_error_split (body : Nat → σ → Res σ) (s : σ) (e : Err) :
    ∀ hi, forUp 0 hi body s = Except.error e →
      ∃ j t, j < hi ∧ forUp 0 j body s = Except.ok t ∧ body j t = Except.error e := by
  intro hi
  induction hi with
  | zero => intro h; rw [forUp_of_le (Nat.le_refl 0)] at h; cases h
  | succ c ih =>
    intro h
    rw [forUp_succ_last (Nat.zero_le c)] at h
    cases hc : forUp 0 c body s with
    | error e' =>
      rw [hc] at h
      have : e' = e := Except.error.inj h
      subst this
      obtain ⟨j, t, hj, h1, h2⟩ := ih hc
      exact ⟨j, t, by omega, h1, h2⟩
    | ok t =>
      rw [hc, ok_bind] at h
      exact ⟨c, t, by omega, hc, h⟩

/-- A loop from `0` that ends with an error in some iteration ends with it when run longer. -/
theorem forUp_error_mono (body : Nat → σ → Res σ) (s : σ) (e : Err) {j : Nat}
    (h : forUp 0 j body s = Except.error e) : ∀ hi, j ≤ hi → forUp 0 hi body s = Except.error e := by
  intro hi
  induction hi with
  | zero => intro hj; have : j = 0 := by omega
            subst this; exact h
  | succ c ih =>
    intro hj
    by_cases hjc : j ≤ c
    · rw [forUp_succ_last (Nat.zero_le c), ih hjc]; rfl
    · have : j = c + 1 := by omega
      subst this; exact h

end Basics

section Containers

theorem idx_lt {n i j : Nat} (hi : i < n) (hj : j < n) : i * n + j < n * n := by
  have : (i + 1) * n ≤ n * n := Nat.mul_le_mul_right n hi
  have e : (i + 1) * n = i * n + n := by ring
  omega

theorem idx_inj {n i j a b : Nat} (hj : j < n) (hb : b < n) (h : a * n + b = i * n + j) :
    a = i ∧ b = j := by
  have hn : 0 < n := by omega
  have h1 : (a * n + b) / n = a := by
    rw [Nat.add_comm, Nat.add_mul_div_right _ _ hn, Nat.div_eq_of_lt hb, Nat.zero_add]
  have h2 : (i * n + j) / n = i := by
    rw [Nat.add_comm, Nat.add_mul_div_right _ _ hn, Nat.div_eq_of_lt hj, Nat.zero_add]
  have hai : a = i := by rw [← h1, ← h2, h]
  subst hai
  exact ⟨rfl, by omega⟩

theorem Vector.get_of_lt {v : Vector} {i : Nat} (h : i < v.pdata.length) :
    v.get (i : Int) = Except.ok (v.E i) := by
  unfold Vector.get Vector.size Vector.E
  have hc : ¬ ((i : Int) < 0 ∨ (i : Int) ≥ (v.pdata.length : Int)) := by omega
  rw [if_neg hc]
  simp

theorem Vector.set_of_lt {v : Vector} {i : Nat} (h : i < v.pdata.length) (x : ℚ) :
    v.set (i : Int) x = Except.ok (v.upd i x) := by
  unfold Vector.set Vector.size Vector.upd
  have hc : ¬ ((i : Int) < 0 ∨ (i : Int) ≥ (v.pdata.length : Int)) := by omega
  rw [if_neg hc]
  simp

@[simp] theorem Vector.upd_length (v : Vector) (i : Nat) (x : ℚ) :
    (v.upd i x).pdata.length = v.pdata.length := by
  simp [Vector.upd]

theorem Vector.E_upd_eq (v : Vector) {i : Nat} (h : i < v.pdata.length) (x : ℚ) (j : Nat) :
    (v.upd i x).E j = if j = i then x else v.E j := by
  unfold Vector.upd Vector.E
  simp only [List.getD_eq_getElem?_getD, List.getElem?_set]
  by_cases hji : j = i
  · subst hji; simp [h]
  · have : ¬ i = j := fun e => hji e.symm
    simp [hji, this]

theorem Vector.Init_nat (n : Nat) : Vector.Init (n : Int) = Except.ok ⟨List.replicate n 0⟩ := by
  unfold Vector.Init
  have hc : ¬ ((n : Int) < 0) := by omega
  rw [if_neg hc]
  simp

theorem Vector.E_replicate (n i : Nat) : (Vector.mk (List.replicate n 0)).E i = 0 := by
  unfold Vector.E
  simp only [List.getD_eq_getElem?_getD, List.getElem?_replicate]
  split <;> rfl

theorem Vector.ext_of_E {v w : Vector} (hl : v.pdata.length = w.pdata.length)
    (h : ∀ i, i < v.pdata.length → v.E i = w.E i) : v = w := by
  cases v with | mk xs => cases w with | mk ys =>
  simp only [Vector.mk.injEq]
  apply List.ext_getElem hl
  intro i h1 h2
  have := h i h1
  simp only [Vector.E, List.getD_eq_getElem?_getD] at this
  rw [List.getElem?_eq_getElem h1, List.getElem?_eq_getElem h2] at this
  simpa using this

theorem MathMatrix.Sq.toNat_ncols {m : MathMatrix} {n : Nat} (h : m.Sq n) : m.ncols.toNat = n := by
  rw [h.ncols]; simp

theorem MathMatrix.Sq.toNat_nrows {m : MathMatrix} {n : Nat} (h : m.Sq n) : m.nrows.toNat = n := by
  rw [h.nrows]; simp

theorem MathMatrix.get_nat {m : MathMatrix} {n i j : Nat} (h : m.Sq n) (hi : i < n) (hj : j < n) :
    m.get (i : Int) (j : Int) = Except.ok (m.E i j) := by
  unfold MathMatrix.get Matrix.get MathMatrix.E
  have hc : ¬ ((i : Int) > m.nrows - 1 ∨ (j : Int) > m.ncols - 1 ∨ (i : Int) < 0 ∨ (j : Int) < 0) := by
    rw [h.nrows, h.ncols]; omega
  rw [if_neg hc, h.toNat_ncols, h.ncols]
  have e : (i : Int) * (n : Int) + (j : Int) = ((i * n + j : Nat) : Int) := by push_cast; ring
  rw [e, Vector.get_of_lt (by rw [h.len]; exact idx_lt hi hj)]
  rfl

theorem MathMatrix.set_nat {m : MathMatrix} {n i j : Nat} (h : m.Sq n) (hi : i < n) (hj : j < n)
    (x : ℚ) : m.set (i : Int) (j : Int) x = Except.ok (m.upd i j x) := by
  unfold MathMatrix.set Matrix.set MathMatrix.upd
  have hc : ¬ ((i : Int) > m.nrows - 1 ∨ (j : Int) > m.ncols - 1 ∨ (i : Int) < 0 ∨ (j : Int) < 0) := by
    rw [h.nrows, h.ncols]; omega
  rw [if_neg hc, h.toNat_ncols, h.ncols]
  have e : (i : Int) * (n : Int) + (j : Int) = ((i * n + j : Nat) : Int) := by push_cast; ring
  rw [e, Vector.set_of_lt (by rw [h.len]; exact idx_lt hi hj)]
  rfl

theorem MathMatrix.Sq.upd {m : MathMatrix} {n : Nat} (h : m.Sq n) (i j : Nat) (x : ℚ) :
    (m.upd i j x).Sq n :=
  ⟨h.nrows, h.ncols, h.size, by simp [MathMatrix.upd, h.len]⟩

theorem MathMatrix.E_upd {m : MathMatrix} {n i j : Nat} (h : m.Sq n) (hi : i < n) (hj : j < n)
    (x : ℚ) {a b : Nat} (hb : b < n) :
    (m.upd i j x).E a b = if a = i ∧ b = j then x else m.E a b := by
  have hlen : i * n + j < m.v.pdata.length := by rw [h.len]; exact idx_lt hi hj
  have key := Vector.E_upd_eq m.v hlen x (a * n + b)
  unfold Vector.E Vector.upd at key
  unfold MathMatrix.E MathMatrix.upd
  simp only [h.toNat_ncols]
  rw [key]
  by_cases hab : a = i ∧ b = j
  · rw [if_pos hab, if_pos (by rw [hab.1, hab.2])]
  · rw [if_neg hab, if_neg (fun e => hab (idx_inj hj hb e))]

theorem MathMatrix.zero_sq (n : Nat) : (MathMatrix.zero n).Sq n :=
  ⟨rfl, rfl, rfl, by simp [MathMatrix.zero, MathMatrix.ofList]⟩

theorem MathMatrix.E_zero (n i j : Nat) : (MathMatrix.zero n).E i j = 0 := by
  unfold MathMatrix.E MathMatrix.zero MathMatrix.ofList
  simp only [List.getD_eq_getElem?_getD, List.getElem?_replicate]
  split <;> rfl

theorem MathMatrix.new_nat (n : Nat) : MathMatrix.new (n : Int) = Except.ok (MathMatrix.zero n) := by
  unfold MathMatrix.new Matrix.new MathMatrix.zero MathMatrix.ofList
  have hc : ¬ ((n : Int) < 0 ∨ (n : Int) < 0) := by omega
  rw [if_neg hc]
  by_cases h0 : n = 0
  · subst h0; simp [Vector.Init]
  · have hc2 : ¬ ((n : Int) ≤ 0 ∨ (n : Int) ≤ 0) := by omega
    rw [if_neg hc2]
    have e : (n : Int) * (n : Int) = ((n * n : Nat) : Int) := by push_cast; ring
    rw [e, Vector.Init_nat]
    rfl

/-- Two well-formed square matrices with the same entries are equal. -/
theorem MathMatrix.ext_E {m m' : MathMatrix} {n : Nat} (h : m.Sq n) (h' : m'.Sq n)
    (he : ∀ i j, i < n → j < n → m.E i j = m'.E i j) : m = m' := by
  have hv : m.v = m'.v := by
    apply Vector.ext_of_E (by rw [h.len, h'.len])
    intro t ht
    rw [h.len] at ht
    have hn : 0 < n := by
      rcases Nat.eq_zero_or_pos n with h0 | h0
      · subst h0; simp at ht
      · exact h0
    have hq : t / n < n := Nat.div_lt_of_lt_mul ht
    have hr : t % n < n := Nat.mod_lt _ hn
    have := he (t / n) (t % n) hq hr
    unfold MathMatrix.E at this
    rw [h.toNat_ncols, h'.toNat_ncols, Nat.div_add_mod' t n] at this
    exact this
  cases m with | mk mm mn => cases m' with | mk mm' mn' =>
  cases mm with | mk r c v => cases mm' with | mk r' c' v' =>
  have h1 := h.nrows; have h2 := h.ncols; have h3 := h.size
  have h1' := h'.nrows; have h2' := h'.ncols; have h3' := h'.size
  simp only at h1 h2 h3 h1' h2' h3' hv
  subst h1 h2 h3 hv
  simp [h1', h2', h3']

end Containers

section Mul

/-- The innermost loop of `operator*` adds the products of row `i` and column `j` to `res(i, j)`. -/
theorem MathMatrix.mul_inner {M A R : MathMatrix} {n i j : Nat} (hM : M.Sq n) (hA : A.Sq n)
    (hR : R.Sq n) (hi : i < n) (hj : j < n) :
    ∃ R', forUp 0 n (fun k res => do
          let r ← res.get i j
          let x ← M.get i k
          let y ← A.get k j
          res.set i j (r + x * y)) R = Except.ok R' ∧ R'.Sq n ∧
      ∀ a b, b < n → R'.E a b = if a = i ∧ b = j then R.E i j + mulF n M.E A.E i j else R.E a b := by
  have key := forUp_ok_inv (fun k res => do
          let r ← res.get i j
          let x ← M.get i k
          let y ← A.get k j
          res.set i j (r + x * y))
    (fun kk R' => R'.Sq n ∧ ∀ a b, b < n →
      R'.E a b = if a = i ∧ b = j then R.E i j + ∑ k in Finset.range kk, M.E i k * A.E k j
        else R.E a b)
    R (Nat.zero_le n)
    ⟨hR, fun a b _ => by
      by_cases h : a = i ∧ b = j
      · rw [if_pos h, h.1, h.2]; simp
      · rw [if_neg h]⟩
    (by
      intro k t _ hk ⟨htS, htE⟩
      refine ⟨t.upd i j (t.E i j + M.E i k * A.E k j), ?_, htS.upd _ _ _, ?_⟩
      · simp only [MathMatrix.get_nat htS hi hj, MathMatrix.get_nat hM hi hk,
          MathMatrix.get_nat hA hk hj, MathMatrix.set_nat htS hi hj, ok_bind]
      · intro a b hb
        rw [MathMatrix.E_upd htS hi hj _ hb]
        by_cases h : a = i ∧ b = j
        · rw [if_pos h, if_pos h, htE i j hj, if_pos ⟨rfl, rfl⟩, Finset.sum_range_succ]
          ring
        · rw [if_neg h, if_neg h, htE a b hb, if_neg h])
  exact key

/-- The loop over `j` of `operator*` fills row `i` of the result. -/
theorem MathMatrix.mul_middle {M A R : MathMatrix} {n i : Nat} (hM : M.Sq n) (hA : A.Sq n)
    (hR : R.Sq n) (hi : i < n) :
    ∃ R', forUp 0 n (fun j res => forUp 0 n (fun k res => do
          let r ← res.get i j
          let x ← M.get i k
          let y ← A.get k j
          res.set i j (r + x * y)) res) R = Except.ok R' ∧ R'.Sq n ∧
      ∀ a b, b < n → R'.E a b = if a = i then R.E a b + mulF n M.E A.E a b else R.E a b := by
  have key := forUp_ok_inv (fun j res => forUp 0 n (fun k res => do
          let r ← res.get i j
          let x ← M.get i k
          let y ← A.get k j
          res.set i j (r + x * y)) res)
    (fun jj R' => R'.Sq n ∧ ∀ a b, b < n →
      R'.E a b = if a = i ∧ b < jj then R.E a b + mulF n M.E A.E a b else R.E a b)
    R (Nat.zero_le n)
    ⟨hR, fun a b _ => by rw [if_neg]; omega⟩
    (by
      intro j t _ hj ⟨htS, htE⟩
      obtain ⟨r, hr, hrS, hrE⟩ := MathMatrix.mul_inner hM hA htS hi hj
      refine ⟨r, hr, hrS, fun a b hb => ?_⟩
      rw [hrE a b hb]
      by_cases h : a = i ∧ b = j
      · obtain ⟨rfl, rfl⟩ := h
        rw [if_pos ⟨rfl, rfl⟩, if_pos ⟨rfl, by omega⟩, htE a b hb, if_neg (by omega)]
      · rw [if_neg h, htE a b hb]
        by_cases h1 : a = i ∧ b < j
        · rw [if_pos h1, if_pos ⟨h1.1, by omega⟩]
        · rw [if_neg h1, if_neg]
          intro h2
          have : b ≠ j := fun e => h ⟨h2.1, e⟩
          exact h1 ⟨h2.1, by omega⟩)
  obtain ⟨r, hr, hrS, hrE⟩ := key
  refine ⟨r, hr, hrS, fun a b hb => ?_⟩
  rw [hrE a b hb]
  by_cases h1 : a = i
  · rw [if_pos h1, if_pos ⟨h1, hb⟩]
  · rw [if_neg h1, if_neg (fun h2 => h1 h2.1)]

/-- The product of two well-formed square matrices of size `n`: `operator*` returns the
well-formed matrix whose entry `(i, j)` is the sum of `M(i,k) * A(k,j)`. -/
theorem MathMatrix.mul_spec {M A : MathMatrix} {n : Nat} (hM : M.Sq n) (hA : A.Sq n) :
    ∃ R, M.mul A = Except.ok R ∧ R.Sq n ∧
      ∀ a b, a < n → b < n → R.E a b = mulF n M.E A.E a b := by
  have key := forUp_ok_inv (fun i res =>
      forUp 0 n (fun j res =>
        forUp 0 n (fun k res => do
          let r ← res.get i j
          let x ← M.get i k
          let y ← A.get k j
          res.set i j (r + x * y)) res) res)
    (fun ii R' => R'.Sq n ∧ ∀ a b, b < n →
      R'.E a b = if a < ii then mulF n M.E A.E a b else 0)
    (MathMatrix.zero n) (Nat.zero_le n)
    ⟨MathMatrix.zero_sq n, fun a b _ => by rw [if_neg (by omega), MathMatrix.E_zero]⟩
    (by
      intro i t _ hi ⟨htS, htE⟩
      obtain ⟨r, hr, hrS, hrE⟩ := MathMatrix.mul_middle hM hA htS hi
      refine ⟨r, hr, hrS, fun a b hb => ?_⟩
      rw [hrE a b hb, htE a b hb]
      by_cases h : a = i
      · subst h
        rw [if_pos rfl, if_neg (by omega), if_pos (by omega), zero_add]
      · rw [if_neg h]
        by_cases h1 : a < i
        · rw [if_pos h1, if_pos (by omega)]
        · rw [if_neg h1, if_neg (by omega)])
  obtain ⟨r, hr, hrS, hrE⟩ := key
  refine ⟨r, ?_, hrS, fun a b ha hb => ?_⟩
  · unfold MathMatrix.mul
    have hc : ¬ (M.nrows ≠ A.nrows) := by rw [hM.nrows, hA.nrows]; simp
    rw [if_neg hc, hM.nrows, MathMatrix.new_nat, ok_bind, hM.ncols]
    simpa using hr
  · rw [hrE a b hb, if_pos ha]

end Mul

section Elimination

/-- Invariant of the elimination: after `k` steps with nonzero pivots, every entry of the
original matrix is the product of the multipliers stored so far and the reduced rows. -/
theorem elimN_invariant (A : Nat → Nat → ℚ) (k : Nat) (hp : ∀ c, c < k → elimN A c c c ≠ 0)
    (i j : Nat) :
    A i j = (∑ m in Finset.range (min i k),
        if m ≤ j then elimN A k i m * elimN A k m j else 0)
      + (if min i k ≤ j then elimN A k i j else 0) := by
  induction k generalizing i j with
  | zero => simp [elimN]
  | succ k ih =>
    have ih' := ih (fun c hc => hp c (by omega))
    have hpk : elimN A k k k ≠ 0 := hp k (by omega)
    rw [ih' i j]
    show _ = (∑ m in Finset.range (min i (k + 1)),
        if m ≤ j then elimF (elimN A k) k i m * elimF (elimN A k) k m j else 0)
      + (if min i (k + 1) ≤ j then elimF (elimN A k) k i j else 0)
    generalize elimN A k = T at hpk ⊢
    by_cases hik : k < i
    · have e1 : min i k = k := by omega
      have e2 : min i (k + 1) = k + 1 := by omega
      rw [e1, e2, Finset.sum_range_succ]
      have hsum : (∑ m in Finset.range k, if m ≤ j then elimF T k i m * elimF T k m j else 0)
          = ∑ m in Finset.range k, if m ≤ j then T i m * T m j else 0 := by
        apply Finset.sum_congr rfl
        intro m hm
        have hm' : m < k := Finset.mem_range.mp hm
        have a1 : elimF T k i m = T i m := by
          unfold elimF
          rw [if_pos hik, if_neg (by omega), if_neg (by omega)]
        have a2 : elimF T k m j = T m j := by
          unfold elimF
          rw [if_neg (by omega)]
        rw [a1, a2]
      rw [hsum]
      have b1 : elimF T k i k = T i k / T k k := by
        unfold elimF
        rw [if_pos hik, if_pos rfl]
      have b2 : elimF T k k j = T k j := by
        unfold elimF
        rw [if_neg (by omega)]
      rw [b1, b2]
      rcases Nat.lt_trichotomy j k with hjk | hjk | hjk
      · rw [if_neg (by omega), if_neg (by omega), if_neg (by omega)]
        ring
      · subst hjk
        rw [if_pos (Nat.le_refl _), if_pos (Nat.le_refl _), if_neg (by omega)]
        field_simp
      · have b3 : elimF T k i j = T i j - T i k / T k k * T k j := by
          unfold elimF
          rw [if_pos hik, if_neg (by omega), if_pos hjk]
        rw [if_pos (by omega), if_pos (by omega), if_pos (by omega), b3]
        ring
    · have e1 : min i k = i := by omega
      have e2 : min i (k + 1) = i := by omega
      rw [e1, e2]
      have hsum : (∑ m in Finset.range i, if m ≤ j then elimF T k i m * elimF T k m j else 0)
          = ∑ m in Finset.range i, if m ≤ j then T i m * T m j else 0 := by
        apply Finset.sum_congr rfl
        intro m hm
        have hm' : m < i := Finset.mem_range.mp hm
        have a1 : elimF T k i m = T i m := by
          unfold elimF
          rw [if_neg hik]
        have a2 : elimF T k m j = T m j := by
          unfold elimF
          rw [if_neg (by omega)]
        rw [a1, a2]
      have a3 : elimF T k i j = T i j := by
        unfold elimF
        rw [if_neg hik]
      rw [hsum, a3]

/-- A sum over `range n` of a function that vanishes after `i` stops at `i`. -/
theorem sum_range_cut {n i : Nat} (hi : i < n) (f : Nat → ℚ) (hf : ∀ m, i < m → f m = 0) :
    ∑ m in Finset.range n, f m = (∑ m in Finset.range i, f m) + f i := by
  rw [← Finset.sum_range_succ]
  symm
  apply Finset.sum_subset
  · intro x hx
    rw [Finset.mem_range] at hx ⊢
    omega
  · intro x _ hx
    rw [Finset.mem_range] at hx
    exact hf x (by omega)

/-- The factors built from a fully eliminated matrix multiply back to the original matrix. -/
theorem mulF_lower_upper (A : Nat → Nat → ℚ) (n : Nat)
    (hp : ∀ c, c < n - 1 → elimN A c c c ≠ 0) (i j : Nat) (hi : i < n) :
    mulF n (lowerF (elimN A (n - 1))) (upperF (elimN A (n - 1))) i j = A i j := by
  have inv := elimN_invariant A (n - 1) hp i j
  have e1 : min i (n - 1) = i := by omega
  rw [e1] at inv
  rw [inv]
  unfold mulF
  rw [sum_range_cut hi]
  · congr 1
    · apply Finset.sum_congr rfl
      intro m hm
      have hm' : m < i := Finset.mem_range.mp hm
      unfold lowerF upperF
      rw [if_neg (by omega), if_pos hm']
      by_cases h : m ≤ j
      · rw [if_pos h, if_pos h]
      · rw [if_neg h, if_neg h, mul_zero]
    · unfold lowerF upperF
      rw [if_pos rfl, one_mul]
  · intro m hm
    unfold lowerF
    rw [if_neg (by omega), if_neg (by omega), zero_mul]

end Elimination

section LuFact

/-- A loop of `elimUpdate` subtracts `mult` times row `p` from row `r`, from column `lo` on. -/
theorem elimUpdate_loop {T : MathMatrix} {n p r lo : Nat} (hS : T.Sq n) (hr : r < n) (hp : p < n)
    (hrp : r ≠ p) (hlo : lo ≤ n) (mult : ℚ) :
    ∃ T', forUp lo n (elimUpdate (p : Int) (r : Int) mult) T = Except.ok T' ∧ T'.Sq n ∧
      ∀ a b, b < n → T'.E a b = if a = r ∧ lo ≤ b then T.E r b - mult * T.E p b else T.E a b := by
  have key := forUp_ok_inv (elimUpdate (p : Int) (r : Int) mult)
    (fun j T' => T'.Sq n ∧ ∀ a b, b < n →
      T'.E a b = if a = r ∧ lo ≤ b ∧ b < j then T.E r b - mult * T.E p b else T.E a b)
    T hlo
    ⟨hS, fun a b _ => by rw [if_neg]; omega⟩
    (by
      intro j t hlo' hhi ⟨htS, htE⟩
      refine ⟨t.upd r j (t.E r j - mult * t.E p j), ?_, htS.upd _ _ _, ?_⟩
      · simp only [elimUpdate, MathMatrix.get_nat htS hr hhi, MathMatrix.get_nat htS hp hhi,
          MathMatrix.set_nat htS hr hhi, ok_bind]
      · intro a b hb
        rw [MathMatrix.E_upd htS hr hhi _ hb]
        by_cases hab : a = r ∧ b = j
        · obtain ⟨rfl, rfl⟩ := hab
          have e1 : ¬ (a = a ∧ lo ≤ b ∧ b < b) := by omega
          have e2 : ¬ (p = a ∧ lo ≤ b ∧ b < b) := by omega
          rw [if_pos ⟨rfl, rfl⟩, if_pos ⟨rfl, by omega, by omega⟩, htE a b hhi, htE p b hhi,
            if_neg e1, if_neg e2]
        · rw [if_neg hab, htE a b hb]
          by_cases h1 : a = r ∧ lo ≤ b ∧ b < j
          · rw [if_pos h1, if_pos ⟨h1.1, h1.2.1, by omega⟩]
          · rw [if_neg h1, if_neg]
            intro h2
            have : b ≠ j := fun e => hab ⟨h2.1, e⟩
            exact h1 ⟨h2.1, h2.2.1, by omega⟩)
  obtain ⟨r', hr', hrS, hrE⟩ := key
  refine ⟨r', hr', hrS, fun a b hb => ?_⟩
  rw [hrE a b hb]
  by_cases h1 : a = r ∧ lo ≤ b
  · rw [if_pos h1, if_pos ⟨h1.1, h1.2, hb⟩]
  · rw [if_neg h1, if_neg (fun h2 => h1 ⟨h2.1, h2.2.1⟩)]

/-- The body of the loop over `i` of `lu_fact` stops at a zero pivot. -/
theorem lu_fact.row_zero {T : MathMatrix} {n k : Nat} (hS : T.Sq n) (hk : k < n)
    (h0 : T.E k k = 0) (i : Nat) : lu_fact.row n k i T = Except.error Err.pivotZero := by
  simp only [lu_fact.row, MathMatrix.get_nat hS hk hk, ok_bind, h0, if_true, throw_eq_error]

/-- The body of the loop over `i` of `lu_fact` eliminates row `i` when the pivot is not zero. -/
theorem lu_fact.row_ok {T : MathMatrix} {n k i : Nat} (hS : T.Sq n) (hi : i < n) (hki : k < i)
    (h0 : T.E k k ≠ 0) :
    ∃ T', lu_fact.row n k i T = Except.ok T' ∧ T'.Sq n ∧
      ∀ a b, b < n → T'.E a b = if a = i then elimF T.E k a b else T.E a b := by
  have hk : k < n := by omega
  obtain ⟨r, hr, hrS, hrE⟩ := elimUpdate_loop (hS.upd i k (T.E i k / T.E k k)) hi hk
    (show i ≠ k by omega) (show k + 1 ≤ n by omega) (T.E i k / T.E k k)
  refine ⟨r, ?_, hrS, ?_⟩
  · simp only [lu_fact.row, MathMatrix.get_nat hS hk hk, MathMatrix.get_nat hS hi hk, ok_bind, h0,
      if_false, fdiv, pure_eq_ok, MathMatrix.set_nat hS hi hk, hr]
  · intro a b hb
    rw [hrE a b hb]
    by_cases hai : a = i
    · subst hai
      rw [if_pos rfl]
      unfold elimF
      rw [if_pos hki]
      by_cases hbk : b = k
      · subst hbk
        rw [if_neg (by omega), if_pos rfl, MathMatrix.E_upd hS hi hk _ hk, if_pos ⟨rfl, rfl⟩]
      · rw [if_neg hbk]
        by_cases hkb : k < b
        · rw [if_pos ⟨rfl, hkb⟩, if_pos hkb, MathMatrix.E_upd hS hi hk _ hb,
            MathMatrix.E_upd hS hi hk _ hb, if_neg (fun h => hbk h.2), if_neg (fun h => hbk h.2)]
        · rw [if_neg (fun h => hkb (by omega)), if_neg hkb, MathMatrix.E_upd hS hi hk _ hb,
            if_neg (fun h => hbk h.2)]
    · rw [if_neg (fun h => hai h.1), if_neg hai, MathMatrix.E_upd hS hi hk _ hb,
        if_neg (fun h => hai h.1)]

/-- Step `k` of `lu_fact` stops at a zero pivot. -/
theorem lu_fact.step_zero {T : MathMatrix} {n k : Nat} (hS : T.Sq n) (hk : k + 1 < n)
    (h0 : T.E k k = 0) : lu_fact.step n k T = Except.error Err.pivotZero := by
  unfold lu_fact.step forUp
  have e : n - (k + 1) = (n - (k + 1) - 1) + 1 := by omega
  rw [e, forCount_succ, lu_fact.row_zero hS (by omega) h0]
  rfl

/-- Step `k` of `lu_fact` with a nonzero pivot eliminates every row below row `k`. -/
theorem lu_fact.step_ok {T : MathMatrix} {n k : Nat} (hS : T.Sq n) (hk : k < n)
    (h0 : T.E k k ≠ 0) :
    ∃ T', lu_fact.step n k T = Except.ok T' ∧ T'.Sq n ∧
      ∀ a b, a < n → b < n → T'.E a b = elimF T.E k a b := by
  have key := forUp_ok_inv (lu_fact.row n k)
    (fun i T' => T'.Sq n ∧ ∀ a b, b < n →
      T'.E a b = if k < a ∧ a < i then elimF T.E k a b else T.E a b)
    T (show k + 1 ≤ n by omega)
    ⟨hS, fun a b _ => by rw [if_neg]; omega⟩
    (by
      intro i t hlo hhi ⟨htS, htE⟩
      have hkk : t.E k k = T.E k k := by rw [htE k k hk, if_neg (by omega)]
      obtain ⟨r, hr, hrS, hrE⟩ := lu_fact.row_ok htS hhi (show k < i by omega) (by rw [hkk]; exact h0)
      refine ⟨r, hr, hrS, fun a b hb => ?_⟩
      rw [hrE a b hb]
      by_cases hai : a = i
      · subst hai
        rw [if_pos rfl, if_pos ⟨by omega, by omega⟩]
        have e1 : ¬ (k < a ∧ a < a) := by omega
        have e2 : ¬ (k < k ∧ k < a) := by omega
        have h1 : t.E a k = T.E a k := by rw [htE a k hk, if_neg e1]
        have h2 : t.E a b = T.E a b := by rw [htE a b hb, if_neg e1]
        have h3 : t.E k b = T.E k b := by rw [htE k b hb, if_neg e2]
        unfold elimF
        rw [h1, h2, h3, hkk]
      · rw [if_neg hai, htE a b hb]
        by_cases h1 : k < a ∧ a < i
        · rw [if_pos h1, if_pos ⟨h1.1, by omega⟩]
        · rw [if_neg h1, if_neg (fun h2 => h1 ⟨h2.1, by omega⟩)])
  obtain ⟨r, hr, hrS, hrE⟩ := key
  refine ⟨r, hr, hrS, fun a b ha hb => ?_⟩
  rw [hrE a b hb]
  by_cases h1 : k < a
  · rw [if_pos ⟨h1, ha⟩]
  · rw [if_neg (fun h2 => h1 h2.1)]
    unfold elimF
    rw [if_neg h1]

/-- A loop of `lu_fact.copy` copies the entries of row `i` in the columns `lo .. hi-1`. -/
theorem lu_fact.copy_loop {T M : MathMatrix} {n i lo hi : Nat} (hT : T.Sq n) (hM : M.Sq n)
    (hi' : i < n) (hlo : lo ≤ hi) (hhi : hi ≤ n) :
    ∃ M', forUp lo hi (lu_fact.copy T i) M = Except.ok M' ∧ M'.Sq n ∧
      ∀ a b, b < n → M'.E a b = if a = i ∧ lo ≤ b ∧ b < hi then T.E a b else M.E a b := by
  have key := forUp_ok_inv (lu_fact.copy T i)
    (fun j M' => M'.Sq n ∧ ∀ a b, b < n →
      M'.E a b = if a = i ∧ lo ≤ b ∧ b < j then T.E a b else M.E a b)
    M hlo ⟨hM, fun a b _ => by rw [if_neg]; omega⟩
    (by
      intro j t hj1 hj2 ⟨htS, htE⟩
      have hj : j < n := by omega
      refine ⟨t.upd i j (T.E i j), ?_, htS.upd _ _ _, fun a b hb => ?_⟩
      · simp only [lu_fact.copy, MathMatrix.get_nat hT hi' hj, MathMatrix.set_nat htS hi' hj,
          ok_bind]
      · rw [MathMatrix.E_upd htS hi' hj _ hb]
        by_cases h : a = i ∧ b = j
        · obtain ⟨rfl, rfl⟩ := h
          rw [if_pos ⟨rfl, rfl⟩, if_pos ⟨rfl, hj1, by omega⟩]
        · rw [if_neg h, htE a b hb]
          by_cases h1 : a = i ∧ lo ≤ b ∧ b < j
          · rw [if_pos h1, if_pos ⟨h1.1, h1.2.1, by omega⟩]
          · rw [if_neg h1, if_neg]
            intro h2
            have : b ≠ j := fun e => h ⟨h2.1, e⟩
            exact h1 ⟨h2.1, h2.2.1, by omega⟩)
  exact key

/-- The loops at the end of `lu_fact` build `l` and `u` from the eliminated matrix. -/
theorem lu_fact.build {T : MathMatrix} {n : Nat} (hT : T.Sq n) :
    ∃ L U, (do
        let l ← forUp 0 n (fun i l => l.set i i 1) (MathMatrix.zero n)
        let l ← forUp 1 n (fun i l => forUp 0 i (lu_fact.copy T i) l) l
        let u ← forUp 0 n (fun i u => forUp i n (lu_fact.copy T i) u) (MathMatrix.zero n)
        pure (l, u) : Res (MathMatrix × MathMatrix)) = Except.ok (L, U) ∧
      L.Sq n ∧ U.Sq n ∧
      (∀ a b, a < n → b < n → L.E a b = lowerF T.E a b) ∧
      (∀ a b, a < n → b < n → U.E a b = upperF T.E a b) := by
  obtain ⟨l1, hl1, hl1S, hl1E⟩ := forUp_ok_inv (fun i (l : MathMatrix) => l.set i i 1)
    (fun ii M' => M'.Sq n ∧ ∀ a b, b < n → M'.E a b = if a = b ∧ a < ii then 1 else 0)
    (MathMatrix.zero n) (Nat.zero_le n)
    ⟨MathMatrix.zero_sq n, fun a b _ => by rw [if_neg (by omega), MathMatrix.E_zero]⟩
    (by
      intro i t _ hi ⟨htS, htE⟩
      refine ⟨t.upd i i 1, MathMatrix.set_nat htS hi hi 1, htS.upd _ _ _, fun a b hb => ?_⟩
      rw [MathMatrix.E_upd htS hi hi _ hb]
      by_cases h : a = i ∧ b = i
      · obtain ⟨rfl, rfl⟩ := h
        rw [if_pos ⟨rfl, rfl⟩, if_pos ⟨rfl, by omega⟩]
      · rw [if_neg h, htE a b hb]
        by_cases h1 : a = b ∧ a < i
        · rw [if_pos h1, if_pos ⟨h1.1, by omega⟩]
        · rw [if_neg h1, if_neg]
          intro h2
          have : a ≠ i := fun e => h ⟨e, by omega⟩
          exact h1 ⟨h2.1, by omega⟩)
  have key2 : ∃ l2, forUp 1 n (fun i l => forUp 0 i (lu_fact.copy T i) l) l1 = Except.ok l2 ∧
      l2.Sq n ∧ ∀ a b, b < n → l2.E a b = if b < a ∧ a < n then T.E a b else l1.E a b := by
    by_cases hn : 1 ≤ n
    · obtain ⟨l2, hl2, hl2S, hl2E⟩ := forUp_ok_inv
        (fun i l => forUp 0 i (lu_fact.copy T i) l)
        (fun ii M' => M'.Sq n ∧ ∀ a b, b < n →
          M'.E a b = if b < a ∧ a < ii then T.E a b else l1.E a b)
        l1 hn ⟨hl1S, fun a b _ => by rw [if_neg]; omega⟩
        (by
          intro i t _ hi ⟨htS, htE⟩
          obtain ⟨r, hr, hrS, hrE⟩ := lu_fact.copy_loop hT htS hi (Nat.zero_le i) (by omega)
          refine ⟨r, hr, hrS, fun a b hb => ?_⟩
          rw [hrE a b hb]
          by_cases h : a = i ∧ 0 ≤ b ∧ b < i
          · rw [if_pos h, if_pos ⟨by omega, by omega⟩]
          · rw [if_neg h, htE a b hb]
            by_cases h1 : b < a ∧ a < i
            · rw [if_pos h1, if_pos ⟨h1.1, by omega⟩]
            · rw [if_neg h1, if_neg]
              intro h2
              by_cases e : a = i
              · exact h ⟨e, Nat.zero_le _, by omega⟩
              · exact h1 ⟨h2.1, by omega⟩)
      exact ⟨l2, hl2, hl2S, hl2E⟩
    · have h0 : n = 0 := by omega
      subst h0
      exact ⟨l1, forUp_of_le (by omega) _ _, hl1S, fun a b hb => by omega⟩
  obtain ⟨l2, hl2, hl2S, hl2E⟩ := key2
  obtain ⟨u1, hu1, hu1S, hu1E⟩ := forUp_ok_inv
    (fun i u => forUp i n (lu_fact.copy T i) u)
    (fun ii M' => M'.Sq n ∧ ∀ a b, b < n → M'.E a b = if a ≤ b ∧ a < ii then T.E a b else 0)
    (MathMatrix.zero n) (Nat.zero_le n)
    ⟨MathMatrix.zero_sq n, fun a b _ => by rw [if_neg (by omega), MathMatrix.E_zero]⟩
    (by
      intro i t _ hi ⟨htS, htE⟩
      obtain ⟨r, hr, hrS, hrE⟩ := lu_fact.copy_loop hT htS hi (show i ≤ n by omega) (Nat.le_refl n)
      refine ⟨r, hr, hrS, fun a b hb => ?_⟩
      rw [hrE a b hb]
      by_cases h : a = i ∧ i ≤ b ∧ b < n
      · rw [if_pos h, if_pos ⟨by omega, by omega⟩]
      · rw [if_neg h, htE a b hb]
        by_cases h1 : a ≤ b ∧ a < i
        · rw [if_pos h1, if_pos ⟨h1.1, by omega⟩]
        · rw [if_neg h1, if_neg]
          intro h2
          by_cases e : a = i
          · exact h ⟨e, by omega, hb⟩
          · exact h1 ⟨h2.1, by omega⟩)
  refine ⟨l2, u1, ?_, hl2S, hu1S, fun a b ha hb => ?_, fun a b ha hb => ?_⟩
  · rw [hl1, ok_bind, hl2, ok_bind, hu1, ok_bind]; rfl
  · rw [hl2E a b hb, hl1E a b hb]
    unfold lowerF
    by_cases h : a = b
    · rw [if_neg (by omega), if_pos ⟨h, ha⟩, if_pos h]
    · rw [if_neg h]
      by_cases h1 : b < a
      · rw [if_pos ⟨h1, ha⟩, if_pos h1]
      · rw [if_neg (fun h2 => h1 h2.1), if_neg (fun h2 => h h2.1), if_neg h1]
  · rw [hu1E a b hb]
    unfold upperF
    by_cases h : a ≤ b
    · rw [if_pos ⟨h, ha⟩, if_pos h]
    · rw [if_neg (fun h2 => h h2.1), if_neg h]

/-- The result of `lu_fact` on a well-formed matrix, from the result of its elimination loop. -/
theorem lu_fact_of_eliminate {A T : MathMatrix} {n : Nat}
    (hT : T.Sq n) (he : lu_fact.eliminate n (n - 1) A = Except.ok T) :
    ∃ L U, lu_fact A (n : Int) = Except.ok (L, U) ∧ L.Sq n ∧ U.Sq n ∧
      (∀ a b, a < n → b < n → L.E a b = lowerF T.E a b) ∧
      (∀ a b, a < n → b < n → U.E a b = upperF T.E a b) := by
  obtain ⟨L, U, h, hL, hU, hLE, hUE⟩ := lu_fact.build hT
  refine ⟨L, U, ?_, hL, hU, hLE, hUE⟩
  unfold lu_fact
  simp only [MathMatrix.new_nat, ok_bind, Int.toNat_ofNat, he]
  exact h

/-- An abnormal end of the elimination loop is the result of `lu_fact`. -/
theorem lu_fact_of_eliminate_error {A : MathMatrix} {n : Nat} {e : Err}
    (he : lu_fact.eliminate n (n - 1) A = Except.error e) :
    lu_fact A (n : Int) = Except.error e := by
  unfold lu_fact
  simp only [MathMatrix.new_nat, ok_bind, Int.toNat_ofNat, he, error_bind]

theorem elimF_congr {T T' : Nat → Nat → ℚ} {n k : Nat} (h : ∀ a b, a < n → b < n → T a b = T' a b)
    (hk : k < n) {a b : Nat} (ha : a < n) (hb : b < n) : elimF T k a b = elimF T' k a b := by
  unfold elimF
  rw [h a k ha hk, h k k hk hk, h a b ha hb, h k b hk hb]

theorem lowerF_congr {T T' : Nat → Nat → ℚ} {n : Nat} (h : ∀ a b, a < n → b < n → T a b = T' a b)
    {a b : Nat} (ha : a < n) (hb : b < n) : lowerF T a b = lowerF T' a b := by
  unfold lowerF
  rw [h a b ha hb]

theorem upperF_congr {T T' : Nat → Nat → ℚ} {n : Nat} (h : ∀ a b, a < n → b < n → T a b = T' a b)
    {a b : Nat} (ha : a < n) (hb : b < n) : upperF T a b = upperF T' a b := by
  unfold upperF
  rw [h a b ha hb]

theorem mulF_congr {A A' B B' : Nat → Nat → ℚ} {n : Nat}
    (hA : ∀ a b, a < n → b < n → A a b = A' a b) (hB : ∀ a b, a < n → b < n → B a b = B' a b)
    {a b : Nat} (ha : a < n) (hb : b < n) : mulF n A B a b = mulF n A' B' a b := by
  unfold mulF
  apply Finset.sum_congr rfl
  intro k hk
  have hk' : k < n := Finset.mem_range.mp hk
  rw [hA a k ha hk', hB k b hk' hb]

theorem lu_fact.eliminate_succ (n k : Nat) (A : MathMatrix) :
    lu_fact.eliminate n (k + 1) A = lu_fact.eliminate n k A >>= lu_fact.step n k :=
  forUp_succ_last (Nat.zero_le k) _ _

/-- With nonzero pivots the elimination loop of `lu_fact` computes `elimN`. -/
theorem lu_fact.eliminate_ok {A : MathMatrix} {n : Nat} (hA : A.Sq n) :
    ∀ steps, steps ≤ n - 1 → (∀ c, c < steps → elimN A.E c c c ≠ 0) →
      ∃ T, lu_fact.eliminate n steps A = Except.ok T ∧ T.Sq n ∧
        ∀ a b, a < n → b < n → T.E a b = elimN A.E steps a b := by
  intro steps
  induction steps with
  | zero => intro _ _; exact ⟨A, rfl, hA, fun _ _ _ _ => rfl⟩
  | succ k ih =>
    intro hk hp
    obtain ⟨T, hT, hTS, hTE⟩ := ih (by omega) (fun c hc => hp c (by omega))
    have hkn : k < n := by omega
    have hpk : T.E k k ≠ 0 := by rw [hTE k k hkn hkn]; exact hp k (by omega)
    obtain ⟨T', hT', hTS', hTE'⟩ := lu_fact.step_ok hTS hkn hpk
    refine ⟨T', ?_, hTS', fun a b ha hb => ?_⟩
    · rw [lu_fact.eliminate_succ, hT, ok_bind, hT']
    · rw [hTE' a b ha hb]
      exact elimF_congr hTE hkn ha hb

/-- The elimination loop of `lu_fact` stops at the first zero pivot. -/
theorem lu_fact.eliminate_zero {A : MathMatrix} {n c : Nat} (hA : A.Sq n)
    (hp : ∀ d, d < c → elimN A.E d d d ≠ 0) (h0 : elimN A.E c c c = 0) :
    ∀ steps, c < steps → steps ≤ n - 1 →
      lu_fact.eliminate n steps A = Except.error Err.pivotZero := by
  intro steps
  induction steps with
  | zero => intro h; omega
  | succ k ih =>
    intro hck hk
    rw [lu_fact.eliminate_succ]
    by_cases hc : c < k
    · rw [ih hc (by omega)]; rfl
    · have e : c = k := by omega
      subst e
      obtain ⟨T, hT, hTS, hTE⟩ := lu_fact.eliminate_ok hA c (by omega) hp
      have hcn : c < n := by omega
      rw [hT, ok_bind]
      exact lu_fact.step_zero hTS (by omega) (by rw [hTE c c hcn hcn]; exact h0)

/-- The first zero pivot, when there is one. -/
theorem exists_first_zero (f : Nat → ℚ) (steps : Nat) (h : ∃ c, c < steps ∧ f c = 0) :
    ∃ c, c < steps ∧ f c = 0 ∧ ∀ d, d < c → f d ≠ 0 := by
  classical
  refine ⟨Nat.find h, (Nat.find_spec h).1, (Nat.find_spec h).2, fun d hd hfd => ?_⟩
  exact Nat.find_min h hd ⟨by have := (Nat.find_spec h).1; omega, hfd⟩

/-- On a well-formed matrix the elimination loop of `lu_fact` either meets a zero pivot and
signals it, or computes `elimN`. -/
theorem lu_fact.eliminate_cases {A : MathMatrix} {n : Nat} (hA : A.Sq n) (steps : Nat)
    (hs : steps ≤ n - 1) :
    ((∃ c, c < steps ∧ elimN A.E c c c = 0) ∧
        lu_fact.eliminate n steps A = Except.error Err.pivotZero) ∨
    ((∀ c, c < steps → elimN A.E c c c ≠ 0) ∧
        ∃ T, lu_fact.eliminate n steps A = Except.ok T ∧ T.Sq n ∧
          ∀ a b, a < n → b < n → T.E a b = elimN A.E steps a b) := by
  by_cases h : ∃ c, c < steps ∧ elimN A.E c c c = 0
  · left
    obtain ⟨c, hc, h0, hp⟩ := exists_first_zero (fun c => elimN A.E c c c) steps h
    exact ⟨h, lu_fact.eliminate_zero hA hp h0 steps hc hs⟩
  · right
    have hp : ∀ c, c < steps → elimN A.E c c c ≠ 0 := fun c hc h0 => h ⟨c, hc, h0⟩
    exact ⟨hp, lu_fact.eliminate_ok hA steps hs hp⟩

/-- The complete description of `lu_fact` on a well-formed matrix. -/
theorem lu_fact_cases {A : MathMatrix} {n : Nat} (hA : A.Sq n) :
    ((∃ c, c < n - 1 ∧ elimN A.E c c c = 0) ∧
        lu_fact A (n : Int) = Except.error Err.pivotZero) ∨
    ((∀ c, c < n - 1 → elimN A.E c c c ≠ 0) ∧
        ∃ L U, lu_fact A (n : Int) = Except.ok (L, U) ∧ L.Sq n ∧ U.Sq n ∧
          (∀ a b, a < n → b < n → L.E a b = lowerF (elimN A.E (n - 1)) a b) ∧
          (∀ a b, a < n → b < n → U.E a b = upperF (elimN A.E (n - 1)) a b)) := by
  rcases lu_fact.eliminate_cases hA (n - 1) (Nat.le_refl _) with ⟨h0, he⟩ | ⟨hp, T, hT, hTS, hTE⟩
  · left; exact ⟨h0, lu_fact_of_eliminate_error he⟩
  · right
    obtain ⟨L, U, h, hL, hU, hLE, hUE⟩ := lu_fact_of_eliminate hTS hT
    refine ⟨hp, L, U, h, hL, hU, fun a b ha hb => ?_, fun a b ha hb => ?_⟩
    · rw [hLE a b ha hb]; exact lowerF_congr hTE ha hb
    · rw [hUE a b ha hb]; exact upperF_congr hTE ha hb

/-- The factors returned by `lu_fact` are well formed and their entries multiply back to the
entries of the matrix. -/
theorem lu_fact_mulF {A L U : MathMatrix} {n : Nat} (hA : A.Sq n)
    (h : lu_fact A (n : Int) = Except.ok (L, U)) :
    L.Sq n ∧ U.Sq n ∧ ∀ i j, i < n → j < n → mulF n L.E U.E i j = A.E i j := by
  rcases lu_fact_cases hA with ⟨_, he⟩ | ⟨hp, L', U', h', hL, hU, hLE, hUE⟩
  · rw [he] at h; cases h
  · rw [h'] at h
    cases h
    refine ⟨hL, hU, fun i j hi hj => ?_⟩
    rw [mulF_congr hLE hUE hi hj]
    exact mulF_lower_upper A.E n hp i j hi

/-- The product of the factors returned by `lu_fact` is the matrix. -/
theorem lu_fact_mul_eq {A L U : MathMatrix} {n : Nat} (hA : A.Sq n)
    (h : lu_fact A (n : Int) = Except.ok (L, U)) : L.mul U = Except.ok A := by
  obtain ⟨hL, hU, hE⟩ := lu_fact_mulF hA h
  obtain ⟨R, hR, hRS, hRE⟩ := MathMatrix.mul_spec hL hU
  rw [hR]
  congr 1
  apply MathMatrix.ext_E hRS hA
  intro i j hi hj
  rw [hRE i j hi hj, hE i j hi hj]

end LuFact

section Solve

/-- The product of a well-formed matrix and a vector of the same size. -/
theorem MathMatrix.mulVec_spec {M : MathMatrix} {v : Vector} {n : Nat} (hM : M.Sq n)
    (hv : v.pdata.length = n) :
    ∃ r, M.mulVec v = Except.ok r ∧ r.pdata.length = n ∧
      ∀ a, a < n → r.E a = mulVecF n M.E v.E a := by
  have inner : ∀ (t : Vector) (i : Nat), t.pdata.length = n → i < n →
      ∃ r, forUp 0 n (M.mulVecStep v i) t = Except.ok r ∧ r.pdata.length = n ∧
        ∀ a, r.E a = if a = i then t.E a + mulVecF n M.E v.E a else t.E a := by
    intro t i ht hi
    have key := forUp_ok_inv (M.mulVecStep v i)
      (fun jj r => r.pdata.length = n ∧
        ∀ a, r.E a = if a = i then t.E a + ∑ j in Finset.range jj, M.E a j * v.E j else t.E a)
      t (Nat.zero_le n)
      ⟨ht, fun a => by by_cases h : a = i <;> simp [h]⟩
      (by
        intro j r _ hj ⟨hrl, hrE⟩
        refine ⟨r.upd i (r.E i + M.E i j * v.E j), ?_, by simp [hrl], fun a => ?_⟩
        · simp only [MathMatrix.mulVecStep, Vector.get_of_lt (show i < r.pdata.length by omega),
            MathMatrix.get_nat hM hi hj, Vector.get_of_lt (show j < v.pdata.length by omega),
            Vector.set_of_lt (show i < r.pdata.length by omega), ok_bind]
        · rw [Vector.E_upd_eq r (by omega)]
          by_cases h : a = i
          · subst h
            rw [if_pos rfl, if_pos rfl, hrE a, if_pos rfl, Finset.sum_range_succ]
            ring
          · rw [if_neg h, if_neg h, hrE a, if_neg h])
    exact key
  have key := forUp_ok_inv (fun i res => forUp 0 n (M.mulVecStep v i) res)
    (fun ii r => r.pdata.length = n ∧ ∀ a, r.E a = if a < ii then mulVecF n M.E v.E a else 0)
    (Vector.mk (List.replicate n 0)) (Nat.zero_le n)
    ⟨by simp, fun a => by rw [if_neg (by omega), Vector.E_replicate]⟩
    (by
      intro i t _ hi ⟨htl, htE⟩
      obtain ⟨r, hr, hrl, hrE⟩ := inner t i htl hi
      refine ⟨r, hr, hrl, fun a => ?_⟩
      rw [hrE a, htE a]
      by_cases h : a = i
      · subst h
        rw [if_pos rfl, if_neg (by omega), if_pos (by omega), zero_add]
      · rw [if_neg h]
        by_cases h1 : a < i
        · rw [if_pos h1, if_pos (by omega)]
        · rw [if_neg h1, if_neg (by omega)])
  obtain ⟨r, hr, hrl, hrE⟩ := key
  refine ⟨r, ?_, hrl, fun a ha => by rw [hrE a, if_pos ha]⟩
  unfold MathMatrix.mulVec Vector.size
  have hc : ¬ (M.nrows ≠ (v.pdata.length : Int)) := by rw [hM.nrows, hv]; simp
  rw [if_neg hc, hM.nrows, Vector.Init_nat, ok_bind, hM.ncols]
  simpa using hr

/-- The statement `temp[i] -= m(i, j) * temp[j]` on a well-formed matrix and vector. -/
theorem subst_update_eq {m : MathMatrix} {t : Vector} {n i j : Nat} (hm : m.Sq n)
    (ht : t.pdata.length = n) (hi : i < n) (hj : j < n) :
    subst.update m i j t = Except.ok (t.upd i (t.E i - m.E i j * t.E j)) := by
  simp only [subst.update, Vector.get_of_lt (show i < t.pdata.length by omega),
    MathMatrix.get_nat hm hi hj, Vector.get_of_lt (show j < t.pdata.length by omega),
    Vector.set_of_lt (show i < t.pdata.length by omega), ok_bind]

/-- A loop of `subst.update` over the columns `lo .. hi-1`, none of which is `i`, subtracts
from `temp[i]` the products of row `i` of `m` and `temp`. -/
theorem subst_update_loop {m : MathMatrix} {t : Vector} {n i lo hi : Nat} (hm : m.Sq n)
    (ht : t.pdata.length = n) (hi' : i < n) (hlo : lo ≤ hi) (hhi : hi ≤ n)
    (hne : ∀ j, lo ≤ j → j < hi → j ≠ i) :
    ∃ r, forUp lo hi (subst.update m i) t = Except.ok r ∧ r.pdata.length = n ∧
      ∀ a, r.E a = if a = i then t.E i - ∑ j in Finset.Ico lo hi, m.E i j * t.E j else t.E a := by
  have key := forUp_ok_inv (subst.update m i)
    (fun jj r => r.pdata.length = n ∧
      ∀ a, r.E a = if a = i then t.E i - ∑ j in Finset.Ico lo jj, m.E i j * t.E j else t.E a)
    t hlo
    ⟨ht, fun a => by by_cases h : a = i <;> simp [h]⟩
    (by
      intro j r hj1 hj2 ⟨hrl, hrE⟩
      have hj : j < n := by omega
      refine ⟨_, subst_update_eq hm hrl hi' hj, by simp [hrl], fun a => ?_⟩
      rw [Vector.E_upd_eq r (by omega)]
      by_cases h : a = i
      · subst h
        rw [if_pos rfl, if_pos rfl, hrE a, if_pos rfl, hrE j, if_neg (hne j hj1 hj2),
          Finset.sum_Ico_succ_top hj1]
        ring
      · rw [if_neg h, if_neg h, hrE a, if_neg h])
  exact key

/-- Forward substitution solves `L y = b` for the part of `L` below its diagonal. -/
theorem subst_forward_spec {l : MathMatrix} {b : Vector} {n : Nat} (hl : l.Sq n)
    (hb : b.pdata.length = n) :
    ∃ y, subst.forward l n b = Except.ok y ∧ y.pdata.length = n ∧
      ∀ a, a < n → y.E a + ∑ j in Finset.range a, l.E a j * y.E j = b.E a := by
  by_cases hn : 1 ≤ n
  · have key := forUp_ok_inv (fun i temp => forUp 0 i (subst.update l i) temp)
      (fun ii y => y.pdata.length = n ∧ (∀ a, ii ≤ a → y.E a = b.E a) ∧
        ∀ a, a < ii → y.E a + ∑ j in Finset.range a, l.E a j * y.E j = b.E a)
      b hn
      ⟨hb, fun _ _ => rfl, fun a ha => by
        have : a = 0 := by omega
        subst this; simp⟩
      (by
        intro i t _ hi ⟨htl, htE, htS⟩
        obtain ⟨r, hr, hrl, hrE⟩ := subst_update_loop hl htl hi (Nat.zero_le i) (by omega)
          (fun j _ h => by omega)
        refine ⟨r, hr, hrl, fun a ha => ?_, fun a ha => ?_⟩
        · rw [hrE a, if_neg (by omega)]; exact htE a (by omega)
        · have hsum : ∑ j in Finset.range a, l.E a j * r.E j
              = ∑ j in Finset.range a, l.E a j * t.E j := by
            apply Finset.sum_congr rfl
            intro j hj
            have : j < a := Finset.mem_range.mp hj
            rw [hrE j, if_neg (by omega)]
          rw [hsum, hrE a]
          by_cases h : a = i
          · subst h
            rw [if_pos rfl, htE a (Nat.le_refl _), Finset.range_eq_Ico]
            ring
          · rw [if_neg h]
            exact htS a (by omega))
    obtain ⟨y, hy, hyl, _, hyS⟩ := key
    exact ⟨y, hy, hyl, hyS⟩
  · have h0 : n = 0 := by omega
    subst h0
    exact ⟨b, forUp_of_le (by omega) _ _, hb, fun a ha => by omega⟩

/-- The body of the back substitution loop, when the diagonal entry is not zero. -/
theorem subst_backRow_ok {u : MathMatrix} {t : Vector} {n i : Nat} (hu : u.Sq n)
    (ht : t.pdata.length = n) (hi : i < n) (hd : u.E i i ≠ 0) :
    ∃ r, subst.backRow u n i t = Except.ok r ∧ r.pdata.length = n ∧
      ∀ a, r.E a = if a = i
        then (t.E i - ∑ j in Finset.Ico (i + 1) n, u.E i j * t.E j) / u.E i i else t.E a := by
  obtain ⟨r, hr, hrl, hrE⟩ := subst_update_loop hu ht hi (show i + 1 ≤ n by omega) (Nat.le_refl n)
    (fun j h _ => by omega)
  refine ⟨r.upd i (r.E i / u.E i i), ?_, by simp [hrl], fun a => ?_⟩
  · simp only [subst.backRow, hr, ok_bind, Vector.get_of_lt (show i < r.pdata.length by omega),
      MathMatrix.get_nat hu hi hi, fdiv, hd, if_false, pure_eq_ok,
      Vector.set_of_lt (show i < r.pdata.length by omega)]
  · rw [Vector.E_upd_eq r (by omega)]
    by_cases h : a = i
    · rw [if_pos h, if_pos h, hrE i, if_pos rfl]
    · rw [if_neg h, if_neg h, hrE a, if_neg h]

/-- The body of the back substitution loop divides by the diagonal entry without a test. -/
theorem subst_backRow_zero {u : MathMatrix} {t : Vector} {n i : Nat} (hu : u.Sq n)
    (ht : t.pdata.length = n) (hi : i < n) (hd : u.E i i = 0) :
    subst.backRow u n i t = Except.error Err.divByZero := by
  obtain ⟨r, hr, hrl, _⟩ := subst_update_loop hu ht hi (show i + 1 ≤ n by omega) (Nat.le_refl n)
    (fun j h _ => by omega)
  simp only [subst.backRow, hr, ok_bind, Vector.get_of_lt (show i < r.pdata.length by omega),
    MathMatrix.get_nat hu hi hi, fdiv, hd, if_true, throw_eq_error, error_bind]

/-- Back substitution solves `U x = y` for the part of `U` on and above its diagonal. -/
theorem subst_backward_spec {u : MathMatrix} {y : Vector} {n : Nat} (hu : u.Sq n)
    (hy : y.pdata.length = n) (hd : ∀ i, i < n → u.E i i ≠ 0) :
    ∃ x, subst.backward u n y = Except.ok x ∧ x.pdata.length = n ∧
      ∀ a, a < n → u.E a a * x.E a + ∑ j in Finset.Ico (a + 1) n, u.E a j * x.E j = y.E a := by
  have key := forDown_ok_inv (subst.backRow u n)
    (fun ii x => x.pdata.length = n ∧ (∀ a, a < ii → x.E a = y.E a) ∧
      ∀ a, ii ≤ a → a < n →
        u.E a a * x.E a + ∑ j in Finset.Ico (a + 1) n, u.E a j * x.E j = y.E a)
    n y ⟨hy, fun _ _ => rfl, fun a h1 h2 => by omega⟩
    (by
      intro i t hi ⟨htl, htE, htS⟩
      obtain ⟨r, hr, hrl, hrE⟩ := subst_backRow_ok hu htl hi (hd i hi)
      refine ⟨r, hr, hrl, fun a ha => ?_, fun a ha1 ha2 => ?_⟩
      · rw [hrE a, if_neg (by omega)]; exact htE a (by omega)
      · have hsum : ∑ j in Finset.Ico (a + 1) n, u.E a j * r.E j
            = ∑ j in Finset.Ico (a + 1) n, u.E a j * t.E j := by
          apply Finset.sum_congr rfl
          intro j hj
          have : a + 1 ≤ j := (Finset.mem_Ico.mp hj).1
          rw [hrE j, if_neg (by omega)]
        rw [hsum, hrE a]
        by_cases h : a = i
        · subst h
          rw [if_pos rfl, htE a (by omega)]
          have := hd a hi
          field_simp
        · rw [if_neg h]
          exact htS a (by omega) ha2)
  obtain ⟨x, hx, hxl, _, hxS⟩ := key
  exact ⟨x, hx, hxl, fun a ha => hxS a (Nat.zero_le a) ha⟩

/-- The product of an upper triangular matrix and a vector only uses the entries from the
diagonal on. -/
theorem mulVecF_upper {n a : Nat} (ha : a < n) (U : Nat → Nat → ℚ) (x : Nat → ℚ)
    (hU : ∀ j, j < a → U a j = 0) :
    mulVecF n U x a = U a a * x a + ∑ j in Finset.Ico (a + 1) n, U a j * x j := by
  unfold mulVecF
  rw [Finset.range_eq_Ico, ← Finset.sum_Ico_consecutive _ (Nat.zero_le a) (show a ≤ n by omega),
    Finset.sum_eq_sum_Ico_succ_bot ha]
  have hz : ∑ j in Finset.Ico 0 a, U a j * x j = 0 := by
    apply Finset.sum_eq_zero
    intro j hj
    rw [hU j (Finset.mem_Ico.mp hj).2, zero_mul]
  rw [hz, zero_add]

/-- The product of a unit lower triangular matrix and a vector only uses the entries up to the
diagonal. -/
theorem mulVecF_lower {n a : Nat} (ha : a < n) (L : Nat → Nat → ℚ) (y : Nat → ℚ)
    (hd : L a a = 1) (hL : ∀ j, a < j → j < n → L a j = 0) :
    mulVecF n L y a = y a + ∑ j in Finset.range a, L a j * y j := by
  unfold mulVecF
  have hcut : ∑ j in Finset.range n, L a j * y j
      = ∑ j in Finset.range n, (if j ≤ a then L a j * y j else 0) := by
    apply Finset.sum_congr rfl
    intro j hj
    have hjn : j < n := Finset.mem_range.mp hj
    by_cases h : j ≤ a
    · rw [if_pos h]
    · rw [if_neg h, hL j (by omega) hjn, zero_mul]
  rw [hcut, sum_range_cut ha _ (fun m hm => by rw [if_neg (by omega)]), if_pos (Nat.le_refl a), hd,
    one_mul, add_comm]
  congr 1
  apply Finset.sum_congr rfl
  intro j hj
  have : j < a := Finset.mem_range.mp hj
  rw [if_pos (by omega)]

/-- Multiplying by a product of matrices is multiplying twice. -/
theorem mulVecF_mulF (n : Nat) (L U : Nat → Nat → ℚ) (x : Nat → ℚ) (a : Nat) :
    mulVecF n (mulF n L U) x a = mulVecF n L (mulVecF n U x) a := by
  unfold mulVecF mulF
  simp only [Finset.sum_mul, Finset.mul_sum]
  rw [Finset.sum_comm]
  apply Finset.sum_congr rfl
  intro k _
  apply Finset.sum_congr rfl
  intro j _
  ring

theorem mulVecF_congr {n : Nat} {M M' : Nat → Nat → ℚ} {v v' : Nat → ℚ}
    (hM : ∀ a b, a < n → b < n → M a b = M' a b) (hv : ∀ j, j < n → v j = v' j)
    {a : Nat} (ha : a < n) : mulVecF n M v a = mulVecF n M' v' a := by
  unfold mulVecF
  apply Finset.sum_congr rfl
  intro j hj
  have hj' : j < n := Finset.mem_range.mp hj
  rw [hM a j ha hj', hv j hj']

/-- On well-formed arguments whose `U` has a nonzero diagonal, `lu_solve` returns a vector `x`
that satisfies the two triangular systems. -/
theorem lu_solve_spec {l u : MathMatrix} {b : Vector} {n : Nat} (hl : l.Sq n) (hu : u.Sq n)
    (hb : b.pdata.length = n) (hd : ∀ i, i < n → u.E i i ≠ 0) :
    ∃ x y : Vector, lu_solve l u b (n : Int) = Except.ok x ∧ x.pdata.length = n ∧ y.pdata.length = n ∧
      (∀ a, a < n → y.E a + ∑ j in Finset.range a, l.E a j * y.E j = b.E a) ∧
      (∀ a, a < n → u.E a a * x.E a + ∑ j in Finset.Ico (a + 1) n, u.E a j * x.E j = y.E a) := by
  obtain ⟨y, hy, hyl, hyS⟩ := subst_forward_spec hl hb
  obtain ⟨x, hx, hxl, hxS⟩ := subst_backward_spec hu hyl hd
  refine ⟨x, y, ?_, hxl, hyl, hyS, hxS⟩
  unfold lu_solve
  simp only [Int.toNat_ofNat, hy, ok_bind, hx, pure_eq_ok]

/-- Back substitution stops with a division by zero at the last zero on the diagonal of `u`. -/
theorem subst_backward_zero {u : MathMatrix} {n i : Nat} (hu : u.Sq n) (h0 : u.E i i = 0) :
    ∀ hi (t : Vector), i < hi → hi ≤ n → t.pdata.length = n →
      forDown (subst.backRow u n) hi t = Except.error Err.divByZero := by
  intro hi
  induction hi with
  | zero => intro t h; omega
  | succ c ih =>
    intro t hic hcn ht
    show (subst.backRow u n c t >>= forDown (subst.backRow u n) c) = _
    by_cases hc : u.E c c = 0
    · rw [subst_backRow_zero hu ht (by omega) hc]; rfl
    · obtain ⟨r, hr, hrl, _⟩ := subst_backRow_ok hu ht (show c < n by omega) hc
      rw [hr, ok_bind]
      have hne : i ≠ c := fun e => hc (e ▸ h0)
      exact ih r (by omega) (by omega) hrl

end Solve

section Reorder

theorem toInt_natCast (m : Nat) : toInt ((m : Nat) : ℚ) = (m : Int) := by
  unfold toInt
  simp

theorem Vector.idx_of_val {v : Vector} {i m : Nat} (h : v.E i = ((m : Nat) : ℚ)) : v.idx i = m := by
  unfold Vector.idx
  rw [h, toInt_natCast]
  simp

/-- Reading position `i` of a pivot vector gives the row index stored there. -/
theorem IsPerm.get {pvt : Vector} {n i : Nat} (h : IsPerm pvt n) (hi : i < n) :
    pvt.get (i : Int) = Except.ok ((pvt.idx i : Nat) : ℚ) := by
  rw [Vector.get_of_lt (by rw [h.len]; exact hi), h.val i hi]

/-- The loop `for (k = 0; k < n; k++) pvt[k] = k` builds the identity permutation. -/
theorem reorder_pvt_init (n : Nat) :
    ∃ pvt, forUp 0 n (fun k (pvt : Vector) => pvt.set k k) ⟨List.replicate n 0⟩ = Except.ok pvt ∧
      IsPerm pvt n ∧ ∀ i, i < n → pvt.idx i = i := by
  obtain ⟨pvt, hp, hl, hE⟩ := forUp_ok_inv (fun k (pvt : Vector) => pvt.set k k)
    (fun kk pvt => pvt.pdata.length = n ∧ ∀ i, i < kk → pvt.E i = ((i : Nat) : ℚ))
    ⟨List.replicate n 0⟩ (Nat.zero_le n) ⟨by simp, fun i hi => by omega⟩
    (by
      intro k t _ hk ⟨hl, hE⟩
      refine ⟨t.upd k k, Vector.set_of_lt (by omega) _, by simp [hl], fun i hi => ?_⟩
      rw [Vector.E_upd_eq t (by omega)]
      by_cases h : i = k
      · rw [if_pos h, h]
      · rw [if_neg h]; exact hE i (by omega))
  have hidx : ∀ i, i < n → pvt.idx i = i := fun i hi => Vector.idx_of_val (hE i hi)
  refine ⟨pvt, hp, ⟨hl, fun i hi => ?_, fun i hi => ?_, fun i j hi hj h => ?_, fun r hr => ?_⟩, hidx⟩
  · rw [hidx i hi]; exact hE i hi
  · rw [hidx i hi]; exact hi
  · rw [hidx i hi, hidx j hj] at h; exact h
  · exact ⟨r, hr, hidx r hr⟩

/-- The loop of `reorder` that finds the scale of row `k`. -/
theorem reorder_scaleRow_spec {A : MathMatrix} {scale : Vector} {n k : Nat} (hA : A.Sq n)
    (hs : scale.pdata.length = n) (hk : k < n) :
    ∃ r, reorder.scaleRow n A k scale = Except.ok r ∧ r.pdata.length = n ∧
      (∀ i, i ≠ k → r.E i = scale.E i) ∧ 0 ≤ r.E k ∧ ∀ j, j < n → |A.E k j| ≤ r.E k := by
  have key := forUp_ok_inv (fun j (scale : Vector) => do
      let s ← scale.get k
      let t ← A.get k j
      if |s| < |t| then scale.set k |t| else pure scale)
    (fun jj r => r.pdata.length = n ∧ (∀ i, i ≠ k → r.E i = scale.E i) ∧ 0 ≤ r.E k ∧
      ∀ j, j < jj → |A.E k j| ≤ r.E k)
    (scale.upd k 0) (Nat.zero_le n)
    ⟨by simp [hs], fun i hi => by rw [Vector.E_upd_eq scale (by omega), if_neg hi],
      by rw [Vector.E_upd_eq scale (by omega), if_pos rfl], fun j hj => by omega⟩
    (by
      intro j t _ hj ⟨hl, hne, h0, hle⟩
      by_cases hc : |t.E k| < |A.E k j|
      · refine ⟨t.upd k |A.E k j|, ?_, by simp [hl], fun i hi => ?_, ?_, fun j' hj' => ?_⟩
        · simp only [Vector.get_of_lt (show k < t.pdata.length by omega),
            MathMatrix.get_nat hA hk hj, ok_bind, hc, if_true,
            Vector.set_of_lt (show k < t.pdata.length by omega)]
        · rw [Vector.E_upd_eq t (by omega), if_neg hi]; exact hne i hi
        · rw [Vector.E_upd_eq t (by omega), if_pos rfl]; exact abs_nonneg _
        · rw [Vector.E_upd_eq t (by omega), if_pos rfl]
          by_cases e : j' = j
          · rw [e]
          · have := hle j' (by omega)
            rw [abs_of_nonneg h0] at hc
            linarith
      · refine ⟨t, ?_, hl, hne, h0, fun j' hj' => ?_⟩
        · simp only [Vector.get_of_lt (show k < t.pdata.length by omega),
            MathMatrix.get_nat hA hk hj, ok_bind, hc, if_false, pure_eq_ok]
        · by_cases e : j' = j
          · rw [e]
            rw [abs_of_nonneg h0] at hc
            linarith
          · exact hle j' (by omega))
  obtain ⟨r, hr, hl, hne, h0, hle⟩ := key
  refine ⟨r, ?_, hl, hne, h0, hle⟩
  unfold reorder.scaleRow
  rw [Vector.set_of_lt (by omega), ok_bind]
  exact hr

/-- The initial part of `reorder` on a well-formed matrix: the identity permutation, the scale of
every row, and the zero matrix. -/
theorem reorder_init_spec {A : MathMatrix} {n : Nat} (hA : A.Sq n) :
    ∃ pvt scale, reorder.init A (n : Int) = Except.ok (pvt, scale, MathMatrix.zero n) ∧
      IsPerm pvt n ∧ (∀ i, i < n → pvt.idx i = i) ∧ scale.pdata.length = n ∧
      ∀ k j, k < n → j < n → |A.E k j| ≤ scale.E k := by
  obtain ⟨pvt, hp, hperm, hidx⟩ := reorder_pvt_init n
  obtain ⟨scale, hs, hl, hle⟩ := forUp_ok_inv (reorder.scaleRow n A)
    (fun kk r => r.pdata.length = n ∧ ∀ k j, k < kk → j < n → |A.E k j| ≤ r.E k)
    ⟨List.replicate n 0⟩ (Nat.zero_le n) ⟨by simp, fun k j hk => by omega⟩
    (by
      intro k t _ hk ⟨hl, hle⟩
      obtain ⟨r, hr, hrl, hne, _, hrle⟩ := reorder_scaleRow_spec hA hl hk
      refine ⟨r, hr, hrl, fun k' j hk' hj => ?_⟩
      by_cases e : k' = k
      · rw [e]; exact hrle j hj
      · rw [hne k' e]; exact hle k' j (by omega) hj)
  refine ⟨pvt, scale, ?_, hperm, hidx, hl, fun k j hk hj => hle k j hk hj⟩
  unfold reorder.init
  simp only [Vector.Init_nat, MathMatrix.new_nat, ok_bind, Int.toNat_ofNat, hp, hs, pure_eq_ok]

/-- Reading `temp(pvt[i], k)` through the pivot vector. -/
theorem reorder_get_row {T : MathMatrix} {pvt : Vector} {n i k : Nat} (hT : T.Sq n)
    (hp : IsPerm pvt n) (hi : i < n) (hk : k < n) :
    T.get (toInt ((pvt.idx i : Nat) : ℚ)) (k : Int) = Except.ok (T.E (pvt.idx i) k) := by
  rw [toInt_natCast, MathMatrix.get_nat hT (hp.lt i hi) hk]

/-- The body of the pivot search loop of `reorder`. -/
theorem reorder_scan_eq {T : MathMatrix} {pvt scale : Vector} {n i k : Nat} (hT : T.Sq n)
    (hp : IsPerm pvt n) (hs : scale.pdata.length = n) (hi : i < n) (hk : k < n)
    (b : reorder.Best) :
    reorder.scan T pvt scale k i b =
      Except.ok (if (fabsDiv (T.E (pvt.idx i) k) (scale.E (pvt.idx i))).gt b.aet
        then ⟨fabsDiv (T.E (pvt.idx i) k) (scale.E (pvt.idx i)), i⟩ else b) := by
  unfold reorder.scan
  simp only [hp.get hi, ok_bind, toInt_natCast, MathMatrix.get_nat hT (hp.lt i hi) hk,
    Vector.get_of_lt (show pvt.idx i < scale.pdata.length by rw [hs]; exact hp.lt i hi)]
  split <;> rfl

/-- The pivot search of `reorder` returns a candidate position and the value computed for it. -/
theorem reorder_findPivot_spec {T : MathMatrix} {pvt scale : Vector} {n k : Nat} (hT : T.Sq n)
    (hp : IsPerm pvt n) (hs : scale.pdata.length = n) (hk : k < n) :
    ∃ best, reorder.findPivot n T pvt scale k = Except.ok best ∧ k ≤ best.pc ∧ best.pc < n ∧
      ∃ s, s < n ∧ best.aet = fabsDiv (T.E (pvt.idx best.pc) k) (scale.E s) := by
  have key := forUp_ok_inv (reorder.scan T pvt scale k)
    (fun _ (b : reorder.Best) => k ≤ b.pc ∧ b.pc < n ∧
      ∃ s, s < n ∧ b.aet = fabsDiv (T.E (pvt.idx b.pc) k) (scale.E s))
    ⟨fabsDiv (T.E (pvt.idx k) k) (scale.E k), k⟩ (show k + 1 ≤ n by omega)
    ⟨Nat.le_refl k, hk, k, hk, rfl⟩
    (by
      intro i b hlo hhi ⟨h1, h2, h3⟩
      refine ⟨_, reorder_scan_eq hT hp hs hhi hk b, ?_⟩
      by_cases hc : (fabsDiv (T.E (pvt.idx i) k) (scale.E (pvt.idx i))).gt b.aet = true
      · rw [if_pos hc]
        exact ⟨by show k ≤ i; omega, hhi, pvt.idx i, hp.lt i hhi, rfl⟩
      · rw [if_neg hc]
        exact ⟨h1, h2, h3⟩)
  obtain ⟨best, hb, h1, h2, h3⟩ := key
  refine ⟨best, ?_, h1, h2, h3⟩
  unfold reorder.findPivot
  simp only [hp.get hk, ok_bind, toInt_natCast, MathMatrix.get_nat hT (hp.lt k hk) hk,
    Vector.get_of_lt (show k < scale.pdata.length by omega)]
  exact hb

/-- A vector whose elements are the row indices `f 0 .. f (n-1)`, where `f` exchanges two
positions of a permutation, holds a permutation. -/
theorem isPerm_of_exchange {pvt pvt' : Vector} {n k pc : Nat} (hp : IsPerm pvt n) (hk : k < n)
    (hpc : pc < n) (hl : pvt'.pdata.length = n)
    (hE : ∀ i, i < n → pvt'.E i =
      (((if i = k then pvt.idx pc else if i = pc then pvt.idx k else pvt.idx i : Nat)) : ℚ)) :
    IsPerm pvt' n ∧ ∀ i, i < n → pvt'.idx i =
      if i = k then pvt.idx pc else if i = pc then pvt.idx k else pvt.idx i := by
  have hidx : ∀ i, i < n → pvt'.idx i =
      if i = k then pvt.idx pc else if i = pc then pvt.idx k else pvt.idx i :=
    fun i hi => Vector.idx_of_val (hE i hi)
  have hτ : ∀ i, (if i = k then pvt.idx pc else if i = pc then pvt.idx k else pvt.idx i)
      = pvt.idx (if i = k then pc else if i = pc then k else i) := by
    intro i
    split_ifs <;> rfl
  have hτlt : ∀ i, i < n → (if i = k then pc else if i = pc then k else i) < n := by
    intro i hi
    split_ifs <;> assumption
  refine ⟨⟨hl, fun i hi => ?_, fun i hi => ?_, fun i j hi hj h => ?_, fun r hr => ?_⟩, hidx⟩
  · rw [hidx i hi]; exact hE i hi
  · rw [hidx i hi]
    split
    · exact hp.lt pc hpc
    · split
      · exact hp.lt k hk
      · exact hp.lt i hi
  · rw [hidx i hi, hidx j hj, hτ i, hτ j] at h
    have := hp.inj _ _ (hτlt i hi) (hτlt j hj) h
    split_ifs at this <;> omega
  · obtain ⟨i, hi, hir⟩ := hp.surj r hr
    by_cases hik : i = k
    · refine ⟨pc, hpc, ?_⟩
      rw [hidx pc hpc]
      by_cases e : pc = k
      · rw [if_pos e, ← hir, hik, e]
      · rw [if_neg e, if_pos rfl, ← hir, hik]
    · by_cases hipc : i = pc
      · refine ⟨k, hk, ?_⟩
        rw [hidx k hk, if_pos rfl, ← hir, hipc]
      · refine ⟨i, hi, ?_⟩
        rw [hidx i hi, if_neg hik, if_neg hipc, hir]

/-- The swap of `reorder` exchanges the positions `k` and `pc` of the permutation. -/
theorem reorder_swap_spec {pvt : Vector} {n k pc : Nat} (hp : IsPerm pvt n) (hk : k < n)
    (hpc : pc < n) :
    ∃ pvt', reorder.swap pvt k pc = Except.ok pvt' ∧ IsPerm pvt' n ∧
      ∀ i, i < n → pvt'.idx i =
        if i = k then pvt.idx pc else if i = pc then pvt.idx k else pvt.idx i := by
  by_cases hne : pc = k
  · subst hne
    refine ⟨pvt, by unfold reorder.swap; simp, hp, fun i hi => ?_⟩
    by_cases e : i = pc
    · rw [if_pos e, e]
    · rw [if_neg e, if_neg e]
  · have hlen := hp.len
    refine ⟨(pvt.upd k ((pvt.idx pc : Nat) : ℚ)).upd pc (((pvt.idx k : Nat) : Int) : ℚ), ?_, ?_⟩
    · unfold reorder.swap
      simp only [hne, ne_eq, not_false_eq_true, if_true, hp.get hk, hp.get hpc, ok_bind,
        toInt_natCast, Vector.set_of_lt (show k < pvt.pdata.length by omega)]
      rw [Vector.set_of_lt (by simp; omega)]
    · apply isPerm_of_exchange hp hk hpc (by simp [hlen])
      intro i hi
      rw [Vector.E_upd_eq _ (by simp; omega), Vector.E_upd_eq _ (by omega)]
      by_cases hipc : i = pc
      · rw [if_pos hipc]
        have : ¬ i = k := by omega
        rw [if_neg this, if_pos hipc]
        simp
      · rw [if_neg hipc]
        by_cases hik : i = k
        · rw [if_pos hik, if_pos hik]
        · rw [if_neg hik, if_neg hik, if_neg hipc]
          exact hp.val i hi

/-- The body of the elimination loop of `reorder` leaves a row with a zero in column `k`. -/
theorem reorder_row_skip {T : MathMatrix} {pvt : Vector} {n k i : Nat} (hT : T.Sq n)
    (hp : IsPerm pvt n) (hk : k < n) (hi : i < n) (pvtk : Int) (h0 : T.E (pvt.idx i) k = 0) :
    reorder.row n pvt k pvtk i T = Except.ok T := by
  unfold reorder.row
  simp only [hp.get hi, ok_bind, toInt_natCast, MathMatrix.get_nat hT (hp.lt i hi) hk, h0, ne_eq,
    not_true_eq_false, if_false, pure_eq_ok]

/-- The body of the elimination loop of `reorder` divides by the pivot without a test. -/
theorem reorder_row_fault {T : MathMatrix} {pvt : Vector} {n k i p : Nat} (hT : T.Sq n)
    (hp : IsPerm pvt n) (hk : k < n) (hi : i < n) (hpn : p < n) (h1 : T.E (pvt.idx i) k ≠ 0)
    (h0 : T.E p k = 0) :
    reorder.row n pvt k (p : Int) i T = Except.error Err.divByZero := by
  unfold reorder.row
  simp only [hp.get hi, ok_bind, toInt_natCast, MathMatrix.get_nat hT (hp.lt i hi) hk, h1, ne_eq,
    not_false_eq_true, if_true, MathMatrix.get_nat hT hpn hk, fdiv, h0, throw_eq_error, error_bind]

/-- The body of the elimination loop of `reorder` eliminates the row at position `i` when the
pivot is not zero. -/
theorem reorder_row_elim {T : MathMatrix} {pvt : Vector} {n k i p : Nat} (hT : T.Sq n)
    (hp : IsPerm pvt n) (hk : k < n) (hi : i < n) (hpn : p < n) (hne : pvt.idx i ≠ p)
    (h0 : T.E p k ≠ 0) :
    ∃ T', reorder.row n pvt k (p : Int) i T = Except.ok T' ∧ T'.Sq n ∧
      ∀ a b, b < n → T'.E a b = if a = pvt.idx i then elimRow T.E k p a b else T.E a b := by
  have hr := hp.lt i hi
  by_cases h1 : T.E (pvt.idx i) k = 0
  · refine ⟨T, reorder_row_skip hT hp hk hi _ h1, hT, fun a b hb => ?_⟩
    by_cases ha : a = pvt.idx i
    · rw [if_pos ha, ha]
      unfold elimRow
      rw [h1]
      by_cases hbk : b = k
      · rw [if_pos hbk, hbk, h1, zero_div]
      · rw [if_neg hbk]
        by_cases hkb : k < b
        · rw [if_pos hkb, zero_div, zero_mul, sub_zero]
        · rw [if_neg hkb]
    · rw [if_neg ha]
  · obtain ⟨r, hr', hrS, hrE⟩ := elimUpdate_loop
      (hT.upd (pvt.idx i) k (T.E (pvt.idx i) k / T.E p k)) hr hpn hne (show k + 1 ≤ n by omega)
      (T.E (pvt.idx i) k / T.E p k)
    refine ⟨r, ?_, hrS, fun a b hb => ?_⟩
    · unfold reorder.row
      simp only [hp.get hi, ok_bind, toInt_natCast, MathMatrix.get_nat hT hr hk, h1, ne_eq,
        not_false_eq_true, if_true, MathMatrix.get_nat hT hpn hk, fdiv, h0, if_false, pure_eq_ok,
        MathMatrix.set_nat hT hr hk, hr']
    · rw [hrE a b hb]
      have hpE : ∀ c, c < n → (T.upd (pvt.idx i) k (T.E (pvt.idx i) k / T.E p k)).E p c = T.E p c := by
        intro c hc
        rw [MathMatrix.E_upd hT hr hk _ hc, if_neg (fun h => hne h.1.symm)]
      by_cases ha : a = pvt.idx i
      · subst ha
        rw [if_pos rfl]
        unfold elimRow
        by_cases hbk : b = k
        · subst hbk
          rw [if_neg (by omega), if_pos rfl, MathMatrix.E_upd hT hr hk _ hk, if_pos ⟨rfl, rfl⟩]
        · rw [if_neg hbk]
          by_cases hkb : k < b
          · rw [if_pos ⟨rfl, hkb⟩, if_pos hkb, hpE b hb, MathMatrix.E_upd hT hr hk _ hb,
              if_neg (fun h => hbk h.2)]
          · rw [if_neg (fun h => hkb (by omega)), if_neg hkb, MathMatrix.E_upd hT hr hk _ hb,
              if_neg (fun h => hbk h.2)]
      · rw [if_neg (fun h => ha h.1), if_neg ha, MathMatrix.E_upd hT hr hk _ hb,
          if_neg (fun h => ha h.1)]

/-- The elimination loop of a step of `reorder` with a nonzero pivot eliminates the rows at the
positions after `k`. -/
theorem reorder_rows_elim {T : MathMatrix} {pvt : Vector} {n k : Nat} (hT : T.Sq n)
    (hp : IsPerm pvt n) (hk : k < n) (h0 : T.E (pvt.idx k) k ≠ 0) :
    ∃ T', forUp (k + 1) n (reorder.row n pvt k ((pvt.idx k : Nat) : Int)) T = Except.ok T' ∧
      T'.Sq n ∧ ∀ i b, i < n → b < n →
        T'.E (pvt.idx i) b
          = if k < i then elimRow T.E k (pvt.idx k) (pvt.idx i) b else T.E (pvt.idx i) b := by
  have hpk := hp.lt k hk
  have key := forUp_ok_inv (reorder.row n pvt k ((pvt.idx k : Nat) : Int))
    (fun ii T' => T'.Sq n ∧ ∀ i b, i < n → b < n →
      T'.E (pvt.idx i) b
        = if k < i ∧ i < ii then elimRow T.E k (pvt.idx k) (pvt.idx i) b else T.E (pvt.idx i) b)
    T (show k + 1 ≤ n by omega)
    ⟨hT, fun i b _ _ => by rw [if_neg]; omega⟩
    (by
      intro ii t hlo hhi ⟨htS, htE⟩
      have hrow : ∀ i b, i < n → b < n → ¬ (k < i ∧ i < ii) →
          t.E (pvt.idx i) b = T.E (pvt.idx i) b := by
        intro i b hi hb hc
        rw [htE i b hi hb, if_neg hc]
      have hne : pvt.idx ii ≠ pvt.idx k := by
        intro e
        have := hp.inj ii k hhi hk e
        omega
      obtain ⟨r, hr, hrS, hrE⟩ := reorder_row_elim htS hp hk hhi hpk hne
        (by rw [hrow k k hk hk (by omega)]; exact h0)
      refine ⟨r, hr, hrS, fun i b hi hb => ?_⟩
      rw [hrE _ b hb]
      by_cases hi' : i = ii
      · subst hi'
        rw [if_pos rfl, if_pos ⟨by omega, by omega⟩]
        unfold elimRow
        rw [hrow i k hi hk (by omega), hrow k k hk hk (by omega), hrow i b hi hb (by omega),
          hrow k b hk hb (by omega)]
      · have : pvt.idx i ≠ pvt.idx ii := fun e => hi' (hp.inj i ii hi hhi e)
        rw [if_neg this, htE i b hi hb]
        by_cases h1 : k < i ∧ i < ii
        · rw [if_pos h1, if_pos ⟨h1.1, by omega⟩]
        · rw [if_neg h1, if_neg (fun h2 => h1 ⟨h2.1, by omega⟩)])
  obtain ⟨r, hr, hrS, hrE⟩ := key
  refine ⟨r, hr, hrS, fun i b hi hb => ?_⟩
  rw [hrE i b hi hb]
  by_cases h1 : k < i
  · rw [if_pos h1, if_pos ⟨h1, hi⟩]
  · rw [if_neg h1, if_neg (fun h2 => h1 h2.1)]

/-- The elimination loop of a step of `reorder` with a zero pivot leaves the matrix as it is or
divides by the pivot. -/
theorem reorder_rows_zero {T : MathMatrix} {pvt : Vector} {n k : Nat} (hT : T.Sq n)
    (hp : IsPerm pvt n) (hk : k < n) (h0 : T.E (pvt.idx k) k = 0) :
    forUp (k + 1) n (reorder.row n pvt k ((pvt.idx k : Nat) : Int)) T = Except.ok T ∨
      forUp (k + 1) n (reorder.row n pvt k ((pvt.idx k : Nat) : Int)) T
        = Except.error Err.divByZero := by
  rcases forUp_cases (reorder.row n pvt k ((pvt.idx k : Nat) : Int)) (fun _ T' => T' = T)
    (fun e => e = Err.divByZero) T (show k + 1 ≤ n by omega) rfl
    (by
      intro i t _ hi ht
      subst ht
      by_cases h1 : t.E (pvt.idx i) k = 0
      · exact Or.inl ⟨t, reorder_row_skip hT hp hk hi _ h1, rfl⟩
      · exact Or.inr ⟨_, reorder_row_fault hT hp hk hi (hp.lt k hk) h1 h0, rfl⟩) with
    ⟨r, hr, hrT⟩ | ⟨e, he, heq⟩
  · left; rw [hr, hrT]
  · right; rw [he, heq]

/-- The four outcomes of a step of `reorder` on a well-formed state: the zero pivot is signalled;
or the pivot is not zero and the rows after position `k` are eliminated; or the pivot is zero
although the value found is not (it is a NaN), and the elimination either changes nothing or
divides by the pivot. -/
theorem reorder_step_cases {T : MathMatrix} {pvt scale : Vector} {n k : Nat} (hT : T.Sq n)
    (hp : IsPerm pvt n) (hs : scale.pdata.length = n) (hk : k < n) :
    ∃ best pvt', reorder.findPivot n T pvt scale k = Except.ok best ∧ k ≤ best.pc ∧ best.pc < n ∧
      (∃ s, s < n ∧ best.aet = fabsDiv (T.E (pvt.idx best.pc) k) (scale.E s)) ∧
      reorder.swap pvt k best.pc = Except.ok pvt' ∧ IsPerm pvt' n ∧
      (∀ i, i < n → pvt'.idx i =
        if i = k then pvt.idx best.pc else if i = best.pc then pvt.idx k else pvt.idx i) ∧
      ((best.aet.isZero = true ∧
          reorder.step n scale k (pvt, T) = Except.error Err.pivotZero) ∨
        (best.aet.isZero = false ∧ T.E (pvt'.idx k) k ≠ 0 ∧
          ∃ T', reorder.step n scale k (pvt, T) = Except.ok (pvt', T') ∧ T'.Sq n ∧
            ∀ i b, i < n → b < n → T'.E (pvt'.idx i) b
              = if k < i then elimRow T.E k (pvt'.idx k) (pvt'.idx i) b
                else T.E (pvt'.idx i) b) ∨
        (best.aet.isZero = false ∧ T.E (pvt'.idx k) k = 0 ∧
          (reorder.step n scale k (pvt, T) = Except.ok (pvt', T) ∨
            reorder.step n scale k (pvt, T) = Except.error Err.divByZero))) := by
  obtain ⟨best, hb, hb1, hb2, hb3⟩ := reorder_findPivot_spec hT hp hs hk
  obtain ⟨pvt', hsw, hp', hidx⟩ := reorder_swap_spec hp hk hb2
  refine ⟨best, pvt', hb, hb1, hb2, hb3, hsw, hp', hidx, ?_⟩
  by_cases hz : best.aet.isZero = true
  · left
    refine ⟨hz, ?_⟩
    unfold reorder.step
    simp only [hb, ok_bind, hz, if_true, throw_eq_error]
  · have hz' : best.aet.isZero = false := by simpa using hz
    right
    have hstep : reorder.step n scale k (pvt, T)
        = (forUp (k + 1) n (reorder.row n pvt' k ((pvt'.idx k : Nat) : Int)) T >>=
            fun T' => Except.ok (pvt', T')) := by
      unfold reorder.step
      simp only [hb, ok_bind, hz', Bool.false_eq_true, if_false, hsw, hp'.get hk, toInt_natCast]
      rfl
    by_cases h0 : T.E (pvt'.idx k) k = 0
    · right
      refine ⟨hz', h0, ?_⟩
      rcases reorder_rows_zero hT hp' hk h0 with h | h
      · left; rw [hstep, h]; rfl
      · right; rw [hstep, h]; rfl
    · left
      obtain ⟨T', hT', hTS', hTE'⟩ := reorder_rows_elim hT hp' hk h0
      exact ⟨hz', h0, T', by rw [hstep, hT']; rfl, hTS', hTE'⟩

/-- A step of `reorder` that completes keeps the state well formed. -/
theorem reorder_step_wf {T T' : MathMatrix} {pvt pvt' scale : Vector} {n k : Nat} (hT : T.Sq n)
    (hp : IsPerm pvt n) (hs : scale.pdata.length = n) (hk : k < n)
    (h : reorder.step n scale k (pvt, T) = Except.ok (pvt', T')) : IsPerm pvt' n ∧ T'.Sq n := by
  obtain ⟨best, p1, _, _, _, _, _, hp1, _, hcase⟩ := reorder_step_cases hT hp hs hk
  rcases hcase with ⟨_, he⟩ | ⟨_, _, T1, he, hT1, _⟩ | ⟨_, _, he | he⟩
  · rw [he] at h; cases h
  · rw [he] at h; cases h; exact ⟨hp1, hT1⟩
  · rw [he] at h; cases h; exact ⟨hp1, hT⟩
  · rw [he] at h; cases h

/-- The main loop of `reorder`, run for some steps from the initial state. -/
theorem reorder_eliminate_eq {A : MathMatrix} {pvt0 scale : Vector} {p : MathMatrix} {n : Nat}
    (h : reorder.init A (n : Int) = Except.ok (pvt0, scale, p)) (steps : Nat) :
    reorder.eliminate A (n : Int) steps = forUp 0 steps (reorder.step n scale) (pvt0, A) := by
  unfold reorder.eliminate
  rw [h]
  simp only [ok_bind, Int.toNat_ofNat]

/-- The main loop of `reorder` keeps `pvt` a permutation and `temp` well formed. -/
theorem reorder_eliminate_wf {A T : MathMatrix} {pvt : Vector} {n steps : Nat} (hA : A.Sq n)
    (hsteps : steps ≤ n - 1)
    (h : reorder.eliminate A (n : Int) steps = Except.ok (pvt, T)) : IsPerm pvt n ∧ T.Sq n := by
  obtain ⟨pvt0, scale, hinit, hp0, _, hs, _⟩ := reorder_init_spec hA
  rw [reorder_eliminate_eq hinit] at h
  exact forUp_inv_of_ok (reorder.step n scale)
    (fun _ (s : Vector × MathMatrix) => IsPerm s.1 n ∧ s.2.Sq n) (pvt0, A) (pvt, T)
    (Nat.zero_le steps) ⟨hp0, hA⟩
    (fun k t t' _ hk ⟨h1, h2⟩ hstep =>
      @reorder_step_wf t.2 t'.2 t.1 t'.1 scale n k h2 h1 hs (show k < n by omega) hstep) h

/-- The last loop of `reorder` builds the permutation matrix of `pvt`. -/
theorem reorder_build {pvt : Vector} {n : Nat} (hp : IsPerm pvt n) :
    ∃ P, forUp 0 n (fun i (p : MathMatrix) => do p.set i (toInt (← pvt.get i)) 1)
        (MathMatrix.zero n) = Except.ok P ∧ P.Sq n ∧
      ∀ a b, a < n → b < n → P.E a b = if b = pvt.idx a then 1 else 0 := by
  obtain ⟨P, hP, hPS, hPE⟩ := forUp_ok_inv
    (fun i (p : MathMatrix) => do p.set i (toInt (← pvt.get i)) 1)
    (fun ii P => P.Sq n ∧ ∀ a b, b < n → P.E a b = if a < ii ∧ b = pvt.idx a then 1 else 0)
    (MathMatrix.zero n) (Nat.zero_le n)
    ⟨MathMatrix.zero_sq n, fun a b _ => by rw [if_neg (by omega), MathMatrix.E_zero]⟩
    (by
      intro i t _ hi ⟨htS, htE⟩
      have hr := hp.lt i hi
      refine ⟨t.upd i (pvt.idx i) 1, ?_, htS.upd _ _ _, fun a b hb => ?_⟩
      · simp only [hp.get hi, ok_bind, toInt_natCast, MathMatrix.set_nat htS hi hr]
      · rw [MathMatrix.E_upd htS hi hr _ hb, htE a b hb]
        by_cases h : a = i ∧ b = pvt.idx i
        · obtain ⟨rfl, rfl⟩ := h
          rw [if_pos ⟨rfl, rfl⟩, if_pos ⟨by omega, rfl⟩]
        · rw [if_neg h]
          by_cases h1 : a < i ∧ b = pvt.idx a
          · rw [if_pos h1, if_pos ⟨by omega, h1.2⟩]
          · rw [if_neg h1, if_neg]
            intro h2
            by_cases e : a = i
            · exact h ⟨e, e ▸ h2.2⟩
            · exact h1 ⟨by omega, h2.2⟩)
  refine ⟨P, hP, hPS, fun a b ha hb => ?_⟩
  rw [hPE a b hb]
  by_cases h : b = pvt.idx a
  · rw [if_pos ⟨ha, h⟩, if_pos h]
  · rw [if_neg (fun h2 => h h2.2), if_neg h]

/-- The result of `reorder` on a well-formed matrix, from the result of its main loop. -/
theorem reorder_of_eliminate {A T : MathMatrix} {pvt : Vector} {n : Nat} (hA : A.Sq n)
    (h : reorder.eliminate A (n : Int) (n - 1) = Except.ok (pvt, T)) :
    ∃ P, reorder A (n : Int) = Except.ok P ∧ P.Sq n ∧
      ∀ a b, a < n → b < n → P.E a b = if b = pvt.idx a then 1 else 0 := by
  obtain ⟨pvt0, scale, hinit, _⟩ := reorder_init_spec hA
  obtain ⟨hp, _⟩ := reorder_eliminate_wf hA (Nat.le_refl _) h
  obtain ⟨P, hP, hPS, hPE⟩ := reorder_build hp
  refine ⟨P, ?_, hPS, hPE⟩
  unfold reorder
  simp only [hinit, ok_bind, Int.toNat_ofNat, h]
  exact hP

/-- An abnormal end of the main loop of `reorder` is the result of `reorder`. -/
theorem reorder_of_eliminate_error {A : MathMatrix} {n : Nat} {e : Err} (hA : A.Sq n)
    (h : reorder.eliminate A (n : Int) (n - 1) = Except.error e) :
    reorder A (n : Int) = Except.error e := by
  obtain ⟨pvt0, scale, hinit, _⟩ := reorder_init_spec hA
  unfold reorder
  simp only [hinit, ok_bind, Int.toNat_ofNat, h, error_bind]

/-- When `reorder` returns a matrix, its main loop has completed and the matrix is the
permutation matrix of the final `pvt`. -/
theorem reorder_ok_inv {A P : MathMatrix} {n : Nat} (hA : A.Sq n)
    (h : reorder A (n : Int) = Except.ok P) :
    ∃ pvt T, reorder.eliminate A (n : Int) (n - 1) = Except.ok (pvt, T) ∧ IsPerm pvt n ∧ T.Sq n ∧
      P.Sq n ∧ ∀ a b, a < n → b < n → P.E a b = if b = pvt.idx a then 1 else 0 := by
  cases he : reorder.eliminate A (n : Int) (n - 1) with
  | error e => rw [reorder_of_eliminate_error hA he] at h; cases h
  | ok s =>
    obtain ⟨pvt, T⟩ := s
    obtain ⟨hp, hT⟩ := reorder_eliminate_wf hA (Nat.le_refl _) he
    obtain ⟨P', hP', hPS, hPE⟩ := reorder_of_eliminate hA he
    rw [hP'] at h
    cases h
    exact ⟨pvt, T, rfl, hp, hT, hPS, hPE⟩

theorem fabsDiv_zero_gt (s s' : ℚ) : (fabsDiv 0 s).gt (fabsDiv 0 s') = false := by
  unfold fabsDiv
  by_cases h : s = 0 <;> by_cases h' : s' = 0 <;> simp [h, h', Scaled.gt]

theorem fabsDiv_zero_isZero {s : ℚ} (h : s ≠ 0) : (fabsDiv 0 s).isZero = true := by
  unfold fabsDiv
  simp [h, Scaled.isZero]

/-- When column `k` is zero in every candidate row, the pivot search of `reorder` stays at
position `k` with the value `fabs(0 / scale[k])`. -/
theorem reorder_findPivot_zero_column {T : MathMatrix} {pvt scale : Vector} {n k : Nat}
    (hT : T.Sq n) (hp : IsPerm pvt n) (hs : scale.pdata.length = n) (hk : k < n)
    (hz : ∀ i, k ≤ i → i < n → T.E (pvt.idx i) k = 0) :
    reorder.findPivot n T pvt scale k = Except.ok ⟨fabsDiv 0 (scale.E k), k⟩ := by
  obtain ⟨r, hr, hrb⟩ := forUp_ok_inv (reorder.scan T pvt scale k)
    (fun _ (b : reorder.Best) => b = ⟨fabsDiv 0 (scale.E k), k⟩)
    ⟨fabsDiv 0 (scale.E k), k⟩ (show k + 1 ≤ n by omega) rfl
    (by
      intro i b hlo hhi hb
      refine ⟨b, ?_, hb⟩
      rw [reorder_scan_eq hT hp hs hhi hk b, hz i (by omega) hhi, hb, fabsDiv_zero_gt]
      rfl)
  unfold reorder.findPivot
  simp only [hp.get hk, ok_bind, toInt_natCast, MathMatrix.get_nat hT (hp.lt k hk) hk,
    Vector.get_of_lt (show k < scale.pdata.length by omega), hz k (Nat.le_refl k) hk]
  rw [hr, hrb]

/-- A step of `reorder` signals the zero pivot exactly when the value found by the pivot search
is zero. -/
theorem reorder_step_signal {T : MathMatrix} {pvt scale : Vector} {n k : Nat} (hT : T.Sq n)
    (hp : IsPerm pvt n) (hs : scale.pdata.length = n) (hk : k < n) :
    reorder.step n scale k (pvt, T) = Except.error Err.pivotZero ↔
      ∃ best, reorder.findPivot n T pvt scale k = Except.ok best ∧ best.aet.isZero = true := by
  obtain ⟨best, p1, hb, _, _, _, _, _, _, hcase⟩ := reorder_step_cases hT hp hs hk
  constructor
  · intro h
    rcases hcase with ⟨hz, _⟩ | ⟨_, _, T1, he, _, _⟩ | ⟨_, _, he | he⟩
    · exact ⟨best, hb, hz⟩
    · rw [he] at h; cases h
    · rw [he] at h; cases h
    · rw [he] at h; cases h
  · rintro ⟨best', hb', hz'⟩
    rw [hb] at hb'
    cases hb'
    unfold reorder.step
    simp only [hb, ok_bind, hz', if_true, throw_eq_error]

/-- On a well-formed matrix, `reorder` signals the zero pivot exactly when its main loop
reaches some step `k` at which the value found by the pivot search is zero. -/
theorem reorder_signal_cases {A : MathMatrix} {pvt0 scale : Vector} {p : MathMatrix} {n : Nat}
    (hA : A.Sq n) (hinit : reorder.init A (n : Int) = Except.ok (pvt0, scale, p)) :
    reorder A (n : Int) = Except.error Err.pivotZero ↔
      ∃ k pvt T best, k + 1 < n ∧ reorder.eliminate A (n : Int) k = Except.ok (pvt, T) ∧
        reorder.findPivot n T pvt scale k = Except.ok best ∧ best.aet.isZero = true := by
  obtain ⟨pvt0', scale', hinit', hp0, _, hs, _⟩ := reorder_init_spec hA
  rw [hinit] at hinit'
  cases hinit'
  constructor
  · intro h
    have he : reorder.eliminate A (n : Int) (n - 1) = Except.error Err.pivotZero := by
      cases he : reorder.eliminate A (n : Int) (n - 1) with
      | error e =>
        rw [reorder_of_eliminate_error hA he] at h
        rw [Except.error.inj h]
      | ok s =>
        obtain ⟨pvt, T⟩ := s
        obtain ⟨P, hP, _⟩ := reorder_of_eliminate hA he
        rw [hP] at h; cases h
    rw [reorder_eliminate_eq hinit] at he
    obtain ⟨j, t, hj, hpre, hstep⟩ := forUp_error_split _ _ _ _ he
    obtain ⟨pvt, T⟩ := t
    rw [← reorder_eliminate_eq hinit] at hpre
    obtain ⟨hp, hT⟩ := reorder_eliminate_wf hA (show j ≤ n - 1 by omega) hpre
    obtain ⟨best, hb, hz⟩ := (reorder_step_signal hT hp hs (show j < n by omega)).mp hstep
    exact ⟨j, pvt, T, best, by omega, hpre, hb, hz⟩
  · rintro ⟨k, pvt, T, best, hk, hpre, hb, hz⟩
    obtain ⟨hp, hT⟩ := reorder_eliminate_wf hA (show k ≤ n - 1 by omega) hpre
    have hstep := (reorder_step_signal hT hp hs (show k < n by omega)).mpr ⟨best, hb, hz⟩
    apply reorder_of_eliminate_error hA
    rw [reorder_eliminate_eq hinit] at hpre ⊢
    apply forUp_error_mono _ _ _ (j := k + 1) _ _ (by omega)
    rw [forUp_succ_last (Nat.zero_le k), hpre, ok_bind]
    exact hstep

theorem elimN_congr {T T' : Nat → Nat → ℚ} {n : Nat} (h : ∀ a b, a < n → b < n → T a b = T' a b) :
    ∀ k, k ≤ n → ∀ a b, a < n → b < n → elimN T k a b = elimN T' k a b := by
  intro k
  induction k with
  | zero => intro _ a b ha hb; exact h a b ha hb
  | succ c ih =>
    intro hc a b ha hb
    exact elimF_congr (ih (by omega)) (show c < n by omega) ha hb

/-- The product of a permutation matrix and a matrix rearranges the rows. -/
theorem mulF_perm {n : Nat} {P A : Nat → Nat → ℚ} {σ : Nat → Nat} {i : Nat} (hi : σ i < n)
    (hP : ∀ b, b < n → P i b = if b = σ i then 1 else 0) (j : Nat) :
    mulF n P A i j = A (σ i) j := by
  unfold mulF
  rw [Finset.sum_eq_single (σ i)]
  · rw [hP (σ i) hi, if_pos rfl, one_mul]
  · intro b hb hne
    rw [hP b (Finset.mem_range.mp hb), if_neg hne, zero_mul]
  · intro h
    exact absurd (Finset.mem_range.mpr hi) h

/-- A scaled value computed with a nonzero scale is zero exactly when the entry is. -/
theorem fabsDiv_isZero_false {t s : ℚ} (hs : s ≠ 0) (h : (fabsDiv t s).isZero = false) : t ≠ 0 := by
  intro ht
  rw [ht, fabsDiv_zero_isZero hs] at h
  cases h

/-- One step of `reorder` with a nonzero pivot keeps the relation with `lu_fact`. -/
theorem simInv_step {A T T' : MathMatrix} {pvt pvt' : Vector} {n k : Nat}
    (hp' : IsPerm pvt' n) (hk : k < n)
    (hagree : ∀ i, i < k → pvt'.idx i = pvt.idx i)
    (hpiv : T.E (pvt'.idx k) k ≠ 0)
    (hT' : ∀ i b, i < n → b < n → T'.E (pvt'.idx i) b
      = if k < i then elimRow T.E k (pvt'.idx k) (pvt'.idx i) b else T.E (pvt'.idx i) b)
    (hinv : SimInv A n k pvt T) : SimInv A n (k + 1) pvt' T' := by
  intro τ hτlt hτinj hτ
  obtain ⟨hpiv0, hX⟩ := hinv τ hτlt hτinj (fun i hi => by rw [hτ i (by omega), hagree i hi])
  have hτk : τ k = pvt'.idx k := hτ k (by omega)
  refine ⟨fun c hc => ?_, fun i j hi hj => ?_⟩
  · by_cases e : c = k
    · subst e
      rw [hX c c hk hk, hτk]
      exact hpiv
    · exact hpiv0 c (by omega)
  · show elimF (elimN (fun i j => A.E (τ i) j) k) k i j = T'.E (τ i) j
    obtain ⟨i', hi', hi'τ⟩ := hp'.surj (τ i) (hτlt i hi)
    by_cases hki : k < i
    · have hki' : k < i' := by
        by_contra hc
        have e1 : τ i' = pvt'.idx i' := hτ i' (by omega)
        have := hτinj i' i hi' hi (by rw [e1, hi'τ])
        omega
      rw [← hi'τ, hT' i' j hi' hj, if_pos hki', hi'τ]
      unfold elimF elimRow
      rw [if_pos hki, hX i k hi hk, hX k k hk hk, hX i j hi hj, hX k j hk hj, hτk]
    · have e1 : τ i = pvt'.idx i := hτ i (by omega)
      unfold elimF
      rw [if_neg hki, hX i j hi hj, e1, hT' i j hi hj, if_neg hki]

/-- When no row of the matrix is zero, the main loop of `reorder` keeps the relation with
`lu_fact`. -/
theorem reorder_eliminate_sim {A T : MathMatrix} {pvt : Vector} {n steps : Nat} (hA : A.Sq n)
    (hrows : ∀ r, r < n → ∃ j, j < n ∧ A.E r j ≠ 0) (hsteps : steps ≤ n - 1)
    (h : reorder.eliminate A (n : Int) steps = Except.ok (pvt, T)) :
    IsPerm pvt n ∧ T.Sq n ∧ SimInv A n steps pvt T := by
  obtain ⟨pvt0, scale, hinit, hp0, _, hs, hsc⟩ := reorder_init_spec hA
  have hscale : ∀ r, r < n → scale.E r ≠ 0 := by
    intro r hr e
    obtain ⟨j, hj, hne⟩ := hrows r hr
    have := hsc r j hr hj
    rw [e] at this
    exact hne (abs_nonpos_iff.mp this)
  rw [reorder_eliminate_eq hinit] at h
  exact forUp_inv_of_ok (reorder.step n scale)
    (fun k (s : Vector × MathMatrix) => IsPerm s.1 n ∧ s.2.Sq n ∧ SimInv A n k s.1 s.2)
    (pvt0, A) (pvt, T) (Nat.zero_le steps)
    ⟨hp0, hA, fun τ _ _ _ => ⟨fun c hc => by omega, fun _ _ _ _ => rfl⟩⟩
    (by
      rintro k ⟨p1, T1⟩ ⟨p2, T2⟩ _ hk ⟨h1, h2, h3⟩ hstep
      have hkn : k < n := by omega
      obtain ⟨best, pvt', _, hb1, hb2, ⟨s, hsn, haet⟩, _, hp', hidx, hcase⟩ :=
        @reorder_step_cases T1 p1 scale n k h2 h1 hs hkn
      have hpk : pvt'.idx k = p1.idx best.pc := by rw [hidx k hkn, if_pos rfl]
      have hagree : ∀ i, i < k → pvt'.idx i = p1.idx i := by
        intro i hi
        rw [hidx i (by omega), if_neg (by omega), if_neg (by omega)]
      rcases hcase with ⟨_, he⟩ | ⟨_, hpiv, T', he, hT'S, hT'E⟩ | ⟨hz, hpiv, _⟩
      · rw [he] at hstep; cases hstep
      · rw [he] at hstep
        cases hstep
        exact ⟨hp', hT'S, simInv_step hp' hkn hagree hpiv hT'E h3⟩
      · rw [haet] at hz
        exact absurd (hpk ▸ hpiv) (fabsDiv_isZero_false (hscale s hsn) hz))
    h

/-- When no row of a well-formed matrix is zero and `reorder` returns `P`, the unpivoted
`lu_fact` factors `P * A`. -/
theorem reorder_factorisable_of_nonzero_rows (n : Nat) (A P : MathMatrix) (hA : A.Sq n)
    (hrows : ∀ r, r < n → ∃ j, j < n ∧ A.E r j ≠ 0)
    (h : reorder A (n : Int) = Except.ok P) :
    ∃ PA L U, P.mul A = Except.ok PA ∧ lu_fact PA (n : Int) = Except.ok (L, U) ∧
      L.mul U = Except.ok PA := by
  obtain ⟨pvt, T, he, hp, hT, hPS, hPE⟩ := reorder_ok_inv hA h
  obtain ⟨_, _, hsim⟩ := reorder_eliminate_sim hA hrows (Nat.le_refl _) he
  obtain ⟨PA, hPA, hPAS, hPAE⟩ := MathMatrix.mul_spec hPS hA
  have hrow : ∀ i j, i < n → j < n → PA.E i j = A.E (pvt.idx i) j := by
    intro i j hi hj
    rw [hPAE i j hi hj]
    exact mulF_perm (hp.lt i hi) (fun b hb => hPE i b hi hb) j
  obtain ⟨hpiv, _⟩ := hsim pvt.idx hp.lt hp.inj (fun _ _ => rfl)
  have hpiv' : ∀ c, c < n - 1 → elimN PA.E c c c ≠ 0 := by
    intro c hc
    have e : elimN PA.E c c c = elimN (fun i j => A.E (pvt.idx i) j) c c c :=
      elimN_congr hrow c (by omega) c c (by omega) (by omega)
    rw [e]
    exact hpiv c hc
  rcases lu_fact_cases hPAS with ⟨⟨c, hc, h0⟩, _⟩ | ⟨_, L, U, hLU, _⟩
  · exact absurd h0 (hpiv' c hc)
  · exact ⟨PA, L, U, hPA, hLU, lu_fact_mul_eq hPAS hLU⟩

end Reorder

section IeeeReorder

variable {α β γ δ σ τ : Type}

theorem Sim.of_ok {R : α → β → Prop} {a : α} {b : β} (h : R a b) :
    Sim R (Except.ok a) (Except.ok b) := ⟨b, rfl, h⟩

theorem Sim.same (x : Res α) : Sim (fun a b => a = b) x x := by
  cases x with
  | ok a => exact ⟨a, rfl, rfl⟩
  | error e => exact Or.inr rfl

theorem Sim.stop {R : α → β → Prop} {y : Res β} : Sim R (Except.error Err.divByZero) y :=
  Or.inl rfl

theorem Sim.fault {R : α → β → Prop} (e : Err) : Sim R (Except.error e) (Except.error e) :=
  Or.inr rfl

/-- Two runs that agree step by step agree. -/
theorem Sim.bind {R : α → β → Prop} {S : γ → δ → Prop} {x : Res α} {y : Res β}
    {f : α → Res γ} {g : β → Res δ} (h : Sim R x y) (hf : ∀ a b, R a b → Sim S (f a) (g b)) :
    Sim S (x >>= f) (y >>= g) := by
  cases x with
  | ok a =>
    obtain ⟨b, hy, hab⟩ := h
    rw [hy]
    exact hf a b hab
  | error e =>
    rcases h with h | h
    · rw [h]; exact Or.inl rfl
    · rw [h]; exact Or.inr rfl

/-- Two loops whose bodies agree agree. -/
theorem Sim.forCount {R : σ → τ → Prop} {f : Nat → σ → Res σ} {g : Nat → τ → Res τ}
    (h : ∀ i s t, R s t → Sim R (f i s) (g i t)) :
    ∀ (cnt lo : Nat) (s : σ) (t : τ), R s t → Sim R (PA.forCount f cnt lo s) (PA.forCount g cnt lo t) := by
  intro cnt
  induction cnt with
  | zero => intro lo s t hst; exact Sim.of_ok hst
  | succ c ih =>
    intro lo s t hst
    rw [forCount_succ, forCount_succ]
    exact Sim.bind (h lo s t hst) (fun a b hab => ih (lo + 1) a b hab)

/-- The rule `Sim.forCount` for `for (i = lo; i < hi; i++)`. -/
theorem Sim.forUp {R : σ → τ → Prop} {f : Nat → σ → Res σ} {g : Nat → τ → Res τ}
    (h : ∀ i s t, R s t → Sim R (f i s) (g i t)) (lo hi : Nat) {s : σ} {t : τ} (hst : R s t) :
    Sim R (PA.forUp lo hi f s) (PA.forUp lo hi g t) :=
  Sim.forCount h (hi - lo) lo s t hst

theorem Ieee.val_ofRat (q : ℚ) : (Ieee.ofRat q).Val q := by
  refine ⟨decide (q < 0), |q|, rfl, abs_nonneg q, ?_⟩
  by_cases h : q < 0
  · simp [h, abs_of_neg h]
  · simp [h, abs_of_nonneg (not_lt.mp h)]

theorem Ieee.signed_mul (s t : Bool) (a b : ℚ) :
    (if (xor s t) = true then -(a * b) else a * b)
      = (if s = true then -a else a) * (if t = true then -b else b) := by
  cases s <;> cases t <;> simp

theorem Ieee.signed_div (s t : Bool) (a b : ℚ) :
    (if (xor s t) = true then -(a / b) else a / b)
      = (if s = true then -a else a) / (if t = true then -b else b) := by
  cases s <;> cases t <;> simp [neg_div, div_neg]

theorem Ieee.Val.mul {x y : Ieee} {a b : ℚ} (hx : x.Val a) (hy : y.Val b) :
    (x.mul y).Val (a * b) := by
  obtain ⟨s, m, rfl, hm, rfl⟩ := hx
  obtain ⟨t, k, rfl, hk, rfl⟩ := hy
  exact ⟨xor s t, m * k, rfl, mul_nonneg hm hk, Ieee.signed_mul s t m k⟩

theorem Ieee.Val.div {x y : Ieee} {a b : ℚ} (hx : x.Val a) (hy : y.Val b) (hb : b ≠ 0) :
    (x.div y).Val (a / b) := by
  obtain ⟨s, m, rfl, hm, rfl⟩ := hx
  obtain ⟨t, k, rfl, hk, rfl⟩ := hy
  have hk0 : k ≠ 0 := by
    intro h0
    apply hb
    rw [h0]
    simp
  refine ⟨xor s t, m / k, ?_, div_nonneg hm hk, Ieee.signed_div s t m k⟩
  show (if k = 0 then _ else _) = _
  rw [if_neg hk0]

theorem Ieee.Val.sub {x y : Ieee} {a b : ℚ} (hx : x.Val a) (hy : y.Val b) :
    (x.sub y).Val (a - b) := by
  obtain ⟨s, m, rfl, hm, rfl⟩ := hx
  obtain ⟨t, k, rfl, hk, rfl⟩ := hy
  show Ieee.Val (if (if s = true then -m else m) - (if t = true then -k else k) = 0 then _ else _) _
  by_cases h0 : (if s = true then -m else m) - (if t = true then -k else k) = 0
  · rw [if_pos h0, h0]
    exact ⟨s && !t, 0, rfl, le_refl 0, by simp⟩
  · rw [if_neg h0]
    refine ⟨_, _, rfl, abs_nonneg _, ?_⟩
    by_cases hneg : (if s = true then -m else m) - (if t = true then -k else k) < 0
    · simp only [hneg, decide_True, if_true]
      rw [abs_of_neg hneg, neg_neg]
    · simp only [hneg, decide_False, Bool.false_eq_true, if_false]
      exact abs_of_nonneg (not_lt.mp hneg)

theorem Ieee.Val.isNonzero {x : Ieee} {a : ℚ} (hx : x.Val a) : x.isNonzero = decide (a ≠ 0) := by
  obtain ⟨s, m, rfl, hm, rfl⟩ := hx
  show decide (m ≠ 0) = _
  cases s <;> simp

theorem Ieee.Val.fabsDiv {x : Ieee} {a : ℚ} (hx : x.Val a) (y : ℚ) :
    x.fabsDiv y = PA.fabsDiv a y := by
  obtain ⟨s, m, rfl, hm, rfl⟩ := hx
  unfold Ieee.fabsDiv PA.fabsDiv Ieee.ofRat Ieee.div
  by_cases hy : y = 0
  · subst hy
    by_cases hm0 : m = 0
    · subst hm0; simp
    · have : (if s = true then -m else m) ≠ 0 := by
        cases s <;> simpa using hm0
      simp [hm0, this]
  · have hy' : |y| ≠ 0 := by simpa using hy
    simp only [hy', hy, if_false]
    congr 1
    rw [abs_div, abs_div, abs_abs, abs_of_nonneg hm]
    cases s <;> simp [abs_of_nonneg hm]

theorem IeeeMatrix.rep_ofMath (A : MathMatrix) : (IeeeMatrix.ofMath A).Rep A := by
  refine ⟨rfl, rfl, by simp [IeeeMatrix.ofMath], fun t ht => ?_⟩
  have e : (IeeeMatrix.ofMath A).pdata.getD t Ieee.nan = Ieee.ofRat (A.v.pdata.getD t 0) := by
    simp [IeeeMatrix.ofMath, List.getD_eq_getElem?_getD, List.getElem?_map, ht]
  rw [e]
  exact Ieee.val_ofRat _

/-- Reading an element: the same range checks, and the number read is the element of `T`. -/
theorem IeeeMatrix.Rep.sim_get {X : IeeeMatrix} {T : MathMatrix} (h : X.Rep T) (i j : Int) :
    Sim (fun q x => Ieee.Val x q) (T.get i j) (X.get i j) := by
  obtain ⟨h1, h2, h3, h4⟩ := h
  unfold MathMatrix.get Matrix.get IeeeMatrix.get Vector.get Vector.size
  rw [h1, h2, h3]
  by_cases c1 : i > T.nrows - 1 ∨ j > T.ncols - 1 ∨ i < 0 ∨ j < 0
  · rw [if_pos c1, if_pos c1]; exact Sim.fault _
  · rw [if_neg c1, if_neg c1]
    by_cases c2 : i * T.ncols + j < 0 ∨ i * T.ncols + j ≥ (T.v.pdata.length : Int)
    · rw [if_pos c2, if_pos c2]; exact Sim.fault _
    · rw [if_neg c2, if_neg c2]
      apply Sim.of_ok
      apply h4
      omega

/-- Storing a number: the same range checks, and the matrices stay related. -/
theorem IeeeMatrix.Rep.sim_set {X : IeeeMatrix} {T : MathMatrix} (h : X.Rep T) (i j : Int)
    {x : Ieee} {q : ℚ} (hx : x.Val q) :
    Sim (fun T' X' => IeeeMatrix.Rep X' T') (T.set i j q) (X.set i j x) := by
  obtain ⟨h1, h2, h3, h4⟩ := h
  unfold MathMatrix.set Matrix.set IeeeMatrix.set Vector.set Vector.size
  rw [h1, h2, h3]
  by_cases c1 : i > T.nrows - 1 ∨ j > T.ncols - 1 ∨ i < 0 ∨ j < 0
  · rw [if_pos c1, if_pos c1]; exact Sim.fault _
  · rw [if_neg c1, if_neg c1]
    by_cases c2 : i * T.ncols + j < 0 ∨ i * T.ncols + j ≥ (T.v.pdata.length : Int)
    · rw [if_pos c2, if_pos c2]; exact Sim.fault _
    · rw [if_neg c2, if_neg c2]
      apply Sim.of_ok
      refine ⟨rfl, rfl, by simp [h3], fun t ht => ?_⟩
      simp only [List.length_set] at ht
      simp only [List.getD_eq_getElem?_getD, List.getElem?_set]
      by_cases e : (i * T.ncols + j).toNat = t
      · subst e
        have l1 : (i * T.ncols + j).toNat < X.pdata.length := by omega
        simp [l1, ht, hx]
      · simp only [e, if_false]
        have := h4 t ht
        simpa [List.getD_eq_getElem?_getD] using this

/-- The statement `temp(i, j) -= mult * temp(k, j)` on related matrices. -/
theorem Ieee.sim_elimUpdate {X : IeeeMatrix} {T : MathMatrix} (h : X.Rep T) (k i : Int)
    {m : Ieee} {mult : ℚ} (hm : m.Val mult) (j : Nat) :
    Sim (fun T' X' => IeeeMatrix.Rep X' T') (PA.elimUpdate k i mult j T)
      (Ieee.elimUpdate k i m j X) := by
  unfold PA.elimUpdate Ieee.elimUpdate
  refine Sim.bind (h.sim_get _ _) (fun t x hx => ?_)
  refine Sim.bind (h.sim_get _ _) (fun p y hy => ?_)
  exact h.sim_set _ _ (Ieee.Val.sub hx (Ieee.Val.mul hm hy))

/-- The elimination of a row on related matrices: the runs agree unless the pivot is zero. -/
theorem Ieee.sim_row {X : IeeeMatrix} {T : MathMatrix} (h : X.Rep T) (n : Nat) (pvt : Vector)
    (k : Nat) (pvtk : Int) (i : Nat) :
    Sim (fun T' X' => IeeeMatrix.Rep X' T') (reorder.row n pvt k pvtk i T)
      (Ieee.row n pvt k pvtk i X) := by
  unfold reorder.row Ieee.row
  refine Sim.bind (Sim.same _) (fun a b hab => ?_)
  subst hab
  refine Sim.bind (h.sim_get _ _) (fun t x hx => ?_)
  have hnz : x.isNonzero = decide (t ≠ 0) := Ieee.Val.isNonzero hx
  by_cases ht : t ≠ 0
  · rw [if_pos ht, if_pos (by rw [hnz]; exact decide_eq_true ht)]
    refine Sim.bind (h.sim_get _ _) (fun t' x' hx' => ?_)
    refine Sim.bind (h.sim_get _ _) (fun p y hy => ?_)
    by_cases hp : p = 0
    · have e : fdiv t' p = Except.error Err.divByZero := by simp [fdiv, hp]
      rw [e]
      exact Sim.stop
    · have e : fdiv t' p = Except.ok (t' / p) := by simp [fdiv, hp]
      rw [e, ok_bind]
      refine Sim.bind (h.sim_set _ _ (Ieee.Val.div hx' hy hp)) (fun T1 X1 h1 => ?_)
      exact Sim.forUp (fun j s t hst => Ieee.sim_elimUpdate hst _ _ (Ieee.Val.div hx' hy hp) j)
        _ _ h1
  · rw [if_neg ht, if_neg (by rw [hnz]; simpa using ht)]
    exact Sim.of_ok h

/-- The body of the pivot search on related matrices. -/
theorem Ieee.sim_scan {X : IeeeMatrix} {T : MathMatrix} (h : X.Rep T) (pvt scale : Vector)
    (k i : Nat) (b : reorder.Best) :
    Sim (fun a c => a = c) (reorder.scan T pvt scale k i b) (Ieee.scan X pvt scale k i b) := by
  unfold reorder.scan Ieee.scan
  refine Sim.bind (Sim.same _) (fun a c hac => ?_)
  subst hac
  refine Sim.bind (h.sim_get _ _) (fun t x hx => ?_)
  refine Sim.bind (Sim.same _) (fun a' c' hac' => ?_)
  subst hac'
  refine Sim.bind (Sim.same _) (fun s s' hs => ?_)
  subst hs
  rw [Ieee.Val.fabsDiv hx]
  exact Sim.same _

/-- The pivot search on related matrices finds the same position and the same value. -/
theorem Ieee.sim_findPivot {X : IeeeMatrix} {T : MathMatrix} (h : X.Rep T) (n : Nat)
    (pvt scale : Vector) (k : Nat) :
    Sim (fun a c => a = c) (reorder.findPivot n T pvt scale k)
      (Ieee.findPivot n X pvt scale k) := by
  unfold reorder.findPivot Ieee.findPivot
  refine Sim.bind (Sim.same _) (fun a c hac => ?_)
  subst hac
  refine Sim.bind (h.sim_get _ _) (fun t x hx => ?_)
  refine Sim.bind (Sim.same _) (fun s s' hs => ?_)
  subst hs
  rw [Ieee.Val.fabsDiv hx]
  exact Sim.forUp (fun i b c hbc => by subst hbc; exact Ieee.sim_scan h pvt scale k i b) _ _ rfl

/-- A step of the main loop on related states. -/
theorem Ieee.sim_step (n : Nat) (scale : Vector) (k : Nat) {s : Vector × MathMatrix}
    {t : Vector × IeeeMatrix} (h : s.1 = t.1 ∧ t.2.Rep s.2) :
    Sim (fun (s' : Vector × MathMatrix) (t' : Vector × IeeeMatrix) => s'.1 = t'.1 ∧ t'.2.Rep s'.2)
      (reorder.step n scale k s) (Ieee.step n scale k t) := by
  obtain ⟨h1, h2⟩ := h
  unfold reorder.step Ieee.step
  rw [h1]
  refine Sim.bind (Ieee.sim_findPivot h2 n t.1 scale k) (fun best c hc => ?_)
  subst hc
  by_cases hz : best.aet.isZero = true
  · rw [if_pos hz, if_pos hz]
    exact Sim.fault _
  · rw [if_neg hz, if_neg hz]
    refine Sim.bind (Sim.same _) (fun pvt pvt' hp => ?_)
    subst hp
    refine Sim.bind (Sim.same _) (fun a a' ha => ?_)
    subst ha
    refine Sim.bind (Sim.forUp (fun i T' X' hTX => Ieee.sim_row hTX n pvt k _ i) _ _ h2)
      (fun T' X' hTX => ?_)
    exact Sim.of_ok ⟨rfl, hTX⟩

/-- The run of `reorder` through the infinities and the NaNs agrees with its run in the exact
embedding, unless that one stops at a stored quotient by zero. -/
theorem Ieee.sim_reorder (A : MathMatrix) (n : Int) :
    Sim (fun P Q => P = Q) (PA.reorder A n) (Ieee.reorder A n) := by
  unfold PA.reorder Ieee.reorder reorder.eliminate
  cases hinit : reorder.init A n with
  | error e => exact Sim.fault _
  | ok r =>
    obtain ⟨pvt, scale, p⟩ := r
    simp only [ok_bind]
    refine Sim.bind (Sim.forUp (fun k s t hst => Ieee.sim_step n.toNat scale k hst) _ _
      (show (pvt, A).1 = (pvt, IeeeMatrix.ofMath A).1 ∧ _ from ⟨rfl, IeeeMatrix.rep_ofMath A⟩))
      (fun s t hst => ?_)
    obtain ⟨s1, s2⟩ := s
    obtain ⟨t1, t2⟩ := t
    obtain ⟨h1, _⟩ := hst
    simp only at h1
    subst h1
    exact Sim.same _

/-- Where `reorder` returns a matrix in the exact embedding, its run through the infinities
and the NaNs is the same run. -/
theorem Ieee.reorder_of_ok {A P : MathMatrix} {n : Int} (h : PA.reorder A n = Except.ok P) :
    Ieee.reorder A n = Except.ok P := by
  have key := Ieee.sim_reorder A n
  rw [h] at key
  obtain ⟨Q, hQ, hPQ⟩ := key
  rw [hQ, hPQ]

/-- Where `reorder` signals the zero pivot in the exact embedding, so does its run through the
infinities and the NaNs. -/
theorem Ieee.reorder_of_signal {A : MathMatrix} {n : Int}
    (h : PA.reorder A n = Except.error Err.pivotZero) :
    Ieee.reorder A n = Except.error Err.pivotZero := by
  have key := Ieee.sim_reorder A n
  rw [h] at key
  rcases key with key | key
  · cases key
  · exact key

theorem IeeeMatrix.sq_ofMath {A : MathMatrix} {n : Nat} (hA : A.Sq n) :
    (IeeeMatrix.ofMath A).Sq n :=
  ⟨hA.nrows, hA.ncols, by simp [IeeeMatrix.ofMath, hA.len]⟩

/-- Reading an element of a well-formed matrix inside its range returns. -/
theorem IeeeMatrix.get_total {X : IeeeMatrix} {n i j : Nat} (h : X.Sq n) (hi : i < n) (hj : j < n) :
    ∃ x, X.get (i : Int) (j : Int) = Except.ok x := by
  obtain ⟨h1, h2, h3⟩ := h
  have hl := idx_lt hi hj
  unfold IeeeMatrix.get
  have c1 : ¬ ((i : Int) > X.nrows - 1 ∨ (j : Int) > X.ncols - 1 ∨ (i : Int) < 0 ∨ (j : Int) < 0) := by
    rw [h1, h2]; omega
  have e : (i : Int) * X.ncols + (j : Int) = ((i * n + j : Nat) : Int) := by rw [h2]; push_cast; ring
  have c2 : ¬ ((i : Int) * X.ncols + (j : Int) < 0 ∨
      (i : Int) * X.ncols + (j : Int) ≥ (X.pdata.length : Int)) := by
    rw [e, h3]; omega
  rw [if_neg c1, if_neg c2]
  exact ⟨_, rfl⟩

/-- Storing an element of a well-formed matrix inside its range returns a well-formed matrix. -/
theorem IeeeMatrix.set_total {X : IeeeMatrix} {n i j : Nat} (h : X.Sq n) (hi : i < n) (hj : j < n)
    (x : Ieee) : ∃ X', X.set (i : Int) (j : Int) x = Except.ok X' ∧ X'.Sq n := by
  obtain ⟨h1, h2, h3⟩ := h
  have hl := idx_lt hi hj
  unfold IeeeMatrix.set
  have c1 : ¬ ((i : Int) > X.nrows - 1 ∨ (j : Int) > X.ncols - 1 ∨ (i : Int) < 0 ∨ (j : Int) < 0) := by
    rw [h1, h2]; omega
  have e : (i : Int) * X.ncols + (j : Int) = ((i * n + j : Nat) : Int) := by rw [h2]; push_cast; ring
  have c2 : ¬ ((i : Int) * X.ncols + (j : Int) < 0 ∨
      (i : Int) * X.ncols + (j : Int) ≥ (X.pdata.length : Int)) := by
    rw [e, h3]; omega
  rw [if_neg c1, if_neg c2]
  exact ⟨_, rfl, h1, h2, by simp [h3]⟩

/-- The innermost loop of the elimination of `reorder` returns, whatever it stores. -/
theorem Ieee.elimUpdate_total {X : IeeeMatrix} {n k i : Nat} (h : X.Sq n) (hk : k < n)
    (hi : i < n) (m : Ieee) (lo : Nat) :
    ∃ X', forUp lo n (Ieee.elimUpdate (k : Int) (i : Int) m) X = Except.ok X' ∧ X'.Sq n := by
  by_cases hlo : lo ≤ n
  · exact forUp_ok_inv (Ieee.elimUpdate (k : Int) (i : Int) m) (fun _ X' => X'.Sq n) X hlo h
      (by
        intro j t _ hj ht
        obtain ⟨x, hx⟩ := IeeeMatrix.get_total ht hi hj
        obtain ⟨y, hy⟩ := IeeeMatrix.get_total ht hk hj
        obtain ⟨t', ht', hS⟩ := IeeeMatrix.set_total ht hi hj (x.sub (m.mul y))
        refine ⟨t', ?_, hS⟩
        unfold Ieee.elimUpdate
        rw [hx, ok_bind, hy, ok_bind, ht'])
  · exact ⟨X, forUp_of_le (by omega) _ _, h⟩

/-- The elimination of a row by `reorder` returns, whatever the pivot is. -/
theorem Ieee.row_total {X : IeeeMatrix} {pvt : Vector} {n k i p : Nat} (h : X.Sq n)
    (hp : IsPerm pvt n) (hk : k < n) (hi : i < n) (hpn : p < n) :
    ∃ X', Ieee.row n pvt k (p : Int) i X = Except.ok X' ∧ X'.Sq n := by
  have hr := hp.lt i hi
  obtain ⟨x, hx⟩ := IeeeMatrix.get_total h hr hk
  obtain ⟨y, hy⟩ := IeeeMatrix.get_total h hpn hk
  unfold Ieee.row
  simp only [hp.get hi, ok_bind, toInt_natCast, hx]
  by_cases hnz : x.isNonzero = true
  · rw [if_pos hnz]
    obtain ⟨X1, hX1, hS1⟩ := IeeeMatrix.set_total h hr hk (x.div y)
    obtain ⟨X2, hX2, hS2⟩ := Ieee.elimUpdate_total hS1 hpn hr (x.div y) (k + 1)
    refine ⟨X2, ?_, hS2⟩
    simp only [hx, ok_bind, hy, hX1, hX2]
  · rw [if_neg hnz]
    exact ⟨X, rfl, h⟩

/-- The pivot search of `reorder` returns a position among the candidates. -/
theorem Ieee.findPivot_total {X : IeeeMatrix} {pvt scale : Vector} {n k : Nat} (h : X.Sq n)
    (hp : IsPerm pvt n) (hs : scale.pdata.length = n) (hk : k < n) :
    ∃ best, Ieee.findPivot n X pvt scale k = Except.ok best ∧ k ≤ best.pc ∧ best.pc < n := by
  obtain ⟨x, hx⟩ := IeeeMatrix.get_total h (hp.lt k hk) hk
  obtain ⟨best, hb, h1, h2⟩ := forUp_ok_inv (Ieee.scan X pvt scale k)
    (fun _ (b : reorder.Best) => k ≤ b.pc ∧ b.pc < n)
    ⟨x.fabsDiv (scale.E k), k⟩ (show k + 1 ≤ n by omega) ⟨Nat.le_refl k, hk⟩
    (by
      intro i b hlo hhi ⟨h1, h2⟩
      obtain ⟨y, hy⟩ := IeeeMatrix.get_total h (hp.lt i hhi) hk
      unfold Ieee.scan
      simp only [hp.get hhi, ok_bind, toInt_natCast, hy,
        Vector.get_of_lt (show pvt.idx i < scale.pdata.length by rw [hs]; exact hp.lt i hhi)]
      by_cases hc : (y.fabsDiv (scale.E (pvt.idx i))).gt b.aet = true
      · rw [if_pos hc]
        exact ⟨_, rfl, by show k ≤ i; omega, hhi⟩
      · rw [if_neg hc]
        exact ⟨_, rfl, h1, h2⟩)
  refine ⟨best, ?_, h1, h2⟩
  unfold Ieee.findPivot
  simp only [hp.get hk, ok_bind, toInt_natCast, hx,
    Vector.get_of_lt (show k < scale.pdata.length by omega)]
  exact hb

/-- A step of the main loop of `reorder` signals the zero pivot or completes: it has no other
end. -/
theorem Ieee.step_total {X : IeeeMatrix} {pvt scale : Vector} {n k : Nat} (h : X.Sq n)
    (hp : IsPerm pvt n) (hs : scale.pdata.length = n) (hk : k < n) :
    Ieee.step n scale k (pvt, X) = Except.error Err.pivotZero ∨
      ∃ pvt' X', Ieee.step n scale k (pvt, X) = Except.ok (pvt', X') ∧ IsPerm pvt' n ∧
        X'.Sq n := by
  obtain ⟨best, hb, _, hb2⟩ := Ieee.findPivot_total h hp hs hk
  obtain ⟨pvt', hsw, hp', _⟩ := reorder_swap_spec hp hk hb2
  unfold Ieee.step
  simp only [hb, ok_bind]
  by_cases hz : best.aet.isZero = true
  · left
    rw [if_pos hz]
    rfl
  · right
    rw [if_neg hz]
    obtain ⟨X', hX', hS'⟩ := forUp_ok_inv (Ieee.row n pvt' k ((pvt'.idx k : Nat) : Int))
      (fun _ X' => X'.Sq n) X (show k + 1 ≤ n by omega) h
      (fun i t _ hi ht => Ieee.row_total ht hp' hk hi (hp'.lt k hk))
    refine ⟨pvt', X', ?_, hp', hS'⟩
    simp only [hsw, ok_bind, hp'.get hk, toInt_natCast, hX']
    rfl

/-- The run of `reorder` on a well-formed matrix has two ends only: the signal of the zero
pivot, or a well-formed matrix `p`. -/
theorem Ieee.reorder_total {A : MathMatrix} {n : Nat} (hA : A.Sq n) :
    Ieee.reorder A (n : Int) = Except.error Err.pivotZero ∨
      ∃ P, Ieee.reorder A (n : Int) = Except.ok P ∧ P.Sq n := by
  obtain ⟨pvt0, scale, hinit, hp0, _, hs, _⟩ := reorder_init_spec hA
  unfold Ieee.reorder
  simp only [hinit, ok_bind, Int.toNat_ofNat]
  rcases forUp_cases (Ieee.step n scale)
    (fun _ (s : Vector × IeeeMatrix) => IsPerm s.1 n ∧ s.2.Sq n) (fun e => e = Err.pivotZero)
    (pvt0, IeeeMatrix.ofMath A) (Nat.zero_le (n - 1)) ⟨hp0, IeeeMatrix.sq_ofMath hA⟩
    (by
      intro k t _ hk ⟨h1, h2⟩
      rcases @Ieee.step_total t.2 t.1 scale n k h2 h1 hs (by omega) with he | ⟨p', X', he, hp', hS'⟩
      · exact Or.inr ⟨_, he, rfl⟩
      · exact Or.inl ⟨(p', X'), he, hp', hS'⟩) with ⟨r, hr, hpr, _⟩ | ⟨e, he, hE⟩
  · right
    obtain ⟨P, hP, hPS, _⟩ := reorder_build hpr
    refine ⟨P, ?_, hPS⟩
    rw [hr, ok_bind]
    exact hP
  · left
    rw [he, hE]
    rfl

end IeeeReorder

section Norms

/-- A loop whose body always continues completes. -/
theorem forUp_pure {σ : Type} (lo hi : Nat) (f : Nat → σ → σ) (s : σ) :
    ∃ r, forUp lo hi (fun i t => (pure (f i t) : Res σ)) s = Except.ok r := by
  by_cases h : lo ≤ hi
  · obtain ⟨r, hr, _⟩ := forUp_ok_inv (fun i t => (pure (f i t) : Res σ)) (fun _ _ => True) s h
      trivial (fun i t _ _ _ => ⟨f i t, rfl, trivial⟩)
    exact ⟨r, hr⟩
  · exact ⟨s, forUp_of_le (by omega) _ _⟩

/-- The inner loop of `one_norm` sums the absolute values of a column. -/
theorem colSum_spec {m : MathMatrix} {n j : Nat} (hm : m.Sq n) (hj : j < n) :
    m.colSum j = Except.ok (∑ i in Finset.range n, |m.E i j|) := by
  obtain ⟨r, hr, hrE⟩ := forUp_ok_inv (fun i (sum : ℚ) => do pure (sum + |(← m.get i j)|))
    (fun ii sum => sum = ∑ i in Finset.range ii, |m.E i j|) 0 (Nat.zero_le n) (by simp)
    (by
      intro i t _ hi ht
      refine ⟨t + |m.E i j|, ?_, ?_⟩
      · simp only [MathMatrix.get_nat hm hi hj, ok_bind, pure_eq_ok]
      · simp only [Finset.sum_range_succ, ht])
  unfold MathMatrix.colSum
  rw [hm.toNat_nrows, hr, hrE]

/-- The loop `res = 0; for (j = 0; j < n; ++j) { sum = f(j); if (sum > res) res = sum; }`
returns the largest of `0` and the values `g j` of `f`. -/
theorem maxLoop_spec {n : Nat} (f : Nat → Res ℚ) (g : Nat → ℚ)
    (hf : ∀ j, j < n → f j = Except.ok (g j)) :
    ∃ r, forUp 0 n (fun j res => do
        let sum ← f j
        if sum > res then pure sum else pure res) 0 = Except.ok r ∧
      0 ≤ r ∧ (∀ j, j < n → g j ≤ r) ∧ (r = 0 ∨ ∃ j, j < n ∧ r = g j) := by
  obtain ⟨r, hr, h0, hle, hat⟩ := forUp_ok_inv (fun j res => do
        let sum ← f j
        if sum > res then pure sum else pure res)
    (fun jj (r : ℚ) => 0 ≤ r ∧ (∀ j, j < jj → g j ≤ r) ∧ (r = 0 ∨ ∃ j, j < jj ∧ r = g j))
    0 (Nat.zero_le n) ⟨le_refl 0, fun j hj => by omega, Or.inl rfl⟩
    (by
      intro j t _ hj ⟨h0, hle, hat⟩
      by_cases hc : g j > t
      · refine ⟨g j, by simp only [hf j hj, ok_bind, hc, if_true, pure_eq_ok], ?_, ?_, ?_⟩
        · linarith
        · intro j' hj'
          by_cases e : j' = j
          · rw [e]
          · have := hle j' (by omega)
            linarith
        · exact Or.inr ⟨j, by omega, rfl⟩
      · refine ⟨t, by simp only [hf j hj, ok_bind, hc, if_false, pure_eq_ok], h0, ?_, ?_⟩
        · intro j' hj'
          by_cases e : j' = j
          · rw [e]; linarith
          · exact hle j' (by omega)
        · rcases hat with h | ⟨j', hj', h⟩
          · exact Or.inl h
          · exact Or.inr ⟨j', by omega, h⟩)
  exact ⟨r, hr, h0, hle, hat⟩

/-- `one_norm` of a well-formed matrix: the largest column sum of absolute values. -/
theorem one_norm_spec {m : MathMatrix} {n : Nat} (hm : m.Sq n) :
    ∃ r, m.one_norm = Except.ok r ∧ 0 ≤ r ∧
      (∀ j, j < n → ∑ i in Finset.range n, |m.E i j| ≤ r) ∧
      (r = 0 ∨ ∃ j, j < n ∧ r = ∑ i in Finset.range n, |m.E i j|) := by
  obtain ⟨r, hr, h⟩ := maxLoop_spec m.colSum (fun j => ∑ i in Finset.range n, |m.E i j|)
    (fun j hj => colSum_spec hm hj)
  refine ⟨r, ?_, h⟩
  unfold MathMatrix.one_norm
  rw [hm.toNat_ncols]
  exact hr

end Norms

section ErrorKinds

variable {α β σ : Type}

theorem bind_eq_error {x : Res α} {f : α → Res β} {e : Err} (h : (x >>= f) = Except.error e) :
    x = Except.error e ∨ ∃ a, x = Except.ok a ∧ f a = Except.error e := by
  cases x with
  | error e' => left; simpa using h
  | ok a => right; exact ⟨a, rfl, h⟩

/-- A loop ends only with the errors of its body. -/
theorem forCount_error_kind (P : Err → Prop) (body : Nat → σ → Res σ)
    (hb : ∀ i s e, body i s = Except.error e → P e) :
    ∀ (cnt lo : Nat) (s : σ) (e : Err), forCount body cnt lo s = Except.error e → P e := by
  intro cnt
  induction cnt with
  | zero => intro lo s e h; cases h
  | succ c ih =>
    intro lo s e h
    rw [forCount_succ] at h
    rcases bind_eq_error h with h1 | ⟨t, _, h2⟩
    · exact hb lo s e h1
    · exact ih (lo + 1) t e h2

theorem forUp_error_kind (P : Err → Prop) (body : Nat → σ → Res σ)
    (hb : ∀ i s e, body i s = Except.error e → P e) (lo hi : Nat) (s : σ) (e : Err)
    (h : forUp lo hi body s = Except.error e) : P e :=
  forCount_error_kind P body hb (hi - lo) lo s e h

theorem Vector.get_fault {v : Vector} {i : Int} {e : Err} (h : v.get i = Except.error e) :
    e = Err.indexOutOfRange := by
  unfold Vector.get at h
  split at h
  · exact (Except.error.inj h).symm
  · cases h

theorem Vector.set_fault {v : Vector} {i : Int} {x : ℚ} {e : Err}
    (h : v.set i x = Except.error e) : e = Err.indexOutOfRange := by
  unfold Vector.set at h
  split at h
  · exact (Except.error.inj h).symm
  · cases h

theorem MathMatrix.get_range_fault {m : MathMatrix} {i j : Int} {e : Err}
    (h : m.get i j = Except.error e) : e = Err.indexOutOfRange := by
  unfold MathMatrix.get Matrix.get at h
  split at h
  · exact (Except.error.inj h).symm
  · exact Vector.get_fault h

theorem MathMatrix.set_range_fault {m : MathMatrix} {i j : Int} {x : ℚ} {e : Err}
    (h : m.set i j x = Except.error e) : e = Err.indexOutOfRange := by
  unfold MathMatrix.set Matrix.set at h
  rcases bind_eq_error h with h1 | ⟨_, _, h2⟩
  · split at h1
    · exact (Except.error.inj h1).symm
    · rcases bind_eq_error h1 with h3 | ⟨_, _, h4⟩
      · exact Vector.set_fault h3
      · cases h4
  · cases h2

theorem Vector.Init_error {n : Int} {e : Err} (h : Vector.Init n = Except.error e) :
    e = Err.invalidSize := by
  unfold Vector.Init at h
  split at h
  · exact (Except.error.inj h).symm
  · cases h

theorem MathMatrix.new_error {n : Int} {e : Err} (h : MathMatrix.new n = Except.error e) :
    e = Err.invalidSize := by
  unfold MathMatrix.new Matrix.new at h
  rcases bind_eq_error h with h1 | ⟨_, _, h2⟩
  · split at h1
    · exact (Except.error.inj h1).symm
    · dsimp only at h1
      split at h1
      · rcases bind_eq_error h1 with h3 | ⟨_, _, h4⟩
        · exact Vector.Init_error h3
        · cases h4
      · rcases bind_eq_error h1 with h3 | ⟨_, _, h4⟩
        · exact Vector.Init_error h3
        · cases h4
  · cases h2

/-- `operator*(const MathMatrix&)` signals incompatible sizes only from its first test. -/
theorem mul_error_incompatible {m a : MathMatrix}
    (h : m.mul a = Except.error Err.incompatibleSize) : m.nrows ≠ a.nrows := by
  intro heq
  unfold MathMatrix.mul at h
  rw [if_neg (by simpa using heq)] at h
  rcases bind_eq_error h with h1 | ⟨res, _, h2⟩
  · cases MathMatrix.new_error h1
  · have := forUp_error_kind (fun e => e = Err.indexOutOfRange) _
      (fun i s e he => forUp_error_kind (fun e => e = Err.indexOutOfRange) _
        (fun j s e he => forUp_error_kind (fun e => e = Err.indexOutOfRange) _
          (fun k s e he => by
            rcases bind_eq_error he with h1 | ⟨_, _, h2⟩
            · exact MathMatrix.get_range_fault h1
            · rcases bind_eq_error h2 with h3 | ⟨_, _, h4⟩
              · exact MathMatrix.get_range_fault h3
              · rcases bind_eq_error h4 with h5 | ⟨_, _, h6⟩
                · exact MathMatrix.get_range_fault h5
                · exact MathMatrix.set_range_fault h6) _ _ s e he) _ _ s e he) _ _ res _ h2
    cases this

/-- `operator*(const MathVector&)` signals incompatible sizes only from its first test. -/
theorem mulVec_error_incompatible {m : MathMatrix} {v : Vector}
    (h : m.mulVec v = Except.error Err.incompatibleSize) : m.nrows ≠ v.size := by
  intro heq
  unfold MathMatrix.mulVec at h
  rw [if_neg (by simpa using heq)] at h
  rcases bind_eq_error h with h1 | ⟨res, _, h2⟩
  · cases Vector.Init_error h1
  · have := forUp_error_kind (fun e => e = Err.indexOutOfRange) _
      (fun i s e he => forUp_error_kind (fun e => e = Err.indexOutOfRange) _
        (fun j s e he => by
          unfold MathMatrix.mulVecStep at he
          rcases bind_eq_error he with h1 | ⟨_, _, h2⟩
          · exact Vector.get_fault h1
          · rcases bind_eq_error h2 with h3 | ⟨_, _, h4⟩
            · exact MathMatrix.get_range_fault h3
            · rcases bind_eq_error h4 with h5 | ⟨_, _, h6⟩
              · exact Vector.get_fault h5
              · exact Vector.set_fault h6) _ _ s e he) _ _ res _ h2
    cases this

end ErrorKinds

section Inverse

theorem MathMatrix.identity_sq (n : Nat) : (MathMatrix.identity n).Sq n :=
  ⟨rfl, rfl, rfl, by simp [MathMatrix.identity, MathMatrix.ofList]⟩

theorem MathMatrix.E_identity {n i j : Nat} (hi : i < n) (hj : j < n) :
    (MathMatrix.identity n).E i j = if i = j then 1 else 0 := by
  have hn : 0 < n := by omega
  have hlt : i * n + j < n * n := by
    calc i * n + j < i * n + n := by omega
      _ = (i + 1) * n := by ring
      _ ≤ n * n := Nat.mul_le_mul_right n (by omega)
  have hd : (i * n + j) / n = i := by
    rw [Nat.mul_comm i n, Nat.mul_add_div hn, Nat.div_eq_of_lt hj, Nat.add_zero]
  have hm : (i * n + j) % n = j := by
    rw [Nat.mul_comm i n, Nat.mul_add_mod, Nat.mod_eq_of_lt hj]
  unfold MathMatrix.E MathMatrix.identity MathMatrix.ofList
  simp only [Int.toNat_ofNat]
  rw [List.getD_eq_getElem?_getD, List.getElem?_map, List.getElem?_range hlt]
  simp only [Option.map_some', Option.getD_some, hd, hm]

theorem fabsDiv_zero_not_gt (s t s' : ℚ) : (fabsDiv 0 s).gt (fabsDiv t s') = false := by
  unfold fabsDiv
  by_cases h : s = 0 <;> by_cases h' : s' = 0 <;> by_cases ht : t = 0 <;>
    simp [h, h', ht, Scaled.gt, abs_nonneg]

theorem fabsDiv_nonzero_isZero {t : ℚ} (s : ℚ) (ht : t ≠ 0) : (fabsDiv t s).isZero = false := by
  unfold fabsDiv
  by_cases h : s = 0 <;> simp [h, ht, Scaled.isZero]

/-- When column `k` is zero in every candidate row after the first, the pivot search of
`reorder` stays at position `k`. -/
theorem reorder_findPivot_stay {T : MathMatrix} {pvt scale : Vector} {n k : Nat}
    (hT : T.Sq n) (hp : IsPerm pvt n) (hs : scale.pdata.length = n) (hk : k < n)
    (hz : ∀ i, k < i → i < n → T.E (pvt.idx i) k = 0) :
    reorder.findPivot n T pvt scale k
      = Except.ok ⟨fabsDiv (T.E (pvt.idx k) k) (scale.E k), k⟩ := by
  obtain ⟨r, hr, hrb⟩ := forUp_ok_inv (reorder.scan T pvt scale k)
    (fun _ (b : reorder.Best) => b = ⟨fabsDiv (T.E (pvt.idx k) k) (scale.E k), k⟩)
    ⟨fabsDiv (T.E (pvt.idx k) k) (scale.E k), k⟩ (show k + 1 ≤ n by omega) rfl
    (by
      intro i b hlo hhi hb
      refine ⟨b, ?_, hb⟩
      rw [reorder_scan_eq hT hp hs hhi hk b, hz i (by omega) hhi, hb, fabsDiv_zero_not_gt]
      rfl)
  unfold reorder.findPivot
  simp only [hp.get hk, ok_bind, toInt_natCast, MathMatrix.get_nat hT (hp.lt k hk) hk,
    Vector.get_of_lt (show k < scale.pdata.length by omega)]
  rw [hr, hrb]

/-- A step of `reorder` that finds a nonzero entry on the diagonal and zeros below it changes
neither `pvt` nor `temp`. -/
theorem reorder_step_fixed {T : MathMatrix} {pvt scale : Vector} {n k : Nat}
    (hT : T.Sq n) (hp : IsPerm pvt n) (hs : scale.pdata.length = n) (hk : k < n)
    (hz : ∀ i, k < i → i < n → T.E (pvt.idx i) k = 0) (hnz : T.E (pvt.idx k) k ≠ 0) :
    reorder.step n scale k (pvt, T) = Except.ok (pvt, T) := by
  obtain ⟨r, hr, hrT⟩ := forUp_ok_inv (reorder.row n pvt k ((pvt.idx k : Nat) : Int))
    (fun _ (t : MathMatrix) => t = T) T (show k + 1 ≤ n by omega) rfl
    (by
      intro i t hlo hhi ht
      refine ⟨t, ?_, ht⟩
      rw [ht]
      exact reorder_row_skip hT hp hk hhi _ (hz i (by omega) hhi))
  have hsw : reorder.swap pvt k k = Except.ok pvt := by
    unfold reorder.swap
    simp
  unfold reorder.step
  simp only [reorder_findPivot_stay hT hp hs hk hz, ok_bind, fabsDiv_nonzero_isZero _ hnz,
    hsw, hp.get hk, toInt_natCast, hr, hrT]
  rfl

/-- On an upper triangular matrix with a nonzero diagonal, `reorder` exchanges no rows: it
returns the identity matrix. -/
theorem reorder_upper_triangular {A : MathMatrix} {n : Nat} (hA : A.Sq n)
    (hz : ∀ i k, k < i → i < n → A.E i k = 0) (hnz : ∀ k, k < n → A.E k k ≠ 0) :
    reorder A (n : Int) = Except.ok (MathMatrix.identity n) := by
  obtain ⟨pvt0, scale, hinit, hp0, hid, hs, _⟩ := reorder_init_spec hA
  obtain ⟨r, hr, hrs⟩ := forUp_ok_inv (reorder.step n scale)
    (fun _ (t : Vector × MathMatrix) => t = (pvt0, A)) (pvt0, A) (Nat.zero_le (n - 1)) rfl
    (by
      intro k t _ hk ht
      refine ⟨t, ?_, ht⟩
      rw [ht]
      apply reorder_step_fixed hA hp0 hs (by omega)
      · intro i hki hi
        rw [hid i hi]
        exact hz i k hki hi
      · rw [hid k (by omega)]
        exact hnz k (by omega))
  rw [hrs] at hr
  rw [← reorder_eliminate_eq hinit] at hr
  obtain ⟨P, hP, hPs, hPe⟩ := reorder_of_eliminate hA hr
  rw [hP]
  congr 1
  apply MathMatrix.ext_E hPs (MathMatrix.identity_sq n)
  intro a b ha hb
  rw [hPe a b ha hb, hid a ha, MathMatrix.E_identity ha hb]
  by_cases h : a = b
  · simp [h]
  · have h' : ¬ b = a := fun e => h e.symm
    simp [h, h']

theorem elimN_delta (k : Nat) :
    elimN (fun i j => if i = j then (1 : ℚ) else 0) k = fun i j => if i = j then (1 : ℚ) else 0 := by
  induction k with
  | zero => rfl
  | succ k ih =>
    show elimF (elimN (fun i j => if i = j then (1 : ℚ) else 0) k) k = _
    rw [ih]
    funext a b
    unfold elimF
    by_cases hka : k < a
    · have h1 : ¬ a = k := by omega
      by_cases hb : b = k
      · have h2 : ¬ a = b := by omega
        simp [hka, hb, h1]
      · simp [hka, hb, h1]
    · simp [hka]

/-- On the identity matrix, `lu_fact` returns the identity matrix for both factors. -/
theorem lu_fact_identity (n : Nat) :
    lu_fact (MathMatrix.identity n) (n : Int)
      = Except.ok (MathMatrix.identity n, MathMatrix.identity n) := by
  have hI := MathMatrix.identity_sq n
  have hc : ∀ k, k ≤ n → ∀ a b, a < n → b < n →
      elimN (MathMatrix.identity n).E k a b = if a = b then 1 else 0 := by
    intro k hk a b ha hb
    rw [@elimN_congr (MathMatrix.identity n).E (fun i j => if i = j then (1 : ℚ) else 0) n
      (fun a b ha hb => MathMatrix.E_identity ha hb) k hk a b ha hb, elimN_delta]
  rcases lu_fact_cases hI with ⟨⟨c, hcn, h0⟩, _⟩ | ⟨_, L, U, hLU, hL, hU, hLe, hUe⟩
  · rw [hc c (by omega) c c (by omega) (by omega)] at h0
    simp at h0
  · rw [hLU]
    have e1 : L = MathMatrix.identity n := by
      apply MathMatrix.ext_E hL hI
      intro a b ha hb
      rw [hLe a b ha hb, MathMatrix.E_identity ha hb]
      unfold lowerF
      rw [hc (n - 1) (by omega) a b ha hb]
      by_cases h : a = b <;> simp [h]
    have e2 : U = MathMatrix.identity n := by
      apply MathMatrix.ext_E hU hI
      intro a b ha hb
      rw [hUe a b ha hb, MathMatrix.E_identity ha hb]
      unfold upperF
      rw [hc (n - 1) (by omega) a b ha hb]
      by_cases h : a = b
      · simp [h]
      · by_cases h2 : a ≤ b <;> simp [h, h2]
    rw [e1, e2]

/-- The loop `for (i = 0; i < n; i++) m(i, k) = t[i]` of `inverse` stores `t` in column `k`. -/
theorem inverse_fill_column {M : MathMatrix} {t : Vector} {n k : Nat} (hM : M.Sq n)
    (ht : t.pdata.length = n) (hk : k < n) :
    ∃ M', forUp 0 n (fun i (m : MathMatrix) => do m.set i k (← t.get i)) M = Except.ok M' ∧
      M'.Sq n ∧ ∀ a b, a < n → b < n → M'.E a b = if b = k then t.E a else M.E a b := by
  obtain ⟨r, hr, hrs, hre⟩ := forUp_ok_inv
    (fun i (m : MathMatrix) => do m.set i k (← t.get i))
    (fun i (m : MathMatrix) => m.Sq n ∧
      ∀ a b, a < n → b < n → m.E a b = if b = k ∧ a < i then t.E a else M.E a b)
    M (Nat.zero_le n) ⟨hM, by intro a b _ _; simp⟩
    (by
      rintro i m _ hi ⟨hm, hme⟩
      refine ⟨m.upd i k (t.E i), ?_, hm.upd i k _, ?_⟩
      · show (t.get (i : Int) >>= fun x => m.set (i : Int) (k : Int) x) = _
        rw [Vector.get_of_lt (show i < t.pdata.length by omega), ok_bind,
          MathMatrix.set_nat hm hi hk]
      · intro a b ha hb
        rw [MathMatrix.E_upd hm hi hk _ hb, hme a b ha hb]
        by_cases hai : a = i
        · by_cases hbk : b = k
          · simp [hai, hbk]
          · simp [hai, hbk]
        · by_cases hbk : b = k
          · have e : (a < i + 1) = (a < i) := by
              apply propext; omega
            simp [hai, hbk, e]
          · simp [hai, hbk])
  refine ⟨r, hr, hrs, ?_⟩
  intro a b ha hb
  rw [hre a b ha hb]
  simp [ha]

/-- One pass of the loop over `k` of `inverse`: column `k` of `l_inv` solves the forward
substitution and column `k` of `u_inv` the backward substitution for the unit vector `e_k`; the
other columns are kept. -/
theorem inverse_column_spec {l u : MathMatrix} {n k : Nat} (hl : l.Sq n) (hu : u.Sq n)
    (hd : ∀ i, i < n → u.E i i ≠ 0) (hk : k < n) (s : inverse.State)
    (he : s.e.pdata.length = n) (hev : ∀ a, a < n → s.e.E a = if a + 1 = k then 1 else 0)
    (hli : s.l_inv.Sq n) (hui : s.u_inv.Sq n) :
    ∃ s', inverse.column l u n k s = Except.ok s' ∧ s'.e.pdata.length = n ∧
      (∀ a, a < n → s'.e.E a = if a = k then 1 else 0) ∧ s'.l_inv.Sq n ∧ s'.u_inv.Sq n ∧
      (∀ a b, a < n → b < n → b ≠ k → s'.l_inv.E a b = s.l_inv.E a b) ∧
      (∀ a b, a < n → b < n → b ≠ k → s'.u_inv.E a b = s.u_inv.E a b) ∧
      (∀ a, a < n → s'.l_inv.E a k + ∑ j in Finset.range a, l.E a j * s'.l_inv.E j k
        = if a = k then 1 else 0) ∧
      (∀ a, a < n → u.E a a * s'.u_inv.E a k
        + ∑ j in Finset.Ico (a + 1) n, u.E a j * s'.u_inv.E j k = if a = k then 1 else 0) := by
  have hk1 : k < s.e.pdata.length := by omega
  have hl1 : (s.e.upd k 1).pdata.length = n := by simp [Vector.upd, he]
  obtain ⟨e2, he2, he2l, he2v⟩ : ∃ e2, (if k > 0 then (s.e.upd k 1).set ((k : Int) - 1) 0
      else pure (s.e.upd k 1)) = Except.ok e2 ∧ e2.pdata.length = n ∧
      ∀ a, a < n → e2.E a = if a = k then 1 else 0 := by
    by_cases hpos : k > 0
    · have hc : ((k : Int) - 1) = ((k - 1 : Nat) : Int) := by omega
      have hlt : k - 1 < (s.e.upd k 1).pdata.length := by omega
      refine ⟨(s.e.upd k 1).upd (k - 1) 0, ?_, by simp [Vector.upd, he], ?_⟩
      · rw [if_pos hpos, hc, Vector.set_of_lt hlt]
      · intro a ha
        rw [Vector.E_upd_eq _ hlt, Vector.E_upd_eq _ hk1, hev a ha]
        by_cases h1 : a = k - 1
        · have h2 : ¬ k - 1 = k := by omega
          simp [h1, h2]
        · by_cases h2 : a = k
          · have h3 : ¬ k = k - 1 := by omega
            simp [h2, h3]
          · have h3 : ¬ a + 1 = k := by omega
            simp [h1, h2, h3]
    · refine ⟨s.e.upd k 1, ?_, hl1, ?_⟩
      · rw [if_neg hpos]; rfl
      · intro a ha
        rw [Vector.E_upd_eq _ hk1, hev a ha]
        by_cases h2 : a = k
        · simp [h2]
        · have h3 : ¬ a + 1 = k := by omega
          simp [h2, h3]
  obtain ⟨y, hy, hyl, hyr⟩ := subst_forward_spec hl he2l
  obtain ⟨L1, hL1, hL1s, hL1e⟩ := inverse_fill_column hli hyl hk
  obtain ⟨x, hx, hxl, hxr⟩ := subst_backward_spec hu he2l hd
  obtain ⟨U1, hU1, hU1s, hU1e⟩ := inverse_fill_column hui hxl hk
  refine ⟨⟨e2, L1, U1⟩, ?_, he2l, he2v, hL1s, hU1s, ?_, ?_, ?_, ?_⟩
  · unfold inverse.column
    simp only [Vector.set_of_lt hk1, ok_bind, pure_eq_ok]
    by_cases hpos : k > 0
    · rw [if_pos hpos] at he2 ⊢
      simp only [he2, ok_bind, hy, hL1, hx, hU1]
    · rw [if_neg hpos] at he2 ⊢
      cases he2
      simp only [ok_bind, hy, hL1, hx, hU1]
  · intro a b ha hb hbk
    show L1.E a b = _
    rw [hL1e a b ha hb, if_neg hbk]
  · intro a b ha hb hbk
    show U1.E a b = _
    rw [hU1e a b ha hb, if_neg hbk]
  · intro a ha
    show L1.E a k + ∑ j in Finset.range a, l.E a j * L1.E j k = _
    rw [hL1e a k ha hk, if_pos rfl, ← he2v a ha, ← hyr a ha]
    congr 1
    apply Finset.sum_congr rfl
    intro j hj
    rw [hL1e j k (by have := Finset.mem_range.mp hj; omega) hk, if_pos rfl]
  · intro a ha
    show u.E a a * U1.E a k + ∑ j in Finset.Ico (a + 1) n, u.E a j * U1.E j k = _
    rw [hU1e a k ha hk, if_pos rfl, ← he2v a ha, ← hxr a ha]
    congr 1
    apply Finset.sum_congr rfl
    intro j hj
    rw [hU1e j k (Finset.mem_Ico.mp hj).2 hk, if_pos rfl]

/-- The loop over `k` of `inverse`, for factors `l` and `u` with no zero on the diagonal of
`u`: every column `k` of `l_inv` solves the forward substitution and every column `k` of `u_inv`
the backward substitution for the unit vector `e_k`. -/
theorem inverse_columns_spec {l u : MathMatrix} {n : Nat} (hl : l.Sq n) (hu : u.Sq n)
    (hd : ∀ i, i < n → u.E i i ≠ 0) :
    ∃ s, forUp 0 n (inverse.column l u n)
        ⟨⟨List.replicate n 0⟩, MathMatrix.zero n, MathMatrix.zero n⟩ = Except.ok s ∧
      s.l_inv.Sq n ∧ s.u_inv.Sq n ∧
      (∀ k a, k < n → a < n → s.l_inv.E a k + ∑ j in Finset.range a, l.E a j * s.l_inv.E j k
        = if a = k then 1 else 0) ∧
      (∀ k a, k < n → a < n → u.E a a * s.u_inv.E a k
        + ∑ j in Finset.Ico (a + 1) n, u.E a j * s.u_inv.E j k = if a = k then 1 else 0) := by
  obtain ⟨r, hr, _, _, hrl, hru, hrf, hrb⟩ := forUp_ok_inv (inverse.column l u n)
    (fun kk (s : inverse.State) => s.e.pdata.length = n ∧
      (∀ a, a < n → s.e.E a = if a + 1 = kk then 1 else 0) ∧ s.l_inv.Sq n ∧ s.u_inv.Sq n ∧
      (∀ k a, k < kk → a < n → s.l_inv.E a k + ∑ j in Finset.range a, l.E a j * s.l_inv.E j k
        = if a = k then 1 else 0) ∧
      (∀ k a, k < kk → a < n → u.E a a * s.u_inv.E a k
        + ∑ j in Finset.Ico (a + 1) n, u.E a j * s.u_inv.E j k = if a = k then 1 else 0))
    ⟨⟨List.replicate n 0⟩, MathMatrix.zero n, MathMatrix.zero n⟩ (Nat.zero_le n)
    ⟨by simp, by intro a ha; simp [Vector.E, ha], MathMatrix.zero_sq n, MathMatrix.zero_sq n,
      by intro k a hk; omega, by intro k a hk; omega⟩
    (by
      rintro kk s _ hkk ⟨he, hev, hli, hui, hf, hb⟩
      obtain ⟨s', hs', he', hev', hli', hui', hkl, hku, hf', hb'⟩ :=
        inverse_column_spec hl hu hd hkk s he hev hli hui
      refine ⟨s', hs', he', ?_, hli', hui', ?_, ?_⟩
      · intro a ha
        rw [hev' a ha]
        simp
      · intro k a hk ha
        by_cases hkk' : k = kk
        · rw [hkk']; exact hf' a ha
        · rw [hkl a k ha (by omega) hkk', ← hf k a (by omega) ha]
          congr 1
          apply Finset.sum_congr rfl
          intro j hj
          rw [hkl j k (by have := Finset.mem_range.mp hj; omega) (by omega) hkk']
      · intro k a hk ha
        by_cases hkk' : k = kk
        · rw [hkk']; exact hb' a ha
        · rw [hku a k ha (by omega) hkk', ← hb k a (by omega) ha]
          congr 1
          apply Finset.sum_congr rfl
          intro j hj
          rw [hku j k (Finset.mem_Ico.mp hj).2 (by omega) hkk'])
  exact ⟨r, hr, hrl, hru, fun k a hk ha => hrf k a hk ha, fun k a hk ha => hrb k a hk ha⟩

/-- The run of `inverse()` on a well-formed matrix for which `reorder` returns `P` and `lu_fact`
returns factors `L` and `U` with no zero on the diagonal of `U`: it returns the product
`u_inv * l_inv * P`, where the columns of `l_inv` and `u_inv` solve the two substitutions. -/
theorem inverse_spec {A P L U : MathMatrix} {n : Nat} (hA : A.Sq n)
    (hP : reorder A (n : Int) = Except.ok P) (hLU : lu_fact A (n : Int) = Except.ok (L, U))
    (hd : ∀ i, i < n → U.E i i ≠ 0) :
    ∃ Li Ui UL R : MathMatrix, Li.Sq n ∧ Ui.Sq n ∧
      (∀ k a, k < n → a < n → Li.E a k + ∑ j in Finset.range a, L.E a j * Li.E j k
        = if a = k then 1 else 0) ∧
      (∀ k a, k < n → a < n → U.E a a * Ui.E a k
        + ∑ j in Finset.Ico (a + 1) n, U.E a j * Ui.E j k = if a = k then 1 else 0) ∧
      Ui.mul Li = Except.ok UL ∧ UL.mul P = Except.ok R ∧ R.Sq n ∧
      A.inverse = Except.ok R := by
  obtain ⟨hL, hU, _⟩ := lu_fact_mulF hA hLU
  obtain ⟨_, _, _, _, _, hPs, _⟩ := reorder_ok_inv hA hP
  obtain ⟨s, hs, hli, hui, hf, hb⟩ := inverse_columns_spec hL hU hd
  obtain ⟨UL, hUL, hULs, _⟩ := MathMatrix.mul_spec hui hli
  obtain ⟨R, hR, hRs, _⟩ := MathMatrix.mul_spec hULs hPs
  refine ⟨s.l_inv, s.u_inv, UL, R, hli, hui, hf, hb, hUL, hR, hRs, ?_⟩
  unfold MathMatrix.inverse
  rw [hA.nrows]
  simp only [Ieee.reorder_of_ok hP, ok_bind, hLU, MathMatrix.new_nat, Vector.Init_nat,
    Int.toNat_ofNat, hs, hUL, hR]

/-- The product of the identity matrix and a well-formed matrix `A` is `A`. -/
theorem mul_identity_left {A : MathMatrix} {n : Nat} (hA : A.Sq n) :
    (MathMatrix.identity n).mul A = Except.ok A := by
  obtain ⟨R, hR, hRs, hRe⟩ := MathMatrix.mul_spec (MathMatrix.identity_sq n) hA
  rw [hR]
  congr 1
  apply MathMatrix.ext_E hRs hA
  intro a b ha hb
  rw [hRe a b ha hb]
  apply mulF_perm (σ := fun i => i) ha
  intro c hc
  rw [MathMatrix.E_identity ha hc]
  by_cases h : a = c
  · simp [h]
  · have h' : ¬ c = a := fun e => h e.symm
    simp [h, h']

/-- On the identity matrix, `inverse()` returns the identity matrix. -/
theorem inverse_identity (n : Nat) :
    (MathMatrix.identity n).inverse = Except.ok (MathMatrix.identity n) := by
  have hI := MathMatrix.identity_sq n
  have hdiag : ∀ i, i < n → (MathMatrix.identity n).E i i ≠ 0 := by
    intro i hi
    rw [MathMatrix.E_identity hi hi]
    simp
  have hP : reorder (MathMatrix.identity n) (n : Int) = Except.ok (MathMatrix.identity n) := by
    apply reorder_upper_triangular hI _ hdiag
    intro i k hki hi
    rw [MathMatrix.E_identity hi (by omega)]
    have : ¬ i = k := by omega
    simp [this]
  obtain ⟨Li, Ui, UL, R, hLi, hUi, hf, hb, hUL, hR, _, hinv⟩ :=
    inverse_spec hI hP (lu_fact_identity n) hdiag
  have e1 : Li = MathMatrix.identity n := by
    apply MathMatrix.ext_E hLi hI
    intro a k ha hk
    have h := hf k a hk ha
    rw [Finset.sum_eq_zero, add_zero] at h
    · rw [h, MathMatrix.E_identity ha hk]
    · intro j hj
      have hj' := Finset.mem_range.mp hj
      rw [MathMatrix.E_identity ha (by omega)]
      have : ¬ a = j := by omega
      simp [this]
  have e2 : Ui = MathMatrix.identity n := by
    apply MathMatrix.ext_E hUi hI
    intro a k ha hk
    have h := hb k a hk ha
    rw [Finset.sum_eq_zero, add_zero, MathMatrix.E_identity ha ha, if_pos rfl, one_mul] at h
    · rw [h, MathMatrix.E_identity ha hk]
    · intro j hj
      have hj' := Finset.mem_Ico.mp hj
      rw [MathMatrix.E_identity ha hj'.2]
      have : ¬ a = j := by omega
      simp [this]
  rw [e1, e2, mul_identity_left hI] at hUL
  cases hUL
  rw [mul_identity_left hI] at hR
  rw [hinv, ← hR]

/-- The `one_norm()` of the identity matrix of size at least one is one. -/
theorem one_norm_identity {n : Nat} (hn : 1 ≤ n) :
    (MathMatrix.identity n).one_norm = Except.ok 1 := by
  obtain ⟨r, hr, _, hub, hatt⟩ := one_norm_spec (MathMatrix.identity_sq n)
  have hcol : ∀ j, j < n → ∑ i in Finset.range n, |(MathMatrix.identity n).E i j| = 1 := by
    intro j hj
    rw [Finset.sum_eq_single j]
    · rw [MathMatrix.E_identity hj hj]; simp
    · intro i hi hij
      rw [MathMatrix.E_identity (Finset.mem_range.mp hi) hj]
      simp [hij]
    · intro h
      exact absurd (Finset.mem_range.mpr hj) h
  rw [hr]
  congr 1
  rcases hatt with h0 | ⟨j, hj, hrj⟩
  · have := hub 0 (by omega)
    rw [hcol 0 (by omega), h0] at this
    norm_num at this
  · rw [hrj, hcol j hj]

end Inverse

section Equality

/-- A loop with a `return` inside is left by the `return` exactly when some iteration finds
its condition true. -/
theorem anyCount_spec (found : Nat → Res Bool) (P : Nat → Prop) :
    ∀ cnt lo, (∀ i, lo ≤ i → i < lo + cnt → ∃ b, found i = Except.ok b ∧ (b = true ↔ P i)) →
      ∃ r, anyCount found cnt lo = Except.ok r ∧
        (r = true ↔ ∃ i, lo ≤ i ∧ i < lo + cnt ∧ P i) := by
  intro cnt
  induction cnt with
  | zero =>
    intro lo _
    refine ⟨false, rfl, ?_⟩
    constructor
    · intro h; cases h
    · rintro ⟨i, h1, h2, _⟩; omega
  | succ c ih =>
    intro lo h
    obtain ⟨b, h0, hb⟩ := h lo (Nat.le_refl lo) (by omega)
    cases b with
    | true =>
      refine ⟨true, ?_, ?_⟩
      · show (found lo >>= fun b => if b then pure true else anyCount found c (lo + 1)) = _
        rw [h0, ok_bind]; rfl
      · exact ⟨fun _ => ⟨lo, Nat.le_refl lo, by omega, hb.mp rfl⟩, fun _ => rfl⟩
    | false =>
      obtain ⟨r, hr, hiff⟩ := ih (lo + 1) (fun i h1 h2 => h i (by omega) (by omega))
      refine ⟨r, ?_, ?_⟩
      · show (found lo >>= fun b => if b then pure true else anyCount found c (lo + 1)) = _
        rw [h0, ok_bind]
        exact hr
      · rw [hiff]
        constructor
        · rintro ⟨i, h1, h2, h3⟩
          exact ⟨i, by omega, by omega, h3⟩
        · rintro ⟨i, h1, h2, h3⟩
          have hne : i ≠ lo := by
            intro e
            rw [e] at h3
            have := hb.mpr h3
            cases this
          exact ⟨i, by omega, by omega, h3⟩

theorem anyUp_spec {lo hi : Nat} (found : Nat → Res Bool) (P : Nat → Prop)
    (h : ∀ i, lo ≤ i → i < hi → ∃ b, found i = Except.ok b ∧ (b = true ↔ P i)) :
    ∃ r, anyUp lo hi found = Except.ok r ∧ (r = true ↔ ∃ i, lo ≤ i ∧ i < hi ∧ P i) := by
  obtain ⟨r, hr, hiff⟩ := anyCount_spec found P (hi - lo) lo
    (fun i h1 h2 => h i h1 (by omega))
  refine ⟨r, hr, ?_⟩
  rw [hiff]
  constructor
  · rintro ⟨i, h1, h2, h3⟩
    exact ⟨i, h1, by omega, h3⟩
  · rintro ⟨i, h1, h2, h3⟩
    exact ⟨i, h1, by omega, h3⟩

/-- `Vector::operator==` returns, and returns `true` exactly on equal vectors. -/
theorem Vector.eq_elementwise (a b : Vector) :
    ∃ r, a.eq b = Except.ok r ∧
      (r = true ↔ a.pdata.length = b.pdata.length ∧ ∀ i, i < a.pdata.length → a.E i = b.E i) := by
  unfold Vector.eq
  by_cases hs : a.size ≠ b.size
  · refine ⟨false, by rw [if_pos hs]; rfl, ?_⟩
    constructor
    · intro h; cases h
    · rintro ⟨hl, _⟩
      exfalso
      apply hs
      unfold Vector.size
      rw [hl]
  · have hl : a.pdata.length = b.pdata.length := by
      have : a.size = b.size := by
        by_contra h
        exact hs h
      unfold Vector.size at this
      exact_mod_cast this
    have hn : a.size.toNat = a.pdata.length := by simp [Vector.size]
    obtain ⟨r, hr, hiff⟩ := @anyUp_spec 0 a.size.toNat
      (fun i => do
        let x ← a.get i
        let y ← b.get i
        pure (decide (x ≠ y)))
      (fun i => a.E i ≠ b.E i)
      (by
        intro i _ hi
        rw [hn] at hi
        refine ⟨decide (a.E i ≠ b.E i), ?_, decide_eq_true_iff⟩
        show (a.get (i : Int) >>= fun x => b.get (i : Int) >>= fun y => pure (decide (x ≠ y))) = _
        rw [Vector.get_of_lt hi, ok_bind, Vector.get_of_lt (by omega), ok_bind]
        rfl)
    rw [if_neg hs, hr, ok_bind]
    rw [hn] at hiff
    cases r with
    | true =>
      refine ⟨false, rfl, ?_⟩
      constructor
      · intro h; cases h
      · rintro ⟨_, he⟩
        obtain ⟨i, _, hi, hne⟩ := hiff.mp rfl
        exact absurd (he i hi) hne
    | false =>
      refine ⟨true, rfl, ?_⟩
      constructor
      · intro _
        refine ⟨hl, ?_⟩
        intro i hi
        by_contra hne
        have : false = true := hiff.mpr ⟨i, Nat.zero_le i, hi, hne⟩
        cases this
      · intro _; rfl

/-- The element access of a matrix whose backing vector holds `rows * cols` elements. -/
theorem Matrix.get_in_range {m : Matrix} {i j : Int} (hv : m.v.size = m.nrows * m.ncols)
    (hi0 : 0 ≤ i) (hi : i < m.nrows) (hj0 : 0 ≤ j) (hj : j < m.ncols) :
    m.get i j = Except.ok (m.v.pdata.getD (i * m.ncols + j).toNat 0) := by
  have h1 : 0 ≤ i * m.ncols := mul_nonneg hi0 (by omega)
  have h2 : (i + 1) * m.ncols ≤ m.nrows * m.ncols :=
    mul_le_mul_of_nonneg_right (by omega) (by omega)
  have h3 : (i + 1) * m.ncols = i * m.ncols + m.ncols := by ring
  have hg : ¬ (i > m.nrows - 1 ∨ j > m.ncols - 1 ∨ i < 0 ∨ j < 0) := by omega
  have hgv : ¬ (i * m.ncols + j < 0 ∨ i * m.ncols + j ≥ m.v.size) := by
    rw [hv]; omega
  unfold Matrix.get Vector.get
  rw [if_neg hg, if_neg hgv]; rfl

/-- `Matrix::operator==` returns on matrices whose backing vectors hold `rows * cols` elements,
and returns `true` exactly when the dimensions and all the elements are equal. -/
theorem Matrix.eq_entrywise (a b : Matrix) (ha : a.v.size = a.nrows * a.ncols)
    (hb : b.v.size = b.nrows * b.ncols) :
    ∃ r, a.eq b = Except.ok r ∧
      (r = true ↔ a.nrows = b.nrows ∧ a.ncols = b.ncols ∧
        ∀ i j : Int, 0 ≤ i → i < a.nrows → 0 ≤ j → j < a.ncols → a.get i j = b.get i j) := by
  unfold Matrix.eq
  by_cases hs : a.nrows ≠ b.nrows ∨ a.ncols ≠ b.ncols
  · refine ⟨false, by rw [if_pos hs]; rfl, ?_⟩
    constructor
    · intro h; cases h
    · rintro ⟨h1, h2, _⟩
      exfalso
      omega
  · have hr : a.nrows = b.nrows := by omega
    have hc : a.ncols = b.ncols := by omega
    obtain ⟨r, hr', hiff⟩ := @anyUp_spec 0 a.nrows.toNat
      (fun i => anyUp 0 a.ncols.toNat (fun j => do
        let x ← a.get i j
        let y ← b.get i j
        pure (decide (x ≠ y))))
      (fun i => ∃ j, 0 ≤ j ∧ j < a.ncols.toNat ∧ a.get (i : Int) (j : Int) ≠ b.get (i : Int) (j : Int))
      (by
        intro i _ hi
        apply anyUp_spec
        intro j _ hj
        have e1 := Matrix.get_in_range ha (show (0 : Int) ≤ (i : Int) by omega)
          (show (i : Int) < a.nrows by omega) (show (0 : Int) ≤ (j : Int) by omega)
          (show (j : Int) < a.ncols by omega)
        have e2 := Matrix.get_in_range hb (show (0 : Int) ≤ (i : Int) by omega)
          (show (i : Int) < b.nrows by omega) (show (0 : Int) ≤ (j : Int) by omega)
          (show (j : Int) < b.ncols by omega)
        refine ⟨decide (a.v.pdata.getD ((i : Int) * a.ncols + j).toNat 0
          ≠ b.v.pdata.getD ((i : Int) * b.ncols + j).toNat 0), ?_, ?_⟩
        · show (a.get (i : Int) (j : Int) >>= fun x =>
            b.get (i : Int) (j : Int) >>= fun y => pure (decide (x ≠ y))) = _
          rw [e1, ok_bind, e2, ok_bind]
          rfl
        · rw [decide_eq_true_iff, e1, e2]
          constructor
          · intro h h'
            exact h (Except.ok.inj h')
          · intro h h'
            exact h (by rw [h']))
    rw [if_neg hs, hr', ok_bind]
    have key : (∃ i, 0 ≤ i ∧ i < a.nrows.toNat ∧ ∃ j, 0 ≤ j ∧ j < a.ncols.toNat ∧
        a.get (i : Int) (j : Int) ≠ b.get (i : Int) (j : Int)) ↔
        ¬ ∀ i j : Int, 0 ≤ i → i < a.nrows → 0 ≤ j → j < a.ncols → a.get i j = b.get i j := by
      constructor
      · rintro ⟨i, _, hi, j, _, hj, hne⟩ hall
        exact hne (hall i j (by omega) (by omega) (by omega) (by omega))
      · intro h
        by_contra hcon
        apply h
        intro i j hi0 hi hj0 hj
        by_contra hne
        apply hcon
        obtain ⟨i', rfl⟩ := Int.eq_ofNat_of_zero_le hi0
        obtain ⟨j', rfl⟩ := Int.eq_ofNat_of_zero_le hj0
        exact ⟨i', Nat.zero_le i', by omega, j', Nat.zero_le j', by omega, hne⟩
    rw [key] at hiff
    cases r with
    | true =>
      refine ⟨false, rfl, ?_⟩
      constructor
      · intro h; cases h
      · rintro ⟨_, _, hall⟩
        exact absurd hall (hiff.mp rfl)
    | false =>
      refine ⟨true, rfl, ?_⟩
      constructor
      · intro _
        refine ⟨hr, hc, ?_⟩
        by_contra hne
        have : false = true := hiff.mpr hne
        cases this
      · intro _; rfl

end Equality

section InverseAlgebra

theorem toM_apply (n : Nat) (f : Nat → Nat → ℚ) (i j : Fin n) : toM n f i j = f i j := rfl

theorem toM_congr {n : Nat} {f g : Nat → Nat → ℚ}
    (h : ∀ i j, i < n → j < n → f i j = g i j) : toM n f = toM n g := by
  ext i j
  exact h i j i.isLt j.isLt

theorem toM_inj {n : Nat} {f g : Nat → Nat → ℚ} (h : toM n f = toM n g) :
    ∀ i j, i < n → j < n → f i j = g i j := by
  intro i j hi hj
  have := congrFun (congrFun h ⟨i, hi⟩) ⟨j, hj⟩
  exact this

theorem toM_mulF (n : Nat) (A B : Nat → Nat → ℚ) :
    toM n (mulF n A B) = toM n A * toM n B := by
  ext i j
  rw [Matrix.mul_apply, toM_apply]
  unfold mulF
  rw [Finset.sum_range]
  rfl

theorem toM_delta (n : Nat) : toM n (fun i j => if i = j then 1 else 0) = 1 := by
  ext i j
  rw [toM_apply, Matrix.one_apply]
  simp only [Fin.ext_iff]

/-- The shape of the factors that `lu_fact` returns. -/
theorem lu_fact_shape {A L U : MathMatrix} {n : Nat} (hA : A.Sq n)
    (h : lu_fact A (n : Int) = Except.ok (L, U)) :
    (∀ a, a < n → L.E a a = 1) ∧ (∀ a b, a < n → b < n → a < b → L.E a b = 0) ∧
      (∀ a b, a < n → b < n → b < a → U.E a b = 0) := by
  rcases lu_fact_cases hA with ⟨_, he⟩ | ⟨_, L', U', h', _, _, hLE, hUE⟩
  · rw [he] at h; cases h
  · rw [h'] at h
    cases h
    refine ⟨fun a ha => ?_, fun a b ha hb hab => ?_, fun a b ha hb hab => ?_⟩
    · rw [hLE a a ha ha]
      unfold lowerF
      rw [if_pos rfl]
    · rw [hLE a b ha hb]
      unfold lowerF
      rw [if_neg (by omega), if_neg (by omega)]
    · rw [hUE a b ha hb]
      unfold upperF
      rw [if_neg (by omega)]

/-- A matrix whose columns solve the forward substitutions for the unit vectors is a right
inverse of the unit lower triangular factor. -/
theorem mulF_of_forward {n : Nat} {l li : Nat → Nat → ℚ} (hl1 : ∀ a, a < n → l a a = 1)
    (hl0 : ∀ a b, a < n → b < n → a < b → l a b = 0)
    (hf : ∀ k a, k < n → a < n → li a k + ∑ j in Finset.range a, l a j * li j k
      = if a = k then 1 else 0) :
    ∀ a k, a < n → k < n → mulF n l li a k = if a = k then 1 else 0 := by
  intro a k ha hk
  rw [← hf k a hk ha]
  exact mulVecF_lower ha l (fun j => li j k) (hl1 a ha) (fun j haj hj => hl0 a j ha hj haj)

/-- A matrix whose columns solve the back substitutions for the unit vectors is a right inverse
of the upper triangular factor. -/
theorem mulF_of_backward {n : Nat} {u ui : Nat → Nat → ℚ}
    (hu0 : ∀ a b, a < n → b < n → b < a → u a b = 0)
    (hb : ∀ k a, k < n → a < n → u a a * ui a k + ∑ j in Finset.Ico (a + 1) n, u a j * ui j k
      = if a = k then 1 else 0) :
    ∀ a k, a < n → k < n → mulF n u ui a k = if a = k then 1 else 0 := by
  intro a k ha hk
  rw [← hb k a hk ha]
  exact mulVecF_upper ha u (fun j => ui j k) (fun j hja => hu0 a j ha (by omega) hja)

/-- The whole run of `inverse()` on a well-formed matrix for which the run of `reorder`,
followed to its end, returns a well-formed `P`, and `lu_fact` returns `L` and `U` with no zero
on the diagonal of `U`. -/
theorem inverse_run_of {A P L U : MathMatrix} {n : Nat} (hA : A.Sq n)
    (hP : Ieee.reorder A (n : Int) = Except.ok P) (hPs : P.Sq n)
    (hLU : lu_fact A (n : Int) = Except.ok (L, U))
    (hd : ∀ i, i < n → U.E i i ≠ 0) :
    ∃ (s : inverse.State) (UL R : MathMatrix),
      forUp 0 n (inverse.column L U n)
        ⟨⟨List.replicate n 0⟩, MathMatrix.zero n, MathMatrix.zero n⟩ = Except.ok s ∧
      s.l_inv.Sq n ∧ s.u_inv.Sq n ∧
      (∀ k a, k < n → a < n → s.l_inv.E a k + ∑ j in Finset.range a, L.E a j * s.l_inv.E j k
        = if a = k then 1 else 0) ∧
      (∀ k a, k < n → a < n → U.E a a * s.u_inv.E a k
        + ∑ j in Finset.Ico (a + 1) n, U.E a j * s.u_inv.E j k = if a = k then 1 else 0) ∧
      L.mul s.l_inv = Except.ok (MathMatrix.identity n) ∧
      U.mul s.u_inv = Except.ok (MathMatrix.identity n) ∧
      s.u_inv.mul s.l_inv = Except.ok UL ∧ UL.mul P = Except.ok R ∧ R.Sq n ∧
      A.inverse = Except.ok R ∧ A.mul R = Except.ok P := by
  obtain ⟨hL, hU, hLUA⟩ := lu_fact_mulF hA hLU
  obtain ⟨hl1, hl0, hu0⟩ := lu_fact_shape hA hLU
  obtain ⟨s, hs, hli, hui, hf, hb⟩ := inverse_columns_spec hL hU hd
  obtain ⟨UL, hUL, hULs, hULe⟩ := MathMatrix.mul_spec hui hli
  obtain ⟨R, hR, hRs, hRe⟩ := MathMatrix.mul_spec hULs hPs
  have hI := MathMatrix.identity_sq n
  have h2 := mulF_of_forward hl1 hl0 hf
  have h3 := mulF_of_backward hu0 hb
  have m1 : toM n L.E * toM n U.E = toM n A.E := by
    rw [← toM_mulF]
    exact toM_congr hLUA
  have m2 : toM n L.E * toM n s.l_inv.E = 1 := by
    rw [← toM_mulF, ← toM_delta]
    exact toM_congr h2
  have m3 : toM n U.E * toM n s.u_inv.E = 1 := by
    rw [← toM_mulF, ← toM_delta]
    exact toM_congr h3
  have m4 : toM n UL.E = toM n s.u_inv.E * toM n s.l_inv.E := by
    rw [← toM_mulF]
    exact toM_congr hULe
  have m5 : toM n R.E = toM n UL.E * toM n P.E := by
    rw [← toM_mulF]
    exact toM_congr hRe
  have m6 : toM n (mulF n A.E R.E) = toM n P.E := by
    rw [toM_mulF, m5, m4, ← m1]
    calc toM n L.E * toM n U.E * (toM n s.u_inv.E * toM n s.l_inv.E * toM n P.E)
        = toM n L.E * ((toM n U.E * toM n s.u_inv.E) * (toM n s.l_inv.E * toM n P.E)) := by
          simp only [Matrix.mul_assoc]
      _ = (toM n L.E * toM n s.l_inv.E) * toM n P.E := by
          rw [m3, Matrix.one_mul, Matrix.mul_assoc]
      _ = toM n P.E := by rw [m2, Matrix.one_mul]
  refine ⟨s, UL, R, hs, hli, hui, hf, hb, ?_, ?_, hUL, hR, hRs, ?_, ?_⟩
  · obtain ⟨X, hX, hXs, hXe⟩ := MathMatrix.mul_spec hL hli
    rw [hX]
    congr 1
    apply MathMatrix.ext_E hXs hI
    intro a b ha hb'
    rw [hXe a b ha hb', h2 a b ha hb', MathMatrix.E_identity ha hb']
  · obtain ⟨X, hX, hXs, hXe⟩ := MathMatrix.mul_spec hU hui
    rw [hX]
    congr 1
    apply MathMatrix.ext_E hXs hI
    intro a b ha hb'
    rw [hXe a b ha hb', h3 a b ha hb', MathMatrix.E_identity ha hb']
  · unfold MathMatrix.inverse
    rw [hA.nrows]
    simp only [hP, ok_bind, hLU, MathMatrix.new_nat, Vector.Init_nat,
      Int.toNat_ofNat, hs, hUL, hR]
  · obtain ⟨X, hX, hXs, hXe⟩ := MathMatrix.mul_spec hA hRs
    rw [hX]
    congr 1
    apply MathMatrix.ext_E hXs hPs
    intro a b ha hb'
    rw [hXe a b ha hb']
    exact toM_inj m6 a b ha hb'

/-- The whole run of `inverse()` on a well-formed matrix for which `reorder` returns `P` and
`lu_fact` returns `L` and `U` with no zero on the diagonal of `U`. -/
theorem inverse_run {A P L U : MathMatrix} {n : Nat} (hA : A.Sq n)
    (hP : reorder A (n : Int) = Except.ok P) (hLU : lu_fact A (n : Int) = Except.ok (L, U))
    (hd : ∀ i, i < n → U.E i i ≠ 0) :
    ∃ (s : inverse.State) (UL R : MathMatrix),
      forUp 0 n (inverse.column L U n)
        ⟨⟨List.replicate n 0⟩, MathMatrix.zero n, MathMatrix.zero n⟩ = Except.ok s ∧
      s.l_inv.Sq n ∧ s.u_inv.Sq n ∧
      (∀ k a, k < n → a < n → s.l_inv.E a k + ∑ j in Finset.range a, L.E a j * s.l_inv.E j k
        = if a = k then 1 else 0) ∧
      (∀ k a, k < n → a < n → U.E a a * s.u_inv.E a k
        + ∑ j in Finset.Ico (a + 1) n, U.E a j * s.u_inv.E j k = if a = k then 1 else 0) ∧
      L.mul s.l_inv = Except.ok (MathMatrix.identity n) ∧
      U.mul s.u_inv = Except.ok (MathMatrix.identity n) ∧
      s.u_inv.mul s.l_inv = Except.ok UL ∧ UL.mul P = Except.ok R ∧ R.Sq n ∧
      A.inverse = Except.ok R ∧ A.mul R = Except.ok P := by
  obtain ⟨_, _, _, _, _, hPs, _⟩ := reorder_ok_inv hA hP
  exact inverse_run_of hA (Ieee.reorder_of_ok hP) hPs hLU hd

theorem Vector.unit_length (n k : Nat) : (Vector.unit n k).pdata.length = n := by
  simp [Vector.unit]

theorem Vector.E_unit {n a : Nat} (k : Nat) (ha : a < n) :
    (Vector.unit n k).E a = if a = k then 1 else 0 := by
  unfold Vector.E Vector.unit
  rw [List.getD_eq_getElem?_getD, List.getElem?_map, List.getElem?_range ha]
  rfl

/-- The forward substitution has one solution. -/
theorem forward_unique {n : Nat} {l : Nat → Nat → ℚ} {y z r : Nat → ℚ}
    (hy : ∀ a, a < n → y a + ∑ j in Finset.range a, l a j * y j = r a)
    (hz : ∀ a, a < n → z a + ∑ j in Finset.range a, l a j * z j = r a) :
    ∀ a, a < n → y a = z a := by
  intro a
  induction a using Nat.strong_induction_on with
  | _ a ih =>
    intro ha
    have e : ∑ j in Finset.range a, l a j * y j = ∑ j in Finset.range a, l a j * z j := by
      apply Finset.sum_congr rfl
      intro j hj
      have hj' := Finset.mem_range.mp hj
      rw [ih j hj' (by omega)]
    have h1 := hy a ha
    have h2 := hz a ha
    rw [e] at h1
    linarith

/-- The back substitution has one solution when no diagonal entry is zero. -/
theorem backward_unique {n : Nat} {u : Nat → Nat → ℚ} {x w r : Nat → ℚ}
    (hd : ∀ a, a < n → u a a ≠ 0)
    (hx : ∀ a, a < n → u a a * x a + ∑ j in Finset.Ico (a + 1) n, u a j * x j = r a)
    (hw : ∀ a, a < n → u a a * w a + ∑ j in Finset.Ico (a + 1) n, u a j * w j = r a) :
    ∀ a, a < n → x a = w a := by
  have key : ∀ d a, a < n → n - a ≤ d → x a = w a := by
    intro d
    induction d with
    | zero => intro a ha h; omega
    | succ d ih =>
      intro a ha _
      have e : ∑ j in Finset.Ico (a + 1) n, u a j * x j
          = ∑ j in Finset.Ico (a + 1) n, u a j * w j := by
        apply Finset.sum_congr rfl
        intro j hj
        have hj' := Finset.mem_Ico.mp hj
        rw [ih j hj'.2 (by omega)]
      have h1 := hx a ha
      have h2 := hw a ha
      rw [e] at h1
      have h3 : u a a * x a = u a a * w a := by linarith
      exact mul_left_cancel₀ (hd a ha) h3
  intro a ha
  exact key n a ha (by omega)

end InverseAlgebra

section PivotTies

theorem fabsDiv_fin {t s : ℚ} (hs : s ≠ 0) : fabsDiv t s = Scaled.fin |t / s| := by
  unfold fabsDiv
  rw [if_neg hs]

/-- The pivot search of `reorder`, when no scale is zero: with the values that the code
compares, `fabs(temp(pvt[k], k) / scale[k])` for the position `k` and
`fabs(temp(pvt[i], k) / scale[pvt[i]])` for every later position `i`, the position found is
the first one that attains the largest value. -/
theorem reorder_findPivot_first_max {T : MathMatrix} {pvt scale : Vector} {n k : Nat}
    (hT : T.Sq n) (hp : IsPerm pvt n) (hs : scale.pdata.length = n) (hk : k < n)
    (hsc : ∀ r, r < n → scale.E r ≠ 0) (val : Nat → ℚ)
    (hvk : val k = |T.E (pvt.idx k) k / scale.E k|)
    (hvi : ∀ i, k < i → i < n → val i = |T.E (pvt.idx i) k / scale.E (pvt.idx i)|) :
    ∃ best, reorder.findPivot n T pvt scale k = Except.ok best ∧ k ≤ best.pc ∧ best.pc < n ∧
      best.aet = Scaled.fin (val best.pc) ∧
      (∀ i, k ≤ i → i < n → val i ≤ val best.pc) ∧
      (∀ i, k ≤ i → i < best.pc → val i < val best.pc) := by
  obtain ⟨r, hr, h1, h2, h3, h4, h5⟩ := forUp_ok_inv (reorder.scan T pvt scale k)
    (fun i (b : reorder.Best) => k ≤ b.pc ∧ b.pc < i ∧ b.aet = Scaled.fin (val b.pc) ∧
      (∀ j, k ≤ j → j < i → val j ≤ val b.pc) ∧ (∀ j, k ≤ j → j < b.pc → val j < val b.pc))
    ⟨Scaled.fin (val k), k⟩ (show k + 1 ≤ n by omega)
    ⟨Nat.le_refl k, Nat.lt_succ_self k, rfl,
      fun j h1 h2 => by
        have : j = k := by omega
        rw [this],
      fun j h1 h2 => by
        exfalso
        exact absurd h2 (by simp only [not_lt]; exact h1)⟩
    (by
      rintro i b hlo hhi ⟨hb1, hb2, hb3, hb4, hb5⟩
      rw [reorder_scan_eq hT hp hs hhi hk b, fabsDiv_fin (hsc _ (hp.lt i hhi)),
        ← hvi i (by omega) hhi, hb3]
      by_cases hgt : val i > val b.pc
      · have : (Scaled.fin (val i)).gt (Scaled.fin (val b.pc)) = true := by
          simp [Scaled.gt, hgt]
        rw [this]
        refine ⟨_, rfl, by show k ≤ i; omega, by show i < i + 1; omega, rfl, ?_, ?_⟩
        · intro j hj1 hj2
          show val j ≤ val i
          by_cases hji : j = i
          · rw [hji]
          · have := hb4 j hj1 (by omega)
            linarith
        · intro j hj1 hj2
          show val j < val i
          have := hb4 j hj1 hj2
          linarith
      · have : (Scaled.fin (val i)).gt (Scaled.fin (val b.pc)) = false := by
          simp [Scaled.gt, hgt]
        rw [this]
        refine ⟨b, rfl, hb1, by omega, hb3, ?_, hb5⟩
        intro j hj1 hj2
        by_cases hji : j = i
        · rw [hji]
          exact not_lt.mp hgt
        · exact hb4 j hj1 (by omega))
  refine ⟨r, ?_, h1, h2, h3, h4, h5⟩
  unfold reorder.findPivot
  simp only [hp.get hk, ok_bind, toInt_natCast, MathMatrix.get_nat hT (hp.lt k hk) hk,
    Vector.get_of_lt (show k < scale.pdata.length by omega), fabsDiv_fin (hsc k hk), ← hvk]
  exact hr

end PivotTies

section TextStreams

theorem digitVal_digitChar {d : Nat} (h : d < 10) : digitVal (digitChar d) = some d := by
  interval_cases d <;> rfl

theorem isDigit_digitChar (d : Nat) : isDigit (digitChar d) = true := by
  have h : ∀ k, k < 10 → isDigit (digitChar k) = true := by
    intro k hk
    unfold isDigit
    rw [digitVal_digitChar hk]
    rfl
  by_cases hd : d < 10
  · exact h d hd
  · have : digitChar d = digitChar 9 := by
      unfold digitChar
      split <;> first | omega | rfl
    rw [this]
    exact h 9 (by omega)

theorem notWs_of_isDigit {c : Char} (h : isDigit c = true) : notWs c = true := by
  unfold isDigit digitVal at h
  unfold notWs
  split_ifs at h with h0 h1 h2 h3 h4 h5 h6 h7 h8 h9
  · rw [h0]; rfl
  · rw [h1]; rfl
  · rw [h2]; rfl
  · rw [h3]; rfl
  · rw [h4]; rfl
  · rw [h5]; rfl
  · rw [h6]; rfl
  · rw [h7]; rfl
  · rw [h8]; rfl
  · rw [h9]; rfl
  · cases h

theorem digitsLE_lt (fuel : Nat) : ∀ n, ∀ d ∈ digitsLE fuel n, d < 10 := by
  induction fuel with
  | zero => intro n d hd; cases hd
  | succ f ih =>
    intro n d hd
    unfold digitsLE at hd
    split_ifs at hd with h
    · simp only [List.mem_singleton] at hd
      omega
    · rcases List.mem_cons.mp hd with h1 | h1
      · rw [h1]; exact Nat.mod_lt n (by omega)
      · exact ih _ d h1

theorem ofLE_digitsLE (fuel : Nat) : ∀ n, n < fuel → ofLE (digitsLE fuel n) = n := by
  induction fuel with
  | zero => intro n h; omega
  | succ f ih =>
    intro n hn
    unfold digitsLE
    split_ifs with h
    · simp [ofLE]
    · show n % 10 + 10 * ofLE (digitsLE f (n / 10)) = n
      rw [ih (n / 10) (by omega)]
      omega

theorem digitsLE_ne_nil (fuel n : Nat) : digitsLE (fuel + 1) n ≠ [] := by
  unfold digitsLE
  split_ifs <;> simp

theorem natOfDigits_append_digit (s : List Char) (d : Nat) (hd : d < 10) :
    natOfDigits (s ++ [digitChar d]) = 10 * natOfDigits s + d := by
  unfold natOfDigits
  rw [List.foldl_append]
  simp [digitVal_digitChar hd]

theorem natOfDigits_reverse (ds : List Nat) (h : ∀ d ∈ ds, d < 10) :
    natOfDigits (ds.reverse.map digitChar) = ofLE ds := by
  induction ds with
  | nil => rfl
  | cons d ds ih =>
    rw [List.reverse_cons, List.map_append, List.map_singleton,
      natOfDigits_append_digit _ d (h d (List.mem_cons_self d ds)),
      ih (fun x hx => h x (List.mem_cons_of_mem d hx))]
    show 10 * ofLE ds + d = d + 10 * ofLE ds
    omega

theorem decimal_isDigit (n : Nat) : ∀ c ∈ decimal n, isDigit c = true := by
  intro c hc
  unfold decimal at hc
  obtain ⟨d, _, rfl⟩ := List.mem_map.mp hc
  exact isDigit_digitChar d

theorem decimal_ne_nil (n : Nat) : decimal n ≠ [] := by
  unfold decimal
  intro h
  have := List.map_eq_nil_iff.mp h
  exact digitsLE_ne_nil n n (List.reverse_eq_nil_iff.mp this)

theorem natOfDigits_decimal (n : Nat) : natOfDigits (decimal n) = n := by
  unfold decimal
  rw [natOfDigits_reverse _ (digitsLE_lt (n + 1) n), ofLE_digitsLE (n + 1) n (by omega)]

theorem takeWhile_all {p : Char → Bool} {s : List Char} (h : ∀ c ∈ s, p c = true) :
    s.takeWhile p = s := by
  induction s with
  | nil => rfl
  | cons a s ih =>
    rw [List.takeWhile_cons, h a (List.mem_cons_self a s)]
    simp only [if_true]
    rw [ih (fun c hc => h c (List.mem_cons_of_mem a hc))]

theorem dropWhile_all {p : Char → Bool} {s : List Char} (h : ∀ c ∈ s, p c = true) :
    s.dropWhile p = [] := by
  induction s with
  | nil => rfl
  | cons a s ih =>
    rw [List.dropWhile_cons, h a (List.mem_cons_self a s)]
    simp only [if_true]
    exact ih (fun c hc => h c (List.mem_cons_of_mem a hc))

/-- The decimal text of a natural number is read back as that number, to its end. -/
theorem scanInt_decimal (n : Nat) : scanInt (decimal n) = some ((n : Int), []) := by
  have hne := decimal_ne_nil n
  have hd := decimal_isDigit n
  have hu : unsigned (decimal n) = decimal n := by
    unfold unsigned
    cases hs : decimal n with
    | nil => exact absurd hs hne
    | cons a s =>
      have ha : isDigit a = true := hd a (by rw [hs]; exact List.mem_cons_self a s)
      have h1 : a ≠ '-' := by
        intro e
        rw [e] at ha
        cases ha
      have h2 : a ≠ '+' := by
        intro e
        rw [e] at ha
        cases ha
      simp [h1, h2]
  have hh : (decimal n).head? ≠ some '-' := by
    cases hs : decimal n with
    | nil => exact absurd hs hne
    | cons a s =>
      have ha : isDigit a = true := hd a (by rw [hs]; exact List.mem_cons_self a s)
      intro e
      simp only [List.head?_cons, Option.some.injEq] at e
      rw [e] at ha
      cases ha
  unfold scanInt
  rw [hu, takeWhile_all hd, dropWhile_all hd, if_neg hne, if_neg hh, natOfDigits_decimal]

theorem fixedDigits_isDigit (k : Nat) : ∀ v, ∀ c ∈ fixedDigits k v, isDigit c = true := by
  induction k with
  | zero => intro v c hc; cases hc
  | succ k ih =>
    intro v c hc
    unfold fixedDigits at hc
    rcases List.mem_append.mp hc with h | h
    · exact ih _ c h
    · rw [List.mem_singleton.mp h]
      exact isDigit_digitChar _

theorem stripZeros_subset (s : List Char) : ∀ c ∈ stripZeros s, c ∈ s := by
  intro c hc
  unfold stripZeros at hc
  have h1 := List.mem_reverse.mp hc
  have h2 := (List.dropWhile_suffix (fun c => decide (c = '0'))).subset h1
  exact List.mem_reverse.mp h2

theorem expDigits_isDigit (k : Nat) : ∀ c ∈ expDigits k, isDigit c = true := by
  intro c hc
  unfold expDigits at hc
  split_ifs at hc
  · rcases List.mem_cons.mp hc with h | h
    · rw [h]; rfl
    · rw [List.mem_singleton.mp h]
      exact isDigit_digitChar _
  · exact decimal_isDigit k c hc

theorem fmtDigits_notWs (ds : List Char) (e : Int) (h : ∀ c ∈ ds, isDigit c = true) :
    ∀ c ∈ fmtDigits ds e, notWs c = true := by
  have hT : ∀ k, ∀ c ∈ ds.take k, notWs c = true :=
    fun k c hc => notWs_of_isDigit (h c (List.mem_of_mem_take hc))
  have hS : ∀ k, ∀ c ∈ stripZeros (ds.drop k), notWs c = true :=
    fun k c hc => notWs_of_isDigit (h c (List.mem_of_mem_drop (stripZeros_subset _ c hc)))
  have hS0 : ∀ c ∈ stripZeros ds, notWs c = true :=
    fun c hc => notWs_of_isDigit (h c (stripZeros_subset _ c hc))
  have hF : ∀ k, ∀ c ∈ (if stripZeros (ds.drop k) = [] then []
      else '.' :: stripZeros (ds.drop k)), notWs c = true := by
    intro k c hc
    split_ifs at hc
    · cases hc
    · rcases List.mem_cons.mp hc with h1 | h1
      · rw [h1]; rfl
      · exact hS k c h1
  have hE : ∀ c ∈ expDigits e.natAbs, notWs c = true :=
    fun c hc => notWs_of_isDigit (expDigits_isDigit _ c hc)
  have hSign : notWs (if e < 0 then '-' else '+') = true := by
    split_ifs <;> rfl
  have hR : ∀ k, ∀ c ∈ List.replicate k '0', notWs c = true := by
    intro k c hc
    rw [(List.mem_replicate.mp hc).2]
    rfl
  unfold fmtDigits
  by_cases h1 : e < -4 ∨ 6 ≤ e
  · rw [if_pos h1]
    simp only [List.forall_mem_append, List.forall_mem_cons]
    exact ⟨⟨hT 1, hF 1⟩, rfl, hSign, hE⟩
  · rw [if_neg h1]
    by_cases h2 : 0 ≤ e
    · rw [if_pos h2]
      simp only [List.forall_mem_append]
      exact ⟨hT _, hF _⟩
    · rw [if_neg h2]
      simp only [List.forall_mem_append, List.forall_mem_cons]
      exact ⟨rfl, rfl, hR _, hS0⟩

/-- The text written for a `double` holds no whitespace. -/
theorem putDouble_notWs (x : ℚ) : ∀ c ∈ putDouble x, notWs c = true := by
  unfold putDouble
  by_cases h0 : x = 0
  · rw [if_pos h0]
    intro c hc
    rw [List.mem_singleton.mp hc]
    rfl
  · rw [if_neg h0]
    have hs : ∀ c ∈ (if x < 0 then ['-'] else []), notWs c = true := by
      intro c hc
      split_ifs at hc
      · rw [List.mem_singleton.mp hc]
        rfl
      · cases hc
    simp only [List.forall_mem_append]
    exact ⟨hs, fmtDigits_notWs _ _ (fixedDigits_isDigit 6 _)⟩

theorem putDouble_ne_nil {x : ℚ} (h : ReadsBack x) : putDouble x ≠ [] := by
  intro e
  unfold ReadsBack at h
  rw [e] at h
  have : scanDouble [] = none := by decide
  rw [this] at h
  cases h

theorem isWhitespace_not_notWs {c : Char} (h : notWs c = true) : c.isWhitespace = false := by
  unfold notWs at h
  simpa using h

/-- The three steps of an extraction on a text that starts with whitespace, a field and a
whitespace character. -/
theorem field_split {w f rest : List Char} {c : Char} (hw : ∀ ch ∈ w, ch.isWhitespace = true)
    (hf : ∀ ch ∈ f, notWs ch = true) (hne : f ≠ []) (hc : c.isWhitespace = true) :
    (w ++ f ++ c :: rest).dropWhile Char.isWhitespace = f ++ c :: rest ∧
      (f ++ c :: rest).takeWhile notWs = f ∧ (f ++ c :: rest).dropWhile notWs = c :: rest := by
  have hcn : notWs c = false := by
    unfold notWs
    rw [hc]; rfl
  refine ⟨?_, ?_, ?_⟩
  · rw [List.append_assoc]
    induction w with
    | nil =>
      cases f with
      | nil => exact absurd rfl hne
      | cons a f =>
        have := isWhitespace_not_notWs (hf a (List.mem_cons_self a f))
        simp [List.dropWhile_cons, this]
    | cons a w ih =>
      rw [List.cons_append, List.dropWhile_cons, hw a (List.mem_cons_self a w)]
      simp only [if_true]
      exact ih (fun ch h => hw ch (List.mem_cons_of_mem a h))
  · induction f with
    | nil => simp [List.takeWhile_cons, hcn]
    | cons a f ih =>
      rw [List.cons_append, List.takeWhile_cons, hf a (List.mem_cons_self a f)]
      simp only [if_true]
      congr 1
      by_cases hf' : f = []
      · rw [hf']
        simp [List.takeWhile_cons, hcn]
      · exact ih (fun ch h => hf ch (List.mem_cons_of_mem a h)) hf'
  · induction f with
    | nil => simp [List.dropWhile_cons, hcn]
    | cons a f ih =>
      rw [List.cons_append, List.dropWhile_cons, hf a (List.mem_cons_self a f)]
      simp only [if_true]
      by_cases hf' : f = []
      · rw [hf']
        simp [List.dropWhile_cons, hcn]
      · exact ih (fun ch h => hf ch (List.mem_cons_of_mem a h)) hf'

/-- The extraction of the size that the output operators wrote. -/
theorem getInt_decimal (n : Nat) (c : Char) (rest : List Char) (hc : c.isWhitespace = true)
    (old : Int) :
    IStream.getInt ⟨decimal n ++ c :: rest, false⟩ old = ((n : Int), ⟨c :: rest, false⟩) := by
  obtain ⟨h1, h2, h3⟩ := @field_split [] (decimal n) rest c (by intro ch h; cases h)
    (fun ch h => notWs_of_isDigit (decimal_isDigit n ch h)) (decimal_ne_nil n) hc
  rw [List.nil_append] at h1
  unfold IStream.getInt
  simp only [h1, h2, h3, scanInt_decimal, List.nil_append]
  rfl

/-- The extraction of a number that the output operators wrote and that is read back as
itself. -/
theorem getDouble_field {x : ℚ} (hx : ReadsBack x) {w rest : List Char} {c : Char}
    (hw : ∀ ch ∈ w, ch.isWhitespace = true) (hc : c.isWhitespace = true) (old : ℚ) :
    IStream.getDouble ⟨w ++ putDouble x ++ c :: rest, false⟩ old = (x, ⟨c :: rest, false⟩) := by
  obtain ⟨h1, h2, h3⟩ := @field_split w (putDouble x) rest c hw (putDouble_notWs x)
    (putDouble_ne_nil hx) hc
  unfold ReadsBack at hx
  unfold IStream.getDouble
  simp only [h1, h2, h3, hx, List.nil_append]
  rfl

theorem readable_append {xs ys : List ℚ} {mid fin : List Char} :
    ∀ {t : List Char}, Readable xs t mid → Readable ys mid fin → Readable (xs ++ ys) t fin := by
  induction xs with
  | nil =>
    intro t h1 h2
    have : t = mid := h1
    rw [List.nil_append, this]
    exact h2
  | cons x xs ih =>
    intro t h1 h2
    obtain ⟨w, c, rest, hw, hc, ht, hr⟩ := h1
    exact ⟨w, c, rest, hw, hc, ht, ih hr h2⟩

theorem written_ws {w : List Char} (hw : ∀ ch ∈ w, ch.isWhitespace = true) : Written [] w :=
  ⟨w, hw, fun _ => rfl⟩

/-- Writing one more number and a space keeps the text readable. -/
theorem written_snoc {xs : List ℚ} {txt : List Char} (h : Written xs txt) (x : ℚ) :
    Written (xs ++ [x]) (putElem x txt) := by
  obtain ⟨u, hu, hr⟩ := h
  refine ⟨[' '], ?_, ?_⟩
  · intro ch hch
    rw [List.mem_singleton.mp hch]
    rfl
  · intro tail
    have h1 := hr (putDouble x ++ ' ' :: tail)
    have h2 : Readable [x] (u ++ (putDouble x ++ ' ' :: tail)) ([' '] ++ tail) :=
      ⟨u, ' ', tail, hu, rfl, by rw [List.append_assoc], rfl⟩
    have h3 := readable_append h1 h2
    have e : putElem x txt ++ tail = txt ++ (putDouble x ++ ' ' :: tail) := by
      unfold putElem
      simp
    rw [e]
    exact h3

/-- Writing a line break keeps the text readable. -/
theorem written_endl {xs : List ℚ} {txt : List Char} (h : Written xs txt) :
    Written xs (txt ++ ['\n']) := by
  obtain ⟨u, hu, hr⟩ := h
  refine ⟨u ++ ['\n'], ?_, ?_⟩
  · intro ch hch
    rcases List.mem_append.mp hch with h1 | h1
    · exact hu ch h1
    · rw [List.mem_singleton.mp h1]
      rfl
  · intro tail
    have h1 := hr ('\n' :: tail)
    have e1 : txt ++ ['\n'] ++ tail = txt ++ '\n' :: tail := by simp
    have e2 : u ++ ['\n'] ++ tail = u ++ '\n' :: tail := by simp
    rw [e1, e2]
    exact h1

theorem list_set_middle (pre post : List ℚ) (o x : ℚ) :
    (pre ++ o :: post).set pre.length x = pre ++ x :: post := by
  induction pre with
  | nil => rfl
  | cons a pre ih =>
    show a :: (pre ++ o :: post).set pre.length x = a :: (pre ++ x :: post)
    rw [ih]

theorem list_getD_middle (pre post : List ℚ) (o : ℚ) :
    (pre ++ o :: post).getD pre.length 0 = o := by
  induction pre with
  | nil => rfl
  | cons a pre ih => exact ih

/-- The input loop `for (i = 0; i < n; i++) ifs >> v[i]` on a text that holds the numbers `xs`
as fields, each of which is read back as itself: the numbers are stored in order. -/
theorem readElem_loop : ∀ (xs pre post : List ℚ) (t fin : List Char),
    (∀ x ∈ xs, ReadsBack x) → Readable xs t fin → post.length = xs.length →
    forCount readElem xs.length pre.length (⟨pre ++ post⟩, ⟨t, false⟩)
      = Except.ok (⟨pre ++ xs⟩, ⟨fin, false⟩) := by
  intro xs
  induction xs with
  | nil =>
    intro pre post t fin _ hr hl
    have hp : post = [] := List.length_eq_zero.mp hl
    have ht : t = fin := hr
    rw [hp, ht]
    rfl
  | cons x xs ih =>
    intro pre post t fin hx hr hl
    obtain ⟨w, c, rest, hw, hc, ht, hr'⟩ := hr
    cases post with
    | nil => simp at hl
    | cons o post =>
      have hlen : pre.length < (Vector.mk (pre ++ o :: post)).pdata.length := by simp
      have hstep : readElem pre.length (⟨pre ++ o :: post⟩, ⟨t, false⟩)
          = Except.ok (⟨(pre ++ [x]) ++ post⟩, ⟨c :: rest, false⟩) := by
        unfold readElem
        simp only [Vector.get_of_lt hlen, ok_bind, Vector.E, list_getD_middle, ht,
          getDouble_field (hx x (List.mem_cons_self x xs)) hw hc, Vector.set_of_lt hlen,
          Vector.upd, list_set_middle, pure_eq_ok]
        simp
      rw [List.length_cons, forCount_succ, hstep, ok_bind]
      have := ih (pre ++ [x]) post (c :: rest) fin
        (fun y hy => hx y (List.mem_cons_of_mem x hy)) hr' (by simpa using hl)
      rw [List.length_append, List.length_singleton] at this
      rw [this]
      simp

theorem take_succ_getD (xs : List ℚ) : ∀ i, i < xs.length →
    xs.take (i + 1) = xs.take i ++ [xs.getD i 0] := by
  induction xs with
  | nil => intro i h; simp at h
  | cons a xs ih =>
    intro i h
    cases i with
    | zero => rfl
    | succ i =>
      show a :: xs.take (i + 1) = a :: (xs.take i ++ [xs.getD i 0])
      rw [ih i (by simpa using h)]

theorem putInt_natCast (n : Nat) : putInt (n : Int) = decimal n := by
  unfold putInt
  rw [if_neg (by omega), Int.natAbs_ofNat]

theorem putElem_cons (x : ℚ) (c : Char) (b : List Char) :
    putElem x (c :: b) = c :: putElem x b := rfl

theorem putElem_append (x : ℚ) (a b : List Char) : putElem x (a ++ b) = a ++ putElem x b := by
  unfold putElem
  simp

/-- The text that the file output operator of `Vector` appends: the size in decimal, a line
break and a text that holds the elements as fields. -/
theorem Vector.fileOut_fields (v : Vector) (ofs : List Char) :
    ∃ b, v.fileOut ofs = Except.ok (ofs ++ decimal v.pdata.length ++ '\n' :: b) ∧
      Written v.pdata ('\n' :: b) := by
  have hn : v.size.toNat = v.pdata.length := by simp [Vector.size]
  have hs : putInt v.size = decimal v.pdata.length := by
    unfold Vector.size
    exact putInt_natCast _
  obtain ⟨r, hr, b, hb, hW⟩ := forUp_ok_inv
    (fun i ofs => do pure (putElem (← v.get i) ofs))
    (fun i (t : List Char) => ∃ b, t = ofs ++ decimal v.pdata.length ++ '\n' :: b ∧
      Written (v.pdata.take i) ('\n' :: b))
    (ofs ++ decimal v.pdata.length ++ ['\n']) (Nat.zero_le v.pdata.length)
    ⟨[], rfl, written_ws (by
      intro ch hch
      rw [List.mem_singleton.mp hch]
      rfl)⟩
    (by
      rintro i t _ hi ⟨b, hb, hW⟩
      refine ⟨putElem (v.E i) t, ?_, putElem (v.E i) b, ?_, ?_⟩
      · show (v.get (i : Int) >>= fun x => pure (putElem x t)) = _
        rw [Vector.get_of_lt hi, ok_bind]
        rfl
      · rw [hb, putElem_append, putElem_cons]
      · rw [take_succ_getD v.pdata i hi, ← putElem_cons]
        exact written_snoc hW (v.pdata.getD i 0))
  refine ⟨b ++ ['\n'], ?_, ?_⟩
  · unfold Vector.fileOut
    simp only [hn, hs]
    rw [hr, ok_bind, hb]
    simp
  · rw [List.take_length] at hW
    exact written_endl hW

/-- The text that the file output operator of `MathMatrix` appends for a well-formed matrix:
the size in decimal, a line break and a text that holds the entries, row by row, as fields. -/
theorem MathMatrix.fileOut_text {m : MathMatrix} {n : Nat} (hm : m.Sq n) (ofs : List Char) :
    ∃ b, m.fileOut ofs = Except.ok (ofs ++ decimal n ++ '\n' :: b) ∧
      Written m.v.pdata ('\n' :: b) := by
  have hn : m.n.toNat = n := by rw [hm.size]; simp
  have hs : putInt m.n = decimal n := by
    rw [hm.size]
    exact putInt_natCast _
  have hlen : m.v.pdata.length = n * n := hm.len
  obtain ⟨r, hr, b, hb, hW⟩ := forUp_ok_inv
    (fun i ofs => do
      let ofs ← forUp 0 n (fun j ofs => do pure (putElem (← m.get i j) ofs)) ofs
      pure (ofs ++ ['\n']))
    (fun i (t : List Char) => ∃ b, t = ofs ++ decimal n ++ '\n' :: b ∧
      Written (m.v.pdata.take (i * n)) ('\n' :: b))
    (ofs ++ decimal n ++ ['\n']) (Nat.zero_le n)
    ⟨[], rfl, by
      rw [Nat.zero_mul, List.take_zero]
      exact written_ws (by
        intro ch hch
        rw [List.mem_singleton.mp hch]
        rfl)⟩
    (by
      rintro i t _ hi ⟨b, hb, hW⟩
      obtain ⟨r, hr, b', hb', hW'⟩ := forUp_ok_inv
        (fun j ofs => do pure (putElem (← m.get i j) ofs))
        (fun j (t : List Char) => ∃ b, t = ofs ++ decimal n ++ '\n' :: b ∧
          Written (m.v.pdata.take (i * n + j)) ('\n' :: b))
        t (Nat.zero_le n) ⟨b, hb, hW⟩
        (by
          rintro j t _ hj ⟨b, hb, hW⟩
          have hidx : i * n + j < m.v.pdata.length := by
            rw [hlen]
            exact idx_lt hi hj
          have hE : m.E i j = m.v.pdata.getD (i * n + j) 0 := by
            unfold MathMatrix.E
            rw [hm.toNat_ncols]
          refine ⟨putElem (m.E i j) t, ?_, putElem (m.E i j) b, ?_, ?_⟩
          · show (m.get (i : Int) (j : Int) >>= fun x => pure (putElem x t)) = _
            rw [MathMatrix.get_nat hm hi hj, ok_bind]
            rfl
          · rw [hb, putElem_append, putElem_cons]
          · rw [show i * n + (j + 1) = i * n + j + 1 by omega,
              take_succ_getD m.v.pdata _ hidx, ← putElem_cons, hE]
            exact written_snoc hW _)
      refine ⟨r ++ ['\n'], ?_, b' ++ ['\n'], ?_, ?_⟩
      · show (forUp 0 n (fun j ofs => do pure (putElem (← m.get i j) ofs)) t >>=
          fun ofs => pure (ofs ++ ['\n'])) = _
        rw [hr, ok_bind]
        rfl
      · rw [hb']
        simp
      · rw [show (i + 1) * n = i * n + n by ring]
        exact written_endl hW')
  refine ⟨b, ?_, ?_⟩
  · unfold MathMatrix.fileOut
    simp only [hn, hs]
    rw [← hb]
    exact hr
  · rw [← hlen, List.take_length] at hW
    exact hW

/-- The input loop always ends and keeps the number of elements. -/
theorem readElem_loop_length (n cnt : Nat) (hc : cnt ≤ n) (v : Vector) (s : IStream)
    (hv : v.pdata.length = n) :
    ∃ v' s', forUp 0 cnt readElem (v, s) = Except.ok (v', s') ∧ v'.pdata.length = n := by
  obtain ⟨r, hr, hl⟩ := forUp_ok_inv readElem
    (fun _ (t : Vector × IStream) => t.1.pdata.length = n) (v, s) (Nat.zero_le cnt) hv
    (by
      rintro i ⟨w, t⟩ _ hi hw
      have hw' : w.pdata.length = n := hw
      have hlt : i < w.pdata.length := by omega
      refine ⟨((w.upd i (t.getDouble (w.E i)).1), (t.getDouble (w.E i)).2), ?_, ?_⟩
      · unfold readElem
        simp only [Vector.get_of_lt hlt, ok_bind, Vector.set_of_lt hlt, pure_eq_ok]
      · show (w.upd i _).pdata.length = n
        simp [Vector.upd, hw'])
  exact ⟨r.1, r.2, hr, hl⟩

/-- The file input operator of `Vector` on a text written by the file output operator always
returns a vector of the size written. -/
theorem Vector.fileIn_length (n : Nat) (b : List Char) (n0 : Int) :
    ∃ v' s, Vector.fileIn n0 ⟨decimal n ++ '\n' :: b, false⟩ = Except.ok (v', s) ∧
      v'.pdata.length = n := by
  obtain ⟨v', s', h, hl⟩ := readElem_loop_length n n (Nat.le_refl n) ⟨List.replicate n 0⟩
    ⟨'\n' :: b, false⟩ (by simp)
  refine ⟨v', s', ?_, hl⟩
  unfold Vector.fileIn
  rw [getInt_decimal n '\n' b rfl n0]
  simp only [Int.toNat_ofNat, Vector.Init_nat, ok_bind]
  rw [if_neg (by omega)]
  exact h

/-- The file input operator of `Vector` on a text written by the file output operator, when
every number written is read back as itself: the vector read holds the numbers written. -/
theorem Vector.fileIn_elements {xs : List ℚ} {b : List Char} (n0 : Int)
    (hW : Written xs ('\n' :: b)) (hx : ∀ x ∈ xs, ReadsBack x) :
    ∃ s, Vector.fileIn n0 ⟨decimal xs.length ++ '\n' :: b, false⟩ = Except.ok (⟨xs⟩, s) := by
  obtain ⟨u, _, hr⟩ := hW
  have h := readElem_loop xs [] (List.replicate xs.length 0) ('\n' :: b) u hx
    (by
      have := hr []
      rw [List.append_nil, List.append_nil] at this
      exact this) (by simp)
  refine ⟨⟨u, false⟩, ?_⟩
  unfold Vector.fileIn
  rw [getInt_decimal xs.length '\n' b rfl n0]
  simp only [Int.toNat_ofNat, Vector.Init_nat, ok_bind]
  rw [if_neg (by omega)]
  unfold forUp
  rw [Nat.sub_zero]
  exact h

/-- The file input operator of `MathMatrix` on a text written by the file output operator
always returns a matrix of the size written. -/
theorem MathMatrix.fileIn_size (n : Nat) (b : List Char) (n0 : Int) :
    ∃ m' s, MathMatrix.fileIn n0 ⟨decimal n ++ '\n' :: b, false⟩ = Except.ok (m', s) ∧
      m'.Sq n := by
  obtain ⟨v', s', h, hl⟩ := readElem_loop_length (n * n) (n * n) (Nat.le_refl _)
    (MathMatrix.zero n).v ⟨'\n' :: b, false⟩ (MathMatrix.zero_sq n).len
  refine ⟨{ MathMatrix.zero n with v := v' }, s', ?_, ⟨rfl, rfl, rfl, hl⟩⟩
  unfold MathMatrix.fileIn
  rw [getInt_decimal n '\n' b rfl n0]
  simp only [MathMatrix.new_nat, ok_bind]
  rw [if_neg (by omega)]
  have e : ((n : Int) * (n : Int)).toNat = n * n := by
    have : ((n : Int) * (n : Int)) = ((n * n : Nat) : Int) := by push_cast; rfl
    rw [this, Int.toNat_ofNat]
  rw [e, h]
  rfl

/-- The file input operator of `MathMatrix` on a text written by the file output operator,
when every number written is read back as itself: the matrix read is the matrix written. -/
theorem MathMatrix.fileIn_entries {m : MathMatrix} {n : Nat} (hm : m.Sq n) {b : List Char}
    (n0 : Int) (hW : Written m.v.pdata ('\n' :: b)) (hx : ∀ x ∈ m.v.pdata, ReadsBack x) :
    ∃ s, MathMatrix.fileIn n0 ⟨decimal n ++ '\n' :: b, false⟩ = Except.ok (m, s) := by
  obtain ⟨u, _, hr⟩ := hW
  have h := readElem_loop m.v.pdata [] (List.replicate (n * n) 0) ('\n' :: b) u hx
    (by
      have := hr []
      rw [List.append_nil, List.append_nil] at this
      exact this) (by simp [hm.len])
  refine ⟨⟨u, false⟩, ?_⟩
  unfold MathMatrix.fileIn
  rw [getInt_decimal n '\n' b rfl n0]
  simp only [MathMatrix.new_nat, ok_bind]
  rw [if_neg (by omega)]
  have e : ((n : Int) * (n : Int)).toNat = n * n := by
    have : ((n : Int) * (n : Int)) = ((n * n : Nat) : Int) := by push_cast; rfl
    rw [this, Int.toNat_ofNat]
  have hz : (MathMatrix.zero n).v = ⟨[] ++ List.replicate (n * n) 0⟩ := rfl
  unfold forUp
  rw [e, Nat.sub_zero, hz, ← hm.len]
  rw [← hm.len] at h
  rw [show (0 : Nat) = ([] : List ℚ).length from rfl, h]
  simp only [ok_bind, pure_eq_ok, List.nil_append]
  congr 1
  cases m with
  | mk mat size =>
    cases mat with
    | mk r c v =>
      have h1 : r = (n : Int) := hm.nrows
      have h2 : c = (n : Int) := hm.ncols
      have h3 : size = (n : Int) := hm.size
      simp only [MathMatrix.zero, MathMatrix.ofList, h1, h2, h3]

end TextStreams

section LastPivot

/-- With a zero on the diagonal of `u`, `lu_solve` reaches the division by it. -/
theorem lu_solve_zero_diag {l u : MathMatrix} {b : Vector} {n i : Nat} (hl : l.Sq n)
    (hu : u.Sq n) (hb : b.pdata.length = n) (hi : i < n) (h0 : u.E i i = 0) :
    lu_solve l u b (n : Int) = Except.error Err.divByZero := by
  obtain ⟨y, hy, hyl, _⟩ := subst_forward_spec hl hb
  unfold lu_solve
  simp only [Int.toNat_ofNat, hy, ok_bind]
  unfold subst.backward
  rw [subst_backward_zero hu h0 n y hi (Nat.le_refl n) hyl]
  rfl

/-- With a zero on the diagonal of `u`, a pass of the loop over `k` of `inverse` reaches the
division by it in its back substitution. -/
theorem inverse_column_zero {l u : MathMatrix} {n k i : Nat} (hl : l.Sq n) (hu : u.Sq n)
    (hk : k < n) (hi : i < n) (h0 : u.E i i = 0) (s : inverse.State)
    (he : s.e.pdata.length = n) (hli : s.l_inv.Sq n) :
    inverse.column l u n k s = Except.error Err.divByZero := by
  have hk1 : k < s.e.pdata.length := by omega
  have hl1 : (s.e.upd k 1).pdata.length = n := by simp [Vector.upd, he]
  obtain ⟨e2, he2, he2l⟩ : ∃ e2, (if k > 0 then (s.e.upd k 1).set ((k : Int) - 1) 0
      else pure (s.e.upd k 1)) = Except.ok e2 ∧ e2.pdata.length = n := by
    by_cases hpos : k > 0
    · have hc : ((k : Int) - 1) = ((k - 1 : Nat) : Int) := by omega
      have hlt : k - 1 < (s.e.upd k 1).pdata.length := by omega
      refine ⟨(s.e.upd k 1).upd (k - 1) 0, ?_, by simp [Vector.upd, he]⟩
      rw [if_pos hpos, hc, Vector.set_of_lt hlt]
    · exact ⟨s.e.upd k 1, by rw [if_neg hpos]; rfl, hl1⟩
  obtain ⟨y, hy, hyl, _⟩ := subst_forward_spec hl he2l
  obtain ⟨L1, hL1, _, _⟩ := inverse_fill_column hli hyl hk
  have hx : subst.backward u n e2 = Except.error Err.divByZero := by
    unfold subst.backward
    exact subst_backward_zero hu h0 n e2 hi (Nat.le_refl n) he2l
  unfold inverse.column
  simp only [Vector.set_of_lt hk1, ok_bind, pure_eq_ok]
  by_cases hpos : k > 0
  · rw [if_pos hpos] at he2 ⊢
    simp only [he2, ok_bind, hy, hL1, hx, error_bind]
  · rw [if_neg hpos] at he2 ⊢
    cases he2
    simp only [ok_bind, hy, hL1, hx, error_bind]

/-- With a zero on the diagonal of the factor `U`, `inverse()` reaches the division by it,
whatever matrix `reorder` has returned. -/
theorem inverse_zero_diag_of {A P L U : MathMatrix} {n i : Nat} (hA : A.Sq n)
    (hP : Ieee.reorder A (n : Int) = Except.ok P) (hLU : lu_fact A (n : Int) = Except.ok (L, U))
    (hi : i < n) (h0 : U.E i i = 0) :
    A.inverse = Except.error Err.divByZero := by
  obtain ⟨hL, hU, _⟩ := lu_fact_mulF hA hLU
  have h1 : forUp 0 1 (inverse.column L U n)
      ⟨⟨List.replicate n 0⟩, MathMatrix.zero n, MathMatrix.zero n⟩
        = Except.error Err.divByZero := by
    rw [forUp_succ_last (Nat.le_refl 0), forUp_of_le (Nat.le_refl 0), ok_bind]
    exact inverse_column_zero hL hU (by omega) hi h0 _ (by simp) (MathMatrix.zero_sq n)
  have h2 := forUp_error_mono _ _ _ h1 n (by omega)
  unfold MathMatrix.inverse
  rw [hA.nrows]
  simp only [hP, ok_bind, hLU, MathMatrix.new_nat, Vector.Init_nat, Int.toNat_ofNat, h2,
    error_bind]

/-- With a zero on the diagonal of the factor `U`, `inverse()` reaches the division by it. -/
theorem inverse_zero_diag {A P L U : MathMatrix} {n i : Nat} (hA : A.Sq n)
    (hP : reorder A (n : Int) = Except.ok P) (hLU : lu_fact A (n : Int) = Except.ok (L, U))
    (hi : i < n) (h0 : U.E i i = 0) :
    A.inverse = Except.error Err.divByZero :=
  inverse_zero_diag_of hA (Ieee.reorder_of_ok hP) hLU hi h0

end LastPivot

section Invariant

end Invariant

section Claims

/-- C1: for every `n` and every well-formed `n`-by-`n` matrix `A` on which `lu_fact(A, L, U, n)`
does not signal a zero pivot, the product `L * U` computed by `MathMatrix::operator*` is `A`
(exactly, in exact arithmetic). -/
theorem lu_fact_product (n : Nat) (A L U : MathMatrix) (hA : A.Sq n)
    (h : lu_fact A (n : Int) = Except.ok (L, U)) : L.mul U = Except.ok A := by
  obtain ⟨hL, hU, hE⟩ := lu_fact_mulF hA h
  obtain ⟨R, hR, hRS, hRE⟩ := MathMatrix.mul_spec hL hU
  rw [hR]
  congr 1
  apply MathMatrix.ext_E hRS hA
  intro i j hi hj
  rw [hRE i j hi hj]
  exact hE i j hi hj

/-- C1, the scenario of the specification: `[[4,3],[6,3]]` has the factors
`[[1,0],[1.5,1]]` and `[[4,3],[0,-1.5]]`, whose product is the matrix again. -/
theorem lu_fact_product_witness :
    lu_fact (MathMatrix.ofList 2 [4, 3, 6, 3]) ((2 : Nat) : Int)
        = Except.ok (MathMatrix.ofList 2 [1, 0, 3/2, 1], MathMatrix.ofList 2 [4, 3, 0, -3/2]) ∧
      (MathMatrix.ofList 2 [1, 0, 3/2, 1]).mul (MathMatrix.ofList 2 [4, 3, 0, -3/2])
        = Except.ok (MathMatrix.ofList 2 [4, 3, 6, 3]) :=
  ⟨by decide!, lu_fact_product 2 _ _ _ ⟨rfl, rfl, rfl, rfl⟩ (by decide!)⟩

/-- C3: for every `n` and every well-formed `n`-by-`n` matrix `A` on which `lu_fact` succeeds,
`L` and `U` are well-formed `n`-by-`n` matrices, `L` has ones on its diagonal and zeros above
it, and `U` has zeros below its diagonal. -/
theorem lu_fact_triangular (n : Nat) (A L U : MathMatrix) (hA : A.Sq n)
    (h : lu_fact A (n : Int) = Except.ok (L, U)) :
    L.Sq n ∧ U.Sq n ∧
      (∀ i, i < n → L.get (i : Int) (i : Int) = Except.ok 1) ∧
      (∀ i j, i < n → j < n → i < j → L.get (i : Int) (j : Int) = Except.ok 0) ∧
      (∀ i j, i < n → j < n → j < i → U.get (i : Int) (j : Int) = Except.ok 0) := by
  rcases lu_fact_cases hA with ⟨_, he⟩ | ⟨_, L', U', h', hL, hU, hLE, hUE⟩
  · rw [he] at h; cases h
  · rw [h'] at h
    cases h
    refine ⟨hL, hU, fun i hi => ?_, fun i j hi hj hij => ?_, fun i j hi hj hij => ?_⟩
    · rw [MathMatrix.get_nat hL hi hi, hLE i i hi hi]
      unfold lowerF
      rw [if_pos rfl]
    · rw [MathMatrix.get_nat hL hi hj, hLE i j hi hj]
      unfold lowerF
      rw [if_neg (by omega), if_neg (by omega)]
    · rw [MathMatrix.get_nat hU hi hj, hUE i j hi hj]
      unfold upperF
      rw [if_neg (by omega)]

/-- C3 on the scenario of the specification: the factors of `[[4,3],[6,3]]` are triangular. -/
theorem lu_fact_triangular_witness :
    (MathMatrix.ofList 2 [4, 3, 6, 3]).Sq 2 ∧
      lu_fact (MathMatrix.ofList 2 [4, 3, 6, 3]) ((2 : Nat) : Int)
        = Except.ok (MathMatrix.ofList 2 [1, 0, 3/2, 1], MathMatrix.ofList 2 [4, 3, 0, -3/2]) ∧
      (MathMatrix.ofList 2 [1, 0, 3/2, 1]).get ((0 : Nat) : Int) ((1 : Nat) : Int) = Except.ok 0 ∧
      (MathMatrix.ofList 2 [4, 3, 0, -3/2]).get ((1 : Nat) : Int) ((0 : Nat) : Int) = Except.ok 0 :=
  have h := lu_fact_triangular 2 (MathMatrix.ofList 2 [4, 3, 6, 3]) (MathMatrix.ofList 2 [1, 0, 3/2, 1])
    (MathMatrix.ofList 2 [4, 3, 0, -3/2]) ⟨rfl, rfl, rfl, rfl⟩ (by decide!)
  ⟨⟨rfl, rfl, rfl, rfl⟩, by decide!, h.2.2.2.1 0 1 (by decide) (by decide) (by decide),
    h.2.2.2.2 1 0 (by decide) (by decide) (by decide)⟩

/-- C8: on a well-formed `n`-by-`n` matrix, `lu_fact` signals the zero pivot (and returns no
factors) exactly when, for some step `k` with `k + 1 < n`, the elimination loop reaches step `k`
with `temp(k,k) = 0`; when no step has a zero pivot, `lu_fact` returns factors. -/
theorem lu_fact_pivotZero_iff (n : Nat) (A : MathMatrix) (hA : A.Sq n) :
    (lu_fact A (n : Int) = Except.error Err.pivotZero ↔
        ∃ k, k + 1 < n ∧ ∃ T, lu_fact.eliminate n k A = Except.ok T ∧
          T.get (k : Int) (k : Int) = Except.ok 0) ∧
      ((∀ k, k + 1 < n → ∀ T, lu_fact.eliminate n k A = Except.ok T →
          T.get (k : Int) (k : Int) ≠ Except.ok 0) →
        ∃ L U, lu_fact A (n : Int) = Except.ok (L, U)) := by
  have first : (∃ c, c < n - 1 ∧ elimN A.E c c c = 0) →
      ∃ k, k + 1 < n ∧ ∃ T, lu_fact.eliminate n k A = Except.ok T ∧
          T.get (k : Int) (k : Int) = Except.ok 0 := by
    intro h0
    obtain ⟨c, hc, hz, hp⟩ := exists_first_zero (fun c => elimN A.E c c c) (n - 1) h0
    obtain ⟨T, hT, hTS, hTE⟩ := lu_fact.eliminate_ok hA c (by omega) hp
    have hcn : c < n := by omega
    exact ⟨c, by omega, T, hT, by rw [MathMatrix.get_nat hTS hcn hcn, hTE c c hcn hcn, hz]⟩
  have back : (∃ k, k + 1 < n ∧ ∃ T, lu_fact.eliminate n k A = Except.ok T ∧
          T.get (k : Int) (k : Int) = Except.ok 0) → ∃ c, c < n - 1 ∧ elimN A.E c c c = 0 := by
    rintro ⟨k, hk, T, hT, hz⟩
    have hkn : k < n := by omega
    rcases lu_fact.eliminate_cases hA k (by omega) with ⟨_, he⟩ | ⟨_, T', hT', hTS, hTE⟩
    · rw [he] at hT; cases hT
    · rw [hT'] at hT
      cases hT
      rw [MathMatrix.get_nat hTS hkn hkn, hTE k k hkn hkn] at hz
      exact ⟨k, by omega, Except.ok.inj hz⟩
  refine ⟨⟨fun h => ?_, fun h => ?_⟩, fun h => ?_⟩
  · rcases lu_fact_cases hA with ⟨h0, _⟩ | ⟨_, L, U, h', _⟩
    · exact first h0
    · rw [h'] at h; cases h
  · rcases lu_fact_cases hA with ⟨_, he⟩ | ⟨hp, _⟩
    · exact he
    · obtain ⟨c, hc, hz⟩ := back h
      exact absurd hz (hp c hc)
  · rcases lu_fact_cases hA with ⟨h0, _⟩ | ⟨_, L, U, h', _⟩
    · obtain ⟨k, hk, T, hT, hz⟩ := first h0
      exact absurd hz (h k hk T hT)
    · exact ⟨L, U, h'⟩

/-- C8 on `[[0,1],[1,0]]`: the pivot of step 0 is zero and `lu_fact` signals it. -/
theorem lu_fact_pivotZero_iff_witness :
    (MathMatrix.ofList 2 [0, 1, 1, 0]).Sq 2 ∧
      lu_fact (MathMatrix.ofList 2 [0, 1, 1, 0]) ((2 : Nat) : Int) = Except.error Err.pivotZero ∧
      ∃ k, k + 1 < 2 ∧ ∃ T, lu_fact.eliminate 2 k (MathMatrix.ofList 2 [0, 1, 1, 0]) = Except.ok T ∧
          T.get (k : Int) (k : Int) = Except.ok 0 :=
  ⟨⟨rfl, rfl, rfl, rfl⟩, by decide!,
    (lu_fact_pivotZero_iff 2 (MathMatrix.ofList 2 [0, 1, 1, 0]) ⟨rfl, rfl, rfl, rfl⟩).1.mp
      (by decide!)⟩

/-- C6, refuted as stated: in double precision, for `L = [1]`, `U = [49]` (the factors that
`lu_fact` returns for `A = [49]`) and `b = [1]`, `lu_solve` returns `x = [fl (1/49)]`, and
`U * x` is `[1 - 2^(-53)]`: neither `L * (U * x)` nor `A * x` is `b`. -/
theorem lu_solve_rounded_counterexample :
    Fp.lu_fact (MathMatrix.ofList 1 [49]) 1
        = Except.ok (MathMatrix.ofList 1 [1], MathMatrix.ofList 1 [49]) ∧
      Fp.lu_solve (MathMatrix.ofList 1 [1]) (MathMatrix.ofList 1 [49]) ⟨[1]⟩ 1
        = Except.ok ⟨[5882252574524729 / 288230376151711744]⟩ ∧
      (Fp.mulVec (MathMatrix.ofList 1 [49]) ⟨[5882252574524729 / 288230376151711744]⟩
          >>= fun w => Fp.mulVec (MathMatrix.ofList 1 [1]) w)
        = Except.ok ⟨[9007199254740991 / 9007199254740992]⟩ ∧
      Fp.mulVec (MathMatrix.ofList 1 [49]) ⟨[5882252574524729 / 288230376151711744]⟩
        = Except.ok ⟨[9007199254740991 / 9007199254740992]⟩ ∧
      (Vector.mk [9007199254740991 / 9007199254740992]) ≠ ⟨[1]⟩ :=
  ⟨by decide!, by decide!, by decide!, by decide!, by decide!⟩

/-- C6, amended: in exact arithmetic, for every `n`, every well-formed `n`-by-`n` unit lower
triangular `L`, every well-formed `n`-by-`n` upper triangular `U` whose diagonal entries are
not zero and every vector `b` of size `n`, `lu_solve(L, U, b, n, x)` returns a vector `x` with
`L * (U * x) = b`; and for every well-formed `A` that `lu_fact` factors into `L` and `U`,
`A * x = b`. The products are those of `MathMatrix::operator*(const MathVector&)`. -/
theorem lu_solve_correct (n : Nat) (L U : MathMatrix) (b : Vector) (hL : L.Sq n) (hU : U.Sq n)
    (hb : b.size = (n : Int))
    (hL1 : ∀ i, i < n → L.get (i : Int) (i : Int) = Except.ok 1)
    (hL0 : ∀ i j, i < n → j < n → i < j → L.get (i : Int) (j : Int) = Except.ok 0)
    (hU0 : ∀ i j, i < n → j < n → j < i → U.get (i : Int) (j : Int) = Except.ok 0)
    (hUd : ∀ i, i < n → U.get (i : Int) (i : Int) ≠ Except.ok 0) :
    ∃ x, lu_solve L U b (n : Int) = Except.ok x ∧
      (U.mulVec x >>= fun w => L.mulVec w) = Except.ok b ∧
      ∀ A : MathMatrix, A.Sq n → lu_fact A (n : Int) = Except.ok (L, U) →
        A.mulVec x = Except.ok b := by
  have hbl : b.pdata.length = n := by
    unfold Vector.size at hb; exact_mod_cast hb
  have hd : ∀ i, i < n → U.E i i ≠ 0 := by
    intro i hi h0
    apply hUd i hi
    rw [MathMatrix.get_nat hU hi hi, h0]
  have eL1 : ∀ i, i < n → L.E i i = 1 := by
    intro i hi
    have := hL1 i hi
    rw [MathMatrix.get_nat hL hi hi] at this
    exact Except.ok.inj this
  have eL0 : ∀ i j, i < n → j < n → i < j → L.E i j = 0 := by
    intro i j hi hj hij
    have := hL0 i j hi hj hij
    rw [MathMatrix.get_nat hL hi hj] at this
    exact Except.ok.inj this
  have eU0 : ∀ i j, i < n → j < n → j < i → U.E i j = 0 := by
    intro i j hi hj hij
    have := hU0 i j hi hj hij
    rw [MathMatrix.get_nat hU hi hj] at this
    exact Except.ok.inj this
  obtain ⟨x, y, hx, hxl, hyl, hyS, hxS⟩ := lu_solve_spec hL hU hbl hd
  obtain ⟨w, hw, hwl, hwE⟩ := MathMatrix.mulVec_spec hU hxl
  have hwy : w = y := by
    apply Vector.ext_of_E (by rw [hwl, hyl])
    intro a ha
    rw [hwl] at ha
    rw [hwE a ha, mulVecF_upper ha U.E x.E (fun j hj => eU0 a j ha (by omega) hj)]
    exact hxS a ha
  obtain ⟨z, hz, hzl, hzE⟩ := MathMatrix.mulVec_spec hL hwl
  have hLw : ∀ a, a < n → mulVecF n L.E w.E a = b.E a := by
    intro a ha
    rw [hwy, mulVecF_lower ha L.E y.E (eL1 a ha) (fun j hj hjn => eL0 a j ha hjn hj)]
    exact hyS a ha
  have hzb : z = b := by
    apply Vector.ext_of_E (by rw [hzl, hbl])
    intro a ha
    rw [hzl] at ha
    rw [hzE a ha]
    exact hLw a ha
  refine ⟨x, hx, ?_, fun A hA hfact => ?_⟩
  · rw [hw, ok_bind, hz, hzb]
  · obtain ⟨_, _, hprod⟩ := lu_fact_mulF hA hfact
    obtain ⟨r, hr, hrl, hrE⟩ := MathMatrix.mulVec_spec hA hxl
    rw [hr]
    congr 1
    apply Vector.ext_of_E (by rw [hrl, hbl])
    intro a ha
    rw [hrl] at ha
    rw [hrE a ha, ← mulVecF_congr hprod (fun _ _ => rfl) ha, mulVecF_mulF,
      mulVecF_congr (fun _ _ _ _ => rfl) hwE ha |>.symm]
    exact hLw a ha

/-- C6 on the factors of `[[4,3],[6,3]]` and `b = [1, 2]`: the solution is `[1/2, -1/3]`. -/
theorem lu_solve_correct_witness :
    lu_solve (MathMatrix.ofList 2 [1, 0, 3/2, 1]) (MathMatrix.ofList 2 [4, 3, 0, -3/2])
        ⟨[1, 2]⟩ ((2 : Nat) : Int) = Except.ok ⟨[1/2, -1/3]⟩ ∧
      ∃ x, lu_solve (MathMatrix.ofList 2 [1, 0, 3/2, 1]) (MathMatrix.ofList 2 [4, 3, 0, -3/2])
          ⟨[1, 2]⟩ ((2 : Nat) : Int) = Except.ok x ∧
        ((MathMatrix.ofList 2 [4, 3, 0, -3/2]).mulVec x >>=
          fun w => (MathMatrix.ofList 2 [1, 0, 3/2, 1]).mulVec w) = Except.ok ⟨[1, 2]⟩ ∧
        ∀ A : MathMatrix, A.Sq 2 →
          lu_fact A ((2 : Nat) : Int)
            = Except.ok (MathMatrix.ofList 2 [1, 0, 3/2, 1], MathMatrix.ofList 2 [4, 3, 0, -3/2]) →
          A.mulVec x = Except.ok ⟨[1, 2]⟩ :=
  ⟨by decide!,
    lu_solve_correct 2 (MathMatrix.ofList 2 [1, 0, 3/2, 1]) (MathMatrix.ofList 2 [4, 3, 0, -3/2])
      ⟨[1, 2]⟩ ⟨rfl, rfl, rfl, rfl⟩ ⟨rfl, rfl, rfl, rfl⟩ rfl (by decide!)
      (by
        intro i j hi hj hij
        have hi0 : i = 0 := by omega
        have hj1 : j = 1 := by omega
        subst hi0 hj1
        decide!)
      (by
        intro i j hi hj hij
        have hi1 : i = 1 := by omega
        have hj0 : j = 0 := by omega
        subst hi1 hj0
        decide!)
      (by decide!)⟩

/-- C10, refuted as stated: with `U = [0]` (so `U(0,0) = 0`), `L = [1]`, `b = [1]` and `n = 1`,
`lu_solve` does not signal the zero pivot; it reaches the division by `U(0,0)`. -/
theorem lu_solve_guard_counterexample :
    (MathMatrix.ofList 1 [0]).get 0 0 = Except.ok 0 ∧
      lu_solve (MathMatrix.ofList 1 [1]) (MathMatrix.ofList 1 [0]) ⟨[1]⟩ 1
        ≠ Except.error Err.pivotZero ∧
      lu_solve (MathMatrix.ofList 1 [1]) (MathMatrix.ofList 1 [0]) ⟨[1]⟩ 1
        = Except.error Err.divByZero := by
  decide!

/-- C10, amended: `lu_solve` has no guard. For every `n`, well-formed `n`-by-`n` `L` and `U` and
vector `b` of size `n` with `U(i,i) = 0` for some `i < n`, `lu_solve` does not signal the zero
pivot: its back substitution reaches the division of `temp[i]` by `U(i,i) = 0`, which has no
value in exact arithmetic. -/
theorem lu_solve_unguarded (n : Nat) (L U : MathMatrix) (b : Vector) (hL : L.Sq n) (hU : U.Sq n)
    (hb : b.size = (n : Int)) (i : Nat) (hi : i < n)
    (h0 : U.get (i : Int) (i : Int) = Except.ok 0) :
    lu_solve L U b (n : Int) = Except.error Err.divByZero ∧
      lu_solve L U b (n : Int) ≠ Except.error Err.pivotZero := by
  have hbl : b.pdata.length = n := by
    unfold Vector.size at hb; exact_mod_cast hb
  have e0 : U.E i i = 0 := by
    rw [MathMatrix.get_nat hU hi hi] at h0
    exact Except.ok.inj h0
  obtain ⟨y, hy, hyl, _⟩ := subst_forward_spec hL hbl
  have key : lu_solve L U b (n : Int) = Except.error Err.divByZero := by
    unfold lu_solve
    simp only [Int.toNat_ofNat, hy, ok_bind]
    unfold subst.backward
    rw [subst_backward_zero hU e0 n y hi (Nat.le_refl n) hyl]
    rfl
  refine ⟨key, ?_⟩
  rw [key]
  intro h
  cases h

/-- C10, amended, on `U = [[4,3],[0,0]]`: the division by `U(1,1) = 0` is reached. -/
theorem lu_solve_unguarded_witness :
    lu_solve (MathMatrix.ofList 2 [1, 0, 3/2, 1]) (MathMatrix.ofList 2 [4, 3, 0, 0]) ⟨[1, 2]⟩
        ((2 : Nat) : Int) = Except.error Err.divByZero ∧
      lu_solve (MathMatrix.ofList 2 [1, 0, 3/2, 1]) (MathMatrix.ofList 2 [4, 3, 0, 0]) ⟨[1, 2]⟩
        ((2 : Nat) : Int) ≠ Except.error Err.pivotZero :=
  lu_solve_unguarded 2 (MathMatrix.ofList 2 [1, 0, 3/2, 1]) (MathMatrix.ofList 2 [4, 3, 0, 0])
    ⟨[1, 2]⟩ ⟨rfl, rfl, rfl, rfl⟩ ⟨rfl, rfl, rfl, rfl⟩ rfl 1 (by decide) (by decide!)

/-- C2 at `A = [[1,2],[3,4]]`: `reorder` swaps the two rows, `lu_fact` factors `A` itself with
`U = [[1,2],[0,-2]]`, and `A * A.inverse()` is the row swap, not the identity. -/
theorem inverse_times_matrix_at_swap :
    reorder (MathMatrix.ofList 2 [1, 2, 3, 4]) 2 = Except.ok (MathMatrix.ofList 2 [0, 1, 1, 0]) ∧
      lu_fact (MathMatrix.ofList 2 [1, 2, 3, 4]) 2
        = Except.ok (MathMatrix.ofList 2 [1, 0, 3, 1], MathMatrix.ofList 2 [1, 2, 0, -2]) ∧
      (MathMatrix.ofList 2 [1, 2, 3, 4]).inverse
        = Except.ok (MathMatrix.ofList 2 [1, -2, -1/2, 3/2]) ∧
      (MathMatrix.ofList 2 [1, 2, 3, 4]).mul (MathMatrix.ofList 2 [1, -2, -1/2, 3/2])
        = Except.ok (MathMatrix.ofList 2 [0, 1, 1, 0]) := by
  decide!

/-- C7 at `A = [[1,2,10],[1,0,0],[0,1,1]]`: the scales are `[10,1,1]`; step 0 swaps the
positions 0 and 1, so `pvt = [1,0,2]`. In step 1 the search starts from
`fabs(temp(pvt[1],1) / scale[1]) = 2/1`, dividing by the scale of row 1 although `pvt[1]` is
row 0, and keeps position 1: row 0 stays at position 1 of `pvt`. Its scaled pivot magnitude
`|temp(0,1)| / scale[0] = 1/5` is smaller than that of the other candidate, row 2, which is
`|temp(2,1)| / scale[2] = 1`. -/
theorem reorder_pivot_not_maximal :
    reorder.init (MathMatrix.ofList 3 [1, 2, 10, 1, 0, 0, 0, 1, 1]) 3
        = Except.ok (⟨[0, 1, 2]⟩, ⟨[10, 1, 1]⟩, MathMatrix.zero 3) ∧
      reorder.eliminate (MathMatrix.ofList 3 [1, 2, 10, 1, 0, 0, 0, 1, 1]) 3 1
        = Except.ok (⟨[1, 0, 2]⟩, MathMatrix.ofList 3 [1, 2, 10, 1, 0, 0, 0, 1, 1]) ∧
      reorder.findPivot 3 (MathMatrix.ofList 3 [1, 2, 10, 1, 0, 0, 0, 1, 1]) ⟨[1, 0, 2]⟩
        ⟨[10, 1, 1]⟩ 1 = Except.ok ⟨Scaled.fin 2, 1⟩ ∧
      reorder.eliminate (MathMatrix.ofList 3 [1, 2, 10, 1, 0, 0, 0, 1, 1]) 3 2
        = Except.ok (⟨[1, 0, 2]⟩, MathMatrix.ofList 3 [1, 2, 10, 1, 0, 0, 0, 1/2, -4]) ∧
      fabsDiv ((MathMatrix.ofList 3 [1, 2, 10, 1, 0, 0, 0, 1, 1]).E 0 1)
        ((Vector.mk [10, 1, 1]).E 0) = Scaled.fin (1/5) ∧
      fabsDiv ((MathMatrix.ofList 3 [1, 2, 10, 1, 0, 0, 0, 1, 1]).E 2 1)
        ((Vector.mk [10, 1, 1]).E 2) = Scaled.fin 1 ∧
      (Scaled.fin 1).gt (Scaled.fin (1/5)) = true ∧
      reorder (MathMatrix.ofList 3 [1, 2, 10, 1, 0, 0, 0, 1, 1]) 3
        = Except.ok (MathMatrix.ofList 3 [0, 1, 0, 1, 0, 0, 0, 0, 1]) := by
  decide!

/-- C9 at the 2-by-2 zero matrix: column 0 is zero in every candidate row of step 0, the scales
are zero, the value found by the pivot search is the NaN of `0 / 0`, for which `aet == 0` is
false, and `reorder` returns the identity matrix without signalling the zero pivot. -/
theorem reorder_zero_column_no_signal :
    reorder.init (MathMatrix.ofList 2 [0, 0, 0, 0]) 2
        = Except.ok (⟨[0, 1]⟩, ⟨[0, 0]⟩, MathMatrix.zero 2) ∧
      (MathMatrix.ofList 2 [0, 0, 0, 0]).get 0 0 = Except.ok 0 ∧
      (MathMatrix.ofList 2 [0, 0, 0, 0]).get 1 0 = Except.ok 0 ∧
      reorder.findPivot 2 (MathMatrix.ofList 2 [0, 0, 0, 0]) ⟨[0, 1]⟩ ⟨[0, 0]⟩ 0
        = Except.ok ⟨Scaled.nan, 0⟩ ∧
      reorder (MathMatrix.ofList 2 [0, 0, 0, 0]) 2 = Except.ok (MathMatrix.ofList 2 [1, 0, 0, 1]) ∧
      reorder (MathMatrix.ofList 2 [0, 0, 0, 0]) 2 ≠ Except.error Err.pivotZero := by
  decide!

/-- The zero pivot signal of `reorder`: on a well-formed `n`-by-`n` matrix whose initial part of
`reorder` leaves the scales `scale`, `reorder` signals the zero pivot (and returns no matrix) exactly when its main
loop reaches some step `k` with `k + 1 < n` at which the best scaled pivot value found over the
candidate rows is zero; in particular it signals when the main loop reaches step `k` with
column `k` zero in every candidate row `pvt[k..n-1]` and `scale[k]` is not zero. -/
theorem reorder_signal_iff (n : Nat) (A : MathMatrix) (pvt0 scale : Vector) (p : MathMatrix)
    (hA : A.Sq n) (hinit : reorder.init A (n : Int) = Except.ok (pvt0, scale, p)) :
    (reorder A (n : Int) = Except.error Err.pivotZero ↔
        ∃ k pvt T best, k + 1 < n ∧ reorder.eliminate A (n : Int) k = Except.ok (pvt, T) ∧
          reorder.findPivot n T pvt scale k = Except.ok best ∧ best.aet.isZero = true) ∧
      (∀ k pvt T, k + 1 < n → reorder.eliminate A (n : Int) k = Except.ok (pvt, T) →
        (∀ i : Nat, k ≤ i → i < n →
          (pvt.get (i : Int) >>= fun r => T.get (toInt r) (k : Int)) = Except.ok 0) →
        scale.get (k : Int) ≠ Except.ok 0 →
        reorder A (n : Int) = Except.error Err.pivotZero) := by
  refine ⟨reorder_signal_cases hA hinit, fun k pvt T hk hpre hz hsc => ?_⟩
  obtain ⟨pvt0', scale', hinit', _, _, hs, _⟩ := reorder_init_spec hA
  rw [hinit] at hinit'
  cases hinit'
  obtain ⟨hp, hT⟩ := reorder_eliminate_wf hA (show k ≤ n - 1 by omega) hpre
  have hkn : k < n := by omega
  have hz' : ∀ i, k ≤ i → i < n → T.E (pvt.idx i) k = 0 := by
    intro i hki hi
    have := hz i hki hi
    rw [hp.get hi, ok_bind, toInt_natCast, MathMatrix.get_nat hT (hp.lt i hi) hkn] at this
    exact Except.ok.inj this
  have hsk : scale.E k ≠ 0 := by
    intro e
    apply hsc
    rw [Vector.get_of_lt (by omega), e]
  exact (reorder_signal_cases hA hinit).mpr
    ⟨k, pvt, T, _, hk, hpre, reorder_findPivot_zero_column hT hp hs hkn hz',
      fabsDiv_zero_isZero hsk⟩

/-- The zero pivot signal of `reorder` on `[[0,1],[0,1]]`: column 0 is zero in both candidate rows of step 0, the
scale of row 0 is 1, and `reorder` signals the zero pivot. -/
theorem reorder_signal_iff_witness :
    reorder.init (MathMatrix.ofList 2 [0, 1, 0, 1]) ((2 : Nat) : Int)
        = Except.ok (⟨[0, 1]⟩, ⟨[1, 1]⟩, MathMatrix.zero 2) ∧
      reorder (MathMatrix.ofList 2 [0, 1, 0, 1]) ((2 : Nat) : Int)
        = Except.error Err.pivotZero :=
  ⟨by decide!,
    (reorder_signal_iff 2 (MathMatrix.ofList 2 [0, 1, 0, 1]) ⟨[0, 1]⟩ ⟨[1, 1]⟩ (MathMatrix.zero 2)
      ⟨rfl, rfl, rfl, rfl⟩ (by decide!)).2 0 ⟨[0, 1]⟩ (MathMatrix.ofList 2 [0, 1, 0, 1])
      (by decide) (by decide!)
      (by
        intro i _ hi
        have h : i = 0 ∨ i = 1 := by omega
        rcases h with h | h <;> subst h <;> decide!)
      (by decide!)⟩

/-- C5 at the 2-by-2 zero matrix `A`: `reorder` returns the identity matrix `P` (the scaled
pivot value `0 / 0` is a NaN and passes the test `aet == 0`), `P * A` is `A`, and the unpivoted
`lu_fact` applied to `P * A` meets the zero pivot at step 0. -/
theorem reorder_zero_matrix_not_factorisable :
    reorder (MathMatrix.ofList 2 [0, 0, 0, 0]) 2 = Except.ok (MathMatrix.ofList 2 [1, 0, 0, 1]) ∧
      (MathMatrix.ofList 2 [1, 0, 0, 1]).mul (MathMatrix.ofList 2 [0, 0, 0, 0])
        = Except.ok (MathMatrix.ofList 2 [0, 0, 0, 0]) ∧
      lu_fact (MathMatrix.ofList 2 [0, 0, 0, 0]) 2 = Except.error Err.pivotZero := by
  decide!

/-- C13: for `A = [[4,3],[6,3]]`, `A.inverse()` is `[[-1/2, 1/2],[1, -2/3]]`, and `reorder`
selects no row swap for this matrix: its `P` is the identity. -/
theorem inverse_scenario :
    (MathMatrix.ofList 2 [4, 3, 6, 3]).inverse
        = Except.ok (MathMatrix.ofList 2 [-1/2, 1/2, 1, -2/3]) ∧
      reorder (MathMatrix.ofList 2 [4, 3, 6, 3]) 2 = Except.ok (MathMatrix.ofList 2 [1, 0, 0, 1]) ∧
      reorder.eliminate (MathMatrix.ofList 2 [4, 3, 6, 3]) 2 1
        = Except.ok (⟨[0, 1]⟩, MathMatrix.ofList 2 [4, 3, 3/2, -3/2]) := by
  decide!

/-- C14, refuted as stated: for `A = [[4,3],[6,3]]`, `one_norm(A)` is not 9,
`one_norm(A.inverse())` is not 7/6 and `condition_num()` is not 21/2. -/
theorem condition_scenario_counterexample :
    (MathMatrix.ofList 2 [4, 3, 6, 3]).one_norm ≠ Except.ok 9 ∧
      ((MathMatrix.ofList 2 [4, 3, 6, 3]).inverse >>= fun inv => inv.one_norm)
        ≠ Except.ok (7/6) ∧
      (MathMatrix.ofList 2 [4, 3, 6, 3]).condition_num ≠ Except.ok (21/2) := by
  decide!

/-- C14, amended: for `A = [[4,3],[6,3]]`, `one_norm(A) = 10` (the column sums are 10 and 6),
`one_norm(A.inverse()) = 3/2` (the column sums of `[[-1/2, 1/2],[1, -2/3]]` are 3/2 and 7/6),
and `condition_num() = 3/2 * 10 = 15`. -/
theorem condition_scenario :
    (MathMatrix.ofList 2 [4, 3, 6, 3]).one_norm = Except.ok 10 ∧
      ((MathMatrix.ofList 2 [4, 3, 6, 3]).inverse >>= fun inv => inv.one_norm)
        = Except.ok (3/2) ∧
      (MathMatrix.ofList 2 [4, 3, 6, 3]).condition_num = Except.ok 15 := by
  decide!

/-- C18: each of `MathVector::one_norm`, `two_norm` and `uniform_norm` fails with the error of
the empty vector exactly when the vector has length zero; the vector constructed with size 0
is constructed successfully and `one_norm()` fails on it with that error. -/
theorem vector_norms_empty (v : Vector) :
    (MathVector.one_norm v = Except.error Err.emptyVector ↔ v.size = 0) ∧
      (MathVector.two_norm v = Except.error Err.emptyVector ↔ v.size = 0) ∧
      (MathVector.uniform_norm v = Except.error Err.emptyVector ↔ v.size = 0) ∧
      ∃ v0, Vector.Init 0 = Except.ok v0 ∧ v0.size = 0 ∧
        MathVector.one_norm v0 = Except.error Err.emptyVector := by
  refine ⟨Iff.intro (fun h => ?_) (fun h => ?_), Iff.intro (fun h => ?_) (fun h => ?_),
    Iff.intro (fun h => ?_) (fun h => ?_), ⟨[]⟩, rfl, rfl, rfl⟩
  · by_contra hne
    unfold MathVector.one_norm at h
    rw [if_neg hne] at h
    obtain ⟨r, hr⟩ := forUp_pure 0 v.size.toNat (fun i (res : ℚ) => res + |v.pdata.getD i 0|) 0
    rw [hr] at h
    cases h
  · unfold MathVector.one_norm
    rw [if_pos h]; rfl
  · by_contra hne
    unfold MathVector.two_norm at h
    rw [if_neg hne] at h
    obtain ⟨r, hr⟩ := forUp_pure 0 v.size.toNat
      (fun i (res : ℚ) => res + v.pdata.getD i 0 * v.pdata.getD i 0) 0
    rw [hr] at h
    cases h
  · unfold MathVector.two_norm
    rw [if_pos h]; rfl
  · by_contra hne
    unfold MathVector.uniform_norm at h
    rw [if_neg hne] at h
    obtain ⟨r, hr⟩ := forUp_pure 1 v.size.toNat
      (fun i (res : ℚ) => if |v.pdata.getD i 0| > res then |v.pdata.getD i 0| else res)
      |v.pdata.getD 0 0|
    have e : (fun i (res : ℚ) =>
        if |v.pdata.getD i 0| > res then (pure |v.pdata.getD i 0| : Res ℚ) else pure res)
        = fun i res => (pure
          (if |v.pdata.getD i 0| > res then |v.pdata.getD i 0| else res) : Res ℚ) := by
      funext i res
      split <;> rfl
    rw [e, hr] at h
    cases h
  · unfold MathVector.uniform_norm
    rw [if_pos h]; rfl

/-- C19: `MathMatrix::operator*(const MathMatrix&)` fails with the error of incompatible sizes
exactly when the row counts of the two matrices differ; on two well-formed matrices of size `n`
with entries `a` and `b` it returns the well-formed matrix of size `n` whose entry `(i, j)` is
the sum over `k < n` of `a i k * b k j`. -/
theorem mul_contract (A B : MathMatrix) :
    (A.mul B = Except.error Err.incompatibleSize ↔ A.nrows ≠ B.nrows) ∧
      ∀ (n : Nat) (a b : Nat → Nat → ℚ), A.Sq n → B.Sq n →
        (∀ i k, i < n → k < n → A.get (i : Int) (k : Int) = Except.ok (a i k)) →
        (∀ k j, k < n → j < n → B.get (k : Int) (j : Int) = Except.ok (b k j)) →
        ∃ R, A.mul B = Except.ok R ∧ R.Sq n ∧
          ∀ i j, i < n → j < n →
            R.get (i : Int) (j : Int) = Except.ok (∑ k in Finset.range n, a i k * b k j) := by
  refine ⟨⟨mul_error_incompatible, fun h => ?_⟩, fun n a b hA hB ha hb => ?_⟩
  · unfold MathMatrix.mul
    rw [if_pos h]; rfl
  · obtain ⟨R, hR, hRS, hRE⟩ := MathMatrix.mul_spec hA hB
    refine ⟨R, hR, hRS, fun i j hi hj => ?_⟩
    rw [MathMatrix.get_nat hRS hi hj, hRE i j hi hj]
    congr 1
    unfold mulF
    apply Finset.sum_congr rfl
    intro k hk
    have hk' : k < n := Finset.mem_range.mp hk
    have h1 := ha i k hi hk'
    have h2 := hb k j hk' hj
    rw [MathMatrix.get_nat hA hi hk'] at h1
    rw [MathMatrix.get_nat hB hk' hj] at h2
    rw [Except.ok.inj h1, Except.ok.inj h2]

/-- C19 on concrete matrices: a matrix of size 2 times a matrix of size 3 fails, and
`[[1,2],[3,4]] * [[0,1],[1,0]] = [[2,1],[4,3]]`. -/
theorem mul_contract_witness :
    (MathMatrix.ofList 2 [1, 2, 3, 4]).mul (MathMatrix.ofList 3 [1, 0, 0, 0, 1, 0, 0, 0, 1])
        = Except.error Err.incompatibleSize ∧
      (MathMatrix.ofList 2 [1, 2, 3, 4]).mul (MathMatrix.ofList 2 [0, 1, 1, 0])
        = Except.ok (MathMatrix.ofList 2 [2, 1, 4, 3]) ∧
      ∃ R, (MathMatrix.ofList 2 [1, 2, 3, 4]).mul (MathMatrix.ofList 2 [0, 1, 1, 0])
          = Except.ok R ∧ R.Sq 2 ∧
        ∀ i j : Nat, i < 2 → j < 2 → R.get (i : Int) (j : Int) = Except.ok
          (∑ k in Finset.range 2,
            (MathMatrix.ofList 2 [1, 2, 3, 4]).E i k * (MathMatrix.ofList 2 [0, 1, 1, 0]).E k j) :=
  ⟨by decide!, by decide!,
    (mul_contract (MathMatrix.ofList 2 [1, 2, 3, 4]) (MathMatrix.ofList 2 [0, 1, 1, 0])).2 2
      (MathMatrix.ofList 2 [1, 2, 3, 4]).E (MathMatrix.ofList 2 [0, 1, 1, 0]).E
      ⟨rfl, rfl, rfl, rfl⟩ ⟨rfl, rfl, rfl, rfl⟩
      (fun _ _ hi hk => MathMatrix.get_nat ⟨rfl, rfl, rfl, rfl⟩ hi hk)
      (fun _ _ hk hj => MathMatrix.get_nat ⟨rfl, rfl, rfl, rfl⟩ hk hj)⟩

/-- C20: `MathMatrix::operator*(const MathVector&)` fails with the error of incompatible sizes
exactly when the row count of the matrix differs from `v.size()`; on a well-formed matrix of
size `n` with entries `a` and a vector of size `n` with elements `x` it returns the vector of
size `n` whose element `i` is the sum over `j < n` of `a i j * x j`. -/
theorem mulVec_contract (A : MathMatrix) (v : Vector) :
    (A.mulVec v = Except.error Err.incompatibleSize ↔ A.nrows ≠ v.size) ∧
      ∀ (n : Nat) (a : Nat → Nat → ℚ) (x : Nat → ℚ), A.Sq n → v.size = (n : Int) →
        (∀ i j, i < n → j < n → A.get (i : Int) (j : Int) = Except.ok (a i j)) →
        (∀ j, j < n → v.get (j : Int) = Except.ok (x j)) →
        ∃ r, A.mulVec v = Except.ok r ∧ r.size = (n : Int) ∧
          ∀ i, i < n → r.get (i : Int) = Except.ok (∑ j in Finset.range n, a i j * x j) := by
  refine ⟨⟨mulVec_error_incompatible, fun h => ?_⟩, fun n a x hA hv ha hx => ?_⟩
  · unfold MathMatrix.mulVec
    rw [if_pos h]; rfl
  · have hvl : v.pdata.length = n := by
      unfold Vector.size at hv; exact_mod_cast hv
    obtain ⟨r, hr, hrl, hrE⟩ := MathMatrix.mulVec_spec hA hvl
    refine ⟨r, hr, by unfold Vector.size; rw [hrl], fun i hi => ?_⟩
    rw [Vector.get_of_lt (by omega), hrE i hi]
    congr 1
    unfold mulVecF
    apply Finset.sum_congr rfl
    intro j hj
    have hj' : j < n := Finset.mem_range.mp hj
    have h1 := ha i j hi hj'
    have h2 := hx j hj'
    rw [MathMatrix.get_nat hA hi hj'] at h1
    rw [Vector.get_of_lt (by omega)] at h2
    rw [Except.ok.inj h1, Except.ok.inj h2]

/-- C20 on concrete operands: a matrix with 2 rows times a vector of 4 elements fails, and
`[[1,2],[3,4]] * [1, 1] = [3, 7]`. -/
theorem mulVec_contract_witness :
    (MathMatrix.ofList 2 [1, 2, 3, 4]).mulVec ⟨[1, 2, 3, 4]⟩
        = Except.error Err.incompatibleSize ∧
      (MathMatrix.ofList 2 [1, 2, 3, 4]).mulVec ⟨[1, 1]⟩ = Except.ok ⟨[3, 7]⟩ ∧
      ∃ r, (MathMatrix.ofList 2 [1, 2, 3, 4]).mulVec ⟨[1, 1]⟩ = Except.ok r ∧
        r.size = ((2 : Nat) : Int) ∧
        ∀ i : Nat, i < 2 → r.get (i : Int) = Except.ok
          (∑ j in Finset.range 2,
            (MathMatrix.ofList 2 [1, 2, 3, 4]).E i j * (Vector.mk [1, 1]).E j) :=
  ⟨by decide!, by decide!,
    (mulVec_contract (MathMatrix.ofList 2 [1, 2, 3, 4]) ⟨[1, 1]⟩).2 2
      (MathMatrix.ofList 2 [1, 2, 3, 4]).E (Vector.mk [1, 1]).E ⟨rfl, rfl, rfl, rfl⟩ rfl
      (fun _ _ hi hj => MathMatrix.get_nat ⟨rfl, rfl, rfl, rfl⟩ hi hj)
      (fun _ hj => Vector.get_of_lt hj)⟩

/-- C11: for every well-formed square matrix `A` of size `n` on which `reorder` signals the
zero pivot or `lu_fact` signals the zero pivot, `A.inverse()` and `A.condition_num()` end with
that signal: they return no matrix and no number. The signal of `reorder` is that of its run in
the exact embedding or that of its run followed through the infinities and the NaNs; the signal
of `lu_fact` counts whatever `reorder` has done before, since a run of `reorder` that does not
signal returns. -/
theorem singular_pivot_aborts (n : Nat) (A : MathMatrix) (hA : A.Sq n)
    (h : reorder A (n : Int) = Except.error Err.pivotZero ∨
      Ieee.reorder A (n : Int) = Except.error Err.pivotZero ∨
      lu_fact A (n : Int) = Except.error Err.pivotZero) :
    A.inverse = Except.error Err.pivotZero ∧ A.condition_num = Except.error Err.pivotZero := by
  have hinv : A.inverse = Except.error Err.pivotZero := by
    unfold MathMatrix.inverse
    rw [hA.nrows]
    rcases Ieee.reorder_total hA with hP | ⟨P, hP, _⟩
    · rw [hP]; rfl
    · rcases h with h | h | h
      · rw [Ieee.reorder_of_signal h] at hP
        cases hP
      · rw [h] at hP
        cases hP
      · rw [hP, ok_bind, h]; rfl
  refine ⟨hinv, ?_⟩
  unfold MathMatrix.condition_num
  rw [hinv]; rfl

/-- C11 on `[[0,1],[0,1]]`, where `reorder` signals; on `[[0,1],[1,0]]`, where `reorder`
returns the row swap and `lu_fact` signals; and on `[[0,0],[1,1]]`, where `reorder` stores the
quotient `1/0` in `temp`, goes on and returns the identity, and `lu_fact` signals: `inverse()`
and `condition_num()` end with the signal. -/
theorem singular_pivot_aborts_witness :
    reorder (MathMatrix.ofList 2 [0, 1, 0, 1]) ((2 : Nat) : Int) = Except.error Err.pivotZero ∧
      ((MathMatrix.ofList 2 [0, 1, 0, 1]).inverse = Except.error Err.pivotZero ∧
        (MathMatrix.ofList 2 [0, 1, 0, 1]).condition_num = Except.error Err.pivotZero) ∧
      reorder (MathMatrix.ofList 2 [0, 1, 1, 0]) ((2 : Nat) : Int)
        = Except.ok (MathMatrix.ofList 2 [0, 1, 1, 0]) ∧
      lu_fact (MathMatrix.ofList 2 [0, 1, 1, 0]) ((2 : Nat) : Int)
        = Except.error Err.pivotZero ∧
      ((MathMatrix.ofList 2 [0, 1, 1, 0]).inverse = Except.error Err.pivotZero ∧
        (MathMatrix.ofList 2 [0, 1, 1, 0]).condition_num = Except.error Err.pivotZero) ∧
      reorder (MathMatrix.ofList 2 [0, 0, 1, 1]) ((2 : Nat) : Int)
        = Except.error Err.divByZero ∧
      Ieee.reorder (MathMatrix.ofList 2 [0, 0, 1, 1]) ((2 : Nat) : Int)
        = Except.ok (MathMatrix.ofList 2 [1, 0, 0, 1]) ∧
      lu_fact (MathMatrix.ofList 2 [0, 0, 1, 1]) ((2 : Nat) : Int)
        = Except.error Err.pivotZero ∧
      ((MathMatrix.ofList 2 [0, 0, 1, 1]).inverse = Except.error Err.pivotZero ∧
        (MathMatrix.ofList 2 [0, 0, 1, 1]).condition_num = Except.error Err.pivotZero) :=
  ⟨by decide!,
    singular_pivot_aborts 2 (MathMatrix.ofList 2 [0, 1, 0, 1]) ⟨rfl, rfl, rfl, rfl⟩
      (Or.inl (by decide!)),
    by decide!, by decide!,
    singular_pivot_aborts 2 (MathMatrix.ofList 2 [0, 1, 1, 0]) ⟨rfl, rfl, rfl, rfl⟩
      (Or.inr (Or.inr (by decide!))),
    by decide!, by decide!, by decide!,
    singular_pivot_aborts 2 (MathMatrix.ofList 2 [0, 0, 1, 1]) ⟨rfl, rfl, rfl, rfl⟩
      (Or.inr (Or.inr (by decide!)))⟩

/-- C12: for every `n ≥ 1`, on the identity matrix of size `n` (entries `1` on the diagonal and
`0` elsewhere) `reorder` returns the identity, `lu_fact` returns the identity for both factors,
`inverse()` returns the identity, `one_norm()` returns `1`, and `condition_num()` returns
exactly `1`. -/
theorem condition_num_identity (n : Nat) (hn : 1 ≤ n) :
    (∀ i j : Nat, i < n → j < n →
      (MathMatrix.identity n).get (i : Int) (j : Int) = Except.ok (if i = j then 1 else 0)) ∧
    reorder (MathMatrix.identity n) (n : Int) = Except.ok (MathMatrix.identity n) ∧
    lu_fact (MathMatrix.identity n) (n : Int)
      = Except.ok (MathMatrix.identity n, MathMatrix.identity n) ∧
    (MathMatrix.identity n).inverse = Except.ok (MathMatrix.identity n) ∧
    (MathMatrix.identity n).one_norm = Except.ok 1 ∧
    (MathMatrix.identity n).condition_num = Except.ok 1 := by
  have hI := MathMatrix.identity_sq n
  refine ⟨?_, ?_, lu_fact_identity n, inverse_identity n, one_norm_identity hn, ?_⟩
  · intro i j hi hj
    rw [MathMatrix.get_nat hI hi hj, MathMatrix.E_identity hi hj]
  · apply reorder_upper_triangular hI
    · intro i k hki hi
      rw [MathMatrix.E_identity hi (by omega)]
      have : ¬ i = k := by omega
      simp [this]
    · intro k hk
      rw [MathMatrix.E_identity hk hk]
      simp
  · unfold MathMatrix.condition_num
    rw [inverse_identity n, ok_bind, one_norm_identity hn]
    simp

/-- C12 on the identity matrix of size three, `[[1,0,0],[0,1,0],[0,0,1]]`. -/
theorem condition_num_identity_witness :
    MathMatrix.identity 3 = MathMatrix.ofList 3 [1, 0, 0, 0, 1, 0, 0, 0, 1] ∧
      (1 ≤ 3 ∧ (MathMatrix.identity 3).inverse = Except.ok (MathMatrix.identity 3) ∧
        (MathMatrix.identity 3).condition_num = Except.ok 1) :=
  ⟨by decide!, by decide,
    (condition_num_identity 3 (by decide)).2.2.2.1, (condition_num_identity 3 (by decide)).2.2.2.2.2⟩

/-- C21: constructing a `Vector` with the requested length `m` fails, with the error of an
invalid size, exactly when `m < 0`; for `m ≥ 0` it yields a vector whose `size()` is `m` and
whose element at every index `0 .. m-1` is zero. Size `-1` fails and size `0` gives the empty
vector. -/
theorem vector_construct (m : Int) :
    (Vector.Init m = Except.error Err.invalidSize ↔ m < 0) ∧
    (∀ e, Vector.Init m = Except.error e → e = Err.invalidSize) ∧
    (0 ≤ m → ∃ v, Vector.Init m = Except.ok v ∧ v.size = m ∧
      ∀ i : Int, 0 ≤ i → i < m → v.get i = Except.ok 0) ∧
    Vector.Init (-1) = Except.error Err.invalidSize ∧
    Vector.Init 0 = Except.ok ⟨[]⟩ := by
  refine ⟨?_, ?_, ?_, rfl, rfl⟩
  · unfold Vector.Init
    constructor
    · intro h
      by_contra hm
      rw [if_neg hm] at h
      cases h
    · intro h
      rw [if_pos h]; rfl
  · intro e h
    exact Vector.Init_error h
  · intro hm
    obtain ⟨k, rfl⟩ := Int.eq_ofNat_of_zero_le hm
    refine ⟨⟨List.replicate k 0⟩, Vector.Init_nat k, by simp [Vector.size], ?_⟩
    intro i hi hik
    obtain ⟨j, rfl⟩ := Int.eq_ofNat_of_zero_le hi
    have hj : j < k := by omega
    rw [Vector.get_of_lt (by simpa using hj), Vector.E_replicate]

/-- C21 at the length 3: the vector has size 3 and holds zeros. -/
theorem vector_construct_witness :
    ∃ v, Vector.Init 3 = Except.ok v ∧ v.size = 3 ∧
      ∀ i : Int, 0 ≤ i → i < 3 → v.get i = Except.ok 0 :=
  (vector_construct 3).2.2.1 (by decide)

/-- C22: for every vector `v` and every integer `i`, the indexed access at `i`, read or write,
fails exactly when `i < 0` or `i ≥ v.size()`, with the error of an index out of range; for a
vector of length at least one the access at `size - 1` succeeds and the accesses at `size` and
at `-1` fail. -/
theorem vector_index_range (v : Vector) (i : Int) (x : ℚ) :
    (v.get i = Except.error Err.indexOutOfRange ↔ i < 0 ∨ i ≥ v.size) ∧
    (v.set i x = Except.error Err.indexOutOfRange ↔ i < 0 ∨ i ≥ v.size) ∧
    (¬ (i < 0 ∨ i ≥ v.size) →
      v.get i = Except.ok (v.pdata.getD i.toNat 0) ∧
      v.set i x = Except.ok ⟨v.pdata.set i.toNat x⟩) ∧
    (1 ≤ v.size →
      (∃ y w, v.get (v.size - 1) = Except.ok y ∧ v.set (v.size - 1) x = Except.ok w) ∧
      v.get v.size = Except.error Err.indexOutOfRange ∧
      v.set v.size x = Except.error Err.indexOutOfRange ∧
      v.get (-1) = Except.error Err.indexOutOfRange ∧
      v.set (-1) x = Except.error Err.indexOutOfRange) := by
  have hget : ∀ t : Int, (t < 0 ∨ t ≥ v.size) → v.get t = Except.error Err.indexOutOfRange := by
    intro t ht
    unfold Vector.get
    rw [if_pos ht]; rfl
  have hset : ∀ t : Int, (t < 0 ∨ t ≥ v.size) →
      v.set t x = Except.error Err.indexOutOfRange := by
    intro t ht
    unfold Vector.set
    rw [if_pos ht]; rfl
  have hget' : ∀ t : Int, ¬ (t < 0 ∨ t ≥ v.size) →
      v.get t = Except.ok (v.pdata.getD t.toNat 0) := by
    intro t ht
    unfold Vector.get
    rw [if_neg ht]; rfl
  have hset' : ∀ t : Int, ¬ (t < 0 ∨ t ≥ v.size) →
      v.set t x = Except.ok ⟨v.pdata.set t.toNat x⟩ := by
    intro t ht
    unfold Vector.set
    rw [if_neg ht]; rfl
  refine ⟨⟨?_, hget i⟩, ⟨?_, hset i⟩, fun h => ⟨hget' i h, hset' i h⟩, ?_⟩
  · intro h
    by_contra hc
    rw [hget' i hc] at h
    cases h
  · intro h
    by_contra hc
    rw [hset' i hc] at h
    cases h
  · intro h1
    refine ⟨⟨_, _, hget' _ (by omega), hset' _ (by omega)⟩, hget _ (by omega),
      hset _ (by omega), hget _ (by omega), hset _ (by omega)⟩

/-- C22 on the vector `[7, 8, 9]`: the access at index 2 succeeds, the accesses at 3 and at
`-1` fail. -/
theorem vector_index_range_witness :
    (Vector.mk [7, 8, 9]).get 2 = Except.ok 9 ∧
    (Vector.mk [7, 8, 9]).set 2 1 = Except.ok ⟨[7, 8, 1]⟩ ∧
    ((∃ y w, (Vector.mk [7, 8, 9]).get ((Vector.mk [7, 8, 9]).size - 1) = Except.ok y ∧
        (Vector.mk [7, 8, 9]).set ((Vector.mk [7, 8, 9]).size - 1) 1 = Except.ok w) ∧
      (Vector.mk [7, 8, 9]).get (Vector.mk [7, 8, 9]).size = Except.error Err.indexOutOfRange ∧
      (Vector.mk [7, 8, 9]).set (Vector.mk [7, 8, 9]).size 1
        = Except.error Err.indexOutOfRange ∧
      (Vector.mk [7, 8, 9]).get (-1) = Except.error Err.indexOutOfRange ∧
      (Vector.mk [7, 8, 9]).set (-1) 1 = Except.error Err.indexOutOfRange) :=
  ⟨by decide!, by decide!, (vector_index_range ⟨[7, 8, 9]⟩ 0 1).2.2.2 (by decide)⟩

/-- C23: constructing a `Matrix` with `(rows, cols)` fails, with the error of an invalid size,
exactly when `rows < 0` or `cols < 0`; otherwise the matrix keeps `rows` and `cols` as given
and its backing vector holds `rows * cols` elements, all zero; the backing vector is empty
whenever `rows` or `cols` is zero. -/
theorem matrix_construct (rows cols : Int) :
    (Matrix.new rows cols = Except.error Err.invalidSize ↔ rows < 0 ∨ cols < 0) ∧
    (∀ e, Matrix.new rows cols = Except.error e → e = Err.invalidSize) ∧
    (0 ≤ rows → 0 ≤ cols → ∃ m, Matrix.new rows cols = Except.ok m ∧
      m.nrows = rows ∧ m.ncols = cols ∧ m.v.size = rows * cols ∧
      (∀ t : Int, 0 ≤ t → t < rows * cols → m.v.get t = Except.ok 0) ∧
      (rows = 0 ∨ cols = 0 → m.v.pdata = [])) := by
  have hok : 0 ≤ rows → 0 ≤ cols → ∃ m, Matrix.new rows cols = Except.ok m ∧
      m.nrows = rows ∧ m.ncols = cols ∧ m.v.size = rows * cols ∧
      (∀ t : Int, 0 ≤ t → t < rows * cols → m.v.get t = Except.ok 0) ∧
      (rows = 0 ∨ cols = 0 → m.v.pdata = []) := by
    intro hr hc
    have hg : ¬ (rows < 0 ∨ cols < 0) := by omega
    unfold Matrix.new
    rw [if_neg hg]
    by_cases hz : rows ≤ 0 ∨ cols ≤ 0
    · have hp : rows * cols = 0 := by
        rcases hz with h | h
        · have : rows = 0 := by omega
          rw [this, zero_mul]
        · have : cols = 0 := by omega
          rw [this, mul_zero]
      refine ⟨⟨rows, cols, ⟨[]⟩⟩, ?_, rfl, rfl, ?_, ?_, fun _ => rfl⟩
      · rw [if_pos hz]; rfl
      · rw [hp]; rfl
      · intro t h0 h1
        omega
    · have hpos : 0 ≤ rows * cols := mul_nonneg hr hc
      obtain ⟨k, hk⟩ := Int.eq_ofNat_of_zero_le hpos
      refine ⟨⟨rows, cols, ⟨List.replicate k 0⟩⟩, ?_, rfl, rfl, ?_, ?_, ?_⟩
      · rw [if_neg hz, hk, Vector.Init_nat]; rfl
      · rw [hk]; simp [Vector.size]
      · intro t h0 h1
        obtain ⟨j, rfl⟩ := Int.eq_ofNat_of_zero_le h0
        have hj : j < k := by omega
        show (Vector.mk (List.replicate k 0)).get (j : Int) = _
        rw [Vector.get_of_lt (by simpa using hj), Vector.E_replicate]
      · intro h
        exfalso
        omega
  refine ⟨⟨?_, ?_⟩, ?_, hok⟩
  · intro h
    by_contra hc
    obtain ⟨m, hm, _⟩ := hok (by omega) (by omega)
    rw [hm] at h
    cases h
  · intro h
    unfold Matrix.new
    rw [if_pos h]; rfl
  · intro e h
    by_cases hc : rows < 0 ∨ cols < 0
    · unfold Matrix.new at h
      rw [if_pos hc] at h
      exact (Except.error.inj h).symm
    · obtain ⟨m, hm, _⟩ := hok (by omega) (by omega)
      rw [hm] at h
      cases h

/-- C23 on the dimensions `(2, 3)`, `(0, 5)` and `(-1, 2)`: six zeros, no element with the
dimensions kept, and the error. -/
theorem matrix_construct_witness :
    Matrix.new 2 3 = Except.ok ⟨2, 3, ⟨[0, 0, 0, 0, 0, 0]⟩⟩ ∧
    Matrix.new 0 5 = Except.ok ⟨0, 5, ⟨[]⟩⟩ ∧
    Matrix.new (-1) 2 = Except.error Err.invalidSize ∧
    ∃ m, Matrix.new 0 5 = Except.ok m ∧
      m.nrows = 0 ∧ m.ncols = 5 ∧ m.v.size = 0 * 5 ∧
      (∀ t : Int, 0 ≤ t → t < 0 * 5 → m.v.get t = Except.ok 0) ∧
      ((0 : Int) = 0 ∨ (5 : Int) = 0 → m.v.pdata = []) :=
  ⟨by decide!, by decide!, by decide!, (matrix_construct 0 5).2.2 (by decide) (by decide)⟩

/-- C24: for every matrix whose backing vector holds `rows * cols` elements and all integers
`i`, `j`, the element access `(i, j)`, read or write, fails exactly when `i` is outside
`[0, rows)` or `j` is outside `[0, cols)`, with the error of an index out of range; when it
succeeds it is the access to the element at the index `i * cols + j` of the backing vector,
and that index lies in `[0, rows * cols)`, so the access to the backing vector does not fail. -/
theorem matrix_index_range (m : Matrix) (i j : Int) (x : ℚ)
    (hv : m.v.size = m.nrows * m.ncols) :
    (m.get i j = Except.error Err.indexOutOfRange ↔
      (i < 0 ∨ m.nrows ≤ i) ∨ (j < 0 ∨ m.ncols ≤ j)) ∧
    (m.set i j x = Except.error Err.indexOutOfRange ↔
      (i < 0 ∨ m.nrows ≤ i) ∨ (j < 0 ∨ m.ncols ≤ j)) ∧
    (0 ≤ i → i < m.nrows → 0 ≤ j → j < m.ncols →
      0 ≤ i * m.ncols + j ∧ i * m.ncols + j < m.nrows * m.ncols ∧
      m.v.get (i * m.ncols + j) = Except.ok (m.v.pdata.getD (i * m.ncols + j).toNat 0) ∧
      m.get i j = Except.ok (m.v.pdata.getD (i * m.ncols + j).toNat 0) ∧
      m.set i j x = Except.ok { m with v := ⟨m.v.pdata.set (i * m.ncols + j).toNat x⟩ }) := by
  have hin : 0 ≤ i → i < m.nrows → 0 ≤ j → j < m.ncols →
      0 ≤ i * m.ncols + j ∧ i * m.ncols + j < m.nrows * m.ncols ∧
      m.v.get (i * m.ncols + j) = Except.ok (m.v.pdata.getD (i * m.ncols + j).toNat 0) ∧
      m.get i j = Except.ok (m.v.pdata.getD (i * m.ncols + j).toNat 0) ∧
      m.set i j x = Except.ok { m with v := ⟨m.v.pdata.set (i * m.ncols + j).toNat x⟩ } := by
    intro hi0 hi hj0 hj
    have h1 : 0 ≤ i * m.ncols := mul_nonneg hi0 (by omega)
    have h2 : (i + 1) * m.ncols ≤ m.nrows * m.ncols :=
      mul_le_mul_of_nonneg_right (by omega) (by omega)
    have h3 : (i + 1) * m.ncols = i * m.ncols + m.ncols := by ring
    have hlo : 0 ≤ i * m.ncols + j := by omega
    have hhi : i * m.ncols + j < m.nrows * m.ncols := by omega
    have hg : ¬ (i > m.nrows - 1 ∨ j > m.ncols - 1 ∨ i < 0 ∨ j < 0) := by omega
    have hgv : ¬ (i * m.ncols + j < 0 ∨ i * m.ncols + j ≥ m.v.size) := by
      rw [hv]; omega
    have hvget : m.v.get (i * m.ncols + j)
        = Except.ok (m.v.pdata.getD (i * m.ncols + j).toNat 0) := by
      unfold Vector.get
      rw [if_neg hgv]; rfl
    refine ⟨hlo, hhi, hvget, ?_, ?_⟩
    · unfold Matrix.get
      rw [if_neg hg, hvget]
    · unfold Matrix.set Vector.set
      rw [if_neg hg, if_neg hgv]; rfl
  have hout : (i < 0 ∨ m.nrows ≤ i) ∨ (j < 0 ∨ m.ncols ≤ j) →
      m.get i j = Except.error Err.indexOutOfRange ∧
      m.set i j x = Except.error Err.indexOutOfRange := by
    intro h
    have hg : i > m.nrows - 1 ∨ j > m.ncols - 1 ∨ i < 0 ∨ j < 0 := by omega
    unfold Matrix.get Matrix.set
    rw [if_pos hg, if_pos hg]
    exact ⟨rfl, rfl⟩
  refine ⟨⟨?_, fun h => (hout h).1⟩, ⟨?_, fun h => (hout h).2⟩, hin⟩
  · intro h
    by_contra hc
    obtain ⟨_, _, _, hg, _⟩ := hin (by omega) (by omega) (by omega) (by omega)
    rw [hg] at h
    cases h
  · intro h
    by_contra hc
    obtain ⟨_, _, _, _, hs⟩ := hin (by omega) (by omega) (by omega) (by omega)
    rw [hs] at h
    cases h

/-- C24 on the 2-by-3 matrix `[[1,2,3],[4,5,6]]`: the element `(1, 2)` is the element at the
index `1 * 3 + 2 = 5` of the backing vector, and the accesses `(2, 0)` and `(0, 3)` fail. -/
theorem matrix_index_range_witness :
    (Matrix.mk 2 3 ⟨[1, 2, 3, 4, 5, 6]⟩).get 1 2 = Except.ok 6 ∧
    (Matrix.mk 2 3 ⟨[1, 2, 3, 4, 5, 6]⟩).get 2 0 = Except.error Err.indexOutOfRange ∧
    (Matrix.mk 2 3 ⟨[1, 2, 3, 4, 5, 6]⟩).get 0 3 = Except.error Err.indexOutOfRange ∧
    (Matrix.mk 2 3 ⟨[1, 2, 3, 4, 5, 6]⟩).v.get (1 * 3 + 2)
      = (Matrix.mk 2 3 ⟨[1, 2, 3, 4, 5, 6]⟩).get 1 2 :=
  ⟨by decide!, by decide!, by decide!,
    by
      have h := (matrix_index_range ⟨2, 3, ⟨[1, 2, 3, 4, 5, 6]⟩⟩ 1 2 0 (by decide)).2.2
        (by decide) (by decide) (by decide) (by decide)
      exact h.2.2.1.trans h.2.2.2.1.symm⟩

/-- C25: `Vector::operator==` returns `true` exactly when both vectors have the same length
and equal elements at every index; on matrices whose backing vectors hold `rows * cols`
elements, `Matrix::operator==` returns `true` exactly when both have the same `rows` and `cols`
and equal elements at every `(i, j)`. The 0-by-5 matrix is not equal to the 0-by-3 matrix,
although neither holds an element. -/
theorem equality_structural (a b : Vector) (m m' : Matrix)
    (hm : m.v.size = m.nrows * m.ncols) (hm' : m'.v.size = m'.nrows * m'.ncols) :
    (∃ r, a.eq b = Except.ok r ∧
      (r = true ↔ a.size = b.size ∧ ∀ i : Int, 0 ≤ i → i < a.size → a.get i = b.get i)) ∧
    (∃ r, m.eq m' = Except.ok r ∧
      (r = true ↔ m.nrows = m'.nrows ∧ m.ncols = m'.ncols ∧
        ∀ i j : Int, 0 ≤ i → i < m.nrows → 0 ≤ j → j < m.ncols → m.get i j = m'.get i j)) ∧
    (do
      let x ← Matrix.new 0 5
      let y ← Matrix.new 0 3
      let r ← x.eq y
      pure (r, x.v.size, y.v.size) : Res (Bool × Int × Int)) = Except.ok (false, 0, 0) := by
  refine ⟨?_, Matrix.eq_entrywise m m' hm hm', by decide!⟩
  obtain ⟨r, hr, hiff⟩ := Vector.eq_elementwise a b
  refine ⟨r, hr, ?_⟩
  rw [hiff]
  constructor
  · rintro ⟨hl, he⟩
    refine ⟨by unfold Vector.size; rw [hl], ?_⟩
    intro i hi0 hi
    obtain ⟨k, rfl⟩ := Int.eq_ofNat_of_zero_le hi0
    have hk : k < a.pdata.length := by
      unfold Vector.size at hi
      exact_mod_cast hi
    rw [Vector.get_of_lt hk, Vector.get_of_lt (by omega), he k hk]
  · rintro ⟨hs, he⟩
    have hl : a.pdata.length = b.pdata.length := by
      unfold Vector.size at hs
      exact_mod_cast hs
    refine ⟨hl, ?_⟩
    intro i hi
    have h := he (i : Int) (by omega) (by unfold Vector.size; exact_mod_cast hi)
    rw [Vector.get_of_lt hi, Vector.get_of_lt (by omega)] at h
    exact Except.ok.inj h

/-- C25 on concrete operands: `[1, 2] == [1, 2]` is true, `[1, 2] == [1, 3]` and
`[1, 2] == [1, 2, 0]` are false; the 2-by-2 matrices `[[1,2],[3,4]]` and `[[1,2],[3,5]]` are
not equal, and a matrix is equal to itself. -/
theorem equality_structural_witness :
    (Vector.mk [1, 2]).eq ⟨[1, 2]⟩ = Except.ok true ∧
    (Vector.mk [1, 2]).eq ⟨[1, 3]⟩ = Except.ok false ∧
    (Vector.mk [1, 2]).eq ⟨[1, 2, 0]⟩ = Except.ok false ∧
    (Matrix.mk 2 2 ⟨[1, 2, 3, 4]⟩).eq ⟨2, 2, ⟨[1, 2, 3, 5]⟩⟩ = Except.ok false ∧
    (Matrix.mk 2 2 ⟨[1, 2, 3, 4]⟩).eq ⟨2, 2, ⟨[1, 2, 3, 4]⟩⟩ = Except.ok true ∧
    ∃ r, (Matrix.mk 2 2 ⟨[1, 2, 3, 4]⟩).eq ⟨2, 2, ⟨[1, 2, 3, 5]⟩⟩ = Except.ok r ∧
      (r = true ↔ (2 : Int) = 2 ∧ (2 : Int) = 2 ∧
        ∀ i j : Int, 0 ≤ i → i < 2 → 0 ≤ j → j < 2 →
          (Matrix.mk 2 2 ⟨[1, 2, 3, 4]⟩).get i j = (Matrix.mk 2 2 ⟨[1, 2, 3, 5]⟩).get i j) :=
  ⟨by decide!, by decide!, by decide!, by decide!, by decide!,
    (equality_structural ⟨[1, 2]⟩ ⟨[1, 3]⟩ ⟨2, 2, ⟨[1, 2, 3, 4]⟩⟩ ⟨2, 2, ⟨[1, 2, 3, 5]⟩⟩
      (by decide) (by decide)).2.1⟩

/-- C28, refuted as stated: in double precision, for `A = [49]` the factors are `L = [1]` and
`U = [49]`, the loop over `k` of `inverse()` ends with `l_inv = [1]` and
`u_inv = [fl (1/49)]`, and `U * u_inv` is `[1 - 2^(-53)]`, not the identity. -/
theorem inverse_factors_rounded_counterexample :
    Fp.lu_fact (MathMatrix.ofList 1 [49]) 1
        = Except.ok (MathMatrix.ofList 1 [1], MathMatrix.ofList 1 [49]) ∧
      Fp.columns (MathMatrix.ofList 1 [1]) (MathMatrix.ofList 1 [49]) 1
        = Except.ok ⟨⟨[1]⟩, MathMatrix.ofList 1 [1],
            MathMatrix.ofList 1 [5882252574524729 / 288230376151711744]⟩ ∧
      Fp.mul (MathMatrix.ofList 1 [49])
          (MathMatrix.ofList 1 [5882252574524729 / 288230376151711744])
        = Except.ok (MathMatrix.ofList 1 [9007199254740991 / 9007199254740992]) ∧
      MathMatrix.ofList 1 [9007199254740991 / 9007199254740992] ≠ MathMatrix.identity 1 :=
  ⟨by decide!, by decide!, by decide!, by decide!⟩

/-- C28, amended: in exact arithmetic, for every well-formed `n`-by-`n` matrix `A` on which
`reorder` returns `P` and `lu_fact` returns `L` and `U` with every `U(i,i)` nonzero, the loop
over `k` of `inverse()` ends with matrices `l_inv` and `u_inv` such that `L * l_inv` and
`U * u_inv` are the identity;
column `k` of `l_inv` is the forward substitution of the unit vector `e_k` through `L` and
column `k` of `u_inv` is the back substitution of `e_k` through `U`; and `inverse()` returns
`u_inv * l_inv * P`. -/
theorem inverse_factor_inverses (n : Nat) (A P L U : MathMatrix) (hA : A.Sq n)
    (hP : reorder A (n : Int) = Except.ok P) (hLU : lu_fact A (n : Int) = Except.ok (L, U))
    (hd : ∀ i : Nat, i < n → U.get (i : Int) (i : Int) ≠ Except.ok 0) :
    ∃ (e : Vector) (l_inv u_inv R : MathMatrix),
      forUp 0 n (inverse.column L U n)
        ⟨⟨List.replicate n 0⟩, MathMatrix.zero n, MathMatrix.zero n⟩
          = Except.ok ⟨e, l_inv, u_inv⟩ ∧
      L.mul l_inv = Except.ok (MathMatrix.identity n) ∧
      U.mul u_inv = Except.ok (MathMatrix.identity n) ∧
      (∀ k : Nat, k < n → ∃ y x,
        subst.forward L n (Vector.unit n k) = Except.ok y ∧
        subst.backward U n (Vector.unit n k) = Except.ok x ∧
        ∀ a : Nat, a < n → l_inv.get (a : Int) (k : Int) = y.get (a : Int) ∧
          u_inv.get (a : Int) (k : Int) = x.get (a : Int)) ∧
      (u_inv.mul l_inv >>= fun t => t.mul P) = Except.ok R ∧
      A.inverse = Except.ok R := by
  obtain ⟨hL, hU, _⟩ := lu_fact_mulF hA hLU
  have hd' : ∀ i, i < n → U.E i i ≠ 0 := by
    intro i hi h0
    apply hd i hi
    rw [MathMatrix.get_nat hU hi hi, h0]
  obtain ⟨s, UL, R, hs, hli, hui, hf, hb, hLi, hUi, hUL, hR, _, hinv, _⟩ :=
    inverse_run hA hP hLU hd'
  refine ⟨s.e, s.l_inv, s.u_inv, R, hs, hLi, hUi, ?_, by rw [hUL, ok_bind, hR], hinv⟩
  intro k hk
  obtain ⟨y, hy, hyl, hyr⟩ := subst_forward_spec hL (Vector.unit_length n k)
  obtain ⟨x, hx, hxl, hxr⟩ := subst_backward_spec hU (Vector.unit_length n k) hd'
  refine ⟨y, x, hy, hx, ?_⟩
  intro a ha
  rw [MathMatrix.get_nat hli ha hk, MathMatrix.get_nat hui ha hk,
    Vector.get_of_lt (show a < y.pdata.length by omega),
    Vector.get_of_lt (show a < x.pdata.length by omega)]
  constructor
  · congr 1
    apply forward_unique (l := L.E) (r := fun a => if a = k then 1 else 0)
      (y := fun a => s.l_inv.E a k) (z := y.E) (fun a ha => hf k a hk ha) _ a ha
    intro b hb'
    rw [hyr b hb', Vector.E_unit k hb']
  · congr 1
    apply backward_unique (u := U.E) (r := fun a => if a = k then 1 else 0)
      (x := fun a => s.u_inv.E a k) (w := x.E) hd' (fun a ha => hb k a hk ha) _ a ha
    intro b hb'
    rw [hxr b hb', Vector.E_unit k hb']

/-- C28 on `A = [[4,3],[6,3]]`, with `P` the identity, `L = [[1,0],[3/2,1]]` and
`U = [[4,3],[0,-3/2]]`: the loop builds `l_inv = [[1,0],[-3/2,1]]` and
`u_inv = [[1/4,1/2],[0,-2/3]]`, and `inverse()` returns `[[-1/2,1/2],[1,-2/3]]`. -/
theorem inverse_factor_inverses_witness :
    forUp 0 2 (inverse.column (MathMatrix.ofList 2 [1, 0, 3/2, 1])
        (MathMatrix.ofList 2 [4, 3, 0, -3/2]) 2)
        ⟨⟨List.replicate 2 0⟩, MathMatrix.zero 2, MathMatrix.zero 2⟩
      = Except.ok ⟨⟨[0, 1]⟩, MathMatrix.ofList 2 [1, 0, -3/2, 1],
          MathMatrix.ofList 2 [1/4, 1/2, 0, -2/3]⟩ ∧
    ∃ (e : Vector) (l_inv u_inv R : MathMatrix),
      forUp 0 2 (inverse.column (MathMatrix.ofList 2 [1, 0, 3/2, 1])
          (MathMatrix.ofList 2 [4, 3, 0, -3/2]) 2)
        ⟨⟨List.replicate 2 0⟩, MathMatrix.zero 2, MathMatrix.zero 2⟩
          = Except.ok ⟨e, l_inv, u_inv⟩ ∧
      (MathMatrix.ofList 2 [1, 0, 3/2, 1]).mul l_inv = Except.ok (MathMatrix.identity 2) ∧
      (MathMatrix.ofList 2 [4, 3, 0, -3/2]).mul u_inv = Except.ok (MathMatrix.identity 2) ∧
      (∀ k : Nat, k < 2 → ∃ y x,
        subst.forward (MathMatrix.ofList 2 [1, 0, 3/2, 1]) 2 (Vector.unit 2 k) = Except.ok y ∧
        subst.backward (MathMatrix.ofList 2 [4, 3, 0, -3/2]) 2 (Vector.unit 2 k)
          = Except.ok x ∧
        ∀ a : Nat, a < 2 → l_inv.get (a : Int) (k : Int) = y.get (a : Int) ∧
          u_inv.get (a : Int) (k : Int) = x.get (a : Int)) ∧
      (u_inv.mul l_inv >>= fun t => t.mul (MathMatrix.ofList 2 [1, 0, 0, 1])) = Except.ok R ∧
      (MathMatrix.ofList 2 [4, 3, 6, 3]).inverse = Except.ok R :=
  ⟨by decide!,
    inverse_factor_inverses 2 (MathMatrix.ofList 2 [4, 3, 6, 3]) (MathMatrix.ofList 2 [1, 0, 0, 1])
      (MathMatrix.ofList 2 [1, 0, 3/2, 1]) (MathMatrix.ofList 2 [4, 3, 0, -3/2])
      ⟨rfl, rfl, rfl, rfl⟩ (by decide!) (by decide!) (by decide!)⟩

/-- C30, refuted as stated: in double precision, for `A = [49]` `reorder` returns the identity
as `P`, `inverse()` returns `[fl (1/49)]`, and `A * A.inverse()` is `[1 - 2^(-53)]`: it is
not `P`, and it is not the identity although no rows were swapped. -/
theorem inverse_times_rounded_counterexample :
    Fp.reorder (MathMatrix.ofList 1 [49]) 1 = Except.ok (MathMatrix.identity 1) ∧
      Fp.inverse (MathMatrix.ofList 1 [49])
        = Except.ok (MathMatrix.ofList 1 [5882252574524729 / 288230376151711744]) ∧
      Fp.mul (MathMatrix.ofList 1 [49])
          (MathMatrix.ofList 1 [5882252574524729 / 288230376151711744])
        = Except.ok (MathMatrix.ofList 1 [9007199254740991 / 9007199254740992]) ∧
      MathMatrix.ofList 1 [9007199254740991 / 9007199254740992] ≠ MathMatrix.identity 1 :=
  ⟨by decide!, by decide!, by decide!, by decide!⟩

/-- C30, amended: in exact arithmetic, for every well-formed `n`-by-`n` matrix `A` on which
`reorder` returns `P` and `lu_fact` returns `L` and `U` with every `U(i,i)` nonzero,
`inverse()` returns a matrix and `A * A.inverse()` is `P`; so `A * A.inverse()` is the
identity exactly when `P` is the identity. -/
theorem inverse_times_matrix (n : Nat) (A P L U : MathMatrix) (hA : A.Sq n)
    (hP : reorder A (n : Int) = Except.ok P) (hLU : lu_fact A (n : Int) = Except.ok (L, U))
    (hd : ∀ i : Nat, i < n → U.get (i : Int) (i : Int) ≠ Except.ok 0) :
    ∃ R, A.inverse = Except.ok R ∧ A.mul R = Except.ok P ∧
      (A.mul R = Except.ok (MathMatrix.identity n) ↔ P = MathMatrix.identity n) := by
  obtain ⟨_, hU, _⟩ := lu_fact_mulF hA hLU
  have hd' : ∀ i, i < n → U.E i i ≠ 0 := by
    intro i hi h0
    apply hd i hi
    rw [MathMatrix.get_nat hU hi hi, h0]
  obtain ⟨s, UL, R, _, _, _, _, _, _, _, _, _, _, hinv, hAR⟩ := inverse_run hA hP hLU hd'
  refine ⟨R, hinv, hAR, ?_⟩
  rw [hAR]
  constructor
  · intro h
    exact Except.ok.inj h
  · intro h
    rw [h]

/-- C30 on `A = [[1,2],[3,4]]`, where `reorder` swaps the two rows, and on `A = [[4,3],[6,3]]`,
where it does not: `A * A.inverse()` is the row swap for the first matrix and the identity for
the second. -/
theorem inverse_times_matrix_witness :
    (∃ R, (MathMatrix.ofList 2 [1, 2, 3, 4]).inverse = Except.ok R ∧
      (MathMatrix.ofList 2 [1, 2, 3, 4]).mul R = Except.ok (MathMatrix.ofList 2 [0, 1, 1, 0]) ∧
      ((MathMatrix.ofList 2 [1, 2, 3, 4]).mul R = Except.ok (MathMatrix.identity 2) ↔
        MathMatrix.ofList 2 [0, 1, 1, 0] = MathMatrix.identity 2)) ∧
    (∃ R, (MathMatrix.ofList 2 [4, 3, 6, 3]).inverse = Except.ok R ∧
      (MathMatrix.ofList 2 [4, 3, 6, 3]).mul R = Except.ok (MathMatrix.ofList 2 [1, 0, 0, 1]) ∧
      ((MathMatrix.ofList 2 [4, 3, 6, 3]).mul R = Except.ok (MathMatrix.identity 2) ↔
        MathMatrix.ofList 2 [1, 0, 0, 1] = MathMatrix.identity 2)) :=
  ⟨inverse_times_matrix 2 (MathMatrix.ofList 2 [1, 2, 3, 4]) (MathMatrix.ofList 2 [0, 1, 1, 0])
      (MathMatrix.ofList 2 [1, 0, 3, 1]) (MathMatrix.ofList 2 [1, 2, 0, -2])
      ⟨rfl, rfl, rfl, rfl⟩ (by decide!) (by decide!) (by decide!),
    inverse_times_matrix 2 (MathMatrix.ofList 2 [4, 3, 6, 3]) (MathMatrix.ofList 2 [1, 0, 0, 1])
      (MathMatrix.ofList 2 [1, 0, 3/2, 1]) (MathMatrix.ofList 2 [4, 3, 0, -3/2])
      ⟨rfl, rfl, rfl, rfl⟩ (by decide!) (by decide!) (by decide!)⟩

/-- C29 at `A = [[1,2,0],[4,0,0],[0,1,1]]`: the scales are `[2, 4, 1]`; step 0 exchanges the
positions 0 and 1, so `pvt = [1, 0, 2]`. At step 1 the candidates are row 0 at position 1, with
`|temp(0,1)| / scale[0] = 2 / 2 = 1`, and row 2 at position 2, with
`|temp(2,1)| / scale[2] = 1 / 1 = 1`: both attain the largest scaled value, and the pivot
search selects position 2, not the first of them, and exchanges the two positions. -/
theorem reorder_tie_not_first :
    reorder.init (MathMatrix.ofList 3 [1, 2, 0, 4, 0, 0, 0, 1, 1]) 3
      = Except.ok (⟨[0, 1, 2]⟩, ⟨[2, 4, 1]⟩, MathMatrix.zero 3) ∧
    reorder.eliminate (MathMatrix.ofList 3 [1, 2, 0, 4, 0, 0, 0, 1, 1]) 3 1
      = Except.ok (⟨[1, 0, 2]⟩, MathMatrix.ofList 3 [1/4, 2, 0, 4, 0, 0, 0, 1, 1]) ∧
    (MathMatrix.ofList 3 [1/4, 2, 0, 4, 0, 0, 0, 1, 1]).get 0 1 = Except.ok 2 ∧
    (MathMatrix.ofList 3 [1/4, 2, 0, 4, 0, 0, 0, 1, 1]).get 2 1 = Except.ok 1 ∧
    |(2 : ℚ)| / 2 = 1 ∧ |(1 : ℚ)| / 1 = 1 ∧
    reorder.findPivot 3 (MathMatrix.ofList 3 [1/4, 2, 0, 4, 0, 0, 0, 1, 1]) ⟨[1, 0, 2]⟩
      ⟨[2, 4, 1]⟩ 1 = Except.ok ⟨Scaled.fin 1, 2⟩ ∧
    reorder.eliminate (MathMatrix.ofList 3 [1, 2, 0, 4, 0, 0, 0, 1, 1]) 3 2
      = Except.ok (⟨[1, 2, 0]⟩, MathMatrix.ofList 3 [1/4, 2, -2, 4, 0, 0, 0, 1, 1]) ∧
    reorder (MathMatrix.ofList 3 [1, 2, 0, 4, 0, 0, 0, 1, 1]) 3
      = Except.ok (MathMatrix.ofList 3 [0, 1, 0, 0, 0, 1, 1, 0, 0]) := by
  decide!

/-- C27 at `c = Complex(2, 0.5)`: the file output writes the text `2 0.5`, and the file input,
whose locals `re` and `im` are declared `int`, reads `re = 2` and `im = 0` from it and leaves
the text `.5` unread: the number read back is `Complex(2, 0)`, which `operator==` tells from
`c`. For `Complex(3, -4)`, with integer parts, the number read back is equal to the one
written. -/
theorem complex_file_read_truncates (re0 im0 : Int) :
    Complex.fileOut ⟨2, 1/2⟩ [] = ['2', ' ', '0', '.', '5', '\n'] ∧
    Complex.fileIn re0 im0 ⟨Complex.fileOut ⟨2, 1/2⟩ [], false⟩
      = (⟨2, 0⟩, ⟨['.', '5', '\n'], false⟩) ∧
    (Complex.fileIn re0 im0 ⟨Complex.fileOut ⟨2, 1/2⟩ [], false⟩).1.eq ⟨2, 1/2⟩ = false ∧
    (Complex.fileIn re0 im0 ⟨Complex.fileOut ⟨3, -4⟩ [], false⟩).1.eq ⟨3, -4⟩ = true := by
  have h1 : Complex.fileOut ⟨2, 1/2⟩ [] = ['2', ' ', '0', '.', '5', '\n'] := by decide!
  have h2 : Complex.fileOut ⟨3, -4⟩ [] = ['3', ' ', '-', '4', '\n'] := by decide!
  have h3 : Complex.fileIn re0 im0 ⟨['2', ' ', '0', '.', '5', '\n'], false⟩
      = (⟨2, 0⟩, ⟨['.', '5', '\n'], false⟩) := by
    have e1 : IStream.getInt ⟨['2', ' ', '0', '.', '5', '\n'], false⟩ re0
        = (2, ⟨[' ', '0', '.', '5', '\n'], false⟩) := by
      unfold IStream.getInt
      rw [if_neg (by decide)]
      have : scanInt ((['2', ' ', '0', '.', '5', '\n'].dropWhile Char.isWhitespace).takeWhile
          notWs) = some (2, []) := by decide!
      rw [this]
      decide!
    have e2 : IStream.getInt ⟨[' ', '0', '.', '5', '\n'], false⟩ im0
        = (0, ⟨['.', '5', '\n'], false⟩) := by
      unfold IStream.getInt
      rw [if_neg (by decide)]
      have : scanInt (([' ', '0', '.', '5', '\n'].dropWhile Char.isWhitespace).takeWhile
          notWs) = some (0, ['.', '5']) := by decide!
      rw [this]
      decide!
    unfold Complex.fileIn
    simp only [e1, e2]
    decide!
  have h4 : Complex.fileIn re0 im0 ⟨['3', ' ', '-', '4', '\n'], false⟩
      = (⟨3, -4⟩, ⟨['\n'], false⟩) := by
    have e1 : IStream.getInt ⟨['3', ' ', '-', '4', '\n'], false⟩ re0
        = (3, ⟨[' ', '-', '4', '\n'], false⟩) := by
      unfold IStream.getInt
      rw [if_neg (by decide)]
      have : scanInt ((['3', ' ', '-', '4', '\n'].dropWhile Char.isWhitespace).takeWhile
          notWs) = some (3, []) := by decide!
      rw [this]
      decide!
    have e2 : IStream.getInt ⟨[' ', '-', '4', '\n'], false⟩ im0
        = (-4, ⟨['\n'], false⟩) := by
      unfold IStream.getInt
      rw [if_neg (by decide)]
      have : scanInt (([' ', '-', '4', '\n'].dropWhile Char.isWhitespace).takeWhile
          notWs) = some (-4, []) := by decide!
      rw [this]
      decide!
    unfold Complex.fileIn
    simp only [e1, e2]
    decide!
  refine ⟨h1, ?_, ?_, ?_⟩
  · rw [h1, h3]
  · rw [h1, h3]
    decide!
  · rw [h2, h4]
    decide!

/-- C26, refuted as stated: the vector `[1.2345678]` is written as the text `1`, line break,
`1.23457`, and the vector read back from this text, `[1.23457]`, does not compare equal to
it; the same holds for the 1-by-1 matrix `[[1.2345678]]`. -/
theorem file_round_trip_counterexample :
    Vector.fileOut ⟨[1234567/1000000]⟩ []
      = Except.ok ['1', '\n', '1', '.', '2', '3', '4', '5', '7', ' ', '\n'] ∧
    (do
      let text ← Vector.fileOut ⟨[1234567/1000000]⟩ []
      let r ← Vector.fileIn 0 ⟨text, false⟩
      pure r.1 : Res Vector) = Except.ok ⟨[123457/100000]⟩ ∧
    (do
      let text ← Vector.fileOut ⟨[1234567/1000000]⟩ []
      let r ← Vector.fileIn 0 ⟨text, false⟩
      r.1.eq ⟨[1234567/1000000]⟩ : Res Bool) = Except.ok false ∧
    (do
      let text ← (MathMatrix.ofList 1 [1234567/1000000]).fileOut []
      let r ← MathMatrix.fileIn 0 ⟨text, false⟩
      r.1.toMatrix.eq (MathMatrix.ofList 1 [1234567/1000000]).toMatrix : Res Bool)
        = Except.ok false := by
  decide!

/-- C26, amended: for every vector `v` and every well-formed square matrix `m`, writing it
with the file output operator and reading the text back with the file input operator yields
an object of the same dimensions; when every element is written by the stream as a text that
is read back as the same number, the object read compares equal to the original. -/
theorem file_round_trip (n : Nat) (v : Vector) (m : MathMatrix) (n0 : Int) (hm : m.Sq n) :
    (∃ text v' s, v.fileOut [] = Except.ok text ∧
      Vector.fileIn n0 ⟨text, false⟩ = Except.ok (v', s) ∧ v'.size = v.size ∧
      ((∀ x ∈ v.pdata, ReadsBack x) → v' = v ∧ v'.eq v = Except.ok true)) ∧
    (∃ text m' s, m.fileOut [] = Except.ok text ∧
      MathMatrix.fileIn n0 ⟨text, false⟩ = Except.ok (m', s) ∧
      m'.nrows = m.nrows ∧ m'.ncols = m.ncols ∧
      ((∀ x ∈ m.v.pdata, ReadsBack x) →
        m' = m ∧ m'.toMatrix.eq m.toMatrix = Except.ok true)) := by
  constructor
  · obtain ⟨b, hout, hW⟩ := Vector.fileOut_fields v []
    rw [List.nil_append] at hout
    obtain ⟨v', s, hin, hl⟩ := Vector.fileIn_length v.pdata.length b n0
    refine ⟨_, v', s, hout, hin, by unfold Vector.size; rw [hl], ?_⟩
    intro hx
    obtain ⟨s2, hin2⟩ := Vector.fileIn_elements n0 hW hx
    rw [hin] at hin2
    have hv : v' = v := congrArg Prod.fst (Except.ok.inj hin2)
    refine ⟨hv, ?_⟩
    rw [hv]
    obtain ⟨r, hr, hiff⟩ := Vector.eq_elementwise v v
    rw [hr, hiff.mpr ⟨rfl, fun _ _ => rfl⟩]
  · obtain ⟨b, hout, hW⟩ := MathMatrix.fileOut_text hm []
    rw [List.nil_append] at hout
    obtain ⟨m', s, hin, hs⟩ := MathMatrix.fileIn_size n b n0
    refine ⟨_, m', s, hout, hin, by rw [hs.nrows, hm.nrows], by rw [hs.ncols, hm.ncols], ?_⟩
    intro hx
    obtain ⟨s2, hin2⟩ := MathMatrix.fileIn_entries hm n0 hW hx
    rw [hin] at hin2
    have hmm : m' = m := congrArg Prod.fst (Except.ok.inj hin2)
    refine ⟨hmm, ?_⟩
    rw [hmm]
    have hv : m.toMatrix.v.size = m.toMatrix.nrows * m.toMatrix.ncols := by
      unfold Vector.size
      rw [hm.len, hm.nrows, hm.ncols]
      push_cast
      rfl
    obtain ⟨r, hr, hiff⟩ := Matrix.eq_entrywise m.toMatrix m.toMatrix hv hv
    rw [hr, hiff.mpr ⟨rfl, rfl, fun _ _ _ _ _ _ => rfl⟩]

/-- C26, amended, on the vector `[0.5, 1.5, 2.5]` of `main.cpp` and on the matrix
`[[4,3],[6,3]]`: the texts written are the size, a line break and the elements, each followed
by a space, with a line break after every row; both are read back as the original. -/
theorem file_round_trip_witness :
    Vector.fileOut ⟨[1/2, 3/2, 5/2]⟩ []
      = Except.ok ['3', '\n', '0', '.', '5', ' ', '1', '.', '5', ' ', '2', '.', '5', ' ', '\n'] ∧
    (MathMatrix.ofList 2 [4, 3, 6, 3]).fileOut []
      = Except.ok ['2', '\n', '4', ' ', '3', ' ', '\n', '6', ' ', '3', ' ', '\n'] ∧
    (∃ text v' s, Vector.fileOut ⟨[1/2, 3/2, 5/2]⟩ [] = Except.ok text ∧
      Vector.fileIn 0 ⟨text, false⟩ = Except.ok (v', s) ∧
      v' = ⟨[1/2, 3/2, 5/2]⟩ ∧ v'.eq ⟨[1/2, 3/2, 5/2]⟩ = Except.ok true) ∧
    (∃ text m' s, (MathMatrix.ofList 2 [4, 3, 6, 3]).fileOut [] = Except.ok text ∧
      MathMatrix.fileIn 0 ⟨text, false⟩ = Except.ok (m', s) ∧
      m' = MathMatrix.ofList 2 [4, 3, 6, 3] ∧
      m'.toMatrix.eq (MathMatrix.ofList 2 [4, 3, 6, 3]).toMatrix = Except.ok true) := by
  have h := file_round_trip 2 ⟨[1/2, 3/2, 5/2]⟩ (MathMatrix.ofList 2 [4, 3, 6, 3]) 0
    ⟨rfl, rfl, rfl, rfl⟩
  obtain ⟨⟨t1, v', s1, h1, h2, _, h3⟩, ⟨t2, m', s2, h4, h5, _, _, h6⟩⟩ := h
  exact ⟨by decide!, by decide!, ⟨t1, v', s1, h1, h2, h3 (by decide!)⟩,
    ⟨t2, m', s2, h4, h5, h6 (by decide!)⟩⟩

/-- C31: for every `n ≥ 1` and every well-formed `n`-by-`n` matrix `A` whose pivots at the
steps `0 .. n-2` are not zero, `lu_fact` returns factors whatever the last pivot
`temp(n-1, n-1)` is, and `U(n-1, n-1)` is that pivot; when it is zero, `lu_solve` with these
factors and `inverse()` (when `reorder` returns) reach the division by `U(n-1, n-1) = 0`. For
`n = 1` the factors are `L = [1]` and `U = A`. -/
theorem lu_fact_last_pivot_untested (n : Nat) (A : MathMatrix) (hn : 1 ≤ n) (hA : A.Sq n)
    (hp : ∀ k : Nat, k + 1 < n → ∀ T, lu_fact.eliminate n k A = Except.ok T →
      T.get (k : Int) (k : Int) ≠ Except.ok 0) :
    ∃ T L U, lu_fact.eliminate n (n - 1) A = Except.ok T ∧
      lu_fact A (n : Int) = Except.ok (L, U) ∧
      U.get ((n - 1 : Nat) : Int) ((n - 1 : Nat) : Int)
        = T.get ((n - 1 : Nat) : Int) ((n - 1 : Nat) : Int) ∧
      (T.get ((n - 1 : Nat) : Int) ((n - 1 : Nat) : Int) = Except.ok 0 →
        (∀ b : Vector, b.size = (n : Int) →
          lu_solve L U b (n : Int) = Except.error Err.divByZero) ∧
        (∀ P, reorder A (n : Int) = Except.ok P →
          A.inverse = Except.error Err.divByZero)) ∧
      (n = 1 → L.get 0 0 = Except.ok 1 ∧ U = A) := by
  have hp' : ∀ c, c < n - 1 → elimN A.E c c c ≠ 0 := by
    by_contra hcon
    push_neg at hcon
    obtain ⟨c, hc, hz, hpre⟩ := exists_first_zero (fun c => elimN A.E c c c) (n - 1) hcon
    obtain ⟨T, hT, hTS, hTE⟩ := lu_fact.eliminate_ok hA c (by omega) hpre
    have hcn : c < n := by omega
    apply hp c (by omega) T hT
    rw [MathMatrix.get_nat hTS hcn hcn, hTE c c hcn hcn, hz]
  obtain ⟨T, hT, hTS, hTE⟩ := lu_fact.eliminate_ok hA (n - 1) (Nat.le_refl _) hp'
  rcases lu_fact_cases hA with ⟨⟨c, hc, h0⟩, _⟩ | ⟨_, L, U, hLU, hL, hU, hLE, hUE⟩
  · exact absurd h0 (hp' c hc)
  · have hlast : n - 1 < n := by omega
    have hUT : U.E (n - 1) (n - 1) = T.E (n - 1) (n - 1) := by
      rw [hUE _ _ hlast hlast, hTE _ _ hlast hlast]
      unfold upperF
      rw [if_pos (Nat.le_refl _)]
    refine ⟨T, L, U, hT, hLU, ?_, ?_, ?_⟩
    · rw [MathMatrix.get_nat hU hlast hlast, MathMatrix.get_nat hTS hlast hlast, hUT]
    · intro hz
      have hU0 : U.E (n - 1) (n - 1) = 0 := by
        rw [MathMatrix.get_nat hTS hlast hlast] at hz
        rw [hUT]
        exact Except.ok.inj hz
      refine ⟨fun b hb => ?_, fun P hP => inverse_zero_diag hA hP hLU hlast hU0⟩
      have hbl : b.pdata.length = n := by
        unfold Vector.size at hb
        exact_mod_cast hb
      exact lu_solve_zero_diag hL hU hbl hlast hU0
    · intro h1
      subst h1
      have h00 : (0 : Nat) < 1 := by omega
      constructor
      · have := MathMatrix.get_nat hL h00 h00
        rw [hLE 0 0 h00 h00] at this
        exact this
      · apply MathMatrix.ext_E hU hA
        intro i j hi hj
        have hi0 : i = 0 := by omega
        have hj0 : j = 0 := by omega
        rw [hi0, hj0, hUE 0 0 h00 h00]
        rfl

/-- C31 on the singular matrix `[[1,1],[1,1]]`: the pivot of step 0 is 1, `lu_fact` returns
`L = [[1,0],[1,1]]` and `U = [[1,1],[0,0]]`, `reorder` returns the identity, neither signals
the zero pivot, and `lu_solve` and `inverse()` reach the division by `U(1,1) = 0`; on the
1-by-1 zero matrix `lu_fact` returns `L = [1]` and `U = [0]`. -/
theorem lu_fact_last_pivot_untested_witness :
    lu_fact (MathMatrix.ofList 2 [1, 1, 1, 1]) 2
      = Except.ok (MathMatrix.ofList 2 [1, 0, 1, 1], MathMatrix.ofList 2 [1, 1, 0, 0]) ∧
    reorder (MathMatrix.ofList 2 [1, 1, 1, 1]) 2 = Except.ok (MathMatrix.ofList 2 [1, 0, 0, 1]) ∧
    (MathMatrix.ofList 2 [1, 1, 1, 1]).inverse = Except.error Err.divByZero ∧
    lu_solve (MathMatrix.ofList 2 [1, 0, 1, 1]) (MathMatrix.ofList 2 [1, 1, 0, 0]) ⟨[1, 2]⟩ 2
      = Except.error Err.divByZero ∧
    lu_fact (MathMatrix.ofList 1 [0]) 1
      = Except.ok (MathMatrix.ofList 1 [1], MathMatrix.ofList 1 [0]) ∧
    ∃ T L U, lu_fact.eliminate 2 (2 - 1) (MathMatrix.ofList 2 [1, 1, 1, 1]) = Except.ok T ∧
      lu_fact (MathMatrix.ofList 2 [1, 1, 1, 1]) ((2 : Nat) : Int) = Except.ok (L, U) ∧
      U.get ((2 - 1 : Nat) : Int) ((2 - 1 : Nat) : Int)
        = T.get ((2 - 1 : Nat) : Int) ((2 - 1 : Nat) : Int) ∧
      (T.get ((2 - 1 : Nat) : Int) ((2 - 1 : Nat) : Int) = Except.ok 0 →
        (∀ b : Vector, b.size = ((2 : Nat) : Int) →
          lu_solve L U b ((2 : Nat) : Int) = Except.error Err.divByZero) ∧
        (∀ P, reorder (MathMatrix.ofList 2 [1, 1, 1, 1]) ((2 : Nat) : Int) = Except.ok P →
          (MathMatrix.ofList 2 [1, 1, 1, 1]).inverse = Except.error Err.divByZero)) ∧
      (2 = 1 → L.get 0 0 = Except.ok 1 ∧ U = MathMatrix.ofList 2 [1, 1, 1, 1]) :=
  ⟨by decide!, by decide!, by decide!, by decide!, by decide!,
    lu_fact_last_pivot_untested 2 (MathMatrix.ofList 2 [1, 1, 1, 1]) (by decide)
      ⟨rfl, rfl, rfl, rfl⟩ (by
        intro k hk T hT
        have hk0 : k = 0 := by omega
        subst hk0
        have e : lu_fact.eliminate 2 0 (MathMatrix.ofList 2 [1, 1, 1, 1])
            = Except.ok (MathMatrix.ofList 2 [1, 1, 1, 1]) := rfl
        rw [e] at hT
        cases hT
        decide!)⟩

/-- C32: for every matrix whose backing vector holds `rows * cols` elements and all in-range
positions `(i, j)` and `(i', j')` with `(i', j') ≠ (i, j)`, the assignment of `x` to the
element `(i, j)` succeeds; afterwards the element `(i', j')` reads the same value as before,
the element `(i, j)` reads `x`, and `rows` and `cols` are unchanged. The map
`(i, j) ↦ i * cols + j` is injective on the in-range positions. The assignment to an element
of a vector likewise changes that element only. -/
theorem matrix_write_frame (m : Matrix) (v : Vector) (i j i' j' k k' : Int) (x : ℚ)
    (hv : m.v.size = m.nrows * m.ncols)
    (hi : 0 ≤ i ∧ i < m.nrows) (hj : 0 ≤ j ∧ j < m.ncols)
    (hi' : 0 ≤ i' ∧ i' < m.nrows) (hj' : 0 ≤ j' ∧ j' < m.ncols) (hne : ¬ (i' = i ∧ j' = j))
    (hk : 0 ≤ k ∧ k < v.size) (hk' : 0 ≤ k' ∧ k' < v.size) (hkne : k' ≠ k) :
    (∃ m', m.set i j x = Except.ok m' ∧ m'.get i' j' = m.get i' j' ∧
      m'.get i j = Except.ok x ∧ m'.nrows = m.nrows ∧ m'.ncols = m.ncols ∧
      m'.v.size = m.v.size) ∧
    i' * m.ncols + j' ≠ i * m.ncols + j ∧
    (∃ v', v.set k x = Except.ok v' ∧ v'.get k' = v.get k' ∧ v'.get k = Except.ok x ∧
      v'.size = v.size) := by
  have hinj : i' * m.ncols + j' ≠ i * m.ncols + j := by
    intro e
    apply hne
    have hc : 0 < m.ncols := by omega
    rcases lt_trichotomy i' i with h | h | h
    · exfalso
      have h1 : (i' + 1) * m.ncols ≤ i * m.ncols :=
        mul_le_mul_of_nonneg_right (by omega) (by omega)
      have h2 : (i' + 1) * m.ncols = i' * m.ncols + m.ncols := by ring
      omega
    · subst h
      exact ⟨rfl, by omega⟩
    · exfalso
      have h1 : (i + 1) * m.ncols ≤ i' * m.ncols :=
        mul_le_mul_of_nonneg_right (by omega) (by omega)
      have h2 : (i + 1) * m.ncols = i * m.ncols + m.ncols := by ring
      omega
  have bound : ∀ a b : Int, 0 ≤ a → a < m.nrows → 0 ≤ b → b < m.ncols →
      0 ≤ a * m.ncols + b ∧ a * m.ncols + b < m.nrows * m.ncols := by
    intro a b ha0 ha hb0 hb
    have h1 : 0 ≤ a * m.ncols := mul_nonneg ha0 (by omega)
    have h2 : (a + 1) * m.ncols ≤ m.nrows * m.ncols :=
      mul_le_mul_of_nonneg_right (by omega) (by omega)
    have h3 : (a + 1) * m.ncols = a * m.ncols + m.ncols := by ring
    omega
  have vec : ∀ (w : Vector) (t t' : Int), 0 ≤ t → t < w.size → 0 ≤ t' → t' < w.size →
      ∃ w', w.set t x = Except.ok w' ∧ w' = ⟨w.pdata.set t.toNat x⟩ ∧ w'.size = w.size ∧
        w'.get t = Except.ok x ∧ (t' ≠ t → w'.get t' = w.get t') := by
    intro w t t' ht0 ht ht0' ht'
    have hsz : (Vector.mk (w.pdata.set t.toNat x)).size = w.size := by
      simp [Vector.size]
    have hg : ¬ (t < 0 ∨ t ≥ w.size) := by omega
    have hg' : ¬ (t' < 0 ∨ t' ≥ w.size) := by omega
    refine ⟨⟨w.pdata.set t.toNat x⟩, ?_, rfl, hsz, ?_, ?_⟩
    · unfold Vector.set
      rw [if_neg hg]; rfl
    · unfold Vector.get
      rw [hsz, if_neg hg]
      have hlt : t.toNat < w.pdata.length := by
        unfold Vector.size at ht
        omega
      simp [List.getD_eq_getElem?_getD, List.getElem?_set, hlt]
    · intro hne'
      have e1 : (Vector.mk (w.pdata.set t.toNat x)).get t'
          = Except.ok ((w.pdata.set t.toNat x).getD t'.toNat 0) := by
        unfold Vector.get
        rw [hsz, if_neg hg']; rfl
      have e2 : w.get t' = Except.ok (w.pdata.getD t'.toNat 0) := by
        unfold Vector.get
        rw [if_neg hg']; rfl
      have hn : t.toNat ≠ t'.toNat := by omega
      rw [e1, e2]
      simp [List.getD_eq_getElem?_getD, List.getElem?_set, hn]
  refine ⟨?_, hinj, ?_⟩
  · obtain ⟨b1, b2⟩ := bound i j hi.1 hi.2 hj.1 hj.2
    obtain ⟨b3, b4⟩ := bound i' j' hi'.1 hi'.2 hj'.1 hj'.2
    obtain ⟨w', hw', hw'e, hsz, hget, hframe⟩ := vec m.v (i * m.ncols + j) (i' * m.ncols + j')
      b1 (by rw [hv]; exact b2) b3 (by rw [hv]; exact b4)
    have hg : ¬ (i > m.nrows - 1 ∨ j > m.ncols - 1 ∨ i < 0 ∨ j < 0) := by omega
    have hg' : ¬ (i' > m.nrows - 1 ∨ j' > m.ncols - 1 ∨ i' < 0 ∨ j' < 0) := by omega
    refine ⟨{ m with v := w' }, ?_, ?_, ?_, rfl, rfl, hsz⟩
    · unfold Matrix.set
      rw [if_neg hg, hw']; rfl
    · unfold Matrix.get
      rw [if_neg hg', if_neg hg']
      exact hframe hinj
    · unfold Matrix.get
      rw [if_neg hg]
      exact hget
  · obtain ⟨w', hw', _, hsz, hget, hframe⟩ := vec v k k' hk.1 hk.2 hk'.1 hk'.2
    exact ⟨w', hw', hframe hkne, hget, hsz⟩

/-- C32 on the 2-by-3 matrix `[[1,2,3],[4,5,6]]` and the vector `[7,8,9]`: after the
assignment of 0 to the element `(0, 2)`, the matrix is `[[1,2,0],[4,5,6]]` and the element
`(1, 0)` still reads 4; after the assignment of 0 to the element 1 of the vector, the element
2 still reads 9. -/
theorem matrix_write_frame_witness :
    (Matrix.mk 2 3 ⟨[1, 2, 3, 4, 5, 6]⟩).set 0 2 0 = Except.ok ⟨2, 3, ⟨[1, 2, 0, 4, 5, 6]⟩⟩ ∧
    (Matrix.mk 2 3 ⟨[1, 2, 0, 4, 5, 6]⟩).get 1 0 = Except.ok 4 ∧
    (Vector.mk [7, 8, 9]).set 1 0 = Except.ok ⟨[7, 0, 9]⟩ ∧
    ((∃ m', (Matrix.mk 2 3 ⟨[1, 2, 3, 4, 5, 6]⟩).set 0 2 0 = Except.ok m' ∧
        m'.get 1 0 = (Matrix.mk 2 3 ⟨[1, 2, 3, 4, 5, 6]⟩).get 1 0 ∧
        m'.get 0 2 = Except.ok 0 ∧ m'.nrows = 2 ∧ m'.ncols = 3 ∧
        m'.v.size = (Vector.mk [1, 2, 3, 4, 5, 6]).size) ∧
      (1 : Int) * 3 + 0 ≠ 0 * 3 + 2 ∧
      (∃ v', (Vector.mk [7, 8, 9]).set 1 0 = Except.ok v' ∧
        v'.get 2 = (Vector.mk [7, 8, 9]).get 2 ∧ v'.get 1 = Except.ok 0 ∧
        v'.size = (Vector.mk [7, 8, 9]).size)) :=
  ⟨by decide!, by decide!, by decide!,
    matrix_write_frame ⟨2, 3, ⟨[1, 2, 3, 4, 5, 6]⟩⟩ ⟨[7, 8, 9]⟩ 0 2 1 0 1 2 0 (by decide)
      (by decide) (by decide) (by decide) (by decide) (by decide) (by decide) (by decide)
      (by decide)⟩

end Claims

end PA
